import Mathlib

/-!
# SBA indirect-jump recovery: a shallow embedding of the Program component

The definitions below follow `src/sba/program.cpp` and `src/sba/system.cpp`.
Addresses (`IMM`, `int64_t`) are integers; an `unordered_set<IMM>` is a list read
as a set (its order is the unspecified iteration order and every statement about
it is a statement about membership); an `unordered_map<IMM, V>` is an
association list searched from the front.
-/

namespace SBA

/-- Address type of the analysis (`IMM`, a signed 64-bit integer). -/
abbrev IMM := Int

/-- An `unordered_set<IMM>`. -/
abbrev USet := List IMM

/-- An `unordered_map<IMM, V>`. -/
abbrev UMap (V : Type) := List (IMM × V)

namespace USet

/-- The source's `s.insert(t)`: adds `t` unless it is already a member. -/
def insert (s : USet) (t : IMM) : USet :=
  if t ∈ s then s else s ++ [t]

/-- The source's `s.insert(first, last)`: inserts every element of a range, one by one. -/
def insert_range (s : USet) (ts : USet) : USet :=
  ts.foldl insert s

end USet

namespace UMap

variable {V : Type}

/-- The source's `m.find(k)`: the value stored under `k`, `none` for `m.end()`. -/
def find : UMap V → IMM → Option V
  | [], _ => none
  | (k', v) :: rest, k => if k' = k then some v else find rest k

/-- The source's `m.contains(k)`. -/
def contains (m : UMap V) (k : IMM) : Bool :=
  (m.find k).isSome

/-- The source's `m[k] = v`: overwrites the entry of `k`, or creates it. -/
def set : UMap V → IMM → V → UMap V
  | [], k, v => [(k, v)]
  | (k', v') :: rest, k, v =>
      if k' = k then (k, v) :: rest else (k', v') :: set rest k v

/-- The keys of the map in iteration order. -/
def keys (m : UMap V) : List IMM :=
  m.map Prod.fst

end UMap

/-- The value read through `m[k]` for a map of sets: the stored set, or the
empty set that `operator[]` would create. -/
def UMap.get (m : UMap USet) (k : IMM) : USet :=
  (m.find k).getD []

/-- Modelled from the spec: the condition code of a successor edge (`COMPARE`,
declared in a header that is not part of the sources); the comparison operators of
`Compare::OP` plus `NONE` for an unconditional edge. -/
inductive COMPARE where
  | EQ | NE | GT | GTU | GE | GEU | LT | LTU | LE | LEU | OTHER | NONE
deriving DecidableEq, Repr

/-- Modelled from the spec: an instruction (`insn.h` is not part of the sources).
"Offset, lifted RTL root, raw byte sequence, derived flags ... `parent`
back-reference to its block; `nullptr` while unplaced." The flags and targets that
the RTL determines are fields; `size` is the number of raw bytes, so that
`next_offset = offset + size`; `parent` is the identifier of the parent block.
An `Insn*` is represented by the offset under which `i_map_` owns the instruction. -/
structure Insn where
  offset : IMM
  size : Nat := 1
  transfer : Bool := false
  direct : Bool := false
  indirect : Bool := false
  call : Bool := false
  jump : Bool := false
  cond_jump : Bool := false
  halt : Bool := false
  direct_target : IMM × IMM := (0, 0)
  cond_op : COMPARE × COMPARE := (COMPARE.NONE, COMPARE.NONE)
  parent : Option Nat := none
deriving DecidableEq, Repr

/-- The source's `i->next_offset()`: offset + length(raw). -/
def Insn.next_offset (i : Insn) : IMM := i.offset + i.size

/-- Modelled from the spec: `i->replace(new Exit(HALT), HLT_BYTES)`, "rewrites the
instruction to HALT": the instruction becomes a one-byte halt, no transfer. -/
def Insn.replace_halt (i : Insn) : Insn :=
  { i with size := 1, transfer := false, direct := false, indirect := false, call := false,
           jump := false, cond_jump := false, halt := true }

/-- Modelled from the spec: a basic block (`block.h` is not part of the sources).
"Ordered sequence of instructions ... `succ[] = (block, condition_code)`, `pred[]`,
... iteration `update_num`, `faulty` bit." Instructions are named by offset, blocks
by their index in the store of `Program`. -/
structure Block where
  insn_list : List IMM
  succ : List (Nat × COMPARE) := []
  pred : List Nat := []
  superset_preds : List Nat := []
  faulty : Bool := false
  update_num : Nat := 0
deriving DecidableEq, Repr

/-- The switches of `config.h` that `program.cpp` tests. -/
structure Config where
  ABORT_MISSING_DIRECT_TARGET : Bool := false
  ABORT_MISSING_FALLTHROUGH_TARGET : Bool := false
  ABORT_MISSING_NEXT_INSN : Bool := false
  ABORT_MISSING_INDIRECT_TARGET : Bool := false
  ABORT_MISSING_FUNCTION_ENTRY : Bool := false
  ENABLE_COMPATIBLE_INPUT : Bool := true
  ENABLE_DETECT_UPDATED_FUNCTION : Bool := true

/-- The members of `Program` (`program.h`) that the control-flow reconstruction
and the indirect-jump bookkeeping work on. `blocks` is the store of the `Block`
objects created so far: a `Block*` is an index into it. -/
structure Program where
  icfs_ : UMap USet := []
  recent_icfs_ : List IMM := []
  jtable_targets : UMap USet := []
  unbounded_icf_targets : UMap USet := []
  unbounded_icf_jtables : UMap USet := []
  i_map_ : UMap Insn := []
  blocks : List Block := []
  b_map_ : UMap Nat := []
  split_ : List (IMM × IMM × COMPARE) := []
  recent_fptrs_ : List IMM := []
  fptrs_ : USet := []
  recent_norets_ : USet := []
  faulty : Bool := false
  update_num : Nat := 0

namespace Program

/-- The source's `Program::icf(jump_loc, targets)`, program.cpp 368-378. -/
def icf (p : Program) (jump_loc : IMM) (targets : USet) : Program :=
  if targets.isEmpty then
    { p with icfs_ := p.icfs_.set jump_loc [] }
  else
    let ref := p.icfs_.get jump_loc
    let old_size := ref.length
    let ref' := USet.insert_range ref targets
    let p' := { p with icfs_ := p.icfs_.set jump_loc ref' }
    if old_size < ref'.length then
      { p' with recent_icfs_ := p'.recent_icfs_ ++ [jump_loc] }
    else p'

/-- The target set that one iteration of the loop of `resolve_unbounded_icf`
builds for `jump_loc` before it calls `icf` (program.cpp 394-404). -/
def unbounded_icf_collect (p : Program) (jump_loc : IMM) (jtables : USet) : USet :=
  let targets : USet := jtables.foldl (fun targets jtable =>
    match p.jtable_targets.find jtable with
    | some s => USet.insert_range targets s
    | none => targets) []
  match p.unbounded_icf_targets.find jump_loc with
  | some s => if targets.isEmpty then s else targets
  | none => targets

/-- The loop of `resolve_unbounded_icf` over the entries of
`unbounded_icf_jtables`; the second component logs the `icf` calls made, in
order, as `(jump_loc, targets)`. -/
def resolve_unbounded_icf_loop :
    List (IMM × USet) → Program × List (IMM × USet) → Program × List (IMM × USet)
  | [], st => st
  | (jump_loc, jtables) :: rest, (p, log) =>
      let targets := p.unbounded_icf_collect jump_loc jtables
      resolve_unbounded_icf_loop rest (p.icf jump_loc targets, log ++ [(jump_loc, targets)])

/-- The `icf` calls made by `resolve_unbounded_icf`, in order. -/
def resolve_unbounded_icf_calls (p : Program) : List (IMM × USet) :=
  (resolve_unbounded_icf_loop p.unbounded_icf_jtables (p, [])).2

/-- The source's `Program::resolve_unbounded_icf()`, program.cpp 392-416. -/
def resolve_unbounded_icf (p : Program) : Program :=
  let p' := (resolve_unbounded_icf_loop p.unbounded_icf_jtables (p, [])).1
  { p' with unbounded_icf_jtables := [], unbounded_icf_targets := [] }

end Program

/-- A program that has resolved target 42 for the jump at 7. -/
def cexIcfProgram : Program := { icfs_ := [(7, [42])] }

/-- A program that has resolved target 42 for the jump at 7, and for which the
last analysis recorded jump table 100 for that jump without finding any target. -/
def cexUnboundedProgram : Program :=
  { icfs_ := [(7, [42])], unbounded_icf_jtables := [(7, [100])] }

/-- A program whose jump at 7 has target 42 already and whose last analysis
recorded the jump tables 100 and 200 for it: neither has an entry in
`jtable_targets`, and the scan left the fallback targets 43 and 44; the jump at 9
got the jump table 300 with targets 50 and 51. -/
def cexFallbackProgram : Program :=
  { icfs_ := [(7, [42])],
    jtable_targets := [(300, [50, 51])],
    unbounded_icf_targets := [(7, [43, 44])],
    unbounded_icf_jtables := [(7, [100, 200]), (9, [300])] }

/-! ## The ELF view (`system.h`, `system.cpp`) -/

/-- Wrap-around of `uint64_t` arithmetic. -/
def u64 (n : Nat) : Nat := n % 2 ^ 64

/-- The conversion `(uint64_t)offset` of an `int64_t`. -/
def to_u64 (offset : Int) : Nat := (offset % (2 ^ 64 : Int)).toNat

/-- One entry of `Object::phdr`, the tuple `(vaddr, foffset, fsize, msize)`. -/
structure Phdr where
  vaddr : Nat
  foffset : Nat
  fsize : Nat
  msize : Nat
deriving DecidableEq, Repr

/-- The source's `ELF_x86::Object`: the raw bytes of the file, the code segments and the
program headers (`insns` is not used by `read`). -/
structure Object where
  raw_bytes : List Nat := []
  code_segment : List (IMM × IMM) := []
  phdr : List Phdr := []

/-- Why a modelled call did not return a value: a loop that was still running
when the fuel ran out, or an access the C++ code makes outside an object
(a vector index past the end, a null pointer). -/
inductive Stop where
  | out_of_fuel
  | fault
deriving DecidableEq, Repr

namespace ELF_x86

/-- The header that the first loop of `read` leaves in `final_*`: the last
entry of `phdr`, in list order, with `vaddr <= (uint64_t)offset`; all zero when
there is none (system.cpp 80-90). -/
def read_final (phdr : List Phdr) (uoffset : Nat) : Phdr :=
  phdr.foldl (fun final h => if h.vaddr ≤ uoffset then h else final) ⟨0, 0, 0, 0⟩

/-- The shift applied to byte `i` (system.cpp 104-108). -/
def read_shift (ENDIAN width i : Nat) : Nat :=
  if ENDIAN = 0 then i <<< 3 else (width - 1 - i) <<< 3

/-- The byte loop of `read` (system.cpp 102-109): `val` accumulates byte `i`,
shifted, for `i = 0 .. width-1`; an index past the end of `raw_bytes` is a fault. -/
def read_loop (ENDIAN : Nat) (raw_bytes : List Nat) (adj_offset width : Nat) :
    Except Stop Nat :=
  (List.range width).foldlM (fun val i =>
    match raw_bytes.get? (u64 (adj_offset + i)) with
    | none => Except.error Stop.fault
    | some byte => Except.ok (u64 (val + u64 (byte <<< read_shift ENDIAN width i)))) 0

/-- The source's `ELF_x86::read(info, offset, width)`, system.cpp 79-110. -/
def read (ENDIAN : Nat) (info : Object) (offset : Int) (width : Nat) : Except Stop Nat :=
  let final := read_final info.phdr (to_u64 offset)
  /- uninit values are filled with zero -/
  let dist := u64 (to_u64 offset + 2 ^ 64 - u64 final.vaddr)
  if final.fsize < dist ∧ dist < final.msize then Except.ok 0
  else
    /- address beyond binary bounds -/
    let adj_offset := u64 (final.foffset + dist)
    if adj_offset ≥ info.raw_bytes.length then Except.ok 0x8000000080000000
    else read_loop ENDIAN info.raw_bytes adj_offset width

end ELF_x86

/-- The unsigned little-endian integer formed by a byte sequence. -/
def le_uint : List Nat → Nat
  | [] => 0
  | b :: rest => b + 256 * le_uint rest

/-! ## The jump-table resolver (`Program::resolve_icf`) -/

/-- Modelled from the spec: the tag of a `BaseStride` object (`domain.h` is not
part of the sources). The spec lists affine terms "plus TOP/DYNAMIC", and the
driver builds `BaseStride(BaseStride::T::TOP)` and `BaseStride(BaseStride::T::DYNAMIC)`;
`VAL` stands for an affine term. -/
inductive BaseStride.T where
  | TOP
  | DYNAMIC
  | VAL
deriving DecidableEq, Repr

/-- Modelled from the spec: the result of `bounds()`, the constraint-derived
range of an index, as far as `resolve_icf` looks at it (`full()`, `empty()`, `hi()`). -/
structure Bounds where
  full : Bool := true
  empty : Bool := false
  hi : Int := 0
deriving DecidableEq, Repr

/-- Modelled from the spec: a `BaseStride*`, "linked list of affine terms
`{base, stride, width, index:BaseStride, nmem:bool}` plus TOP/DYNAMIC". `null` is
the null pointer; a `node` is one object with its tag, its fields, its index and
the next element of the list (`next_value()`). -/
inductive BaseStride where
  | null : BaseStride
  | node (t : BaseStride.T) (base stride : Int) (width : Nat) (nmem : Bool)
      (bounds : Bounds) (index next_value : BaseStride) : BaseStride
deriving Repr

/-- What `x->top()`, `x->dynamic()` and `x->bounds()` read through a pointer `x`:
the tag and the bounds of the object, `none` for the null pointer. -/
def BaseStride.deref : BaseStride → Option (BaseStride.T × Bounds)
  | BaseStride.null => none
  | BaseStride.node t _ _ _ _ bounds _ _ => some (t, bounds)

/-- The source's `Function`, as far as the resolver looks at it: the code-range intervals. -/
structure Function where
  code_range : List (IMM × IMM) := []

/-- What `resolve_icf` reads but does not change. `valid_icf` is the one-argument
`Program::valid_icf(IMM)` and `cast_int` is `Util::cast_int(value, width)`, both
declared in headers that are not part of the sources; `LIMIT_JTABLE`,
`ENABLE_SUPPORT_CONSTRAINT` and `ENDIAN` are macros of `config.h`. -/
structure Env where
  info : Object := {}
  ENDIAN : Nat := 0
  LIMIT_JTABLE : Int
  ENABLE_SUPPORT_CONSTRAINT : Bool := false
  valid_icf : IMM → Bool
  cast_int : Nat → Nat → Int := fun v _ => (v : Int)

namespace Program

/-- The source's `Program::read(offset, width)`, program.cpp 483-485. -/
def read (env : Env) (offset : Int) (width : Nat) : Except Stop Nat :=
  ELF_x86.read env.ENDIAN env.info offset width

/-- The source's `Program::valid_icf(target, func)`, program.cpp 382-389. -/
def valid_icf (env : Env) (target : IMM) (func : Function) : Bool :=
  if env.valid_icf target then
    func.code_range.any (fun lr => decide (lr.1 ≤ target) && decide (target < lr.2))
  else false

/-- The source's `m[k].insert(t)` on a map of sets. -/
def insert_at (m : UMap USet) (k t : IMM) : UMap USet :=
  m.set k (USet.insert (m.get k) t)

/-- The candidate target of one table address:
`t = nmem ? f(addr) : f(Util::cast_int(read(addr, w), w))`. -/
def candidate (env : Env) (nmem : Bool) (w : Nat) (f : Int → Except Stop Int)
    (addr : Int) : Except Stop Int :=
  if nmem then f addr
  else (read env addr w).bind (fun v => f (env.cast_int v w))

/-- The test that selects the bounded enumeration (program.cpp 438-440); false
when constraint support is compiled out. -/
def usable_bound (env : Env) (bounds : Bounds) : Bool :=
  env.ENABLE_SUPPORT_CONSTRAINT && (!bounds.full && !bounds.empty &&
    decide (0 < bounds.hi) && decide (bounds.hi < env.LIMIT_JTABLE))

/-- The loop `for (addr = b; addr <= b + hi*s; addr += s)` of the bounded case
(program.cpp 441-449), entered at `addr`. -/
def scan_bounded (env : Env) (nmem : Bool) (w : Nat) (f : Int → Except Stop Int)
    (b s hi : Int) : Nat → Int → UMap USet → Except Stop (UMap USet)
  | 0, _, _ => Except.error Stop.out_of_fuel
  | fuel + 1, addr, bounded_targets =>
      if addr ≤ b + hi * s then
        match candidate env nmem w f addr with
        | Except.error e => Except.error e
        | Except.ok t =>
            if env.valid_icf t then
              scan_bounded env nmem w f b s hi fuel (addr + s) (insert_at bounded_targets b t)
            else
              scan_bounded env nmem w f b s hi fuel (addr + s) bounded_targets
      else Except.ok bounded_targets

/-- The loop `for (addr = b; addr < b + LIMIT_JTABLE; addr += s)` of the unbounded
case (program.cpp 454-463), entered at `addr`. -/
def scan_unbounded (env : Env) (nmem : Bool) (w : Nat) (f : Int → Except Stop Int)
    (b s : Int) : Nat → Int → UMap USet → Except Stop (UMap USet)
  | 0, _, _ => Except.error Stop.out_of_fuel
  | fuel + 1, addr, unbounded_targets =>
      if addr < b + env.LIMIT_JTABLE then
        match candidate env nmem w f addr with
        | Except.error e => Except.error e
        | Except.ok t =>
            if env.valid_icf t then
              scan_unbounded env nmem w f b s fuel (addr + s) (insert_at unbounded_targets b t)
            else Except.ok unbounded_targets
      else Except.ok unbounded_targets

/-- The source's `Program::resolve_icf(bounded_targets, unbounded_targets, func, expr, f)`,
program.cpp 419-480. The two maps are threaded as a pair
`(bounded_targets, unbounded_targets)`; `func` is `none` for a null pointer;
`fuel` bounds the number of tests of each enumeration loop. Integer arithmetic
is exact (`int64_t` overflow is undefined in the source). -/
def resolve_icf (env : Env) (fuel : Nat) (func : Option Function) :
    BaseStride → (Int → Except Stop Int) → UMap USet × UMap USet →
      Except Stop (UMap USet × UMap USet)
  | BaseStride.null, _, st => Except.ok st
  | BaseStride.node t b s w nmem _ x next, f, st =>
      let after : Except Stop (UMap USet × UMap USet) :=
        if !(t == BaseStride.T.TOP) || !(t == BaseStride.T.DYNAMIC) then
          if s = 0 then
            match candidate env nmem w f b with
            | Except.error e => Except.error e
            | Except.ok tgt =>
                if env.valid_icf tgt then Except.ok (st.1, insert_at st.2 (-1) tgt)
                else Except.ok st
          else
            match x.deref with
            | none => Except.error Stop.fault
            | some (tx, xbounds) =>
                if tx == BaseStride.T.TOP || tx == BaseStride.T.DYNAMIC then
                  if usable_bound env xbounds then
                    match scan_bounded env nmem w f b s xbounds.hi fuel b st.1 with
                    | Except.error e => Except.error e
                    | Except.ok bounded_targets => Except.ok (bounded_targets, st.2)
                  else
                    match scan_unbounded env nmem w f b s fuel b st.2 with
                    | Except.error e => Except.error e
                    | Except.ok unbounded_targets => Except.ok (st.1, unbounded_targets)
                else if func.isSome then
                  /- `if (X->nmem(), func)`: the comma operator tests `func` -/
                  resolve_icf env fuel func x (fun x_val => f (b + s * x_val)) st
                else
                  resolve_icf env fuel func x
                    (fun x_val => (read env (b + s * x_val) w).bind
                      (fun v => f (env.cast_int v w))) st
        else Except.ok st
      match after with
      | Except.error e => Except.error e
      | Except.ok st₁ => resolve_icf env fuel func next f st₁

end Program

/-- A nine-byte file with two program headers: `[0x1000, ..)` backed by the first
four bytes (sixteen in memory) and `[0x3000, ..)` backed by the last five. -/
def readObject : Object :=
  { raw_bytes := [0x7f, 0x45, 0x4c, 0x46, 0x20, 0x30, 0x00, 0x00, 0x11],
    phdr := [⟨0x1000, 0, 4, 16⟩, ⟨0x3000, 4, 5, 5⟩] }

/-- Every target of `m'` that `m` did not have already passes the one-argument
`valid_icf`. -/
def only_valid_added (env : Env) (m m' : UMap USet) : Prop :=
  ∀ k v, v ∈ m'.get k → v ∈ m.get k ∨ env.valid_icf v = true

/-- A program whose code range is `[500, ..)`, with the jump-table cap 4. -/
def scanEnv : Env := { LIMIT_JTABLE := 4, valid_icf := fun t => decide (500 ≤ t) }

/-- A function whose code lies in `[0, 100)`. -/
def scanFunc : Function := { code_range := [(0, 100)] }

/-- A leaf index: a TOP object. -/
def topLeaf : BaseStride := BaseStride.node BaseStride.T.TOP 0 0 0 false {} BaseStride.null BaseStride.null

/-- The constant term `500` (stride 0, no memory read). -/
def constTerm : BaseStride :=
  BaseStride.node BaseStride.T.VAL 500 0 8 true {} BaseStride.null BaseStride.null

/-- The table term `500 + 1 * TOP` (no memory read). -/
def upTerm : BaseStride :=
  BaseStride.node BaseStride.T.VAL 500 1 8 true {} topLeaf BaseStride.null

/-- The table term `500 + (-1) * TOP` (no memory read). -/
def downTerm : BaseStride :=
  BaseStride.node BaseStride.T.VAL 500 (-1) 8 true {} topLeaf BaseStride.null

/-- A program in which every address is a valid target, with the jump-table cap 4. -/
def allValidEnv : Env := { LIMIT_JTABLE := 4, valid_icf := fun _ => true }

/-! ## Control-flow reconstruction (`Program::block_*`, `update`, `fptrs`) -/

/-- Applies `f` to the element at position `n` of a list (a write through a pointer
into the store). -/
def modify_nth {α : Type} (f : α → α) : List α → Nat → List α
  | [], _ => []
  | x :: xs, 0 => f x :: xs
  | x :: xs, n + 1 => x :: modify_nth f xs n

/-- Applies `f` to the value stored under `k`, if any. -/
def UMap.modify {V : Type} (f : V → V) : UMap V → IMM → UMap V
  | [], _ => []
  | (k', v) :: rest, k => if k' = k then (k', f v) :: rest else (k', v) :: UMap.modify f rest k

/-- How a piece of a function body ends: control goes on to the next statement
(`go`), or the function has executed `return` (`ret`). -/
inductive Flow where
  | go (p : Program)
  | ret (p : Program)

namespace Program

/-- A write to the `Block` object `b`. -/
def modify_block (p : Program) (b : Nat) (f : Block → Block) : Program :=
  { p with blocks := modify_nth f p.blocks b }

/-- A write to the `Insn` object at offset `i`. -/
def modify_insn (p : Program) (i : IMM) (f : Insn → Insn) : Program :=
  { p with i_map_ := UMap.modify f p.i_map_ i }

/-- The `Insn` object behind the pointer `i`; a pointer to no instruction is a fault. -/
def get_insn (p : Program) (i : IMM) : Except Stop Insn :=
  match p.i_map_.find i with
  | some insn => Except.ok insn
  | none => Except.error Stop.fault

/-- The `Block` object behind the pointer `b`. -/
def get_block (p : Program) (b : Nat) : Except Stop Block :=
  match p.blocks.get? b with
  | some blk => Except.ok blk
  | none => Except.error Stop.fault

/-- The source's `i->parent` for the instruction at offset `i` (`none` for `nullptr`). -/
def parent (p : Program) (i : IMM) : Option Nat :=
  (p.i_map_.find i).bind (fun insn => insn.parent)

/-- The source's `b->first()`: the first instruction of block `b`. -/
def first (p : Program) (b : Nat) : Option IMM :=
  (p.blocks.get? b).bind (fun blk => blk.insn_list.head?)

/-- The source's `b->last()`: the last instruction of block `b`. -/
def last (p : Program) (b : Nat) : Option IMM :=
  (p.blocks.get? b).bind (fun blk => blk.insn_list.getLast?)

/-- The source's `b->faulty`. -/
def block_faulty (p : Program) (b : Nat) : Bool :=
  match p.blocks.get? b with
  | some blk => blk.faulty
  | none => false

/-- Modelled from the spec: the constructor `new Block(i_list)`. The new block
holds `i_list` and becomes the `parent` of each of its instructions. Returns the
new state and the new block. -/
def alloc_block (p : Program) (i_list : List IMM) : Program × Nat :=
  let b := p.blocks.length
  let p₁ : Program := { p with blocks := p.blocks ++ [{ insn_list := i_list }] }
  (i_list.foldl (fun q i => q.modify_insn i (fun insn => { insn with parent := some b })) p₁, b)

/-- The source's `b_map_[b->offset()] = b`; the offset of a block is the offset of its first
instruction (an empty block has none: a fault). -/
def register_block (p : Program) (b : Nat) : Except Stop Program :=
  match p.first b with
  | none => Except.error Stop.fault
  | some offset => Except.ok { p with b_map_ := p.b_map_.set offset b }

/-- The two statements `auto b_curr = new Block(i_list); b_map_[b_curr->offset()] = b_curr;`. -/
def new_block (p : Program) (i_list : List IMM) : Except Stop (Program × Nat) :=
  let r := p.alloc_block i_list
  match r.1.register_block r.2 with
  | Except.error e => Except.error e
  | Except.ok p₁ => Except.ok (p₁, r.2)

/-- Modelled from the spec: `b->succ(v, c)`, a new successor edge `(v, c)` of `b`;
`v` records `b` among its predecessors. -/
def succ (p : Program) (b v : Nat) (c : COMPARE) : Program :=
  let p₁ := p.modify_block b (fun blk => { blk with succ := blk.succ ++ [(v, c)] })
  p₁.modify_block v (fun blk =>
    { blk with pred := blk.pred ++ [b],
               superset_preds :=
                 if b ∈ blk.superset_preds then blk.superset_preds
                 else blk.superset_preds ++ [b] })

/-- Modelled from the spec: `b->shrink_succ()`, drops every successor edge of `b`
(and `b` from the predecessors of its former successors). -/
def shrink_succ (p : Program) (b : Nat) : Program :=
  match p.blocks.get? b with
  | none => p
  | some blk =>
      let p₁ := blk.succ.foldl (fun q e =>
        q.modify_block e.1 (fun v => { v with pred := v.pred.filter (fun x => decide (x ≠ b)) })) p
      p₁.modify_block b (fun x => { x with succ := [] })

/-- The source's `Program::block_split(insn)`, program.cpp 67-80. -/
def block_split (p : Program) (insn : IMM) : Except Stop Program :=
  match p.parent insn with
  | none => Except.error Stop.fault
  | some b =>
      match p.blocks.get? b with
      | none => Except.error Stop.fault
      | some blk =>
          /- it = std::find(begin, end, insn); [it, end) goes to b_next -/
          let head := blk.insn_list.takeWhile (fun i => decide (i ≠ insn))
          let tail := blk.insn_list.dropWhile (fun i => decide (i ≠ insn))
          let r := p.alloc_block tail
          let p₁ := blk.succ.foldl (fun q e => q.succ r.2 e.1 e.2) r.1
          match p₁.register_block r.2 with
          | Except.error e => Except.error e
          | Except.ok p₂ =>
              /- b->shrink_insn_list(it) -/
              let p₃ := p₂.modify_block b (fun x => { x with insn_list := head })
              let p₄ := p₃.shrink_succ b
              Except.ok (p₄.succ b r.2 COMPARE.NONE)

/-- The three branches of `block_connect` for a target found in `i_map_`
(program.cpp 85-97); `dfs` is `block_dfs`. -/
def block_connect_found (dfs : Program → IMM → Except Stop Program) (p : Program) (b : Nat)
    (target : IMM) (it : Insn) (cond : COMPARE) : Except Stop Program :=
  match it.parent with
  | none =>
      /- non-existed target, connect now -/
      match dfs p target with
      | Except.error e => Except.error e
      | Except.ok p₁ =>
          match p₁.parent target with
          | none => Except.error Stop.fault
          | some par => Except.ok (p₁.succ b par cond)
  | some par =>
      /- existed target, connect now -/
      if p.first par = some target then Except.ok (p.succ b par cond)
      /- split target, connect later -/
      else
        match p.last b with
        | none => Except.error Stop.fault
        | some l => Except.ok { p with split_ := p.split_ ++ [(l, target, cond)] }

/-- The source's `Program::block_connect(b, target, cond, fix_prefix)`, program.cpp 83-104;
`fix_prefix` is false where the source omits it, as in the retry at `target-1`. -/
def block_connect (cfg : Config) (dfs : Program → IMM → Except Stop Program) (p : Program)
    (b : Nat) (target : IMM) (cond : COMPARE) ( fix_prefix : Bool) : Except Stop Program :=
  match p.i_map_.find target with
  | some it => block_connect_found dfs p b target it cond
  | none =>
      if fix_prefix && cfg.ENABLE_COMPATIBLE_INPUT then
        match p.i_map_.find (target - 1) with
        | some it => block_connect_found dfs p b (target - 1) it cond
        | none => Except.ok (p.modify_block b (fun blk => { blk with faulty := true }))
      else Except.ok (p.modify_block b (fun blk => { blk with faulty := true }))

/-- The loop `for (auto t: targets) { block_connect(b, t, NONE); if (b->faulty) ... }`
shared by `block_dfs` (program.cpp 172-181) and `update` (296-305); `abort` is the
switch that guards `faulty = true; return;`. -/
def connect_targets (cfg : Config) (dfs : Program → IMM → Except Stop Program) (abort : Bool)
    (b : Nat) : List IMM → Program → Except Stop Flow
  | [], p => Except.ok (Flow.go p)
  | t :: rest, p =>
      match block_connect cfg dfs p b t COMPARE.NONE false with
      | Except.error e => Except.error e
      | Except.ok p₁ =>
          if p₁.block_faulty b && abort then Except.ok (Flow.ret { p₁ with faulty := true })
          else connect_targets cfg dfs abort b rest p₁

/-- The direct jump target of a direct non-call transfer (program.cpp 119-131). -/
def dfs_direct_jump (cfg : Config) (dfs : Program → IMM → Except Stop Program) (p : Program)
    (i : IMM) (b_curr : Nat) : Except Stop Flow :=
  match p.get_insn i with
  | Except.error e => Except.error e
  | Except.ok insn =>
      if !insn.call then
        match block_connect cfg dfs p b_curr insn.direct_target.1 insn.cond_op.1 true with
        | Except.error e => Except.error e
        | Except.ok p₁ =>
            if p₁.block_faulty b_curr && cfg.ABORT_MISSING_DIRECT_TARGET then
              Except.ok (Flow.ret { p₁ with faulty := true })
            else Except.ok (Flow.go p₁)
      else Except.ok (Flow.go p)

/-- The fall-through edge of a direct transfer (program.cpp 132-151). -/
def dfs_fall_through (cfg : Config) (dfs : Program → IMM → Except Stop Program) (p : Program)
    (i : IMM) (b_curr : Nat) : Except Stop Flow :=
  match p.get_insn i with
  | Except.error e => Except.error e
  | Except.ok insn =>
      if (insn.call && !(decide (insn.offset ∈ p.recent_norets_))) || insn.cond_jump then
        match block_connect cfg dfs p b_curr insn.direct_target.2 insn.cond_op.2 false with
        | Except.error e => Except.error e
        | Except.ok p₁ =>
            if p₁.block_faulty b_curr then
              if cfg.ABORT_MISSING_FALLTHROUGH_TARGET then
                Except.ok (Flow.ret { p₁ with faulty := true })
              else if cfg.ENABLE_COMPATIBLE_INPUT then
                match p₁.get_insn i with
                | Except.error e => Except.error e
                | Except.ok insn₁ =>
                    if insn₁.call then
                      let p₂ := p₁.modify_insn i Insn.replace_halt
                      let p₃ := p₂.modify_block b_curr (fun blk => { blk with faulty := false })
                      Except.ok (Flow.go (p₃.shrink_succ b_curr))
                    else Except.ok (Flow.go p₁)
              else Except.ok (Flow.go p₁)
            else Except.ok (Flow.go p₁)
      else Except.ok (Flow.go p)

/-- The edge of a transfer that is not direct (program.cpp 153-166). -/
def dfs_not_direct (cfg : Config) (dfs : Program → IMM → Except Stop Program) (p : Program)
    (i : IMM) (b_curr : Nat) : Except Stop Flow :=
  match p.get_insn i with
  | Except.error e => Except.error e
  | Except.ok insn =>
      if insn.call then
        match block_connect cfg dfs p b_curr insn.direct_target.1 insn.cond_op.1 false with
        | Except.error e => Except.error e
        | Except.ok p₁ =>
            if p₁.block_faulty b_curr && cfg.ABORT_MISSING_FALLTHROUGH_TARGET then
              Except.ok (Flow.ret { p₁ with faulty := true })
            else Except.ok (Flow.go p₁)
      else Except.ok (Flow.go p)

/-- The known targets of an indirect jump (program.cpp 168-183). -/
def dfs_indirect (cfg : Config) (dfs : Program → IMM → Except Stop Program) (p : Program)
    (i : IMM) (b_curr : Nat) : Except Stop Flow :=
  match p.get_insn i with
  | Except.error e => Except.error e
  | Except.ok insn =>
      if insn.indirect && insn.jump then
        match p.icfs_.find insn.offset with
        | some targets =>
            connect_targets cfg dfs cfg.ABORT_MISSING_FALLTHROUGH_TARGET b_curr targets p
        | none => Except.ok (Flow.go p)
      else Except.ok (Flow.go p)

/-- Case A of `block_dfs`, after the block of the transfer `i` has been created
(program.cpp 116-185). -/
def dfs_transfer (cfg : Config) (dfs : Program → IMM → Except Stop Program) (p : Program)
    (i : IMM) (b_curr : Nat) : Except Stop Program :=
  match p.get_insn i with
  | Except.error e => Except.error e
  | Except.ok insn =>
      let targets : Except Stop Flow :=
        if insn.direct then
          match dfs_direct_jump cfg dfs p i b_curr with
          | Except.error e => Except.error e
          | Except.ok (Flow.ret p₁) => Except.ok (Flow.ret p₁)
          | Except.ok (Flow.go p₁) => dfs_fall_through cfg dfs p₁ i b_curr
        else dfs_not_direct cfg dfs p i b_curr
      match targets with
      | Except.error e => Except.error e
      | Except.ok (Flow.ret p₁) => Except.ok p₁
      | Except.ok (Flow.go p₁) =>
          match dfs_indirect cfg dfs p₁ i b_curr with
          | Except.error e => Except.error e
          | Except.ok (Flow.ret p₂) => Except.ok p₂
          | Except.ok (Flow.go p₂) => Except.ok p₂

/-- Case C of `block_dfs` when `i_map_` has no instruction at `i->next_offset()`
(program.cpp 213-231). -/
def dfs_missing_next (cfg : Config) (p : Program) (i : IMM) (i_list : List IMM) :
    Except Stop Program :=
  if cfg.ABORT_MISSING_NEXT_INSN then Except.ok { p with faulty := true }
  else
    match p.new_block i_list with
    | Except.error e => Except.error e
    | Except.ok (p₁, b_curr) =>
        if cfg.ENABLE_COMPATIBLE_INPUT then
          Except.ok ((p₁.modify_insn i Insn.replace_halt).shrink_succ b_curr)
        else Except.ok (p₁.modify_block b_curr (fun blk => { blk with faulty := true }))

/-- The source's `Program::block_dfs(i)`, program.cpp 107-234, entered at the head of its
`while (true)` loop with the current instruction `i` and the list `i_list`
collected so far (`[i]` for a call `block_dfs(i)`). One unit of `fuel` is spent on
every loop test and on every nested call. -/
def block_dfs (cfg : Config) : Nat → Program → IMM → List IMM → Except Stop Program
  | 0, _, _, _ => Except.error Stop.out_of_fuel
  | fuel + 1, p, i, i_list =>
      match p.i_map_.find i with
      | none => Except.error Stop.fault
      | some insn =>
          /- A. transfer -/
          if insn.transfer then
            match p.new_block i_list with
            | Except.error e => Except.error e
            | Except.ok (p₁, b_curr) =>
                dfs_transfer cfg (fun q t => block_dfs cfg fuel q t [t]) p₁ i b_curr
          /- B. exit -/
          else if insn.halt then
            match p.new_block i_list with
            | Except.error e => Except.error e
            | Except.ok (p₁, _) => Except.ok p₁
          /- C. non-control -/
          else
            match p.i_map_.find insn.next_offset with
            | some next =>
                match next.parent with
                | some _ =>
                    match p.new_block i_list with
                    | Except.error e => Except.error e
                    | Except.ok (p₁, b_curr) =>
                        match p₁.parent insn.next_offset with
                        | none => Except.error Stop.fault
                        | some par => Except.ok (p₁.succ b_curr par COMPARE.NONE)
                | none => block_dfs cfg fuel p insn.next_offset (i_list ++ [insn.next_offset])
            | none => dfs_missing_next cfg p i i_list

/-- The source's `Program::fptrs(fptr_list)`, program.cpp 248-255. -/
def fptrs (p : Program) (fptr_list : List IMM) : Program :=
  { p with recent_fptrs_ := fptr_list, fptrs_ := USet.insert_range p.fptrs_ fptr_list }

/-- The source's `Program::propagate_update(b)`, program.cpp 259-264. -/
def propagate_update : Nat → Program → Nat → Except Stop Program
  | 0, _, _ => Except.error Stop.out_of_fuel
  | fuel + 1, p, b =>
      match p.blocks.get? b with
      | none => Except.error Stop.fault
      | some blk =>
          blk.superset_preds.foldlM (fun q pr =>
            match q.blocks.get? pr with
            | none => Except.error Stop.fault
            | some pb =>
                if pb.update_num < q.update_num then propagate_update fuel q pr
                else Except.ok q)
            (p.modify_block b (fun x => { x with update_num := p.update_num }))

/-- The first loop of `update`: existing blocks get the targets of `recent_icfs_`
(program.cpp 291-307). -/
def update_icfs (cfg : Config) (fuel : Nat) : List IMM → Program → Except Stop Flow
  | [], p => Except.ok (Flow.go p)
  | jump_loc :: rest, p =>
      match p.parent jump_loc with
      | some b =>
          match p.icfs_.find jump_loc with
          | none => Except.error Stop.fault
          | some targets =>
              match connect_targets cfg (fun q t => block_dfs cfg fuel q t [t])
                  cfg.ABORT_MISSING_INDIRECT_TARGET b targets p with
              | Except.error e => Except.error e
              | Except.ok (Flow.ret p₁) => Except.ok (Flow.ret p₁)
              | Except.ok (Flow.go p₁) => update_icfs cfg fuel rest p₁
      | none => update_icfs cfg fuel rest p

/-- The second loop of `update`: blocks reached from `recent_fptrs_`
(program.cpp 309-323). -/
def update_fptrs (cfg : Config) (fuel : Nat) : List IMM → Program → Except Stop Flow
  | [], p => Except.ok (Flow.go p)
  | offset :: rest, p =>
      match p.i_map_.find offset with
      | some _ =>
          if !p.b_map_.contains offset then
            match block_dfs cfg fuel p offset [offset] with
            | Except.error e => Except.error e
            | Except.ok p₁ => update_fptrs cfg fuel rest p₁
          else update_fptrs cfg fuel rest p
      | none =>
          if cfg.ABORT_MISSING_FUNCTION_ENTRY then Except.ok (Flow.ret { p with faulty := true })
          else update_fptrs cfg fuel rest p

/-- The third loop of `update`: the deferred splits (program.cpp 325-345). -/
def update_splits : List (IMM × IMM × COMPARE) → Program → Except Stop Program
  | [], p => Except.ok p
  | (transfer, target, cond) :: rest, p =>
      match p.parent target with
      | none => Except.error Stop.fault
      | some tb =>
          if p.first tb ≠ some target then
            match p.block_split target with
            | Except.error e => Except.error e
            | Except.ok p₁ =>
                match p₁.parent transfer, p₁.parent target with
                | some b, some nb => update_splits rest (p₁.succ b nb cond)
                | _, _ => Except.error Stop.fault
          else update_splits rest p

/-- The marking of updated functions in `update` (program.cpp 348-363). -/
def update_detect (fuel : Nat) (p : Program) : Except Stop Program :=
  let p₀ : Program := { p with update_num := p.update_num + 1 }
  match p₀.recent_icfs_.foldlM (fun q jump_loc =>
      match q.parent jump_loc with
      | some b => propagate_update fuel q b
      | none => Except.ok q) p₀ with
  | Except.error e => Except.error e
  | Except.ok p₁ =>
      Except.ok (p₁.recent_fptrs_.foldl (fun q jump_loc =>
        match q.parent jump_loc with
        | some b => q.modify_block b (fun blk =>
            { blk with update_num := q.update_num, superset_preds := [] })
        | none => q) p₁)

/-- The source's `Program::update()`, program.cpp 290-366. -/
def update (cfg : Config) (fuel : Nat) (p : Program) : Except Stop Program :=
  match update_icfs cfg fuel p.recent_icfs_ p with
  | Except.error e => Except.error e
  | Except.ok (Flow.ret p₁) => Except.ok p₁
  | Except.ok (Flow.go p₁) =>
      match update_fptrs cfg fuel p₁.recent_fptrs_ p₁ with
      | Except.error e => Except.error e
      | Except.ok (Flow.ret p₂) => Except.ok p₂
      | Except.ok (Flow.go p₂) =>
          match update_splits p₂.split_ p₂ with
          | Except.error e => Except.error e
          | Except.ok p₃ =>
              let p₄ : Program := { p₃ with split_ := [] }
              match (if cfg.ENABLE_DETECT_UPDATED_FUNCTION then update_detect fuel p₄
                     else Except.ok p₄) with
              | Except.error e => Except.error e
              | Except.ok p₅ => Except.ok { p₅ with recent_icfs_ := [], recent_fptrs_ := [] }

end Program

/-- Three instructions in a row: two non-control instructions at offsets 0 and 1
and a halt at offset 2, nothing placed yet. -/
def lineProgram : Program :=
  { i_map_ := [(0, { offset := 0 }), (1, { offset := 1 }), (2, { offset := 2, halt := true })] }

/-- The call sequence `fptrs(l₁); update(); fptrs(l₂); update();`. -/
def fptrs_update_twice (cfg : Config) (fuel : Nat) (p : Program) (l₁ l₂ : List IMM) :
    Except Stop Program :=
  match Program.update cfg fuel (p.fptrs l₁) with
  | Except.error e => Except.error e
  | Except.ok p₁ => Program.update cfg fuel (p₁.fptrs l₂)

/-- Three instructions in a row (0, 1 and a halt at 2) and two direct jumps, at 10
and at 20, that both go to instruction 1. -/
def twoJumpsProgram : Program :=
  { i_map_ := [(0, { offset := 0 }), (1, { offset := 1 }), (2, { offset := 2, halt := true }),
               (10, { offset := 10, transfer := true, direct := true, jump := true,
                      direct_target := (1, 11) }),
               (20, { offset := 20, transfer := true, direct := true, jump := true,
                      direct_target := (1, 21) })] }

/-- The state of `lineProgram` once the block `[0, 1, 2]` has been built. -/
def lineBuilt : Program :=
  { i_map_ := [(0, { offset := 0, parent := some 0 }), (1, { offset := 1, parent := some 0 }),
               (2, { offset := 2, halt := true, parent := some 0 })],
    blocks := [{ insn_list := [0, 1, 2] }],
    b_map_ := [(0, 0)] }

/-! ## Prologues, constructors and virtual tables -/

/-- An element of `sorted_insns_` as far as the prologue and constructor scans look
at it: the offset and the raw bytes of the instruction. -/
structure RawInsn where
  offset : IMM
  raw_bytes : List Nat
deriving DecidableEq, Repr

/-- The source's `ELF_x86::prolog(raw_insn)`, system.cpp 549-565. -/
def ELF_x86.prolog (raw_insn : List Nat) : Nat :=
  if raw_insn.length = 1 then
    if raw_insn.getD 0 0 = 0x53 ∨ raw_insn.getD 0 0 = 0x55 then 2 else 0
  else if raw_insn.length = 2 then
    if raw_insn.getD 0 0 = 0x41 ∧ (raw_insn.getD 1 0 ≥ 0x54 ∧ raw_insn.getD 1 0 ≤ 0x57) then 2
    else 0
  else if raw_insn.length ≥ 3 then
    if raw_insn.getD 0 0 = 0x48 ∧
        ((raw_insn.getD 1 0 = 0x89 ∧ raw_insn.getD 2 0 = 0xe5) ∨
         (raw_insn.getD 1 0 = 0x83 ∧ raw_insn.getD 2 0 = 0xec) ∨
         (raw_insn.getD 1 0 = 0x81 ∧ raw_insn.getD 2 0 = 0xec)) then 1
    else 0
  else 0

/-- The conversion of a 32-bit pattern to `int32_t` (two's complement). -/
def to_i32 (n : Nat) : Int :=
  if n % 2 ^ 32 < 2 ^ 31 then (n % 2 ^ 32 : Nat) else ((n % 2 ^ 32 : Nat) : Int) - 2 ^ 32

/-- The conversion of a 64-bit pattern to `int64_t` (two's complement). -/
def to_i64 (n : Nat) : Int :=
  if n % 2 ^ 64 < 2 ^ 63 then (n % 2 ^ 64 : Nat) else ((n % 2 ^ 64 : Nat) : Int) - 2 ^ 64

/-- The locals `has_this_ptr`, `has_vptr_init` and `vtable_addr` of
`find_vtable_constructors`. -/
structure CtorScan where
  has_this_ptr : Bool := false
  has_vptr_init : Bool := false
  vtable_addr : IMM := 0
deriving DecidableEq, Repr

/-- The source's `m.insert({k, v})` on an `unordered_map`: no effect when `k` has an
entry already. -/
def UMap.insert_new {V : Type} (m : UMap V) (k : IMM) (v : V) : UMap V :=
  if m.contains k then m else m ++ [(k, v)]

namespace Program

/-- The body of the inner loop of `find_vtable_constructors` after its `break` test
(program.cpp 540-571): steps two and three for one instruction. -/
def ctor_scan_insn (st : CtorScan) (insn : RawInsn) : CtorScan :=
  let bytes := insn.raw_bytes
  let st₁ : CtorScan :=
    if bytes.length ≥ 4 ∧ st.has_this_ptr = false then
      if bytes.getD 0 0 = 0x48 ∧ bytes.getD 1 0 = 0x89 ∧ bytes.getD 2 0 = 0x7d ∧
          bytes.getD 3 0 = 0xf8 then
        { st with has_this_ptr := true }
      else if bytes.length ≥ 3 ∧
          ((bytes.getD 0 0 = 0x48 ∧ bytes.getD 1 0 = 0x89 ∧ bytes.getD 2 0 = 0xf1) ∨
           (bytes.getD 0 0 = 0x48 ∧ bytes.getD 1 0 = 0x89 ∧ bytes.getD 2 0 = 0xf9)) then
        { st with has_this_ptr := true }
      else st
    else st
  if bytes.length ≥ 7 ∧ bytes.getD 0 0 = 0x48 ∧ bytes.getD 1 0 = 0x8d ∧
      bytes.getD 2 0 = 0x0d then
    let rip : IMM := insn.offset + bytes.length
    let offset : Int := to_i32 ((bytes.getD 6 0 <<< 24) ||| (bytes.getD 5 0 <<< 16) |||
      (bytes.getD 4 0 <<< 8) ||| bytes.getD 3 0)
    { st₁ with has_vptr_init := true, vtable_addr := rip + offset }
  else st₁

/-- The inner loop `for (uint8_t i = 0; i < 20 && it != end; ++i, ++it)` of
`find_vtable_constructors` (program.cpp 536-572), entered with counter `i` at the
instructions that are left. -/
def ctor_scan_loop : Nat → List RawInsn → CtorScan → CtorScan
  | _, [], st => st
  | i, insn :: rest, st =>
      if i < 20 then
        if ELF_x86.prolog insn.raw_bytes = 2 ∧ i ≠ 0 then st
        else ctor_scan_loop (i + 1) rest (ctor_scan_insn st insn)
      else st

/-- The outer loop of `find_vtable_constructors` (program.cpp 524-581) over the
instructions that are left, with the map built so far. -/
def find_vtable_constructors_from : List RawInsn → UMap IMM → UMap IMM
  | [], constructors => constructors
  | insn :: rest, constructors =>
      if ELF_x86.prolog insn.raw_bytes ≠ 2 then
        find_vtable_constructors_from rest constructors
      else
        let st := ctor_scan_loop 0 (insn :: rest) {}
        if ELF_x86.prolog insn.raw_bytes ≥ 1 ∧ st.has_this_ptr = true ∧
            st.has_vptr_init = true then
          find_vtable_constructors_from rest (constructors.insert_new insn.offset st.vtable_addr)
        else find_vtable_constructors_from rest constructors

/-- The source's `Program::find_vtable_constructors()`, program.cpp 519-584, on the
instruction list `sorted_insns_`. -/
def find_vtable_constructors (sorted_insns_ : List RawInsn) : UMap IMM :=
  find_vtable_constructors_from sorted_insns_ []

/-- The `while (true)` loop of `scan_vfunc` for one header (program.cpp 618-636),
entered at `current_addr` with the flag `valid` and the set `vfunc_set`. -/
def scan_vfunc_walk (v_tables : UMap USet) : Nat → IMM → Bool × USet → Except Stop (Bool × USet)
  | 0, _, _ => Except.error Stop.out_of_fuel
  | fuel + 1, current_addr, (valid, vfunc_set) =>
      if v_tables.any (fun pair => decide (current_addr ∈ pair.2)) then
        scan_vfunc_walk v_tables fuel (current_addr + 8) (true, USet.insert vfunc_set current_addr)
      else Except.ok (valid, vfunc_set)

/-- The loop of `scan_vfunc` over the headers (program.cpp 615-640); the state is
`(vtb_h, vfunc_set)`. -/
def scan_vfunc_headers (v_tables : UMap USet) (fuel : Nat) :
    List IMM → USet × USet → Except Stop (USet × USet)
  | [], st => Except.ok st
  | vtable_addr :: rest, (vtb_h, vfunc_set) =>
      match scan_vfunc_walk v_tables fuel vtable_addr (false, vfunc_set) with
      | Except.error e => Except.error e
      | Except.ok (valid, vfunc_set') =>
          scan_vfunc_headers v_tables fuel rest
            (if valid then USet.insert vtb_h vtable_addr else vtb_h, vfunc_set')

/-- The source's `Program::scan_vfunc(constructors, v_tables, file, file_offset)`,
program.cpp 594-654. `read_slot pos` stands for the eight bytes that the file stream
delivers after `seekg(pos)`; `fuel` bounds the steps of each walk. -/
def scan_vfunc (fuel : Nat) (constructors : USet) (v_tables : UMap USet)
    (read_slot : IMM → IMM) (file_offset : IMM) : Except Stop (USet × UMap IMM) :=
  let vtable_dst := USet.insert_range [] constructors
  match scan_vfunc_headers v_tables fuel vtable_dst ([], []) with
  | Except.error e => Except.error e
  | Except.ok (vtb_h, vfunc_set) =>
      Except.ok (vtb_h, vfunc_set.foldl (fun addr_pair addr =>
        addr_pair.set addr (read_slot (addr - file_offset))) [])

end Program

/-- The window that the inner loop of `find_vtable_constructors` examines for the
instruction at the head of `insns`: that instruction and the instructions after
it, at most 20 in total and ending before the next instruction of prolog score 2. -/
def ctor_window (insns : List RawInsn) : List RawInsn :=
  match insns with
  | [] => []
  | first :: rest =>
      first :: (rest.take 19).takeWhile (fun x => decide (ELF_x86.prolog x.raw_bytes ≠ 2))

/-- The byte patterns of the this-pointer move: an instruction that begins
`48 89 7d f8`, `48 89 f1` or `48 89 f9`. -/
def this_move_pattern (bytes : List Nat) : Prop :=
  bytes.take 4 = [0x48, 0x89, 0x7d, 0xf8] ∨ bytes.take 3 = [0x48, 0x89, 0xf1] ∨
    bytes.take 3 = [0x48, 0x89, 0xf9]

/-- The byte pattern of the RIP-relative `lea` into `rcx`: at least 7 bytes that
begin `48 8d 0d`. -/
def lea_pattern (bytes : List Nat) : Prop :=
  bytes.length ≥ 7 ∧ bytes.take 3 = [0x48, 0x8d, 0x0d]

instance (bytes : List Nat) : Decidable (lea_pattern bytes) := by
  unfold lea_pattern; infer_instance

/-- The signed 32-bit little-endian integer held in bytes 3..6 of an instruction. -/
def disp32 (bytes : List Nat) : Int :=
  to_i32 (le_uint ((bytes.drop 3).take 4))

/-- All relocation slots of `v_tables`, set after set. -/
def all_slots (v_tables : UMap USet) : List IMM :=
  (v_tables.map Prod.snd).flatten

/-- A push, a four-byte this-pointer move and a `lea rcx, [rip + 0x10]`. -/
def ctorInsns : List RawInsn :=
  [{ offset := 0, raw_bytes := [0x55] },
   { offset := 1, raw_bytes := [0x48, 0x89, 0x7d, 0xf8] },
   { offset := 5, raw_bytes := [0x48, 0x8d, 0x0d, 0x10, 0x00, 0x00, 0x00] }]

/-- A push, the three-byte move `48 89 f9` (`mov rcx, rdi`) and a
`lea rcx, [rip + 0x10]`. -/
def ctorInsnsShortMove : List RawInsn :=
  [{ offset := 0, raw_bytes := [0x55] },
   { offset := 1, raw_bytes := [0x48, 0x89, 0xf9] },
   { offset := 4, raw_bytes := [0x48, 0x8d, 0x0d, 0x10, 0x00, 0x00, 0x00] }]

/-- A push, a four-byte this-pointer move and a `lea rcx, [rip - 0x10]`. -/
def ctorInsnsBack : List RawInsn :=
  [{ offset := 0, raw_bytes := [0x55] },
   { offset := 1, raw_bytes := [0x48, 0x89, 0x7d, 0xf8] },
   { offset := 5, raw_bytes := [0x48, 0x8d, 0x0d, 0xf0, 0xff, 0xff, 0xff] }]

/-- One `Elf64_Rela` entry of `.rela.dyn` (a type of `<elf.h>`). -/
structure Elf64_Rela where
  r_offset : Nat
  r_info : Nat
  r_addend : Int := 0
deriving DecidableEq, Repr

/-- The fields of the `Elf64_Shdr` of `.data.rel.ro` that `vtables_by_rel` reads. -/
structure Elf64_Shdr where
  sh_addr : Nat
  sh_size : Nat
deriving DecidableEq, Repr

/-- The fields of an `Elf64_Sym` that `vtables_by_rel` reads. -/
structure Elf64_Sym where
  st_value : Nat
  st_info : Nat
deriving DecidableEq, Repr

/-- The relocation type `R_X86_64_RELATIVE` of `<elf.h>`. -/
def R_X86_64_RELATIVE : Nat := 8

/-- The symbol type `STT_FUNC` of `<elf.h>`. -/
def STT_FUNC : Nat := 2

/-- The `<elf.h>` accessor `ELF64_ST_TYPE(val) = val & 0xf`. -/
def ELF64_ST_TYPE (val : Nat) : Nat := val &&& 0xf

namespace ELF_x86

/-- The read loop of `.rela.dyn` in `vtables_by_rel` (system.cpp 288-293): an entry
is kept when `relocation.r_info == R_X86_64_RELATIVE`. -/
def vtables_by_rel_relocations (rela_dyn : List Elf64_Rela) : List Elf64_Rela :=
  rela_dyn.filter (fun relocation => relocation.r_info == R_X86_64_RELATIVE)

/-- The body of the final loop of `vtables_by_rel` for one relocation (system.cpp
376-401). `address` and `file_offset` are `uint64_t`, so `address -= file_offset`
and `address + file_offset` wrap at `2^64`; the value stored in the set is the
conversion of `address` to `IMM`. `read8 a` is the 8-byte value that
`seekg(a); read(&new_address, 8)` leaves in `new_address`. -/
def vtables_by_rel_entry (striped : Bool) (data_rel_ro_section : Elf64_Shdr)
    (file_offset : Nat) (read8 : Nat → IMM) (symbol_table : List Elf64_Sym)
    (res : UMap USet) (relocation : Elf64_Rela) : UMap USet :=
  let address := relocation.r_offset
  if data_rel_ro_section.sh_addr ≤ address ∧
      address < u64 (data_rel_ro_section.sh_addr + data_rel_ro_section.sh_size) then
    let address := u64 (address + (2 ^ 64 - u64 file_offset))
    let new_address := read8 address
    if striped then
      Program.insert_at res new_address (to_i64 address)
    else if symbol_table.any (fun symbol =>
        decide (symbol.st_value = to_u64 new_address) &&
          decide (ELF64_ST_TYPE symbol.st_info = STT_FUNC)) then
      Program.insert_at res new_address (to_i64 (u64 (address + file_offset)))
    else res
  else res

/-- The part of `ELF_x86::vtables_by_rel` after the section headers and the symbol
table have been read (system.cpp 288-293 and 375-403): the relocations of
`.rela.dyn` are filtered and the final loop fills `res`. The flag `striped` is what
the symbol-table loop left in the variable of that name. -/
def vtables_by_rel (striped : Bool) (rela_dyn : List Elf64_Rela)
    (data_rel_ro_section : Elf64_Shdr) (file_offset : Nat) (read8 : Nat → IMM)
    (symbol_table : List Elf64_Sym) : UMap USet :=
  (vtables_by_rel_relocations rela_dyn).foldl
    (vtables_by_rel_entry striped data_rel_ro_section file_offset read8 symbol_table) []

end ELF_x86

/-- A `.rela.dyn` with one relative relocation at `0x3008`. -/
def relaDynOne : List Elf64_Rela :=
  [{ r_offset := 0x3008, r_info := 8, r_addend := 0x1139 }]

/-- A `.data.rel.ro` section at `[0x3000, 0x3100)`. -/
def dataRelRoSection : Elf64_Shdr :=
  { sh_addr := 0x3000, sh_size := 0x100 }

/-- The source's `Exit::EXIT_TYPE` (rtl.cpp 732-739). -/
inductive EXIT_TYPE where
  | RET | HALT
deriving DecidableEq, Repr

/-- The source's `SYSTEM::HLT_BYTES = {0xf4}` (system.h 137). -/
def HLT_BYTES : List Nat := [0xf4]

/-- The value `std::string::npos` on a 64-bit target. -/
def npos : Nat := 2 ^ 64 - 1

/-- The source's `s.find(" ")` for a one-character pattern: the index of the first
occurrence, `npos` when there is none. -/
def string_find : List Char → Char → Nat
  | [], _ => npos
  | c :: rest, x =>
      if c = x then 0
      else if string_find rest x = npos then npos else string_find rest x + 1

/-- The characters that `s.substr(pos, n)` returns when `pos <= s.size()`: at most
`n` characters from position `pos`. -/
def substr_chars (s : List Char) (pos n : Nat) : List Char :=
  (s.drop pos).take (min n (s.length - pos))

/-- The source's `s.substr(pos, n)`: throws `std::out_of_range` when
`pos > s.size()`. -/
def substr (s : List Char) (pos n : Nat) : Except Stop (List Char) :=
  if s.length < pos then Except.error Stop.fault else Except.ok (substr_chars s pos n)

/-- The raw-byte loop of `load` (framework.cpp 107-108):
`for (i = 0; i < raw.length(); i += 3) push_back((uint8_t)to_int("0x" + raw.substr(i,2)))`. -/
def load_raw_bytes (to_int : List Char → IMM) : List Char → List Nat
  | [] => []
  | [a] => [to_u64 (to_int ('0' :: 'x' :: [a])) % 256]
  | [a, b] => [to_u64 (to_int ('0' :: 'x' :: [a, b])) % 256]
  | a :: b :: _ :: rest =>
      (to_u64 (to_int ('0' :: 'x' :: [a, b])) % 256) :: load_raw_bytes to_int rest

/-- The `while` loop of the source's `load` (framework.cpp 100-126), entered with
the lines not yet read from the three files and the records pushed so far. The
lifter `Parser::process` (`none` is `nullptr`), `Util::to_int` and the constructor
`new Exit(t)` belong to headers that are not part of the sources and are taken as
parameters; `RTL` is the type of lifted objects. The size argument of the first
`substr` is `itc.find(" ") - 2` in `size_t` arithmetic. With
`ABORT_UNLIFTED_INSN` the loop is left after the first record whose object is
null. -/
def load_loop {RTL : Type} (ABORT_UNLIFTED_INSN : Bool) (to_int : List Char → IMM)
    (process : List Char → Option RTL) (new_Exit : EXIT_TYPE → RTL)
    (noreturn_calls : USet) :
    List (List Char) → List (List Char) → List (List Char) →
    List (IMM × Option RTL × List Nat) → Except Stop (List (IMM × Option RTL × List Nat))
  | itc :: f1, rtl :: f2, raw :: f3, res =>
      match substr itc 2 (u64 (string_find itc ' ' + (2 ^ 64 - 2))) with
      | Except.error e => Except.error e
      | Except.ok s =>
          let offset := to_int s
          let entry : IMM × Option RTL × List Nat :=
            if offset ∈ noreturn_calls then
              (offset, some (new_Exit EXIT_TYPE.HALT), HLT_BYTES)
            else
              (offset, process rtl, load_raw_bytes to_int raw)
          let res := res ++ [entry]
          if entry.2.1.isNone && ABORT_UNLIFTED_INSN then Except.ok res
          else load_loop ABORT_UNLIFTED_INSN to_int process new_Exit noreturn_calls f1 f2 f3 res
  | _, _, _, res => Except.ok res

/-- The source's `load(f_asm, f_rtl, f_raw, noreturn_calls)` (framework.cpp 88-132)
on the lines of the three files. -/
def load {RTL : Type} (ABORT_UNLIFTED_INSN : Bool) (to_int : List Char → IMM)
    (process : List Char → Option RTL) (new_Exit : EXIT_TYPE → RTL)
    (f_asm f_rtl f_raw : List (List Char)) (noreturn_calls : USet) :
    Except Stop (List (IMM × Option RTL × List Nat)) :=
  load_loop ABORT_UNLIFTED_INSN to_int process new_Exit noreturn_calls f_asm f_rtl f_raw []

/-- The offset that the text of an assembly line names: `to_int` of the
characters from position 2 up to the first blank. -/
def asm_offset (to_int : List Char → IMM) (itc : List Char) : IMM :=
  to_int (substr_chars itc 2 (u64 (string_find itc ' ' + (2 ^ 64 - 2))))

/-- The record that the statement of the halt substitution expects for one
aligned triple of lines: `Exit(HALT)` with the bytes `[0xf4]` when the offset is
in `noreturn_calls`, the parsed RTL and the parsed raw bytes otherwise. -/
def expected_record {RTL : Type} (to_int : List Char → IMM)
    (process : List Char → Option RTL) (new_Exit : EXIT_TYPE → RTL)
    (noreturn_calls : USet) (line : List Char × List Char × List Char) :
    IMM × Option RTL × List Nat :=
  if asm_offset to_int line.1 ∈ noreturn_calls then
    (asm_offset to_int line.1, some (new_Exit EXIT_TYPE.HALT), [0xf4])
  else
    (asm_offset to_int line.1, process line.2.1, load_raw_bytes to_int line.2.2)

/-- The value of one hexadecimal digit (0 for any other character). -/
def hex_digit (c : Char) : Nat :=
  if 48 ≤ c.toNat ∧ c.toNat ≤ 57 then c.toNat - 48
  else if 97 ≤ c.toNat ∧ c.toNat ≤ 102 then c.toNat - 87
  else 0

/-- A reader of hexadecimal text with an optional `0x`, used as `Util::to_int` in
the concrete inputs. -/
def hex_to_int : List Char → IMM
  | '0' :: 'x' :: rest => ((rest.foldl (fun acc c => 16 * acc + hex_digit c) 0 : Nat) : Int)
  | s => ((s.foldl (fun acc c => 16 * acc + hex_digit c) 0 : Nat) : Int)

/-- A lifter for the concrete inputs: the text `bad` does not lift, any other text
lifts to its length. -/
def lengthLifter (rtl : List Char) : Option Nat :=
  if rtl = ['b', 'a', 'd'] then none else some rtl.length

/-- Three assembly lines at offsets `0x10`, `0x15` and `0x16`. -/
def asmLines : List (List Char) :=
  [".L10 call 0x40", ".L15 nop", ".L16 ret"].map String.toList

/-- The RTL lines of `asmLines`. -/
def rtlLines : List (List Char) :=
  ["(call)", "(nop)", "(simple_return)"].map String.toList

/-- The raw-byte lines of `asmLines`. -/
def rawLines : List (List Char) :=
  ["e8 2b 00 00 00", "90", "c3"].map String.toList

/-! ## Closed blocks -/

/-- The program of a `Flow`. -/
def Flow.prog : Flow → Program
  | Flow.go p => p
  | Flow.ret p => p

/-- Whether an instruction is a transfer or a halt instruction. -/
def Insn.exits (i : Insn) : Bool := i.transfer || i.halt

namespace Program

/-- Whether the last instruction of `blk` is a transfer or a halt instruction
(false for an empty block). -/
def ends_with_exit (p : Program) (blk : Block) : Bool :=
  match blk.insn_list.getLast? with
  | none => false
  | some l =>
      match p.i_map_.find l with
      | none => false
      | some insn => insn.exits

/-- Whether `blk` is closed: its last instruction is a transfer or a halt
instruction, or it is non-empty and has a successor edge. -/
def block_closed (p : Program) (blk : Block) : Bool :=
  p.ends_with_exit blk || (!blk.insn_list.isEmpty && !blk.succ.isEmpty)

/-- Whether every block of the store is closed. -/
def blocks_closed (p : Program) : Bool :=
  p.blocks.all p.block_closed

/-- Every instruction of `p` is an instruction of `p'`, and one that is a transfer or
a halt in `p` is one in `p'`. -/
def flags_kept (p p' : Program) : Prop :=
  ∀ k insn, p.i_map_.find k = some insn →
    ∃ insn', p'.i_map_.find k = some insn' ∧ (insn.exits = true → insn'.exits = true)

/-- Every block of `p` is a block of `p'`; one that ends with a transfer or halt in
`p` does so in `p'`, and one that is closed in `p` is closed in `p'`. -/
def Frame (p p' : Program) : Prop :=
  p.blocks.length ≤ p'.blocks.length ∧
  ∀ b blk, p.blocks.get? b = some blk →
    ∃ blk', p'.blocks.get? b = some blk' ∧
      (p.ends_with_exit blk = true → p'.ends_with_exit blk' = true) ∧
      (p.block_closed blk = true → p'.block_closed blk' = true)

/-- A `Frame` in which every block that `p` did not have is closed. -/
def Step (p p' : Program) : Prop :=
  p.Frame p' ∧
  ∀ b blk', p'.blocks.get? b = some blk' → p.blocks.length ≤ b → p'.block_closed blk' = true

/-- Block `b` exists and ends with a transfer or a halt instruction. -/
def exit_block (p : Program) (b : Nat) : Prop :=
  ∃ blk, p.blocks.get? b = some blk ∧ p.ends_with_exit blk = true

end Program

/-! ## Strongly connected components (`scc.cpp`) -/

/-- Modelled from the spec: the members of the `Block` objects that `SCC` reads and
writes (`block.h` and `scc.h` are not part of the sources). A `Block*` is a natural
number; `succ` is the edge list `succ[] = (block, condition_code)`, `parent` the
`SCC*` a block belongs to (`none` for `nullptr`), `preset_regs` the preset mask,
`visited` the search flag and `pred` the predecessor list. -/
structure BlockGraph where
  succ : Nat → List (Nat × COMPARE)
  parent : Nat → Option Nat
  preset_regs : Nat → Nat := fun _ => 0
  visited : Nat → Bool := fun _ => false
  pred : Nat → List Nat := fun _ => []

/-- The members of an `SCC` object: its own address `this`, the block list
`b_list_` and the list `ext_target`. -/
structure SCC where
  this : Nat
  b_list_ : List Nat := []
  ext_target : List Nat := []

/-- What `SCC::dfs` works on: the blocks, the `SCC` object and the global list
`Util::Visited`. -/
structure DfsState where
  g : BlockGraph
  scc : SCC
  Visited : List Nat := []

namespace SCC

/-- The loop `for (auto const& [v, c]: u->succ())` of `SCC::dfs` (scc.cpp 18-24);
`dfs` is the recursive call. Modelled from the spec: `v->pred(u)` records `u` among
the predecessors of `v`. -/
def dfs_edges (dfs : DfsState → Nat → Except Stop DfsState) (u : Nat) :
    List (Nat × COMPARE) → DfsState → Except Stop DfsState
  | [], st => Except.ok st
  | (v, _) :: rest, st =>
      let st₁ : DfsState :=
        { st with g := { st.g with pred := fun x => if x = v then st.g.pred x ++ [u]
                                                   else st.g.pred x } }
      if st₁.g.parent v ≠ some st₁.scc.this then
        dfs_edges dfs u rest
          { st₁ with scc := { st₁.scc with ext_target := st₁.scc.ext_target ++ [v] } }
      else if !st₁.g.visited v then
        match dfs st₁ v with
        | Except.error e => Except.error e
        | Except.ok st₂ => dfs_edges dfs u rest st₂
      else dfs_edges dfs u rest st₁

/-- The source's `SCC::dfs(u)`, scc.cpp 15-26; one unit of `fuel` is spent on every
call. -/
def dfs : Nat → DfsState → Nat → Except Stop DfsState
  | 0, _, _ => Except.error Stop.out_of_fuel
  | fuel + 1, st, u =>
      let st₁ : DfsState :=
        { st with g := { st.g with visited := fun x => if x = u then true else st.g.visited x },
                  Visited := st.Visited ++ [u] }
      match dfs_edges (fun q v => dfs fuel q v) u (st₁.g.succ u) st₁ with
      | Except.error e => Except.error e
      | Except.ok st₂ =>
          Except.ok { st₂ with scc := { st₂.scc with b_list_ := st₂.scc.b_list_ ++ [u] } }

/-- The source's `SCC::loop()`, scc.cpp 45-57; `front()` of a list of size 1 is its
only element. -/
def loop (g : BlockGraph) (scc : SCC) : Bool :=
  if scc.b_list_.length ≠ 1 then true
  else
    match scc.b_list_.head? with
    | some u => (g.succ u).any (fun e => decide (e.1 = u))
    | none => false

/-- The source's `SCC::execute(s)`, scc.cpp 71-106, for a state of type `σ`.
`Block::execute`, `Block::preset` and the assignment `s.loc.scc = this` belong to
headers that are not part of the sources and are taken as parameters;
`iteration_limit` is `s.config.iteration_limit`. -/
def execute {σ : Type} (set_loc_scc : Nat → σ → σ) (block_execute : Nat → σ → σ)
    (block_preset : Nat → Nat → σ → σ) (g : BlockGraph) (scc : SCC)
    (iteration_limit : Int) (s : σ) : σ :=
  let s := set_loc_scc scc.this s
  if !loop g scc then
    scc.b_list_.foldl (fun s b => block_execute b s) s
  else if iteration_limit = 0 then
    let mask := scc.b_list_.foldl (fun mask b => mask ||| g.preset_regs b) 0
    let s := scc.b_list_.foldl (fun s b => block_preset b mask s) s
    scc.b_list_.foldl (fun s b => block_execute b s) s
  else if iteration_limit > 0 then
    (List.range iteration_limit.toNat).foldl
      (fun s _ => scc.b_list_.foldl (fun s b => block_execute b s) s) s
  else s

end SCC

/-- A block operation that `SCC::execute` performs. -/
inductive BlockOp where
  | preset (b : Nat) (mask : Nat)
  | execute (b : Nat)
deriving DecidableEq, Repr

/-- Performs a sequence of block operations, first to last. -/
def BlockOp.run {σ : Type} (block_execute : Nat → σ → σ) (block_preset : Nat → Nat → σ → σ) :
    List BlockOp → σ → σ
  | [], s => s
  | BlockOp.preset b mask :: rest, s =>
      BlockOp.run block_execute block_preset rest (block_preset b mask s)
  | BlockOp.execute b :: rest, s =>
      BlockOp.run block_execute block_preset rest (block_execute b s)

/-- The sequence of block operations that the statement of `SCC::execute` names:
one pass over the block list for a non-loop SCC; for a loop SCC with limit 0 a
`preset` of every block with the OR of all `preset_regs`, then one pass; for a loop
SCC with limit `n > 0`, `n` passes. -/
def expected_ops (is_loop : Bool) (preset_regs : Nat → Nat) (b_list : List Nat) (n : Nat) :
    List BlockOp :=
  if !is_loop then b_list.map BlockOp.execute
  else if n = 0 then
    b_list.map (fun b => BlockOp.preset b ((b_list.map preset_regs).foldr (· ||| ·) 0)) ++
      b_list.map BlockOp.execute
  else (List.replicate n (b_list.map BlockOp.execute)).flatten

namespace SCC

end SCC

/-! ## Prologue scan and gap scan (`Program::prolog_fptrs`, `scan_fptrs_in_gap`) -/

namespace Program

/-- The inner loop of `prolog_fptrs` (program.cpp 499-508) over the instructions
`window` that follow the candidate: each one of prolog score at least 1 inserts the
candidate's offset. -/
def prolog_fptrs_window (offset : IMM) (window : List RawInsn) (res : USet) : USet :=
  window.foldl (fun res it2 =>
    if ELF_x86.prolog it2.raw_bytes ≥ 1 then USet.insert res offset else res) res

/-- The outer loop of `prolog_fptrs` (program.cpp 495-514), entered with the
instructions from `it` on. For a candidate of prolog score at least 2 the inner
loop moves `it2` over the next 15 instructions; when it runs into the end the outer
loop is left, otherwise `it = it2` and `++it` continue behind those 15
instructions. One unit of `fuel` is spent on every candidate. -/
def prolog_fptrs_loop : Nat → List RawInsn → USet → USet
  | 0, _, res => res
  | _, [], res => res
  | fuel + 1, it :: rest, res =>
      if ELF_x86.prolog it.raw_bytes ≥ 2 then
        let res := prolog_fptrs_window it.offset (rest.take 15) res
        if rest.length < 15 then res
        else prolog_fptrs_loop fuel (rest.drop 15) res
      else prolog_fptrs_loop fuel rest res

/-- The source's `Program::prolog_fptrs()`, program.cpp 493-516, on `sorted_insns_`;
the loop examines at most one candidate per instruction. -/
def prolog_fptrs (sorted_insns_ : List RawInsn) : USet :=
  prolog_fptrs_loop sorted_insns_.length sorted_insns_ []

end Program

/-- Two pushes followed by `mov rbp, rsp`. -/
def twoPushInsns : List RawInsn :=
  [{ offset := 0, raw_bytes := [0x55] },
   { offset := 1, raw_bytes := [0x53] },
   { offset := 2, raw_bytes := [0x48, 0x89, 0xe5] }]

/-- The instructions of `twoPushInsns` followed by seventeen one-byte `nop`s at the
offsets 5 to 21. -/
def twoPushLongInsns : List RawInsn :=
  twoPushInsns ++ (List.range 17).map (fun k => { offset := 5 + k, raw_bytes := [0x90] })

/-- An element of `sorted_insns_` as far as `scan_fptrs_in_gap` looks at it: the
offset, the `gap` flag and the text `to_string()`. -/
structure GapInsn where
  offset : IMM
  gap : Bool := false
  to_string : String := "nop"
deriving DecidableEq, Repr

namespace Program

/-- The test `prev == nullptr || !prev->gap` of `scan_fptrs_in_gap`. -/
def prev_not_gap : Option GapInsn → Bool
  | none => true
  | some q => !q.gap

/-- The loop of `scan_fptrs_in_gap` (program.cpp 743-754), entered with the pointer
`prev`, the instructions from `it` on and the pair `(extra_fptrs, checked_fptrs_)`.
At the start of a run of gap instructions the inner `for` moves `it` over the
instructions whose text is `nop`; at the end of the list the loop is left. One unit
of `fuel` is spent on every test of the outer loop. -/
def scan_fptrs_in_gap_loop : Nat → Option GapInsn → List GapInsn → List IMM × USet →
    List IMM × USet
  | 0, _, _, st => st
  | _, _, [], st => st
  | fuel + 1, prev, it :: rest, st =>
      if it.gap && prev_not_gap prev then
        match (it :: rest).dropWhile (fun i => decide (i.to_string = "nop")) with
        | [] => st
        | found :: rest' =>
            let st' : List IMM × USet :=
              if !(decide (found.offset ∈ st.2)) then
                (st.1 ++ [found.offset], USet.insert st.2 found.offset)
              else st
            scan_fptrs_in_gap_loop fuel (some found) rest' st'
      else scan_fptrs_in_gap_loop fuel (some it) rest st

/-- The source's `Program::scan_fptrs_in_gap()`, program.cpp 740-756: returns
`extra_fptrs` and the new value of the member `checked_fptrs_`. -/
def scan_fptrs_in_gap (sorted_insns_ : List GapInsn) (checked_fptrs_ : USet) :
    List IMM × USet :=
  scan_fptrs_in_gap_loop sorted_insns_.length none sorted_insns_ ([], checked_fptrs_)

end Program

/-- A `ret`, a gap of two `nop`s in front of a `push` at offset 3, a `ret`, and a
second gap of one `nop` in front of a `push` at offset 6. -/
def gapInsns : List GapInsn :=
  [{ offset := 0, to_string := "ret" },
   { offset := 1, gap := true },
   { offset := 2, gap := true },
   { offset := 3, gap := true, to_string := "push" },
   { offset := 4, to_string := "ret" },
   { offset := 5, gap := true },
   { offset := 6, to_string := "push" }]

/-- The offset `o` belongs to the first instruction whose text is not `nop` at or
after the start of a run of gap instructions of `insns`: the run starts right
behind `pre` (which is empty or ends with a non-gap instruction), `nops` are the
`nop` instructions passed over, and `found` is the instruction at `o`. -/
def first_after_gap_start (insns : List GapInsn) (o : IMM) : Prop :=
  ∃ pre nops found post start, insns = pre ++ nops ++ found :: post ∧
    found.offset = o ∧ found.to_string ≠ "nop" ∧ (∀ i ∈ nops, i.to_string = "nop") ∧
    (nops ++ [found]).head? = some start ∧ start.gap = true ∧
    (pre = [] ∨ ∃ q, pre.getLast? = some q ∧ q.gap = false)

/-! ## RTL statements (`rtl.cpp`) -/

/-- The source's `RTL::RTL_EQUAL`, the four match kinds. -/
inductive RTL_EQUAL where
  | OPCODE | PARTIAL | RELAXED | STRICT
deriving DecidableEq, Repr

/-- The statement classes of `rtl.cpp`. The first field of every constructor is the
address of the object (what `this` compares with); the children of the expression
classes are pointers, `none` for `nullptr`. `E` is the type of the expression
objects. -/
inductive Statement (E : Type) where
  | Parallel (addr : Nat) (stmts_ : List (Statement E))
  | Sequence (addr : Nat) (stmts_ : List (Statement E))
  | Assign (addr : Nat) (dst_ src_ : Option E)
  | Call (addr : Nat) (target_ : Option E)
  | Clobber (addr : Nat) (expr_ : Option E)
  | Exit (addr : Nat) (typeExit_ : EXIT_TYPE)
  | Nop (addr : Nat)

/-- An argument of type `RTL*`: `nullptr`, a statement object or an expression
object. -/
inductive RTLPtr (E : Type) where
  | null
  | stmt (s : Statement E)
  | expr (e : E)

/-- The methods of the expression classes that the statement classes call
(`expr.cpp` is not part of the sources, so they are parameters): the address of an
expression object, `e->equal(eq, v)` for an `Expr* v`, the addresses that
`e->find(eq, v)` returns, and `e->contains(rtl)`. -/
structure ExprOps (E : Type) where
  addr : E → Nat
  equal : RTL_EQUAL → E → Option E → Bool
  find : RTL_EQUAL → E → RTLPtr E → List Nat
  contains : E → Nat → Bool

namespace Statement

variable {E : Type}

/-- The address of a statement object. -/
def this_addr : Statement E → Nat
  | Parallel a _ => a
  | Sequence a _ => a
  | Assign a _ _ => a
  | Call a _ => a
  | Clobber a _ => a
  | Exit a _ => a
  | Nop a => a

/-- The comparison `child->equal(eq, v)` of `RELAXED` and `STRICT` for a child
pointer of an expression class; a null child is dereferenced: a fault. -/
def child_equal (ops : ExprOps E) (eq : RTL_EQUAL) (child : Option E) (v : Option E) :
    Except Stop Bool :=
  match child with
  | none => Except.error Stop.fault
  | some e => Except.ok (ops.equal eq e v)

/-- The comparison `child == nullptr || child->equal(eq, v)` of `PARTIAL`. -/
def child_null_or_equal (ops : ExprOps E) (eq : RTL_EQUAL) (child : Option E) (v : Option E) : Bool :=
  match child with
  | none => true
  | some e => ops.equal eq e v

/-- The test `v == nullptr`. -/
def is_null : RTLPtr E → Bool
  | RTLPtr.null => true
  | _ => false

/-- The conversion `(Parallel*)(*v)`: the statement list of the object when it is a
`Parallel`, null otherwise. -/
def as_Parallel : RTLPtr E → Option (List (Statement E))
  | RTLPtr.stmt (Parallel _ stmts2) => some stmts2
  | _ => none

/-- The conversion `(Sequence*)(*v)`. -/
def as_Sequence : RTLPtr E → Option (List (Statement E))
  | RTLPtr.stmt (Sequence _ stmts2) => some stmts2
  | _ => none

/-- The conversion `(Assign*)(*v)`: the children `dst()` and `src()` of the object
when it is an `Assign`. -/
def as_Assign : RTLPtr E → Option (Option E × Option E)
  | RTLPtr.stmt (Assign _ dst2 src2) => some (dst2, src2)
  | _ => none

/-- The conversion `(Call*)(*v)`: the child `target()`. -/
def as_Call : RTLPtr E → Option (Option E)
  | RTLPtr.stmt (Call _ target2) => some target2
  | _ => none

/-- The conversion `(Clobber*)(*v)`: the child `expr()`. -/
def as_Clobber : RTLPtr E → Option (Option E)
  | RTLPtr.stmt (Clobber _ expr2) => some expr2
  | _ => none

/-- The conversion `(Exit*)(*v)`: the exit type of the object when it is an
`Exit`. -/
def as_Exit : RTLPtr E → Option EXIT_TYPE
  | RTLPtr.stmt (Exit _ typeExit2) => some typeExit2
  | _ => none

/-- The conversion `(Nop*)(*v)`. -/
def as_Nop : RTLPtr E → Option Unit
  | RTLPtr.stmt (Nop _) => some ()
  | _ => none

/-- The `switch (eq)` of `Assign::equal` (rtl.cpp 364-375). -/
def equal_assign (ops : ExprOps E) (eq : RTL_EQUAL) (dst_ src_ dst2 src2 : Option E) :
    Except Stop Bool :=
  match eq with
  | RTL_EQUAL.OPCODE => Except.ok true
  | RTL_EQUAL.PARTIAL =>
      Except.ok (child_null_or_equal ops eq dst_ dst2 && child_null_or_equal ops eq src_ src2)
  | _ =>
      match child_equal ops eq dst_ dst2 with
      | Except.error e => Except.error e
      | Except.ok false => Except.ok false
      | Except.ok true => child_equal ops eq src_ src2

/-- The `switch (eq)` of `Call::equal` and of `Clobber::equal`, which have one
child. -/
def equal_child (ops : ExprOps E) (eq : RTL_EQUAL) (child child2 : Option E) :
    Except Stop Bool :=
  match eq with
  | RTL_EQUAL.OPCODE => Except.ok true
  | RTL_EQUAL.PARTIAL => Except.ok (child_null_or_equal ops eq child child2)
  | _ => child_equal ops eq child child2

mutual

/-- The source's `equal(eq, v)` of the statement classes: `Parallel::equal`
(rtl.cpp 172-194), `Sequence::equal`, `Assign::equal` (356-376), `Call::equal`
(598-616), `Clobber::equal` (656-674), `Exit::equal` (743-752) and `Nop::equal`
(772-781). -/
def equal (ops : ExprOps E) (eq : RTL_EQUAL) : Statement E → RTLPtr E → Except Stop Bool
  | Parallel _ stmts_, v =>
      if is_null v then Except.ok (decide (eq = RTL_EQUAL.PARTIAL))
      else
        match as_Parallel v with
        | none => Except.ok false
        | some stmts2 =>
            if eq = RTL_EQUAL.OPCODE then Except.ok true
            else if stmts_.length ≠ stmts2.length then Except.ok false
            else equal_all ops eq stmts_ stmts2
  | Sequence _ stmts_, v =>
      if is_null v then Except.ok (decide (eq = RTL_EQUAL.PARTIAL))
      else
        match as_Sequence v with
        | none => Except.ok false
        | some stmts2 =>
            if eq = RTL_EQUAL.OPCODE then Except.ok true
            else if stmts_.length ≠ stmts2.length then Except.ok false
            else equal_all ops eq stmts_ stmts2
  | Assign _ dst_ src_, v =>
      if is_null v then Except.ok (decide (eq = RTL_EQUAL.PARTIAL))
      else
        match as_Assign v with
        | none => Except.ok false
        | some v2 => equal_assign ops eq dst_ src_ v2.1 v2.2
  | Call _ target_, v =>
      if is_null v then Except.ok (decide (eq = RTL_EQUAL.PARTIAL))
      else
        match as_Call v with
        | none => Except.ok false
        | some target2 => equal_child ops eq target_ target2
  | Clobber _ expr_, v =>
      if is_null v then Except.ok (decide (eq = RTL_EQUAL.PARTIAL))
      else
        match as_Clobber v with
        | none => Except.ok false
        | some expr2 => equal_child ops eq expr_ expr2
  | Exit _ _, v =>
      if is_null v then Except.ok (decide (eq = RTL_EQUAL.PARTIAL))
      else
        match as_Exit v with
        | none => Except.ok false
        | some _ => Except.ok true
  | Nop _, v =>
      if is_null v then Except.ok (decide (eq = RTL_EQUAL.PARTIAL))
      else
        match as_Nop v with
        | none => Except.ok false
        | some _ => Except.ok true

/-- The loop `for (; it != stmts_.end(); ++it, ++it2) if (!(*it)->equal(eq, *it2))
return false; return true;` of `Parallel::equal` and `Sequence::equal`, entered
after the sizes have been found equal; `l2` is what is left from `it2` on. -/
def equal_all (ops : ExprOps E) (eq : RTL_EQUAL) :
    List (Statement E) → List (Statement E) → Except Stop Bool
  | [], _ => Except.ok true
  | s :: rest, l2 =>
      match l2.head? with
      | none => Except.error Stop.fault
      | some s2 =>
          match equal ops eq s (RTLPtr.stmt s2) with
          | Except.error e => Except.error e
          | Except.ok false => Except.ok false
          | Except.ok true => equal_all ops eq rest l2.tail

end

/-- Modelled from the spec: `child->find_helper(eq, v, vList)` of `rtl.h` for a child
of an expression class, which appends what `child->find(eq, v)` returns to `vList`;
a null child is dereferenced: a fault. -/
def child_find (ops : ExprOps E) (eq : RTL_EQUAL) (child : Option E) (v : RTLPtr E)
    (vList : List Nat) : Except Stop (List Nat) :=
  match child with
  | none => Except.error Stop.fault
  | some e => Except.ok (vList ++ ops.find eq e v)

/-- The first lines of every `find`: `if (equal(eq, v)) vList.push_back(this);`. -/
def find_self (ops : ExprOps E) (eq : RTL_EQUAL) (s : Statement E) (v : RTLPtr E) :
    Except Stop (List Nat) :=
  match equal ops eq s v with
  | Except.error e => Except.error e
  | Except.ok true => Except.ok [s.this_addr]
  | Except.ok false => Except.ok []

mutual

/-- The source's `find(eq, v)` of the statement classes (`Parallel::find`, rtl.cpp
197-204, and its siblings); the result is the list of the addresses of the nodes
found. -/
def find (ops : ExprOps E) (eq : RTL_EQUAL) : Statement E → RTLPtr E → Except Stop (List Nat)
  | Parallel a stmts_, v =>
      match find_self ops eq (Parallel a stmts_) v with
      | Except.error e => Except.error e
      | Except.ok vList => find_all ops eq stmts_ v vList
  | Sequence a stmts_, v =>
      match find_self ops eq (Sequence a stmts_) v with
      | Except.error e => Except.error e
      | Except.ok vList => find_all ops eq stmts_ v vList
  | Assign a dst_ src_, v =>
      match find_self ops eq (Assign a dst_ src_) v with
      | Except.error e => Except.error e
      | Except.ok vList =>
          match child_find ops eq dst_ v vList with
          | Except.error e => Except.error e
          | Except.ok vList => child_find ops eq src_ v vList
  | Call a target_, v =>
      match find_self ops eq (Call a target_) v with
      | Except.error e => Except.error e
      | Except.ok vList => child_find ops eq target_ v vList
  | Clobber a expr_, v =>
      match find_self ops eq (Clobber a expr_) v with
      | Except.error e => Except.error e
      | Except.ok vList => child_find ops eq expr_ v vList
  | Exit a t, v => find_self ops eq (Exit a t) v
  | Nop a, v => find_self ops eq (Nop a) v

/-- The loop `for (auto s: stmts_) s->find_helper(eq, v, vList);`. Modelled from the
spec: `find_helper` of `rtl.h` appends what `s->find(eq, v)` returns to `vList`. -/
def find_all (ops : ExprOps E) (eq : RTL_EQUAL) :
    List (Statement E) → RTLPtr E → List Nat → Except Stop (List Nat)
  | [], _, vList => Except.ok vList
  | s :: rest, v, vList =>
      match find ops eq s v with
      | Except.error e => Except.error e
      | Except.ok r => find_all ops eq rest v (vList ++ r)

end

/-- The test `child->contains(rtl)` for a child of an expression class; a null
child is dereferenced: a fault. -/
def child_contains (ops : ExprOps E) (child : Option E) (rtl : Nat) : Except Stop Bool :=
  match child with
  | none => Except.error Stop.fault
  | some e => Except.ok (ops.contains e rtl)

mutual

/-- The source's `contains(rtl)` of the statement classes: `Parallel::contains`
(rtl.cpp 228-235), `Sequence::contains`, `Assign::contains` (574-576),
`Call::contains` and `Clobber::contains`; `rtl` is the address the pointer holds.
Modelled from the spec: `Exit` and `Nop` do not override `contains`, they use
`RTL::contains` of `rtl.h`, the test `this == rtl` that every override starts
with. -/
def contains (ops : ExprOps E) : Statement E → Nat → Except Stop Bool
  | Parallel a stmts_, rtl =>
      if a = rtl then Except.ok true else contains_any ops stmts_ rtl
  | Sequence a stmts_, rtl =>
      if a = rtl then Except.ok true else contains_any ops stmts_ rtl
  | Assign a dst_ src_, rtl =>
      if a = rtl then Except.ok true
      else
        match child_contains ops dst_ rtl with
        | Except.error e => Except.error e
        | Except.ok true => Except.ok true
        | Except.ok false => child_contains ops src_ rtl
  | Call a target_, rtl =>
      if a = rtl then Except.ok true else child_contains ops target_ rtl
  | Clobber a expr_, rtl =>
      if a = rtl then Except.ok true else child_contains ops expr_ rtl
  | Exit a _, rtl => Except.ok (decide (a = rtl))
  | Nop a, rtl => Except.ok (decide (a = rtl))

/-- The loop `for (auto stmt: stmts_) if (stmt->contains(rtl)) return true; return
false;`. -/
def contains_any (ops : ExprOps E) : List (Statement E) → Nat → Except Stop Bool
  | [], _ => Except.ok false
  | s :: rest, rtl =>
      match contains ops s rtl with
      | Except.error e => Except.error e
      | Except.ok true => Except.ok true
      | Except.ok false => contains_any ops rest rtl

end

mutual

/-- The statement nodes of a tree: the node itself and the nodes below it. -/
def nodes : Statement E → List (Statement E)
  | Parallel a stmts_ => Parallel a stmts_ :: nodes_all stmts_
  | Sequence a stmts_ => Sequence a stmts_ :: nodes_all stmts_
  | Assign a dst_ src_ => [Assign a dst_ src_]
  | Call a target_ => [Call a target_]
  | Clobber a expr_ => [Clobber a expr_]
  | Exit a t => [Exit a t]
  | Nop a => [Nop a]

/-- The statement nodes of a list of trees. -/
def nodes_all : List (Statement E) → List (Statement E)
  | [] => []
  | s :: rest => nodes s ++ nodes_all rest

end

/-- The expression children of a statement node. -/
def exprs : Statement E → List E
  | Assign _ dst_ src_ => dst_.toList ++ src_.toList
  | Call _ target_ => target_.toList
  | Clobber _ expr_ => expr_.toList
  | _ => []

end Statement

/-- Expression methods for trees without expression children. -/
def noExprOps : ExprOps Nat :=
  { addr := fun e => e, equal := fun _ _ _ => false, find := fun _ _ _ => [],
    contains := fun _ _ => false }

/-- The tree `(parallel [(simple_return) (nop)])` at the addresses 1, 2, 3. -/
def parallelTree : Statement Nat :=
  Statement.Parallel 1 [Statement.Exit 2 EXIT_TYPE.RET, Statement.Nop 3]

/-- A separately built `(parallel [(simple_return) (nop)])` at the addresses 4, 5,
6. -/
def parallelCopy : Statement Nat :=
  Statement.Parallel 4 [Statement.Exit 5 EXIT_TYPE.RET, Statement.Nop 6]

/-- The address `a` is the address of one of the statement nodes `ns`, or an
expression child of one of them contains it. -/
def Statement.holds_addr {E : Type} (ops : ExprOps E) (ns : List (Statement E)) (a : Nat) :
    Prop :=
  (∃ n ∈ ns, n.this_addr = a) ∨ (∃ n ∈ ns, ∃ e ∈ n.exprs, ops.contains e a = true)

/-- The address `x` is the address of one of the statement nodes `ns` that is equal
to `v` under `eq`, or is found by `find(eq, v)` in an expression child of one of
them. -/
def Statement.found_in {E : Type} (ops : ExprOps E) (eq : RTL_EQUAL) (ns : List (Statement E))
    (v : RTLPtr E) (x : Nat) : Prop :=
  (∃ n ∈ ns, n.this_addr = x ∧ Statement.equal ops eq n v = Except.ok true) ∨
  (∃ n ∈ ns, ∃ e ∈ n.exprs, x ∈ ops.find eq e v)

mutual

/-- No child pointer of the tree is null (the trees the parser builds). -/
def Statement.no_null {E : Type} : Statement E → Bool
  | Statement.Parallel _ stmts_ => Statement.no_null_all stmts_
  | Statement.Sequence _ stmts_ => Statement.no_null_all stmts_
  | Statement.Assign _ dst_ src_ => dst_.isSome && src_.isSome
  | Statement.Call _ target_ => target_.isSome
  | Statement.Clobber _ expr_ => expr_.isSome
  | Statement.Exit _ _ => true
  | Statement.Nop _ => true

/-- No child pointer of the trees of a list is null. -/
def Statement.no_null_all {E : Type} : List (Statement E) → Bool
  | [] => true
  | s :: rest => Statement.no_null s && Statement.no_null_all rest

end

/-- The `(nop)` node of `parallelTree`, at the address 3. -/
def nopNode : Statement Nat := Statement.Nop 3

/-! ## Execution of statements (`Parallel::execute`, `Sequence::execute`,
`Assign::execute`, `Clobber::execute`) -/

/-- The enumerator `SP` of `SYSTEM::Reg` (system.h 110-119), as its value. -/
def ELF_x86.Reg.SP : Nat := 5

/-- The enumerator `DI` of `SYSTEM::Reg` (system.h 110-119), as its value. -/
def ELF_x86.Reg.DI : Nat := 8

/-- The enumerator `FLAGS` of `SYSTEM::Reg` (system.h 110-119), as its value. -/
def ELF_x86.Reg.FLAGS : Nat := 18

/-- The source's `SYSTEM::STACK_PTR = Reg::SP` (system.h 133). -/
def ELF_x86.STACK_PTR : Nat := ELF_x86.Reg.SP

/-- The source's `SYSTEM::FLAGS = Reg::FLAGS` (system.h 136). -/
def ELF_x86.FLAGS : Nat := ELF_x86.Reg.FLAGS

/-- What the `execute` and `assign_flags` methods of `rtl.cpp` call and the sources do
not hold (`state.h`, `domain.h`, `macro.h`, `rtl.h`, `function.h`, `common.h`,
`config.h`, `expr.cpp`), as parameters. `σ` is everything the statements change: the
`State` with the instruction, block and function it points to, and the members
`run_assign_flags_` of the statement objects. `E` is the type of the expression
objects, `V` is `AbsVal`, `I` is `AbsId`, `F` is `AbsFlags`, `M` is the region and
range that `IF_MEMORY_ADDR` binds; a `UnitId` is a number.

* Configuration: `ENABLE_SUPPORT_CONSTRAINT`.
* Expressions: `addr e` is the address of the object, `simplify`, `mode_size` and
  `expr_id` are the methods of that name, `eval e s` is the value that `e->eval(s)`
  returns and the state it leaves (it takes a `State&`), `as_Reg e` is `reg()` of the
  cast `(Reg*)(*e)`, `as_Mem e` is `addr()` of the cast `(Mem*)(*e)`, `as_NoType e` is
  `to_string()` of the cast `(NoType*)(*e)` (`none` for a null cast), `as_Binary e`
  tells whether `(Binary*)(*e)` is not null, and `flags_of_pair e s` is
  `AbsFlags(bin->expr_pair(s))` for that cast.
* Abstract values: `mode v size` is `v` after `v.mode(size)`, `PC` is
  `AbsVal(AbsVal::T::PC)`, `BaseLH_top v` is `ABSVAL(BaseLH,v).top()`,
  `BaseLH_notlocal v` is `ABSVAL(BaseLH,v).notlocal()`, `IF_MEMORY_ADDR v` is what the
  macro of that name binds to `r` and `range` (`none` when it skips its body),
  `stack_zero m` is `r == REGION::STACK && range == Range::ZERO`; `id_eq` is
  `operator==` of `AbsId`, `equal_sym`, `reg_expr`, `const_expr`, `offset` and
  `easy_depended` are its members; `flags_default` is `AbsFlags()`.
* State: `get_id r` is `get_id(r)` of a register, `get_id_lo m` and `get_id_hi m` are
  `get_id(r, range.lo())` and `get_id(r, range.hi())`; `commit_insn`, `update id v`,
  `update_range l h size v`, `clobber id`, `clobber_STACK` and `clobber_STATIC` are the
  methods of `State`; `indirect_target s` tells whether
  `state.loc.insn->indirect_target()` is not null; `set_target_expr v` is the
  assignment `state.loc.func->target_expr[state.loc.insn->offset()] =
  ABSVAL(BaseStride,v).clone()`; `lea`, `this_points`, `this_pointer`, `lea_dst` read
  `state.lea` and the members of `state.get_func()`, and the `set_` fields assign
  them; `set_flags` assigns `s.loc.block->flags`, `clear_flags` is `flags.clear()`;
  `run_assign_flags_ a` reads the member of the `Assign` object at the address `a`.
* Macros: `UPDATE_VALUE dst source`, `CHECK_UNINIT v size code` are the macros of that
  name; `IF_EXIT_Expr c x s cond` and `IF_EXIT_LeaDstType c x s cond` are what the
  macro `IF_EXIT` binds to `res` for the container `c`, the second argument `x`
  (`none` where the source leaves it empty), the state and the condition on `it`
  (`none` when the macro runs its last block); `EXECUTE_CALL` and `EXECUTE_EXIT` are
  the bodies of `Call::execute` and `Exit::execute`.
* `rtl.h`: `execute_Nop` is `Nop::execute`, and `assign_flags_other` is
  `stmt->assign_flags(s)` of the classes that `rtl.cpp` does not define it for. -/
structure StateOps (σ E V I F M : Type) where
  ENABLE_SUPPORT_CONSTRAINT : Bool
  addr : E → Nat
  simplify : E → E
  mode_size : E → Nat
  eval : E → σ → V × σ
  expr_id : E → σ → I
  as_Reg : E → Option Nat
  as_Mem : E → Option E
  as_NoType : E → Option (List Char)
  as_Binary : E → Bool
  flags_of_pair : E → σ → F
  mode : V → Nat → V
  PC : V
  BaseLH_top : V → Bool
  BaseLH_notlocal : V → Bool
  IF_MEMORY_ADDR : V → Option M
  stack_zero : M → Bool
  id_eq : I → I → Bool
  equal_sym : I → I → Bool
  reg_expr : I → Bool
  const_expr : I → Bool
  offset : I → IMM
  easy_depended : I → I → Bool
  flags_default : F
  get_id : Nat → Nat
  get_id_lo : M → Nat
  get_id_hi : M → Nat
  commit_insn : σ → σ
  update : Nat → V → σ → σ
  update_range : Nat → Nat → Nat → V → σ → σ
  clobber : Nat → σ → σ
  clobber_STACK : σ → σ
  clobber_STATIC : σ → σ
  indirect_target : σ → Bool
  set_target_expr : V → σ → σ
  lea : σ → Int
  set_lea : Int → σ → σ
  this_points : σ → List E
  set_this_points : List E → σ → σ
  this_pointer : σ → Bool
  set_this_pointer : Bool → σ → σ
  lea_dst : σ → List (IMM × E)
  set_lea_dst : List (IMM × E) → σ → σ
  set_vfunc_table : IMM → σ → σ
  set_flags : F → σ → σ
  clear_flags : σ → σ
  run_assign_flags_ : Nat → σ → Bool
  set_run_assign_flags_ : Nat → Bool → σ → σ
  UPDATE_VALUE : E → E → σ → σ
  CHECK_UNINIT : V → Nat → Nat → σ → σ
  IF_EXIT_Expr : List E → Option E → σ → (E → Bool) → Option E
  IF_EXIT_LeaDstType : List (IMM × E) → Option E → σ → (IMM × E → Bool) → Option (IMM × E)
  EXECUTE_CALL : Nat → Option E → σ → Except Stop σ
  EXECUTE_EXIT : Nat → EXIT_TYPE → σ → Except Stop σ
  execute_Nop : Nat → σ → Except Stop σ
  assign_flags_other : Statement E → σ → Except Stop σ

section Execute

variable {σ E V I F M : Type}

/-- The branch `dst is register` of `Assign::Execute_ASSIGN` (rtl.cpp 394-404):
`reg` is `reg->reg()` of the destination. -/
def Assign.execute_reg (ops : StateOps σ E V I F M) (reg : Nat) (destination source : E)
    (size_d : Nat) (state : σ) : σ :=
  let aval_s := ops.mode (ops.eval source state).1 size_d
  let state := (ops.eval source state).2
  let state :=
    if reg ≠ ELF_x86.FLAGS then
      ops.UPDATE_VALUE destination source (ops.update (ops.get_id reg) aval_s state)
    else state
  if reg = ELF_x86.STACK_PTR then ops.CHECK_UNINIT aval_s size_d 0x4 state else state

/-- The branch `dst is memory` of `Assign::Execute_ASSIGN` (rtl.cpp 405-428):
`mem_addr` is `mem->addr()` of the destination. -/
def Assign.execute_mem (ops : StateOps σ E V I F M) (mem_addr destination source : E)
    (size_d : Nat) (state : σ) : σ :=
  let aval_addr := (ops.eval mem_addr state).1
  let state := (ops.eval mem_addr state).2
  let init_size := ops.mode_size mem_addr
  let state := ops.CHECK_UNINIT aval_addr init_size 0x1 state
  let aval_s := ops.mode (ops.eval source state).1 size_d
  let state := (ops.eval source state).2
  let state :=
    if ops.BaseLH_top aval_addr then ops.clobber_STATIC (ops.clobber_STACK state)
    else if ops.BaseLH_notlocal aval_addr then ops.clobber_STATIC state
    else
      match ops.IF_MEMORY_ADDR aval_addr with
      | some m =>
          let state := ops.update_range (ops.get_id_lo m) (ops.get_id_hi m) size_d aval_s state
          if ops.stack_zero m then ops.CHECK_UNINIT aval_s size_d 0x4 state else state
      | none => state
  ops.UPDATE_VALUE destination source state

/-- The replacement of the control-flow target with `T::PC` in the branch `dst is pc`
(rtl.cpp 441-455). -/
def Assign.replace_target (ops : StateOps σ E V I F M) (source : E) (state : σ) : σ :=
  match ops.as_Reg source with
  | some reg => ops.update (ops.get_id reg) ops.PC state
  | none =>
      match ops.as_Mem source with
      | some mem_addr =>
          let aval_addr := (ops.eval mem_addr state).1
          let state := (ops.eval mem_addr state).2
          let init_size := ops.mode_size mem_addr
          let state := ops.CHECK_UNINIT aval_addr init_size 0x1 state
          match ops.IF_MEMORY_ADDR aval_addr with
          | some m => ops.update_range (ops.get_id_lo m) (ops.get_id_hi m) 8 ops.PC state
          | none => state
      | none => state

/-- The branch `dst is pc` of `Assign::Execute_ASSIGN` (rtl.cpp 429-459), for a
destination whose `to_string()` is `pc`. -/
def Assign.execute_pc (ops : StateOps σ E V I F M) (source : E) (size_d size_s : Nat)
    (state : σ) : σ :=
  let aval_s := ops.mode (ops.eval source state).1 size_d
  let state := (ops.eval source state).2
  let state := ops.CHECK_UNINIT aval_s size_s 0x2 state
  if ops.indirect_target state then
    Assign.replace_target ops source (ops.set_target_expr aval_s state)
  else state

/-- The three destination shapes of `Assign::Execute_ASSIGN` (rtl.cpp 390-461). -/
def Assign.execute_dst (ops : StateOps σ E V I F M) (destination source : E) (state : σ) : σ :=
  let size_d := ops.mode_size destination
  let size_s := ops.mode_size source
  match ops.as_Reg destination with
  | some reg => Assign.execute_reg ops reg destination source size_d state
  | none =>
      match ops.as_Mem destination with
      | some mem_addr => Assign.execute_mem ops mem_addr destination source size_d state
      | none =>
          match ops.as_NoType destination with
          | some str =>
              if str = ['p', 'c'] then Assign.execute_pc ops source size_d size_s state
              else state
          | none => state

/-- The flow of the this pointer in `Assign::Execute_ASSIGN` (rtl.cpp 463-483): the
local `this_p` after the block, and the state. -/
def Assign.track_this (ops : StateOps σ E V I F M) (destination source : E) (state : σ) :
    List E × σ :=
  let this_p := ops.this_points state
  if ops.this_pointer state then
    match ops.IF_EXIT_Expr this_p (some destination) state
        (fun it => ops.id_eq (ops.expr_id it state) (ops.expr_id destination state)) with
    | some res =>
        let this_p := this_p.filter (fun x => decide (ops.addr x ≠ ops.addr res))
        (this_p, ops.set_this_points this_p state)
    | none =>
        match ops.IF_EXIT_Expr this_p none state
            (fun it => ops.id_eq (ops.expr_id it state) (ops.expr_id source state)) with
        | some _ =>
            let this_p := this_p ++ [destination]
            (this_p, ops.set_this_points this_p state)
        | none => (this_p, state)
  else (this_p, state)

/-- The first use of `di` as a source in `Assign::Execute_ASSIGN` (rtl.cpp 484-490). -/
def Assign.latch_this (ops : StateOps σ E V I F M) (destination source : E) (state : σ) : σ :=
  match ops.as_Reg source with
  | some reg_s =>
      if reg_s = ELF_x86.Reg.DI ∧ ops.this_pointer state = false ∧ ops.lea state ≠ 3 then
        ops.set_this_pointer true
          (ops.set_this_points (ops.this_points state ++ [destination]) state)
      else state
  | none => state

/-- The test of `it.second` against the source in the flow of the `lea` pointer
(rtl.cpp 498-499, 505-506): the same symbol, a register expression, an offset that
is a multiple of 8. -/
def Assign.lea_alias (ops : StateOps σ E V I F M) (source : E) (state : σ) (it : IMM × E) :
    Bool :=
  ops.equal_sym (ops.expr_id it.2 state) (ops.expr_id source state) &&
    ops.reg_expr (ops.expr_id it.2 state) &&
    decide ((ops.offset (ops.expr_id it.2 state)).tmod 8 = 0)

/-- The flow of the `lea` pointer in `Assign::Execute_ASSIGN` (rtl.cpp 492-515): the
local `lea_dst` after the block, and the state. -/
def Assign.track_lea (ops : StateOps σ E V I F M) (destination source : E) (state : σ) :
    List (IMM × E) × σ :=
  let lea_dst := ops.lea_dst state
  if ops.lea state = 2 then
    match ops.IF_EXIT_LeaDstType lea_dst (some destination) state
        (fun it => ops.id_eq (ops.expr_id it.2 state) (ops.expr_id destination state) &&
          !(Assign.lea_alias ops source state it)) with
    | some res =>
        let lea_dst := lea_dst.filter
          (fun x => !(decide (x.1 = res.1) && decide (ops.addr x.2 = ops.addr res.2)))
        (lea_dst, ops.set_lea_dst lea_dst state)
    | none =>
        match ops.IF_EXIT_LeaDstType lea_dst (some source) state
            (fun it => ops.id_eq (ops.expr_id it.2 state) (ops.expr_id source state) ||
              Assign.lea_alias ops source state it) with
        | some res =>
            let aval_s := (res.1, destination)
            let lea_dst := lea_dst.filter
              (fun x => !(decide (x.1 = res.1) && decide (ops.addr x.2 = ops.addr res.2)))
            let lea_dst := lea_dst ++ [aval_s]
            (lea_dst, ops.set_lea_dst lea_dst state)
        | none => (lea_dst, state)
  else (lea_dst, state)

/-- The start of the `lea` tracking in `Assign::Execute_ASSIGN` (rtl.cpp 516-521). -/
def Assign.init_lea (ops : StateOps σ E V I F M) (destination source : E) (state : σ) : σ :=
  if ops.lea state = 1 ∧ ops.const_expr (ops.expr_id source state) = true then
    ops.set_lea 2
      (ops.set_lea_dst
        (ops.lea_dst state ++ [(ops.offset (ops.expr_id source state), destination)]) state)
  else state

/-- The last block of `Assign::Execute_ASSIGN` (rtl.cpp 527-539): the two loops over
the locals `lea_dst` and `this_p`. -/
def Assign.latch_vfunc_table (ops : StateOps σ E V I F M) (lea_dst : List (IMM × E))
    (this_p : List E) (state : σ) : σ :=
  if ops.lea state = 2 then
    lea_dst.foldl (fun state it =>
      this_p.foldl (fun state it2 =>
        if ops.easy_depended (ops.expr_id it.2 state) (ops.expr_id it2 state) then
          ops.set_vfunc_table it.1 (ops.set_this_pointer false (ops.set_lea 3 state))
        else state) state) state
  else state

/-- The source's `Assign::Execute_ASSIGN` (rtl.cpp 387-540) for the simplified
destination and source. -/
def Assign.Execute_simplified (ops : StateOps σ E V I F M) (destination source : E)
    (state : σ) : σ :=
  let state := Assign.execute_dst ops destination source state
  let this_p := (Assign.track_this ops destination source state).1
  let state := (Assign.track_this ops destination source state).2
  let state := Assign.latch_this ops destination source state
  let lea_dst := (Assign.track_lea ops destination source state).1
  let state := (Assign.track_lea ops destination source state).2
  let state := Assign.init_lea ops destination source state
  Assign.latch_vfunc_table ops lea_dst this_p state

/-- The source's `Assign::Execute_ASSIGN` (rtl.cpp 387-540); `dst()->simplify()` and
`src()->simplify()` dereference the children: a fault for a null child. -/
def Assign.Execute_ASSIGN (ops : StateOps σ E V I F M) (dst_ src_ : Option E) (state : σ) :
    Except Stop σ :=
  match dst_ with
  | none => Except.error Stop.fault
  | some d =>
      match src_ with
      | none => Except.error Stop.fault
      | some e => Except.ok (Assign.Execute_simplified ops (ops.simplify d) (ops.simplify e) state)

/-- The source's `Assign::assign_flags` (rtl.cpp 551-561) of the object at the address
`this_addr`. -/
def Assign.assign_flags (ops : StateOps σ E V I F M) (this_addr : Nat) (dst_ src_ : Option E)
    (s : σ) : Except Stop σ :=
  match dst_ with
  | none => Except.error Stop.fault
  | some d =>
      match ops.as_Reg (ops.simplify d) with
      | some reg =>
          if reg = ELF_x86.FLAGS then
            match src_ with
            | none => Except.error Stop.fault
            | some e =>
                let flags :=
                  if ops.as_Binary (ops.simplify e) then ops.flags_of_pair (ops.simplify e) s
                  else ops.flags_default
                Except.ok (ops.set_run_assign_flags_ this_addr false (ops.set_flags flags s))
          else Except.ok (ops.set_run_assign_flags_ this_addr false s)
      | none => Except.ok (ops.set_run_assign_flags_ this_addr false s)

/-- The source's `Assign::execute` (rtl.cpp 541-547) of the object at the address
`this_addr`. -/
def Assign.execute (ops : StateOps σ E V I F M) (this_addr : Nat) (dst_ src_ : Option E)
    (s : σ) : Except Stop σ :=
  match Assign.Execute_ASSIGN ops dst_ src_ s with
  | Except.error e => Except.error e
  | Except.ok s1 =>
      if ops.ENABLE_SUPPORT_CONSTRAINT = true ∧ ops.run_assign_flags_ this_addr s1 = true then
        Assign.assign_flags ops this_addr dst_ src_ s1
      else Except.ok s1

/-- The source's `Clobber::execute` (rtl.cpp 689-694); the cast dereferences `expr_`: a
fault for a null child. -/
def Clobber.execute (ops : StateOps σ E V I F M) (expr_ : Option E) (s : σ) : Except Stop σ :=
  match expr_ with
  | none => Except.error Stop.fault
  | some e =>
      match ops.as_Reg e with
      | some reg =>
          if reg ≠ ELF_x86.FLAGS then Except.ok (ops.clobber (ops.get_id reg) s)
          else Except.ok s
      | none => Except.ok s

/-- The source's `Clobber::assign_flags` (rtl.cpp 698-706). -/
def Clobber.assign_flags (ops : StateOps σ E V I F M) (expr_ : Option E) (s : σ) :
    Except Stop σ :=
  match expr_ with
  | none => Except.error Stop.fault
  | some e =>
      match ops.as_Reg e with
      | some reg =>
          if reg = ELF_x86.FLAGS then Except.ok (ops.clear_flags s) else Except.ok s
      | none => Except.ok s

/-- The call `stmt->assign_flags(s)`: `Assign::assign_flags` and
`Clobber::assign_flags` of `rtl.cpp`, and the parameter for the other classes. -/
def Statement.assign_flags (ops : StateOps σ E V I F M) (stmt : Statement E) (s : σ) :
    Except Stop σ :=
  match stmt with
  | Statement.Assign a dst_ src_ => Assign.assign_flags ops a dst_ src_ s
  | Statement.Clobber _ expr_ => Clobber.assign_flags ops expr_ s
  | Statement.Parallel a l => ops.assign_flags_other (Statement.Parallel a l) s
  | Statement.Sequence a l => ops.assign_flags_other (Statement.Sequence a l) s
  | Statement.Call a t => ops.assign_flags_other (Statement.Call a t) s
  | Statement.Exit a t => ops.assign_flags_other (Statement.Exit a t) s
  | Statement.Nop a => ops.assign_flags_other (Statement.Nop a) s

/-- The loop `for (auto stmt: stmts_) stmt->assign_flags(s);` of `Parallel::execute`
(rtl.cpp 211-214), compiled in when `ENABLE_SUPPORT_CONSTRAINT` is set. -/
def Statement.assign_flags_all (ops : StateOps σ E V I F M) (stmts_ : List (Statement E))
    (s : σ) : Except Stop σ :=
  if ops.ENABLE_SUPPORT_CONSTRAINT then
    stmts_.foldlM (fun s stmt => Statement.assign_flags ops stmt s) s
  else Except.ok s

mutual

/-- The source's `execute(s)` of the statement classes: `Parallel::execute` (rtl.cpp
210-217), `Sequence::execute` (304-311), `Assign::execute` (541-547), `Call::execute`
(631-633), `Clobber::execute` (689-694), `Exit::execute` (768-770), and `Nop::execute`
of `rtl.h`. -/
def Statement.execute (ops : StateOps σ E V I F M) : Statement E → σ → Except Stop σ
  | Statement.Parallel _ stmts_, s =>
      match Statement.assign_flags_all ops stmts_ s with
      | Except.error e => Except.error e
      | Except.ok s1 => Statement.execute_par ops stmts_ s1
  | Statement.Sequence _ stmts_, s => Statement.execute_seq ops stmts_ s
  | Statement.Assign a dst_ src_, s => Assign.execute ops a dst_ src_ s
  | Statement.Call a target_, s => ops.EXECUTE_CALL a target_ s
  | Statement.Clobber _ expr_, s => Clobber.execute ops expr_ s
  | Statement.Exit a t, s => ops.EXECUTE_EXIT a t s
  | Statement.Nop a, s => ops.execute_Nop a s

/-- The loop `for (auto stmt: stmts_) stmt->execute(s);` of `Parallel::execute`. -/
def Statement.execute_par (ops : StateOps σ E V I F M) :
    List (Statement E) → σ → Except Stop σ
  | [], s => Except.ok s
  | stmt :: rest, s =>
      match Statement.execute ops stmt s with
      | Except.error e => Except.error e
      | Except.ok s1 => Statement.execute_par ops rest s1

/-- The loop `for (auto stmt: stmts_) { s.commit_insn(); stmt->execute(s); }` of
`Sequence::execute`. -/
def Statement.execute_seq (ops : StateOps σ E V I F M) :
    List (Statement E) → σ → Except Stop σ
  | [], s => Except.ok s
  | stmt :: rest, s =>
      match Statement.execute ops stmt (ops.commit_insn s) with
      | Except.error e => Except.error e
      | Except.ok s1 => Statement.execute_seq ops rest s1

end

end Execute

/-- Modelled from the spec: the abstract `State` of `state.h` (not among the
sources), restricted to registers: the committed value of every register, and the
writes of the pending instruction in the order they were made. -/
structure RegState (V : Type) where
  committed : Nat → V
  pending : List (Nat × V)

/-- Modelled from the spec: `State::read(id)`, the committed value of a register. -/
def RegState.read {V : Type} (s : RegState V) (id : Nat) : V :=
  s.committed id

/-- Modelled from the spec: `State::update(id, val)` for a register, a strong update
that belongs to the pending instruction until `commit_insn`. -/
def RegState.update {V : Type} (s : RegState V) (id : Nat) (val : V) : RegState V :=
  { s with pending := s.pending ++ [(id, val)] }

/-- Modelled from the spec: `State::commit_insn()`, which promotes the writes of the
pending instruction. -/
def RegState.commit_insn {V : Type} (s : RegState V) : RegState V :=
  { committed := s.pending.foldl (fun m w => fun id => if id = w.1 then w.2 else m id)
      s.committed,
    pending := [] }

/-- Modelled from the spec: the expressions over registers that the commit order is
stated with: a register, a constant and an operation `f` applied to an
expression. -/
inductive RegExpr (V : Type) where
  | Reg (r : Nat)
  | Const (v : V)
  | Unary (f : V → V) (e : RegExpr V)

/-- Modelled from the spec: `eval(state)` of an expression, which reads registers from
the state. -/
def RegExpr.eval {V : Type} : RegExpr V → RegState V → V
  | RegExpr.Reg r, s => s.read r
  | RegExpr.Const v, _ => v
  | RegExpr.Unary f e, s => f (e.eval s)

/-- Modelled from the spec: an expression whose `eval` reads nothing but committed
values of registers. -/
def StateOps.reads_committed {σ E V I F M : Type} (ops : StateOps σ E V I F M)
    (regs : σ → RegState V) (e : E) : Prop :=
  ∀ s s', (regs s).committed = (regs s').committed → (ops.eval e s).1 = (ops.eval e s').1

/-- The cast `(Reg*)(*e)` on the expressions over registers. -/
def RegExpr.as_Reg {V : Type} : RegExpr V → Option Nat
  | RegExpr.Reg r => some r
  | RegExpr.Const _ => none
  | RegExpr.Unary _ _ => none

/-- Modelled from the spec: a `State` that consists of the registers alone, with the
expressions over registers; `simplify` is `Expr::simplify` of expr.h 101, a
`UnitId` of a register is its number, a value has no mode, and nothing but the
registers is kept. -/
def regOps {V : Type} (top : V) (support_constraint : Bool) :
    StateOps (RegState V) (RegExpr V) V Unit Unit Unit :=
  { ENABLE_SUPPORT_CONSTRAINT := support_constraint,
    addr := fun _ => 0,
    simplify := fun e => e,
    mode_size := fun _ => 8,
    eval := fun e s => (e.eval s, s),
    expr_id := fun _ _ => (),
    as_Reg := RegExpr.as_Reg,
    as_Mem := fun _ => none,
    as_NoType := fun _ => none,
    as_Binary := fun _ => false,
    flags_of_pair := fun _ _ => (),
    mode := fun v _ => v,
    PC := top,
    BaseLH_top := fun _ => true,
    BaseLH_notlocal := fun _ => false,
    IF_MEMORY_ADDR := fun _ => none,
    stack_zero := fun _ => false,
    id_eq := fun _ _ => false,
    equal_sym := fun _ _ => false,
    reg_expr := fun _ => false,
    const_expr := fun _ => false,
    offset := fun _ => 0,
    easy_depended := fun _ _ => false,
    flags_default := (),
    get_id := fun r => r,
    get_id_lo := fun _ => 0,
    get_id_hi := fun _ => 0,
    commit_insn := RegState.commit_insn,
    update := fun id v s => s.update id v,
    update_range := fun _ _ _ _ s => s,
    clobber := fun id s => s.update id top,
    clobber_STACK := fun s => s,
    clobber_STATIC := fun s => s,
    indirect_target := fun _ => false,
    set_target_expr := fun _ s => s,
    lea := fun _ => 0,
    set_lea := fun _ s => s,
    this_points := fun _ => [],
    set_this_points := fun _ s => s,
    this_pointer := fun _ => false,
    set_this_pointer := fun _ s => s,
    lea_dst := fun _ => [],
    set_lea_dst := fun _ s => s,
    set_vfunc_table := fun _ s => s,
    set_flags := fun _ s => s,
    clear_flags := fun s => s,
    run_assign_flags_ := fun _ _ => true,
    set_run_assign_flags_ := fun _ _ s => s,
    UPDATE_VALUE := fun _ _ s => s,
    CHECK_UNINIT := fun _ _ _ s => s,
    IF_EXIT_Expr := fun c _ _ cond => c.find? cond,
    IF_EXIT_LeaDstType := fun c _ _ cond => c.find? cond,
    EXECUTE_CALL := fun _ _ s => Except.ok s,
    EXECUTE_EXIT := fun _ _ s => Except.ok s,
    execute_Nop := fun _ s => Except.ok s,
    assign_flags_other := fun _ s => Except.ok s }

/-- A TOP object whose fields hold the constant `500` (stride 0, no memory read). -/
def topTerm : BaseStride :=
  BaseStride.node BaseStride.T.TOP 500 0 8 true {} BaseStride.null BaseStride.null

/-- A DYNAMIC object whose fields hold the constant `500` (stride 0, no memory
read). -/
def dynamicTerm : BaseStride :=
  BaseStride.node BaseStride.T.DYNAMIC 500 0 8 true {} BaseStride.null BaseStride.null

/-- The values that `current_addr` takes at the lookups of the `while (true)` loop of
`scan_vfunc` for one header (program.cpp 618-636), in order: the walk of
`Program.scan_vfunc_walk` with the visited addresses written down. -/
def Program.scan_vfunc_visits (v_tables : UMap USet) : Nat → IMM → Except Stop (List IMM)
  | 0, _ => Except.error Stop.out_of_fuel
  | fuel + 1, current_addr =>
      if v_tables.any (fun pair => decide (current_addr ∈ pair.2)) then
        match Program.scan_vfunc_visits v_tables fuel (current_addr + 8) with
        | Except.error e => Except.error e
        | Except.ok visited => Except.ok (current_addr :: visited)
      else Except.ok [current_addr]

/-! ## The driver (`examples/jump_table/jump_table.cpp`) -/

/-- The macro `RECUR_LIMIT` of `jump_table.cpp`. -/
def RECUR_LIMIT : Nat := 200

/-- What the loops of `main` call, as parameters over the state `σ` of the analysis
(the program `p` and everything `Function::analyze` keeps): `p->update_num`,
`p->fptrs(fptrs)`, `p->update()`, the body of the inner loop up to and including
`p->resolve_unbounded_icf()` (`resolve`), `p->icfs().size()` and
`p->scan_fptrs_in_gap()`, which returns the candidate list. -/
structure DriverOps (σ : Type) where
  update_num : σ → Nat
  fptrs : List IMM → σ → σ
  update : σ → σ
  resolve : σ → σ
  icfs_size : σ → Nat
  scan_fptrs_in_gap : σ → List IMM × σ

/-- The inner loop `while (true)` of `main` (jump_table.cpp 175-202): resolve, leave
when `icfs()` did not grow, else `update()` and go round again. -/
def driver_inner {σ : Type} (ops : DriverOps σ) : Nat → σ → Except Stop σ
  | 0, _ => Except.error Stop.out_of_fuel
  | fuel + 1, s =>
      if ops.icfs_size s = ops.icfs_size (ops.resolve s) then Except.ok (ops.resolve s)
      else driver_inner ops fuel (ops.update (ops.resolve s))

/-- The outer loop `while (!fptrs.empty() && p->update_num <= RECUR_LIMIT)` of `main`
(jump_table.cpp 170-206); the result is the last candidate list and the last state.
`limit` is `RECUR_LIMIT`. -/
def driver_outer {σ : Type} (ops : DriverOps σ) (limit : Nat) :
    Nat → List IMM → σ → Except Stop (List IMM × σ)
  | 0, _, _ => Except.error Stop.out_of_fuel
  | fuel + 1, fptrs, s =>
      if fptrs ≠ [] ∧ ops.update_num s ≤ limit then
        match driver_inner ops fuel (ops.update (ops.fptrs fptrs s)) with
        | Except.error e => Except.error e
        | Except.ok s1 =>
            driver_outer ops limit fuel (ops.scan_fptrs_in_gap s1).1 (ops.scan_fptrs_in_gap s1).2
      else Except.ok (fptrs, s)

/-- A run of the driver in which the state is the update counter alone: `update()`
adds one, `icfs()` never grows, and `scan_fptrs_in_gap()` returns one candidate every
time. -/
def countingOps : DriverOps Nat :=
  { update_num := fun n => n,
    fptrs := fun _ n => n,
    update := fun n => n + 1,
    resolve := fun n => n,
    icfs_size := fun _ => 0,
    scan_fptrs_in_gap := fun n => ([1], n) }

/-- The digit characters of `std::hex` output, lowercase. -/
def hex_char (d : Nat) : Char :=
  if d < 10 then Char.ofNat (48 + d) else Char.ofNat (87 + d)

/-- The hexadecimal numeral of `n`, most significant digit first, without prefix and
without leading zeros, written in front of `acc`; `fuel` is the greatest number of
digits. -/
def hex_numeral : Nat → Nat → List Char → List Char
  | 0, _, acc => acc
  | fuel + 1, n, acc =>
      if n < 16 then hex_char n :: acc
      else hex_numeral fuel (n / 16) (hex_char (n % 16) :: acc)

/-- The source's `to_hex(int val)` (jump_table.cpp 108-112) called with an `IMM`, as
`generate_json_output` does: the argument is converted to the parameter type `int`,
and `ss << std::hex << val` writes the value as `unsigned int`, at most eight
digits. -/
def to_hex (v : IMM) : List Char :=
  let val : Int := to_i32 (to_u64 v)
  hex_numeral 8 (val % 2 ^ 32).toNat []

/-- The number that a string of hexadecimal digits denotes, read as base 16. -/
def hex_value (s : List Char) : Nat :=
  s.foldl (fun acc c => 16 * acc + hex_digit c) 0

/-! ## Marking of updated blocks (`Program::propagate_update`) -/

namespace Program

/-- The write `b->update_num = update_num` of `propagate_update`. -/
def mark (p : Program) (b : Nat) : Program :=
  p.modify_block b (fun x => { x with update_num := p.update_num })

/-- Block `v` carries the counter value of the round: `v->update_num == update_num`,
the test of `Program::updated`. -/
def is_marked (p : Program) (v : Nat) : Bool :=
  match p.blocks.get? v with
  | some blk => decide (blk.update_num = p.update_num)
  | none => false

/-- Block `v` is below the counter: `v->update_num < update_num`, the test of
`propagate_update`. -/
def is_below (p : Program) (v : Nat) : Bool :=
  match p.blocks.get? v with
  | some blk => decide (blk.update_num < p.update_num)
  | none => false

/-- The number of blocks below the counter. -/
def unmarked_count (p : Program) : Nat :=
  ((List.range p.blocks.length).filter p.is_below).length

/-- Block `v` is one of the `superset_preds` of block `u`. -/
def superset_pred (p : Program) (u v : Nat) : Prop :=
  ∃ blk, p.blocks.get? u = some blk ∧ v ∈ blk.superset_preds

/-- Every pointer in a `superset_preds` list points to a block of the store. -/
def preds_valid (p : Program) : Prop :=
  ∀ u v, p.superset_pred u v → v < p.blocks.length

/-- No block is ahead of the counter. -/
def not_ahead (p : Program) : Prop :=
  ∀ v blk, p.blocks.get? v = some blk → blk.update_num ≤ p.update_num

/-- State `p'` differs from `p` at most in the `update_num` of blocks, each of which
is the old one or the counter. -/
structure MarkFrame (p p' : Program) : Prop where
  fields : p' = { p with blocks := p'.blocks }
  length_eq : p'.blocks.length = p.blocks.length
  block_eq : ∀ v blk, p.blocks.get? v = some blk →
    ∃ k, p'.blocks.get? v = some { blk with update_num := k } ∧
      (k = blk.update_num ∨ k = p.update_num)

/-- What a call `propagate_update(b)` has done when it leads from `p` to `p'`: only
`update_num` fields changed, `b` is marked, every block marked by the call is
reachable from `b` along `superset_preds`, and all `superset_preds` of `b` and of
every block marked by the call are marked. -/
structure Marks (p p' : Program) (b : Nat) : Prop where
  frame : MarkFrame p p'
  start : p'.is_marked b = true
  reach : ∀ v, p'.is_marked v = true →
    p.is_marked v = true ∨ Relation.ReflTransGen p.superset_pred b v
  closed : ∀ u, p'.is_marked u = true → p.is_marked u = false →
    ∀ v, p.superset_pred u v → p'.is_marked v = true
  closed_start : ∀ v, p.superset_pred b v → p'.is_marked v = true

end Program

/-- Four blocks in round 5: the `superset_preds` of block 0 are 1 and 2, block 1 has
block 0 and block 2 has itself (two cycles), and block 3 has block 0. -/
def cyclePredsProgram : Program :=
  { blocks := [{ insn_list := [0], superset_preds := [1, 2], update_num := 1 },
               { insn_list := [1], superset_preds := [0], update_num := 4 },
               { insn_list := [2], superset_preds := [2], update_num := 0 },
               { insn_list := [3], superset_preds := [0], update_num := 2 }],
    update_num := 5 }

/-! ## Termination of `block_dfs` -/

namespace Program

/-- The instruction at offset `k` exists and is not placed: `parent == nullptr`. -/
def unplaced (p : Program) (k : IMM) : Bool :=
  match p.i_map_.find k with
  | some insn => insn.parent.isNone
  | none => false

/-- The number of entries of `i_map_` whose instruction is not placed. -/
def unplaced_count (p : Program) : Nat :=
  p.i_map_.keys.countP p.unplaced

/-- The number of unplaced entries of `i_map_` at offset `i` or behind it. -/
def unplaced_from (p : Program) (i : IMM) : Nat :=
  p.i_map_.keys.countP (fun k => p.unplaced k && decide (i ≤ k))

/-- Every instruction of `i_map_` is stored under its own offset and has at least one
raw byte. -/
def insns_valid (p : Program) : Prop :=
  ∀ k insn, p.i_map_.find k = some insn → insn.offset = k ∧ 1 ≤ insn.size

/-- Block `b` exists and holds at least one instruction. -/
def has_insns (p : Program) (b : Nat) : Prop :=
  ∃ blk, p.blocks.get? b = some blk ∧ blk.insn_list ≠ []

/-- What every step of the control-flow reconstruction keeps: the entries of
`i_map_` with their offsets, a size of at least one byte, the placement of a placed
instruction, and the blocks created so far with their instruction lists. -/
structure Grows (p p' : Program) : Prop where
  keys_eq : p'.i_map_.keys = p.i_map_.keys
  insn : ∀ k insn, p.i_map_.find k = some insn →
    ∃ insn', p'.i_map_.find k = some insn' ∧ insn'.offset = insn.offset ∧
      (1 ≤ insn.size → 1 ≤ insn'.size) ∧ (insn.parent ≠ none → insn'.parent ≠ none)
  length_le : p.blocks.length ≤ p'.blocks.length
  block : ∀ b blk, p.blocks.get? b = some blk →
    ∃ blk', p'.blocks.get? b = some blk' ∧ blk'.insn_list = blk.insn_list

/-- A call has come to an end with a state that satisfies `P`; it may have ended in
a fault only when `abort` is set, and it has not run out of fuel. -/
def Settled (abort : Bool) (P : Program → Prop) : Except Stop Program → Prop
  | Except.ok p' => P p'
  | Except.error Stop.fault => abort = true
  | Except.error Stop.out_of_fuel => False

/-- `Settled` for a piece of a function body. -/
def SettledFlow (abort : Bool) (P : Program → Prop) : Except Stop Flow → Prop
  | Except.ok f => P f.prog
  | Except.error Stop.fault => abort = true
  | Except.error Stop.out_of_fuel => False

end Program

namespace Program

/-- The nested call `dfs` comes to an end on every state with valid instructions and
at most `n` unplaced ones when it is started at an unplaced instruction `t`, keeps what
`Grows` names, and, unless `abort` is set, places `t`. -/
def DfsSettles (abort : Bool) (n : Nat) (dfs : Program → IMM → Except Stop Program) : Prop :=
  ∀ q t, q.insns_valid → q.unplaced t = true → q.unplaced_count ≤ n →
    Settled abort (fun q' => Grows q q' ∧ (abort = false → q'.unplaced t = false)) (dfs q t)

/-- The functions `dfs` and `dfs'` return the same on every state with valid
instructions and at most `n` unplaced ones, for an unplaced instruction `t`. -/
def DfsAgree (n : Nat) (dfs dfs' : Program → IMM → Except Stop Program) : Prop :=
  ∀ q t, q.insns_valid → q.unplaced t = true → q.unplaced_count ≤ n → dfs' q t = dfs q t

end Program

/-- The nested calls of an invocation of `block_dfs` that has reached the transfer `i`
in state `p` come after the block has been created: whenever `new Block(i_list)` with
`i` in `i_list` leads to `p₁`, instruction `i` is placed in `p₁`, fewer instructions
are unplaced in `p₁` than in `p`, and the edges of the transfer (`dfs_transfer`, the
only part of `block_dfs` that makes nested calls) are the same for every function
`dfs'` that agrees with `block_dfs` on the states with at most as many unplaced
instructions as `p₁`, started at an unplaced instruction. -/
def Program.nested_calls_after_placement (cfg : Config) (fuel : Nat) (p : Program) (i : IMM) :
    Prop :=
  ∀ (i_list : List IMM) (p₁ : Program) (b : Nat), i ∈ i_list →
    p.new_block i_list = Except.ok (p₁, b) →
    p₁.unplaced i = false ∧ p₁.unplaced_count < p.unplaced_count ∧
    ∀ dfs' : Program → IMM → Except Stop Program,
      Program.DfsAgree p₁.unplaced_count (fun q t => Program.block_dfs cfg fuel q t [t]) dfs' →
      Program.dfs_transfer cfg dfs' p₁ i b
        = Program.dfs_transfer cfg (fun q t => Program.block_dfs cfg fuel q t [t]) p₁ i b

/-! # Theorems

Every definition of the development stands above this line. -/

/-! ## Sets and maps -/

theorem USet.mem_insert (s : USet) (a t : IMM) :
    t ∈ USet.insert s a ↔ t ∈ s ∨ t = a := by
  unfold USet.insert
  by_cases h : a ∈ s
  · simp only [h, if_true]
    constructor
    · intro ht; exact Or.inl ht
    · rintro (ht | rfl)
      · exact ht
      · exact h
  · simp [h]

theorem USet.mem_insert_range (ts : USet) : ∀ (s : USet) (t : IMM),
    t ∈ USet.insert_range s ts ↔ t ∈ s ∨ t ∈ ts := by
  induction ts with
  | nil => intro s t; simp [USet.insert_range]
  | cons a rest ih =>
    intro s t
    have h := ih (USet.insert s a) t
    unfold USet.insert_range at h ⊢
    rw [List.foldl_cons, h, USet.mem_insert]
    simp only [List.mem_cons]
    tauto

theorem USet.length_le_insert (s : USet) (a : IMM) :
    s.length ≤ (USet.insert s a).length := by
  unfold USet.insert
  split <;> simp

theorem UMap.find_set_self {V : Type} (m : UMap V) (k : IMM) (v : V) :
    (m.set k v).find k = some v := by
  induction m with
  | nil => simp [UMap.set, UMap.find]
  | cons e rest ih =>
    obtain ⟨k', v'⟩ := e
    by_cases h : k' = k
    · simp [UMap.set, UMap.find, h]
    · simp [UMap.set, UMap.find, h, ih]

theorem UMap.find_set_ne {V : Type} (m : UMap V) (k k' : IMM) (v : V) (hne : k' ≠ k) :
    (m.set k v).find k' = m.find k' := by
  induction m with
  | nil =>
    have : ¬ k = k' := fun h => hne h.symm
    simp [UMap.set, UMap.find, this]
  | cons e rest ih =>
    obtain ⟨k₀, v₀⟩ := e
    by_cases h : k₀ = k
    · subst h
      have : ¬ k₀ = k' := fun h => hne h.symm
      simp [UMap.set, UMap.find, this]
    · by_cases h' : k₀ = k'
      · subst h'
        simp [UMap.set, UMap.find, h]
      · simp [UMap.set, UMap.find, h, h', ih]

theorem UMap.get_set_self (m : UMap USet) (k : IMM) (v : USet) :
    UMap.get (m.set k v) k = v := by
  simp [UMap.get, UMap.find_set_self]

theorem UMap.get_set_ne (m : UMap USet) (k k' : IMM) (v : USet) (hne : k' ≠ k) :
    UMap.get (m.set k v) k' = UMap.get m k' := by
  simp [UMap.get, UMap.find_set_ne m k k' v hne]

/-! ## `icf` -/

theorem Program.icf_icfs_nonempty (p : Program) (loc : IMM) (T : USet) (hT : T ≠ []) :
    (p.icf loc T).icfs_ = p.icfs_.set loc (USet.insert_range (p.icfs_.get loc) T) := by
  unfold Program.icf
  have : T.isEmpty = false := by cases T <;> simp_all
  simp only [this, Bool.false_eq_true, if_false]
  split <;> rfl

theorem Program.icf_icfs_empty (p : Program) (loc : IMM) :
    (p.icf loc []).icfs_ = p.icfs_.set loc [] := by
  simp [Program.icf]

theorem Program.icf_jtable_targets (p : Program) (loc : IMM) (T : USet) :
    (p.icf loc T).jtable_targets = p.jtable_targets := by
  unfold Program.icf
  split
  · rfl
  · dsimp only; split <;> rfl

theorem Program.icf_unbounded_icf_targets (p : Program) (loc : IMM) (T : USet) :
    (p.icf loc T).unbounded_icf_targets = p.unbounded_icf_targets := by
  unfold Program.icf
  split
  · rfl
  · dsimp only; split <;> rfl

theorem icf_monotone_helper (p : Program) (loc : IMM) (T : USet) (hT : T ≠ []) :
    ∀ l t, t ∈ p.icfs_.get l → t ∈ (p.icf loc T).icfs_.get l := by
  intro l t ht
  rw [Program.icf_icfs_nonempty p loc T hT]
  by_cases hl : l = loc
  · subst hl
    rw [UMap.get_set_self, USet.mem_insert_range]
    exact Or.inl ht
  · rw [UMap.get_set_ne _ _ _ _ hl]
    exact ht

/-- C1 (as stated) fails: with 42 resolved for the jump at 7, `icf(7, {})`
leaves the jump at 7 without any target. -/
theorem icf_empty_removes_target :
    42 ∈ cexIcfProgram.icfs_.get 7 ∧ 42 ∉ (cexIcfProgram.icf 7 []).icfs_.get 7 := by
  decide

/-- C1 (amended): for every program state, jump location `loc` and non-empty
target set `T`, `icf(loc, T)` never removes a resolved target: the set stored for a
jump location before the call is a subset of the set stored for it after the call. -/
theorem icf_monotone_of_nonempty (p : Program) (loc : IMM) (T : USet) (hT : T ≠ []) :
    ∀ l t, t ∈ p.icfs_.get l → t ∈ (p.icf loc T).icfs_.get l :=
  icf_monotone_helper p loc T hT

/-- C4: for a non-empty `T`, after `icf(loc, T)` the set stored for `loc` is the
union of its previous value (empty when `loc` had no entry) with `T`, and the entry
of every other jump location is untouched. -/
theorem icf_union (p : Program) (loc : IMM) (T : USet) (hT : T ≠ []) :
    (∀ t, t ∈ (p.icf loc T).icfs_.get loc ↔ t ∈ p.icfs_.get loc ∨ t ∈ T) ∧
    (∀ l, l ≠ loc → (p.icf loc T).icfs_.find l = p.icfs_.find l) := by
  rw [Program.icf_icfs_nonempty p loc T hT]
  constructor
  · intro t
    rw [UMap.get_set_self, USet.mem_insert_range]
  · intro l hl
    exact UMap.find_set_ne _ _ _ _ hl

theorem icf_union_witness :
    ([43] : USet) ≠ [] ∧
    (∀ t, t ∈ (cexIcfProgram.icf 7 [43]).icfs_.get 7 ↔ t ∈ cexIcfProgram.icfs_.get 7 ∨ t ∈ [43]) ∧
    (∀ l, l ≠ 7 → (cexIcfProgram.icf 7 [43]).icfs_.find l = cexIcfProgram.icfs_.find l) :=
  ⟨by decide, icf_union cexIcfProgram 7 [43] (by decide)⟩


theorem icf_monotone_of_nonempty_witness :
    ([43] : USet) ≠ [] ∧
    (∀ l t, t ∈ cexIcfProgram.icfs_.get l → t ∈ (cexIcfProgram.icf 7 [43]).icfs_.get l) :=
  ⟨by decide, icf_monotone_of_nonempty cexIcfProgram 7 [43] (by decide)⟩

/-! ## `resolve_unbounded_icf` -/

theorem Program.icf_get_other (p : Program) (loc l : IMM) (T : USet) (hl : l ≠ loc) :
    (p.icf loc T).icfs_.get l = p.icfs_.get l := by
  by_cases hT : T = []
  · subst hT
    rw [Program.icf_icfs_empty, UMap.get_set_ne _ _ _ _ hl]
  · rw [Program.icf_icfs_nonempty p loc T hT, UMap.get_set_ne _ _ _ _ hl]

theorem Program.unbounded_icf_collect_congr (p q : Program)
    (hj : q.jtable_targets = p.jtable_targets)
    (hu : q.unbounded_icf_targets = p.unbounded_icf_targets) (loc : IMM) (jtables : USet) :
    q.unbounded_icf_collect loc jtables = p.unbounded_icf_collect loc jtables := by
  unfold Program.unbounded_icf_collect
  rw [hj, hu]

/-- Membership in the set gathered from the jump tables of one jump location. -/
theorem Program.mem_jtable_fold (m : UMap USet) (jtables : USet) :
    ∀ (acc : USet) (t : IMM),
      t ∈ jtables.foldl (fun targets jtable =>
          match m.find jtable with
          | some s => USet.insert_range targets s
          | none => targets) acc ↔
        t ∈ acc ∨ ∃ j ∈ jtables, t ∈ m.get j := by
  induction jtables with
  | nil => intro acc t; simp
  | cons j rest ih =>
    intro acc t
    rw [List.foldl_cons, ih]
    cases hf : m.find j with
    | none =>
      simp only [List.mem_cons, exists_eq_or_imp, UMap.get, hf, Option.getD_none,
        List.not_mem_nil, false_or]
    | some s =>
      simp only [List.mem_cons, exists_eq_or_imp, UMap.get, hf, Option.getD_some,
        USet.mem_insert_range]
      tauto

theorem Program.unbounded_icf_collect_spec (p : Program) (loc : IMM) (jtables : USet) :
    ((∃ j ∈ jtables, ∃ t, t ∈ p.jtable_targets.get j) →
      ∀ t, t ∈ p.unbounded_icf_collect loc jtables ↔ ∃ j ∈ jtables, t ∈ p.jtable_targets.get j) ∧
    ((¬ ∃ j ∈ jtables, ∃ t, t ∈ p.jtable_targets.get j) →
      p.unbounded_icf_collect loc jtables = p.unbounded_icf_targets.get loc) := by
  have hmem := Program.mem_jtable_fold p.jtable_targets jtables []
  unfold Program.unbounded_icf_collect
  generalize jtables.foldl (fun targets jtable =>
          match p.jtable_targets.find jtable with
          | some s => USet.insert_range targets s
          | none => targets) [] = targets at hmem ⊢
  simp only [List.not_mem_nil, false_or] at hmem
  constructor
  · rintro ⟨j, hj, t₀, ht₀⟩ t
    have hne : targets ≠ [] := by
      intro h
      have := (hmem t₀).2 ⟨j, hj, ht₀⟩
      rw [h] at this
      exact absurd this (List.not_mem_nil _)
    have hE : targets.isEmpty = false := by cases targets <;> simp_all
    cases p.unbounded_icf_targets.find loc <;> simp only [hE, Bool.false_eq_true, if_false] <;>
      exact hmem t
  · intro hno
    have hnil : targets = [] := by
      cases targets with
      | nil => rfl
      | cons a r =>
        exact absurd ((hmem a).1 (List.mem_cons_self _ _)) (fun ⟨j, hj, h⟩ => hno ⟨j, hj, a, h⟩)
    subst hnil
    cases hf : p.unbounded_icf_targets.find loc <;> simp [UMap.get, hf]

theorem Program.resolve_unbounded_icf_loop_tables (es : List (IMM × USet)) :
    ∀ (q : Program) (log : List (IMM × USet)),
      (Program.resolve_unbounded_icf_loop es (q, log)).1.jtable_targets = q.jtable_targets ∧
      (Program.resolve_unbounded_icf_loop es (q, log)).1.unbounded_icf_targets
        = q.unbounded_icf_targets := by
  induction es with
  | nil => intro q log; exact ⟨rfl, rfl⟩
  | cons e rest ih =>
    intro q log
    obtain ⟨loc, jt⟩ := e
    simp only [Program.resolve_unbounded_icf_loop]
    have h := ih (q.icf loc (q.unbounded_icf_collect loc jt)) (log ++ [(loc, q.unbounded_icf_collect loc jt)])
    rw [Program.icf_jtable_targets, Program.icf_unbounded_icf_targets] at h
    exact h

theorem Program.resolve_unbounded_icf_loop_log (p : Program) (es : List (IMM × USet)) :
    ∀ (q : Program) (log : List (IMM × USet)),
      q.jtable_targets = p.jtable_targets →
      q.unbounded_icf_targets = p.unbounded_icf_targets →
      (Program.resolve_unbounded_icf_loop es (q, log)).2
        = log ++ es.map (fun e => (e.1, p.unbounded_icf_collect e.1 e.2)) ∧
      (Program.resolve_unbounded_icf_loop es (q, log)).1
        = (es.map (fun e => (e.1, p.unbounded_icf_collect e.1 e.2))).foldl
            (fun r c => r.icf c.1 c.2) q := by
  induction es with
  | nil => intro q log _ _; simp [Program.resolve_unbounded_icf_loop]
  | cons e rest ih =>
    intro q log hj hu
    obtain ⟨loc, jt⟩ := e
    simp only [Program.resolve_unbounded_icf_loop]
    have hc := Program.unbounded_icf_collect_congr p q hj hu loc jt
    have h := ih (q.icf loc (q.unbounded_icf_collect loc jt))
      (log ++ [(loc, q.unbounded_icf_collect loc jt)])
      (by rw [Program.icf_jtable_targets, hj]) (by rw [Program.icf_unbounded_icf_targets, hu])
    rw [h.1, h.2, hc]
    simp

theorem Program.icf_fold_monotone (loc : IMM) (cs : List (IMM × USet)) :
    ∀ (q : Program), (∀ c ∈ cs, c.1 = loc → c.2 ≠ []) →
      ∀ t, t ∈ q.icfs_.get loc → t ∈ (cs.foldl (fun r c => r.icf c.1 c.2) q).icfs_.get loc := by
  induction cs with
  | nil => intro q _ t ht; exact ht
  | cons c rest ih =>
    intro q hc t ht
    rw [List.foldl_cons]
    apply ih _ (fun c' hc' => hc c' (List.mem_cons_of_mem _ hc'))
    by_cases hl : c.1 = loc
    · exact (icf_monotone_helper q c.1 c.2 (hc c (List.mem_cons_self _ _) hl)) loc t ht
    · rw [Program.icf_get_other _ _ _ _ (fun h => hl h.symm)]
      exact ht

theorem Program.resolve_unbounded_icf_eq_fold (p : Program) :
    p.resolve_unbounded_icf_calls
      = p.unbounded_icf_jtables.map (fun e => (e.1, p.unbounded_icf_collect e.1 e.2)) ∧
    p.resolve_unbounded_icf =
      { (p.resolve_unbounded_icf_calls.foldl (fun r c => r.icf c.1 c.2) p) with
        unbounded_icf_jtables := [], unbounded_icf_targets := [] } := by
  have h := Program.resolve_unbounded_icf_loop_log p p.unbounded_icf_jtables p [] rfl rfl
  unfold Program.resolve_unbounded_icf_calls Program.resolve_unbounded_icf
  rw [h.1, h.2]
  simp

theorem Program.filter_key_of_nodup {V W : Type} (g : IMM × V → W) (loc : IMM) (v : V) :
    ∀ (es : List (IMM × V)), (es.map Prod.fst).Nodup → (loc, v) ∈ es →
      (es.map (fun e => (e.1, g e))).filter (fun c => decide (c.1 = loc)) = [(loc, g (loc, v))] := by
  intro es
  induction es with
  | nil => intro _ h; exact absurd h (List.not_mem_nil _)
  | cons e rest ih =>
    intro hnd hmem
    rw [List.map_cons, List.nodup_cons] at hnd
    rcases List.mem_cons.1 hmem with heq | hin
    · subst heq
      have hrest : (rest.map (fun e => (e.1, g e))).filter (fun c => decide (c.1 = loc)) = [] := by
        rw [List.filter_eq_nil_iff]
        intro c hc
        obtain ⟨e', he', rfl⟩ := List.mem_map.1 hc
        simp only [decide_eq_true_eq]
        intro hk
        exact hnd.1 (List.mem_map.2 ⟨e', he', hk⟩)
      simp [List.filter_cons, hrest]
    · have hne : e.1 ≠ loc := by
        intro hk
        exact hnd.1 (List.mem_map.2 ⟨(loc, v), hin, hk.symm⟩)
      simp only [List.map_cons, List.filter_cons, hne, decide_False, Bool.false_eq_true, if_false]
      exact ih hnd.2 hin

/-- C2 (as stated) fails: the jump at 7 has target 42, its recorded jump table 100
has no entry in `jtable_targets` and 7 has no entry in `unbounded_icf_targets`;
after `resolve_unbounded_icf()` the jump at 7 has no target. -/
theorem resolve_unbounded_icf_removes_target :
    42 ∈ cexUnboundedProgram.icfs_.get 7 ∧
    42 ∉ cexUnboundedProgram.resolve_unbounded_icf.icfs_.get 7 := by
  decide

/-- C2 (amended): `icfs_[loc]` before `resolve_unbounded_icf()` is a subset of
`icfs_[loc]` after it for every jump location `loc` that is not a key of
`unbounded_icf_jtables`, and for every key whose collected target set is not empty
(a jump table recorded for it has targets in `jtable_targets`, or it has a
non-empty entry in `unbounded_icf_targets`). -/
theorem resolve_unbounded_icf_monotone (p : Program) (loc : IMM)
    (h : ∀ jtables, (loc, jtables) ∈ p.unbounded_icf_jtables →
      (∃ j ∈ jtables, ∃ t, t ∈ p.jtable_targets.get j) ∨ p.unbounded_icf_targets.get loc ≠ []) :
    ∀ t, t ∈ p.icfs_.get loc → t ∈ p.resolve_unbounded_icf.icfs_.get loc := by
  intro t ht
  have hfold := Program.resolve_unbounded_icf_eq_fold p
  rw [hfold.2, hfold.1]
  apply Program.icf_fold_monotone loc _ p _ t ht
  intro c hc hloc
  obtain ⟨e, he, rfl⟩ := List.mem_map.1 hc
  obtain ⟨k, jt⟩ := e
  simp only at hloc ⊢
  subst hloc
  have hspec := Program.unbounded_icf_collect_spec p k jt
  by_cases hj : ∃ j ∈ jt, ∃ t, t ∈ p.jtable_targets.get j
  · obtain ⟨j, hjm, t₀, ht₀⟩ := hj
    intro hnil
    have := (hspec.1 ⟨j, hjm, t₀, ht₀⟩ t₀).2 ⟨j, hjm, ht₀⟩
    rw [hnil] at this
    exact absurd this (List.not_mem_nil _)
  · rw [hspec.2 hj]
    rcases h jt he with h1 | h2
    · exact absurd h1 hj
    · exact h2

theorem resolve_unbounded_icf_monotone_witness :
    cexFallbackProgram.unbounded_icf_targets.get 7 ≠ [] ∧
    (∀ t, t ∈ cexFallbackProgram.icfs_.get 7 →
      t ∈ cexFallbackProgram.resolve_unbounded_icf.icfs_.get 7) :=
  ⟨by decide, resolve_unbounded_icf_monotone cexFallbackProgram 7 (fun _ _ => Or.inr (by decide))⟩

/-- C5: for every key `loc` of `unbounded_icf_jtables` (a well-formed map: no key
twice), `resolve_unbounded_icf()` calls `icf(loc, T)` exactly once; `T` is the union
of `jtable_targets[j]` over the jump tables `j` recorded for `loc` when that union
is non-empty and `unbounded_icf_targets[loc]` (empty without an entry) otherwise.
The final state is the one these calls produce, with both scratch maps cleared. -/
theorem resolve_unbounded_icf_calls_once (p : Program) (loc : IMM) (jtables : USet)
    (hk : p.unbounded_icf_jtables.keys.Nodup)
    (hmem : (loc, jtables) ∈ p.unbounded_icf_jtables) :
    ∃ T, p.resolve_unbounded_icf_calls.filter (fun c => decide (c.1 = loc)) = [(loc, T)] ∧
      ((∃ j ∈ jtables, ∃ t, t ∈ p.jtable_targets.get j) →
        ∀ t, t ∈ T ↔ ∃ j ∈ jtables, t ∈ p.jtable_targets.get j) ∧
      ((¬ ∃ j ∈ jtables, ∃ t, t ∈ p.jtable_targets.get j) →
        T = p.unbounded_icf_targets.get loc) ∧
      p.resolve_unbounded_icf =
        { (p.resolve_unbounded_icf_calls.foldl (fun r c => r.icf c.1 c.2) p) with
          unbounded_icf_jtables := [], unbounded_icf_targets := [] } := by
  have hfold := Program.resolve_unbounded_icf_eq_fold p
  refine ⟨p.unbounded_icf_collect loc jtables, ?_, ?_, ?_, hfold.2⟩
  · rw [hfold.1]
    exact Program.filter_key_of_nodup (fun e => p.unbounded_icf_collect e.1 e.2) loc jtables
      p.unbounded_icf_jtables hk hmem
  · exact (Program.unbounded_icf_collect_spec p loc jtables).1
  · exact (Program.unbounded_icf_collect_spec p loc jtables).2

theorem resolve_unbounded_icf_calls_once_witness :
    cexFallbackProgram.unbounded_icf_jtables.keys.Nodup ∧
    (7, [100, 200]) ∈ cexFallbackProgram.unbounded_icf_jtables ∧
    ∃ T, cexFallbackProgram.resolve_unbounded_icf_calls.filter (fun c => decide (c.1 = 7))
        = [(7, T)] ∧
      ((∃ j ∈ [100, 200], ∃ t, t ∈ cexFallbackProgram.jtable_targets.get j) →
        ∀ t, t ∈ T ↔ ∃ j ∈ [100, 200], t ∈ cexFallbackProgram.jtable_targets.get j) ∧
      ((¬ ∃ j ∈ [100, 200], ∃ t, t ∈ cexFallbackProgram.jtable_targets.get j) →
        T = cexFallbackProgram.unbounded_icf_targets.get 7) ∧
      cexFallbackProgram.resolve_unbounded_icf =
        { (cexFallbackProgram.resolve_unbounded_icf_calls.foldl (fun r c => r.icf c.1 c.2)
            cexFallbackProgram) with
          unbounded_icf_jtables := [], unbounded_icf_targets := [] } :=
  ⟨by decide, by decide,
    resolve_unbounded_icf_calls_once cexFallbackProgram 7 [100, 200] (by decide) (by decide)⟩

/-! ## `ELF_x86::read` -/

theorem ELF_x86.foldl_keep (P : Phdr → Prop) [DecidablePred P] (h : Phdr) :
    ∀ (l : List Phdr), (∀ y ∈ l, P y → y = h) →
      l.foldl (fun final y => if P y then y else final) h = h := by
  intro l
  induction l with
  | nil => intro _; rfl
  | cons y rest ih =>
    intro hl
    rw [List.foldl_cons]
    by_cases hy : P y
    · rw [if_pos hy, hl y (List.mem_cons_self _ _) hy]
      exact ih (fun z hz => hl z (List.mem_cons_of_mem _ hz))
    · rw [if_neg hy]
      exact ih (fun z hz => hl z (List.mem_cons_of_mem _ hz))

theorem ELF_x86.read_final_eq (phdr : List Phdr) (u : Nat) (h : Phdr)
    (hsorted : phdr.Pairwise (fun x y => x.vaddr ≤ y.vaddr))
    (hmem : h ∈ phdr) (hle : h.vaddr ≤ u)
    (hgreatest : ∀ y ∈ phdr, y.vaddr ≤ u → y.vaddr < h.vaddr ∨ y = h) :
    ELF_x86.read_final phdr u = h := by
  obtain ⟨s, t, rfl⟩ := List.append_of_mem hmem
  unfold ELF_x86.read_final
  rw [List.foldl_append, List.foldl_cons, if_pos hle]
  apply ELF_x86.foldl_keep (fun y => y.vaddr ≤ u) h t
  intro y hy hyu
  have hall : ∀ z ∈ t, h.vaddr ≤ z.vaddr := by
    have := (List.pairwise_append.1 hsorted).2.1
    exact (List.pairwise_cons.1 this).1
  rcases hgreatest y (List.mem_append_right _ (List.mem_cons_of_mem _ hy)) hyu with hlt | heq
  · exact absurd (hall y hy) (Nat.not_le.2 hlt)
  · exact heq

theorem le_uint_append (xs : List Nat) (b : Nat) :
    le_uint (xs ++ [b]) = le_uint xs + 256 ^ xs.length * b := by
  induction xs with
  | nil => simp [le_uint]
  | cons a rest ih =>
    rw [List.cons_append, le_uint, le_uint, ih, List.length_cons, pow_succ]
    ring

theorem le_uint_lt (xs : List Nat) (hb : ∀ x ∈ xs, x < 256) :
    le_uint xs < 256 ^ xs.length := by
  induction xs with
  | nil => simp [le_uint]
  | cons a rest ih =>
    have ha := hb a (List.mem_cons_self _ _)
    have hr := ih (fun x hx => hb x (List.mem_cons_of_mem _ hx))
    simp only [le_uint, List.length_cons, pow_succ]
    omega

theorem ELF_x86.read_loop_le (raw : List Nat) (adj : Nat)
    (hb : ∀ x ∈ raw, x < 256) (hlen : raw.length < 2 ^ 64) :
    ∀ (n : Nat), n ≤ 8 → adj + n ≤ raw.length →
      (List.range n).foldlM (fun val i =>
        match raw.get? (u64 (adj + i)) with
        | none => (Except.error Stop.fault : Except Stop Nat)
        | some byte => Except.ok (u64 (val + u64 (byte <<< (i <<< 3))))) 0
      = Except.ok (le_uint ((raw.drop adj).take n)) := by
  intro n
  induction n with
  | zero => intro _ _; rfl
  | succ n ih =>
    intro hn hadj
    rw [List.range_succ, List.foldlM_append, ih (by omega) (by omega)]
    have hidx : adj + n < raw.length := by omega
    have hu : u64 (adj + n) = adj + n := by
      unfold u64; exact Nat.mod_eq_of_lt (by omega)
    have hget : raw.get? (adj + n) = some (raw.get ⟨adj + n, hidx⟩) := List.get?_eq_get hidx
    have hbyte : raw.get ⟨adj + n, hidx⟩ < 256 := hb _ (List.get_mem _ _ _)
    have htake : (raw.drop adj).take (n + 1)
        = (raw.drop adj).take n ++ [raw.get ⟨adj + n, hidx⟩] := by
      have hlt : n < (raw.drop adj).length := by rw [List.length_drop]; omega
      rw [List.take_succ, List.getElem?_eq_getElem hlt]
      simp [List.getElem_drop]
    have hlenT : ((raw.drop adj).take n).length = n := by
      rw [List.length_take, List.length_drop]; omega
    have hval := le_uint_lt ((raw.drop adj).take n)
      (fun x hx => hb x (List.mem_of_mem_drop (List.mem_of_mem_take hx)))
    rw [hlenT] at hval
    rw [htake, le_uint_append, hlenT]
    generalize le_uint ((raw.drop adj).take n) = v at hval ⊢
    generalize raw.get ⟨adj + n, hidx⟩ = byte at hbyte hget ⊢
    simp only [List.foldlM_cons, List.foldlM_nil, hu, hget, bind, Except.bind, pure, Except.pure]
    congr 1
    have hsh : byte <<< (n <<< 3) = 256 ^ n * byte := by
      rw [Nat.shiftLeft_eq, Nat.shiftLeft_eq]
      have : (2 : Nat) ^ (n * 2 ^ 3) = 256 ^ n := by
        rw [mul_comm, pow_mul]; norm_num
      rw [this, mul_comm]
    rw [hsh]
    have hpow : 256 ^ n * 256 ≤ 2 ^ 64 := by
      have h8 : (256 : Nat) ^ (n + 1) ≤ 256 ^ 8 := Nat.pow_le_pow_right (by norm_num) hn
      rw [pow_succ] at h8
      calc 256 ^ n * 256 ≤ 256 ^ 8 := h8
        _ = 2 ^ 64 := by norm_num
    have hmul : 256 ^ n * byte + 256 ^ n ≤ 256 ^ n * 256 := by
      have : byte + 1 ≤ 256 := hbyte
      calc 256 ^ n * byte + 256 ^ n = 256 ^ n * (byte + 1) := by ring
        _ ≤ 256 ^ n * 256 := Nat.mul_le_mul_left _ this
    unfold u64
    rw [Nat.mod_eq_of_lt (a := 256 ^ n * byte) (by omega), Nat.mod_eq_of_lt (by omega)]

/-- C9: in the little-endian configuration (`ENDIAN == 0`), for an address `a` and a
width `w` in 1..8: if `h` is the program header with the greatest `vaddr <= a`
(`phdr` is sorted, as `ELF_x86::load` leaves it), `a - vaddr + w <= fsize` and
`foffset + (a - vaddr) + w <= raw_bytes.size()`, then `read(info, a, w)` is the
unsigned little-endian integer of the `w` file bytes at offset
`foffset + (a - vaddr)`. -/
theorem read_little_endian (info : Object) (a : Int) (w : Nat) (h : Phdr)
    (hbytes : ∀ x ∈ info.raw_bytes, x < 256)
    (hsize : info.raw_bytes.length < 2 ^ 64)
    (ha : a < 2 ^ 63)
    (hw : 1 ≤ w ∧ w ≤ 8)
    (hsorted : info.phdr.Pairwise (fun x y => x.vaddr ≤ y.vaddr))
    (hmem : h ∈ info.phdr) (hle : (h.vaddr : Int) ≤ a)
    (hgreatest : ∀ y ∈ info.phdr, (y.vaddr : Int) ≤ a → y.vaddr < h.vaddr ∨ y = h)
    (hfsize : a - h.vaddr + w ≤ h.fsize)
    (hfile : h.foffset + (a - h.vaddr) + w ≤ info.raw_bytes.length) :
    ELF_x86.read 0 info a w
      = Except.ok (le_uint ((info.raw_bytes.drop (h.foffset + (a - h.vaddr)).toNat).take w)) := by
  obtain ⟨n, rfl⟩ : ∃ n : Nat, a = (h.vaddr : Int) + n :=
    ⟨(a - h.vaddr).toNat, by omega⟩
  have hu : to_u64 ((h.vaddr : Int) + n) = h.vaddr + n := by
    unfold to_u64
    rw [Int.emod_eq_of_lt (by omega) (by omega)]
    omega
  have hfin : ELF_x86.read_final info.phdr (h.vaddr + n) = h := by
    apply ELF_x86.read_final_eq info.phdr _ h hsorted hmem (by omega)
    intro y hy hyu
    exact hgreatest y hy (by omega)
  have hdist : u64 (h.vaddr + n + 2 ^ 64 - u64 h.vaddr) = n := by
    unfold u64
    rw [Nat.mod_eq_of_lt (a := h.vaddr) (by omega)]
    have : h.vaddr + n + 2 ^ 64 - h.vaddr = n + 2 ^ 64 := by omega
    rw [this, Nat.add_mod_right]
    exact Nat.mod_eq_of_lt (by omega)
  have hadj : u64 (h.foffset + n) = h.foffset + n := by
    unfold u64
    exact Nat.mod_eq_of_lt (by omega)
  have htoNat : ((h.foffset : Int) + ((h.vaddr : Int) + n - h.vaddr)).toNat = h.foffset + n := by
    omega
  unfold ELF_x86.read
  simp only [hu, hfin, hdist, hadj, htoNat]
  rw [if_neg (by omega), if_neg (by omega)]
  unfold ELF_x86.read_loop
  have hshift : ∀ i, ELF_x86.read_shift 0 w i = i <<< 3 := by
    intro i; simp [ELF_x86.read_shift]
  simp only [hshift]
  exact ELF_x86.read_loop_le info.raw_bytes (h.foffset + n) hbytes hsize w hw.2 (by omega)

theorem read_little_endian_witness :
    (ELF_x86.read 0 readObject 0x3001 4
      = Except.ok (le_uint ((readObject.raw_bytes.drop
          ((⟨0x3000, 4, 5, 5⟩ : Phdr).foffset + (0x3001 - (0x3000 : Nat) : Int)).toNat).take 4))) ∧
    le_uint ((readObject.raw_bytes.drop 5).take 4) = 0x11000030 :=
  ⟨read_little_endian readObject 0x3001 4 ⟨0x3000, 4, 5, 5⟩ (by decide) (by decide) (by decide)
    (by decide) (by decide) (by decide) (by decide) (by decide) (by decide) (by decide),
   by decide⟩

/-! ## `resolve_icf` -/

theorem Program.mem_insert_at (m : UMap USet) (k t k' v : IMM) :
    v ∈ (Program.insert_at m k t).get k' ↔ v ∈ m.get k' ∨ (k' = k ∧ v = t) := by
  unfold Program.insert_at
  by_cases hk : k' = k
  · subst hk
    rw [UMap.get_set_self, USet.mem_insert]
    simp
  · rw [UMap.get_set_ne _ _ _ _ hk]
    simp [hk]

theorem only_valid_added_refl (env : Env) (m : UMap USet) : only_valid_added env m m :=
  fun _ _ h => Or.inl h

theorem only_valid_added_trans (env : Env) (m₁ m₂ m₃ : UMap USet)
    (h₁ : only_valid_added env m₁ m₂) (h₂ : only_valid_added env m₂ m₃) :
    only_valid_added env m₁ m₃ := by
  intro k v hv
  rcases h₂ k v hv with h | h
  · exact h₁ k v h
  · exact Or.inr h

theorem only_valid_added_insert (env : Env) (m : UMap USet) (k t : IMM)
    (ht : env.valid_icf t = true) : only_valid_added env m (Program.insert_at m k t) := by
  intro k' v hv
  rcases (Program.mem_insert_at m k t k' v).1 hv with h | ⟨_, rfl⟩
  · exact Or.inl h
  · exact Or.inr ht

theorem Program.scan_bounded_valid (env : Env) (nmem : Bool) (w : Nat)
    (f : Int → Except Stop Int) (b s hi : Int) :
    ∀ (fuel : Nat) (addr : Int) (m m' : UMap USet),
      Program.scan_bounded env nmem w f b s hi fuel addr m = Except.ok m' →
      only_valid_added env m m' := by
  intro fuel
  induction fuel with
  | zero => intro addr m m' h; simp [Program.scan_bounded] at h
  | succ fuel ih =>
    intro addr m m' h
    rw [Program.scan_bounded] at h
    split at h
    · split at h
      · exact absurd h (by simp)
      · rename_i t _
        split at h
        · rename_i hv
          exact only_valid_added_trans env _ _ _ (only_valid_added_insert env m b t hv) (ih _ _ _ h)
        · exact ih _ _ _ h
    · cases h
      exact only_valid_added_refl env m

theorem Program.scan_unbounded_valid (env : Env) (nmem : Bool) (w : Nat)
    (f : Int → Except Stop Int) (b s : Int) :
    ∀ (fuel : Nat) (addr : Int) (m m' : UMap USet),
      Program.scan_unbounded env nmem w f b s fuel addr m = Except.ok m' →
      only_valid_added env m m' := by
  intro fuel
  induction fuel with
  | zero => intro addr m m' h; simp [Program.scan_unbounded] at h
  | succ fuel ih =>
    intro addr m m' h
    rw [Program.scan_unbounded] at h
    split at h
    · split at h
      · exact absurd h (by simp)
      · rename_i t _
        split at h
        · rename_i hv
          exact only_valid_added_trans env _ _ _ (only_valid_added_insert env m b t hv) (ih _ _ _ h)
        · cases h
          exact only_valid_added_refl env m
    · cases h
      exact only_valid_added_refl env m

theorem Program.resolve_icf_null (env : Env) (fuel : Nat) (func : Option Function)
    (f : Int → Except Stop Int) (st : UMap USet × UMap USet) :
    Program.resolve_icf env fuel func BaseStride.null f st = Except.ok st := rfl

theorem Program.resolve_icf_node (env : Env) (fuel : Nat) (func : Option Function)
    (t : BaseStride.T) (b s : Int) (w : Nat) (nmem : Bool) (bnd : Bounds)
    (x next : BaseStride) (f : Int → Except Stop Int) (st : UMap USet × UMap USet) :
    Program.resolve_icf env fuel func (BaseStride.node t b s w nmem bnd x next) f st =
      match (if !(t == BaseStride.T.TOP) || !(t == BaseStride.T.DYNAMIC) then
          if s = 0 then
            match Program.candidate env nmem w f b with
            | Except.error e => Except.error e
            | Except.ok tgt =>
                if env.valid_icf tgt then Except.ok (st.1, Program.insert_at st.2 (-1) tgt)
                else Except.ok st
          else
            match x.deref with
            | none => Except.error Stop.fault
            | some (tx, xbounds) =>
                if tx == BaseStride.T.TOP || tx == BaseStride.T.DYNAMIC then
                  if Program.usable_bound env xbounds then
                    match Program.scan_bounded env nmem w f b s xbounds.hi fuel b st.1 with
                    | Except.error e => Except.error e
                    | Except.ok bounded_targets => Except.ok (bounded_targets, st.2)
                  else
                    match Program.scan_unbounded env nmem w f b s fuel b st.2 with
                    | Except.error e => Except.error e
                    | Except.ok unbounded_targets => Except.ok (st.1, unbounded_targets)
                else if func.isSome then
                  Program.resolve_icf env fuel func x (fun x_val => f (b + s * x_val)) st
                else
                  Program.resolve_icf env fuel func x
                    (fun x_val => (Program.read env (b + s * x_val) w).bind
                      (fun v => f (env.cast_int v w))) st
        else Except.ok st : Except Stop (UMap USet × UMap USet)) with
      | Except.error e => Except.error e
      | Except.ok st₁ => Program.resolve_icf env fuel func next f st₁ := rfl

theorem Program.resolve_icf_valid (env : Env) (fuel : Nat) (func : Option Function) :
    ∀ (X : BaseStride) (f : Int → Except Stop Int) (st st' : UMap USet × UMap USet),
      Program.resolve_icf env fuel func X f st = Except.ok st' →
      only_valid_added env st.1 st'.1 ∧ only_valid_added env st.2 st'.2 := by
  intro X
  induction X with
  | null =>
    intro f st st' h
    rw [Program.resolve_icf_null] at h
    cases h
    exact ⟨only_valid_added_refl env _, only_valid_added_refl env _⟩
  | node t b s w nmem bnd x next ihx ihn =>
    intro f st st' h
    rw [Program.resolve_icf_node] at h
    split at h
    · exact absurd h (by simp)
    · rename_i st₁ hafter
      have hn := ihn f st₁ st' h
      suffices hst : only_valid_added env st.1 st₁.1 ∧ only_valid_added env st.2 st₁.2 from
        ⟨only_valid_added_trans env _ _ _ hst.1 hn.1, only_valid_added_trans env _ _ _ hst.2 hn.2⟩
      clear h hn ihn
      split at hafter
      · split at hafter
        · split at hafter
          · exact absurd hafter (by simp)
          · rename_i tgt _
            split at hafter
            · rename_i hv
              cases hafter
              exact ⟨only_valid_added_refl env _, only_valid_added_insert env st.2 (-1) tgt hv⟩
            · cases hafter
              exact ⟨only_valid_added_refl env _, only_valid_added_refl env _⟩
        · split at hafter
          · exact absurd hafter (by simp)
          · split at hafter
            · split at hafter
              · split at hafter
                · exact absurd hafter (by simp)
                · rename_i bt' hsc
                  cases hafter
                  exact ⟨Program.scan_bounded_valid env nmem w f b s _ fuel b st.1 bt' hsc,
                    only_valid_added_refl env _⟩
              · split at hafter
                · exact absurd hafter (by simp)
                · rename_i ut' hsc
                  cases hafter
                  exact ⟨only_valid_added_refl env _,
                    Program.scan_unbounded_valid env nmem w f b s fuel b st.2 ut' hsc⟩
            · split at hafter
              · exact ihx _ _ _ hafter
              · exact ihx _ _ _ hafter
      · cases hafter
        exact ⟨only_valid_added_refl env _, only_valid_added_refl env _⟩

/-- C3 (as stated) fails: in a program whose code range is `[500, ..)`, with a
function whose code lies in `[0, 100)`, `resolve_icf` on the constant term 500
inserts 500 into `unbounded_targets[-1]`; 500 passes `valid_icf(t)` but not
`valid_icf(t, func)`. -/
theorem resolve_icf_adds_target_outside_function :
    Program.resolve_icf scanEnv 1 (some scanFunc) constTerm (fun v => Except.ok v) ([], [])
      = Except.ok ([], [(-1, [500])]) ∧
    scanEnv.valid_icf 500 = true ∧ Program.valid_icf scanEnv 500 scanFunc = false :=
  ⟨rfl, rfl, rfl⟩

/-- C3 (amended): every target that `resolve_icf` inserts into `bounded_targets` or
`unbounded_targets` lies in the program's code range, i.e. passes the one-argument
`valid_icf(t)`. -/
theorem resolve_icf_targets_valid (env : Env) (fuel : Nat) (func : Option Function)
    (expr : BaseStride) (f : Int → Except Stop Int)
    (bounded_targets unbounded_targets bounded_targets' unbounded_targets' : UMap USet)
    (h : Program.resolve_icf env fuel func expr f (bounded_targets, unbounded_targets)
      = Except.ok (bounded_targets', unbounded_targets')) :
    (∀ k t, t ∈ bounded_targets'.get k → t ∉ bounded_targets.get k → env.valid_icf t = true) ∧
    (∀ k t, t ∈ unbounded_targets'.get k → t ∉ unbounded_targets.get k →
      env.valid_icf t = true) := by
  have hv := Program.resolve_icf_valid env fuel func expr f _ _ h
  constructor
  · intro k t ht hnot
    rcases hv.1 k t ht with h' | h'
    · exact absurd h' hnot
    · exact h'
  · intro k t ht hnot
    rcases hv.2 k t ht with h' | h'
    · exact absurd h' hnot
    · exact h'

theorem resolve_icf_targets_valid_witness :
    Program.resolve_icf scanEnv 5 (some scanFunc) upTerm (fun v => Except.ok v) ([], [])
      = Except.ok ([], [(500, [500, 501, 502, 503])]) ∧
    ((∀ k t, t ∈ UMap.get ([] : UMap USet) k → t ∉ UMap.get ([] : UMap USet) k →
        scanEnv.valid_icf t = true) ∧
     (∀ k t, t ∈ UMap.get [(500, [500, 501, 502, 503])] k → t ∉ UMap.get ([] : UMap USet) k →
        scanEnv.valid_icf t = true)) :=
  ⟨rfl, resolve_icf_targets_valid scanEnv 5 (some scanFunc) upTerm (fun v => Except.ok v)
    [] [] [] [(500, [500, 501, 502, 503])] rfl⟩

/-- C8: for a term with base `b`, stride `s ≠ 0` and a structured index `x` (its tag
is neither TOP nor DYNAMIC), `resolve_icf` with a non-null `func` recurses on `x`
with the continuation `x_val ↦ f(b + s * x_val)`, whatever the term's `nmem` flag,
and then goes on with the rest of the list; for a single term the result is the
result of that recursive call. -/
theorem resolve_icf_structured_index (env : Env) (fuel : Nat) (fn : Function)
    (t : BaseStride.T) (b s : Int) (w : Nat) (nmem : Bool) (bnd : Bounds)
    (x next : BaseStride) (f : Int → Except Stop Int) (st : UMap USet × UMap USet)
    (tx : BaseStride.T) (xbounds : Bounds)
    (hs : s ≠ 0) (hx : x.deref = some (tx, xbounds))
    (htop : tx ≠ BaseStride.T.TOP) (hdyn : tx ≠ BaseStride.T.DYNAMIC) :
    Program.resolve_icf env fuel (some fn) (BaseStride.node t b s w nmem bnd x next) f st
      = (match Program.resolve_icf env fuel (some fn) x (fun x_val => f (b + s * x_val)) st with
         | Except.error e => Except.error e
         | Except.ok st₁ => Program.resolve_icf env fuel (some fn) next f st₁) ∧
    Program.resolve_icf env fuel (some fn) (BaseStride.node t b s w nmem bnd x BaseStride.null) f st
      = Program.resolve_icf env fuel (some fn) x (fun x_val => f (b + s * x_val)) st := by
  have hguard : (!(t == BaseStride.T.TOP) || !(t == BaseStride.T.DYNAMIC)) = true := by
    cases t <;> rfl
  have hleaf : (tx == BaseStride.T.TOP || tx == BaseStride.T.DYNAMIC) = false := by
    cases tx <;> simp_all
  constructor
  · rw [Program.resolve_icf_node]
    simp only [hguard, if_true, hs, if_false, hx, hleaf, Bool.false_eq_true, Option.isSome_some]
  · rw [Program.resolve_icf_node]
    simp only [hguard, if_true, hs, if_false, hx, hleaf, Bool.false_eq_true, Option.isSome_some]
    cases Program.resolve_icf env fuel (some fn) x (fun x_val => f (b + s * x_val)) st with
    | error e => rfl
    | ok st₁ => rfl

theorem resolve_icf_structured_index_witness :
    ((3 : Int) ≠ 0 ∧ upTerm.deref = some (BaseStride.T.VAL, {})) ∧
    (Program.resolve_icf scanEnv 5 (some scanFunc)
        (BaseStride.node BaseStride.T.VAL 7 3 8 false {} upTerm constTerm)
        (fun v => Except.ok v) ([], [])
      = (match Program.resolve_icf scanEnv 5 (some scanFunc) upTerm
            (fun x_val => Except.ok (7 + 3 * x_val)) ([], []) with
         | Except.error e => Except.error e
         | Except.ok st₁ => Program.resolve_icf scanEnv 5 (some scanFunc) constTerm
            (fun v => Except.ok v) st₁) ∧
     Program.resolve_icf scanEnv 5 (some scanFunc)
        (BaseStride.node BaseStride.T.VAL 7 3 8 false {} upTerm BaseStride.null)
        (fun v => Except.ok v) ([], [])
      = Program.resolve_icf scanEnv 5 (some scanFunc) upTerm
          (fun x_val => Except.ok (7 + 3 * x_val)) ([], [])) :=
  ⟨⟨by decide, rfl⟩,
   resolve_icf_structured_index scanEnv 5 scanFunc BaseStride.T.VAL 7 3 8 false {} upTerm
    constTerm (fun v => Except.ok v) ([], []) BaseStride.T.VAL {} (by decide) rfl
    (by decide) (by decide)⟩

theorem Program.mem_fold_insert_at (b : IMM) (t : Nat → Int) (ks : List Nat) :
    ∀ (m : UMap USet) (key v : IMM),
      v ∈ (ks.foldl (fun u k => Program.insert_at u b (t k)) m).get key ↔
        v ∈ m.get key ∨ (key = b ∧ ∃ k ∈ ks, v = t k) := by
  induction ks with
  | nil => intro m key v; simp
  | cons k rest ih =>
    intro m key v
    rw [List.foldl_cons, ih, Program.mem_insert_at]
    simp only [List.mem_cons, exists_eq_or_imp]
    tauto

/-- The unbounded scan entered at table index `j` with `n` valid candidates ahead
and a stop at index `j + n`. -/
theorem Program.scan_unbounded_run (env : Env) (nmem : Bool) (w : Nat)
    (f : Int → Except Stop Int) (b s : Int) (t : Nat → Int) :
    ∀ (n j fuel : Nat) (m : UMap USet), n < fuel →
      (∀ i, i < n → Program.candidate env nmem w f (b + ((j + i : Nat) : Int) * s)
          = Except.ok (t (j + i)) ∧
        env.valid_icf (t (j + i)) = true ∧
        b + ((j + i : Nat) : Int) * s < b + env.LIMIT_JTABLE) →
      (b + ((j + n : Nat) : Int) * s ≥ b + env.LIMIT_JTABLE ∨
        (Program.candidate env nmem w f (b + ((j + n : Nat) : Int) * s) = Except.ok (t (j + n)) ∧
          env.valid_icf (t (j + n)) = false)) →
      Program.scan_unbounded env nmem w f b s fuel (b + (j : Int) * s) m
        = Except.ok ((List.range' j n).foldl (fun u k => Program.insert_at u b (t k)) m) := by
  intro n
  induction n with
  | zero =>
    intro j fuel m hfuel _ hstop
    obtain ⟨fuel', rfl⟩ : ∃ k, fuel = k + 1 := ⟨fuel - 1, by omega⟩
    rw [Program.scan_unbounded]
    simp only [Nat.add_zero] at hstop
    by_cases hc : b + (j : Int) * s < b + env.LIMIT_JTABLE
    · rcases hstop with h | ⟨hcand, hval⟩
      · exact absurd hc (not_lt.2 h)
      · rw [if_pos hc, hcand]
        simp [hval]
    · rw [if_neg hc]
      rfl
  | succ n ih =>
    intro j fuel m hfuel hbefore hstop
    obtain ⟨fuel', rfl⟩ : ∃ k, fuel = k + 1 := ⟨fuel - 1, by omega⟩
    have h0 := hbefore 0 (by omega)
    simp only [Nat.add_zero] at h0
    rw [Program.scan_unbounded, if_pos h0.2.2, h0.1]
    simp only [h0.2.1, if_true]
    have haddr : b + (j : Int) * s + s = b + ((j + 1 : Nat) : Int) * s := by
      push_cast; ring
    rw [haddr, List.range'_succ, List.foldl_cons]
    apply ih (j + 1) fuel' _ (by omega)
    · intro i hi
      have := hbefore (i + 1) (by omega)
      have e : j + (i + 1) = j + 1 + i := by omega
      rw [e] at this
      exact this
    · have e : j + (n + 1) = j + 1 + n := by omega
      rw [e] at hstop
      exact hstop

/-- C6: the unbounded case of `resolve_icf` for a term with base `b`, stride `s > 0`
and a TOP/DYNAMIC index without a usable bound. With `t k` the candidate of table
address `b + k*s` and `m` the least `k` whose candidate fails `valid_icf` or whose
address reaches `b + LIMIT_JTABLE`, the call adds exactly `t 0 .. t (m-1)` to
`unbounded_targets[b]`, stops there, and leaves `bounded_targets` and every other
entry of `unbounded_targets` alone. -/
theorem resolve_icf_unbounded_scan (env : Env) (fuel : Nat) (func : Option Function)
    (tX : BaseStride.T) (b s : Int) (w : Nat) (nmem : Bool) (bnd : Bounds) (x : BaseStride)
    (f : Int → Except Stop Int) (bounded_targets unbounded_targets : UMap USet)
    (tx : BaseStride.T) (xbounds : Bounds) (m : Nat) (t : Nat → Int)
    (hs : 0 < s) (hx : x.deref = some (tx, xbounds))
    (hleaf : tx = BaseStride.T.TOP ∨ tx = BaseStride.T.DYNAMIC)
    (hbound : Program.usable_bound env xbounds = false)
    (hbefore : ∀ k, k < m → Program.candidate env nmem w f (b + (k : Int) * s) = Except.ok (t k) ∧
      env.valid_icf (t k) = true ∧ b + (k : Int) * s < b + env.LIMIT_JTABLE)
    (hstop : b + (m : Int) * s ≥ b + env.LIMIT_JTABLE ∨
      (Program.candidate env nmem w f (b + (m : Int) * s) = Except.ok (t m) ∧
        env.valid_icf (t m) = false))
    (hfuel : m < fuel) :
    ∃ unbounded_targets',
      Program.resolve_icf env fuel func (BaseStride.node tX b s w nmem bnd x BaseStride.null) f
        (bounded_targets, unbounded_targets) = Except.ok (bounded_targets, unbounded_targets') ∧
      ∀ key v, v ∈ unbounded_targets'.get key ↔
        v ∈ unbounded_targets.get key ∨ (key = b ∧ ∃ k, k < m ∧ v = t k) := by
  have hguard : (!(tX == BaseStride.T.TOP) || !(tX == BaseStride.T.DYNAMIC)) = true := by
    cases tX <;> rfl
  have hl : (tx == BaseStride.T.TOP || tx == BaseStride.T.DYNAMIC) = true := by
    rcases hleaf with h | h <;> subst h <;> rfl
  have hs0 : s ≠ 0 := ne_of_gt hs
  have hrun := Program.scan_unbounded_run env nmem w f b s t m 0 fuel unbounded_targets hfuel
    (by intro i hi; simpa using hbefore i hi) (by simpa using hstop)
  simp only [Nat.cast_zero, zero_mul, add_zero] at hrun
  refine ⟨(List.range' 0 m).foldl (fun u k => Program.insert_at u b (t k)) unbounded_targets, ?_, ?_⟩
  · rw [Program.resolve_icf_node]
    simp only [hguard, if_true, hs0, if_false, hx, hl, hbound, Bool.false_eq_true, hrun]
    rfl
  · intro key v
    rw [Program.mem_fold_insert_at]
    simp only [List.mem_range'_1, Nat.zero_le, true_and, Nat.zero_add]

theorem resolve_icf_unbounded_scan_witness :
    ((0 : Int) < 1 ∧ topLeaf.deref = some (BaseStride.T.TOP, {}) ∧
      Program.usable_bound scanEnv {} = false) ∧
    ∃ unbounded_targets',
      Program.resolve_icf scanEnv 5 (some scanFunc) upTerm (fun v => Except.ok v) ([], [])
        = Except.ok ([], unbounded_targets') ∧
      ∀ key v, v ∈ unbounded_targets'.get key ↔
        v ∈ UMap.get ([] : UMap USet) key ∨
          (key = 500 ∧ ∃ k, k < 4 ∧ v = (fun k : Nat => (500 : Int) + k) k) :=
  ⟨⟨by decide, rfl, rfl⟩,
   resolve_icf_unbounded_scan scanEnv 5 (some scanFunc) BaseStride.T.VAL 500 1 8 true {} topLeaf
    (fun v => Except.ok v) [] [] BaseStride.T.TOP {} 4 (fun k => (500 : Int) + k)
    (by decide) rfl (Or.inl rfl) rfl
    (by
      intro k hk
      refine ⟨?_, ?_, ?_⟩
      · simp [Program.candidate]
      · simp [scanEnv]
      · simp only [scanEnv]; omega)
    (Or.inl (by simp [scanEnv]))
    (by decide)⟩

/-- For a positive stride the cap holds: the unbounded scan entered at `addr`
returns after at most `b + LIMIT_JTABLE - addr` candidates (it does not run out
of a fuel larger than that). -/
theorem Program.scan_unbounded_capped (env : Env) (nmem : Bool) (w : Nat)
    (f : Int → Except Stop Int) (b s : Int) (hs : 0 < s)
    (hf : ∀ a, Program.candidate env nmem w f a ≠ Except.error Stop.out_of_fuel) :
    ∀ (fuel : Nat) (addr : Int) (m : UMap USet),
      (b + env.LIMIT_JTABLE - addr).toNat < fuel →
      Program.scan_unbounded env nmem w f b s fuel addr m ≠ Except.error Stop.out_of_fuel := by
  intro fuel
  induction fuel with
  | zero => intro addr m h; exact absurd h (Nat.not_lt_zero _)
  | succ fuel ih =>
    intro addr m h
    rw [Program.scan_unbounded]
    split
    · rename_i hc
      split
      · rename_i e he
        intro hcontra
        injection hcontra with hcontra
        subst hcontra
        exact hf addr he
      · split
        · exact ih _ _ (by omega)
        · simp
    · simp

theorem Program.scan_unbounded_down :
    ∀ (fuel : Nat) (addr : Int) (m : UMap USet), addr ≤ 500 →
      Program.scan_unbounded allValidEnv true 8 (fun v => Except.ok v) 500 (-1) fuel addr m
        = Except.error Stop.out_of_fuel := by
  intro fuel
  induction fuel with
  | zero => intro addr m _; rfl
  | succ fuel ih =>
    intro addr m haddr
    rw [Program.scan_unbounded]
    have hc : addr < 500 + allValidEnv.LIMIT_JTABLE := by
      show addr < 500 + 4
      omega
    rw [if_pos hc]
    have hcand : Program.candidate allValidEnv true 8 (fun v => Except.ok v) addr = Except.ok addr := rfl
    rw [hcand]
    have hval : allValidEnv.valid_icf addr = true := rfl
    simp only [hval, if_true]
    exact ih (addr + -1) _ (by omega)

/-- C7, evaluated at the failing input: with `LIMIT_JTABLE = 4`, every address a
valid target and the term `500 + (-1) * TOP`, the enumeration loop of `resolve_icf`
is still running after any number of tests: no amount of fuel makes the call
return, so it examines more than `LIMIT_JTABLE` table addresses. -/
theorem resolve_icf_negative_stride_unbounded :
    ∀ fuel : Nat,
      Program.resolve_icf allValidEnv fuel (some scanFunc) downTerm (fun v => Except.ok v) ([], [])
        = Except.error Stop.out_of_fuel := by
  intro fuel
  have h := Program.scan_unbounded_down fuel 500 [] (le_refl _)
  rw [downTerm, Program.resolve_icf_node]
  have hd : topLeaf.deref = some (BaseStride.T.TOP, {}) := rfl
  have hu : Program.usable_bound allValidEnv {} = false := rfl
  simp only [hd, hu, h]
  rfl

/-! ## Block reconstruction -/

/-- C10, evaluated at the failing input: on three instructions in a row (0, 1 and a
halt at 2), `fptrs({0}); update();` builds the block `[0, 1, 2]`; `fptrs({1});
update();` then runs `block_dfs` on the already placed instruction 1 and registers
a second block `[1]` at offset 1. Instruction 1 is now in the lists of two blocks
of `b_map_`, and the block `[0, 1, 2]` lists an instruction whose parent is the
other block. -/
theorem update_mid_block_entry_overlaps :
    ∃ p, fptrs_update_twice {} 10 lineProgram [0] [1] = Except.ok p ∧
      p.b_map_ = [(0, 0), (1, 1)] ∧
      p.blocks.map Block.insn_list = [[0, 1, 2], [1]] ∧
      p.parent 1 = some 1 :=
  ⟨_, rfl, rfl, rfl, rfl⟩

/-! ## The block store -/

theorem get?_modify_nth {α : Type} (f : α → α) :
    ∀ (l : List α) (n m : Nat),
      (modify_nth f l n).get? m = if m = n then (l.get? m).map f else l.get? m := by
  intro l
  induction l with
  | nil => intro n m; cases n <;> simp [modify_nth]
  | cons x xs ih =>
    intro n m
    cases n with
    | zero =>
      cases m with
      | zero => simp [modify_nth]
      | succ m => simp [modify_nth]
    | succ n =>
      cases m with
      | zero => simp [modify_nth]
      | succ m => simpa [modify_nth] using ih n m

theorem length_modify_nth {α : Type} (f : α → α) :
    ∀ (l : List α) (n : Nat), (modify_nth f l n).length = l.length := by
  intro l
  induction l with
  | nil => intro n; cases n <;> rfl
  | cons x xs ih =>
    intro n
    cases n with
    | zero => rfl
    | succ n => simp [modify_nth, ih n]

theorem UMap.find_modify {V : Type} (f : V → V) (m : UMap V) (i k : IMM) :
    (UMap.modify f m i).find k = if k = i then (m.find k).map f else m.find k := by
  induction m with
  | nil => simp [UMap.modify, UMap.find]
  | cons e rest ih =>
    obtain ⟨k', v⟩ := e
    by_cases h : k' = i
    · subst h
      by_cases hk : k = k'
      · subst hk; simp [UMap.modify, UMap.find]
      · have hk' : ¬ k' = k := fun h => hk h.symm
        simp [UMap.modify, UMap.find, hk, hk']
    · by_cases hk : k' = k
      · subst hk
        simp [UMap.modify, UMap.find, h]
      · simp only [UMap.modify, UMap.find, h, hk, if_false, ih]

theorem Program.get?_modify_block (p : Program) (b m : Nat) (f : Block → Block) :
    (p.modify_block b f).blocks.get? m
      = if m = b then (p.blocks.get? m).map f else p.blocks.get? m := by
  simp only [Program.modify_block, get?_modify_nth]

theorem Program.i_map_modify_block (p : Program) (b : Nat) (f : Block → Block) :
    (p.modify_block b f).i_map_ = p.i_map_ := rfl

theorem Program.b_map_modify_block (p : Program) (b : Nat) (f : Block → Block) :
    (p.modify_block b f).b_map_ = p.b_map_ := rfl

theorem Program.blocks_modify_insn (p : Program) (i : IMM) (f : Insn → Insn) :
    (p.modify_insn i f).blocks = p.blocks := rfl

theorem Program.find_modify_insn (p : Program) (i k : IMM) (f : Insn → Insn) :
    (p.modify_insn i f).i_map_.find k
      = if k = i then (p.i_map_.find k).map f else p.i_map_.find k := by
  simp only [Program.modify_insn, UMap.find_modify]

theorem Program.insn_list_succ (p : Program) (b v m : Nat) (c : COMPARE) :
    ((p.succ b v c).blocks.get? m).map Block.insn_list
      = (p.blocks.get? m).map Block.insn_list := by
  simp only [Program.succ, Program.get?_modify_block]
  split_ifs <;> cases p.blocks.get? m <;> rfl

theorem Program.succ_succ (p : Program) (b v m : Nat) (c : COMPARE) :
    ((p.succ b v c).blocks.get? m).map Block.succ
      = if m = b then ((p.blocks.get? m).map Block.succ).map (fun s => s ++ [(v, c)])
        else (p.blocks.get? m).map Block.succ := by
  simp only [Program.succ, Program.get?_modify_block]
  split_ifs <;> cases p.blocks.get? m <;> rfl

theorem Program.i_map_succ (p : Program) (b v : Nat) (c : COMPARE) :
    (p.succ b v c).i_map_ = p.i_map_ := rfl

theorem Program.b_map_succ (p : Program) (b v : Nat) (c : COMPARE) :
    (p.succ b v c).b_map_ = p.b_map_ := rfl

theorem Program.length_succ (p : Program) (b v : Nat) (c : COMPARE) :
    (p.succ b v c).blocks.length = p.blocks.length := by
  simp [Program.succ, Program.modify_block, length_modify_nth]

theorem Program.proj_fold_modify_block {β : Type} (π : Block → β) (g : Block → Block)
    (hg : ∀ x, π (g x) = π x) (es : List (Nat × COMPARE)) :
    ∀ (q : Program) (m : Nat),
      ((es.foldl (fun q e => q.modify_block e.1 g) q).blocks.get? m).map π
        = (q.blocks.get? m).map π := by
  induction es with
  | nil => intro q m; rfl
  | cons e rest ih =>
    intro q m
    rw [List.foldl_cons, ih, Program.get?_modify_block]
    split_ifs
    · cases q.blocks.get? m <;> simp [hg]
    · rfl

theorem Program.fields_fold_modify_block (g : Block → Block) (es : List (Nat × COMPARE)) :
    ∀ (q : Program),
      (es.foldl (fun q e => q.modify_block e.1 g) q).i_map_ = q.i_map_ ∧
      (es.foldl (fun q e => q.modify_block e.1 g) q).b_map_ = q.b_map_ ∧
      (es.foldl (fun q e => q.modify_block e.1 g) q).blocks.length = q.blocks.length := by
  induction es with
  | nil => intro q; exact ⟨rfl, rfl, rfl⟩
  | cons e rest ih =>
    intro q
    rw [List.foldl_cons]
    obtain ⟨h1, h2, h3⟩ := ih (q.modify_block e.1 g)
    refine ⟨h1, h2, ?_⟩
    rw [h3]
    simp [Program.modify_block, length_modify_nth]

theorem Program.insn_list_shrink_succ (p : Program) (b m : Nat) :
    ((p.shrink_succ b).blocks.get? m).map Block.insn_list
      = (p.blocks.get? m).map Block.insn_list := by
  unfold Program.shrink_succ
  cases hb : p.blocks.get? b with
  | none => rfl
  | some blk =>
    simp only [Program.get?_modify_block]
    have h := Program.proj_fold_modify_block Block.insn_list
      (fun v => { v with pred := v.pred.filter (fun x => decide (x ≠ b)) }) (fun _ => rfl)
      blk.succ p m
    split_ifs
    · rw [← h]
      cases (List.foldl (fun q e => q.modify_block e.1
        (fun v => { v with pred := v.pred.filter (fun x => decide (x ≠ b)) })) p blk.succ).blocks.get? m <;> rfl
    · exact h

theorem Program.succ_shrink_succ (p : Program) (b m : Nat) :
    ((p.shrink_succ b).blocks.get? m).map Block.succ
      = if m = b then ((p.blocks.get? m).map Block.succ).map (fun _ => [])
        else (p.blocks.get? m).map Block.succ := by
  unfold Program.shrink_succ
  cases hb : p.blocks.get? b with
  | none =>
    split_ifs with hm
    · subst hm; rw [hb]; rfl
    · rfl
  | some blk =>
    simp only [Program.get?_modify_block]
    have h := Program.proj_fold_modify_block Block.succ
      (fun v => { v with pred := v.pred.filter (fun x => decide (x ≠ b)) }) (fun _ => rfl)
      blk.succ p m
    split_ifs
    · rw [← h]
      cases (List.foldl (fun q e => q.modify_block e.1
        (fun v => { v with pred := v.pred.filter (fun x => decide (x ≠ b)) })) p blk.succ).blocks.get? m <;> rfl
    · exact h

theorem Program.fields_shrink_succ (p : Program) (b : Nat) :
    (p.shrink_succ b).i_map_ = p.i_map_ ∧ (p.shrink_succ b).b_map_ = p.b_map_ ∧
    (p.shrink_succ b).blocks.length = p.blocks.length := by
  unfold Program.shrink_succ
  cases hb : p.blocks.get? b with
  | none => exact ⟨rfl, rfl, rfl⟩
  | some blk =>
    obtain ⟨h1, h2, h3⟩ := Program.fields_fold_modify_block
      (fun v => { v with pred := v.pred.filter (fun x => decide (x ≠ b)) }) blk.succ p
    refine ⟨h1, h2, ?_⟩
    simp only [Program.modify_block, length_modify_nth]
    exact h3

theorem Program.fold_modify_insn_fields (f : Insn → Insn) (l : List IMM) :
    ∀ (q : Program),
      (l.foldl (fun q i => q.modify_insn i f) q).blocks = q.blocks ∧
      (l.foldl (fun q i => q.modify_insn i f) q).b_map_ = q.b_map_ := by
  induction l with
  | nil => intro q; exact ⟨rfl, rfl⟩
  | cons i rest ih =>
    intro q
    rw [List.foldl_cons]
    exact ih (q.modify_insn i f)

theorem Program.alloc_block_blocks (p : Program) (l : List IMM) :
    (p.alloc_block l).1.blocks = p.blocks ++ [{ insn_list := l }] ∧
    (p.alloc_block l).2 = p.blocks.length ∧
    (p.alloc_block l).1.b_map_ = p.b_map_ := by
  unfold Program.alloc_block
  obtain ⟨h1, h2⟩ := Program.fold_modify_insn_fields
    (fun insn => { insn with parent := some p.blocks.length }) l
    { p with blocks := p.blocks ++ [{ insn_list := l }] }
  exact ⟨h1, rfl, h2⟩

theorem takeWhile_ne_append (insn : IMM) (pre post : List IMM) (hpre : insn ∉ pre) :
    (pre ++ insn :: post).takeWhile (fun i => decide (i ≠ insn)) = pre ∧
    (pre ++ insn :: post).dropWhile (fun i => decide (i ≠ insn)) = insn :: post := by
  induction pre with
  | nil => simp
  | cons a rest ih =>
    have ha : a ≠ insn := fun h => hpre (h ▸ List.mem_cons_self _ _)
    have hr : insn ∉ rest := fun h => hpre (List.mem_cons_of_mem _ h)
    obtain ⟨h1, h2⟩ := ih hr
    simp only [List.cons_append, List.takeWhile_cons, List.dropWhile_cons, ha, ne_eq,
      not_false_eq_true, decide_True, if_true, h1, h2, and_self]

theorem get?_append_length {α : Type} (l : List α) (x : α) :
    (l ++ [x]).get? l.length = some x := by
  simp

theorem get?_append_lt {α : Type} (l r : List α) (n : Nat) (h : n < l.length) :
    (l ++ r).get? n = l.get? n := by
  simp [List.getElem?_append_left h]

theorem Program.fold_succ_copy (nb : Nat) (es : List (Nat × COMPARE)) :
    ∀ (q : Program) (m : Nat),
      ((es.foldl (fun q e => q.succ nb e.1 e.2) q).blocks.get? m).map Block.insn_list
        = (q.blocks.get? m).map Block.insn_list ∧
      ((es.foldl (fun q e => q.succ nb e.1 e.2) q).blocks.get? m).map Block.succ
        = (if m = nb then ((q.blocks.get? m).map Block.succ).map (fun s => s ++ es)
           else (q.blocks.get? m).map Block.succ) ∧
      (es.foldl (fun q e => q.succ nb e.1 e.2) q).b_map_ = q.b_map_ ∧
      (es.foldl (fun q e => q.succ nb e.1 e.2) q).i_map_ = q.i_map_ := by
  induction es with
  | nil =>
    intro q m
    refine ⟨rfl, ?_, rfl, rfl⟩
    simp only [List.foldl_nil]
    split_ifs
    · cases q.blocks.get? m <;>
        simp only [Option.map_none', Option.map_some', List.append_nil]
    · rfl
  | cons e rest ih =>
    intro q m
    rw [List.foldl_cons]
    obtain ⟨h1, h2, h3, h4⟩ := ih (q.succ nb e.1 e.2) m
    refine ⟨?_, ?_, ?_, ?_⟩
    · rw [h1, Program.insn_list_succ]
    · rw [h2, Program.succ_succ]
      split_ifs
      · cases q.blocks.get? m <;>
          simp only [Option.map_none', Option.map_some', List.append_assoc,
            List.singleton_append]
      · rfl
    · rw [h3, Program.b_map_succ]
    · rw [h4, Program.i_map_succ]

/-- C12: for an instruction `insn` that lies in block `b` (its parent) after the
instructions `pre` and before `post`, `block_split(insn)` returns
and leaves `b` holding exactly `pre`, registers at `insn` in `b_map_` a new tail
block holding `insn :: post`, gives the tail exactly the successor edges `b` had,
and leaves `b` with the single successor edge `(tail, NONE)`. -/
theorem block_split_spec (p : Program) (insn : IMM) (b : Nat) (blk : Block)
    (pre post : List IMM)
    (hparent : p.parent insn = some b) (hblk : p.blocks.get? b = some blk)
    (hlist : blk.insn_list = pre ++ insn :: post) (hpre : insn ∉ pre) :
    ∃ p', p.block_split insn = Except.ok p' ∧
      (p'.blocks.get? b).map Block.insn_list = some pre ∧
      p'.b_map_.find insn = some p.blocks.length ∧
      (p'.blocks.get? p.blocks.length).map Block.insn_list = some (insn :: post) ∧
      (p'.blocks.get? p.blocks.length).map Block.succ = some blk.succ ∧
      (p'.blocks.get? b).map Block.succ = some [(p.blocks.length, COMPARE.NONE)] := by
  have hb : b < p.blocks.length := by
    rcases Nat.lt_or_ge b p.blocks.length with h | h
    · exact h
    · rw [List.get?_eq_none.2 h] at hblk; cases hblk
  have hne : p.blocks.length ≠ b := Nat.ne_of_gt hb
  obtain ⟨htake, hdrop⟩ := takeWhile_ne_append insn pre post hpre
  obtain ⟨ha1, ha2, ha3⟩ := Program.alloc_block_blocks p (insn :: post)
  -- the state after the constructor and the loop that copies the successors
  obtain ⟨hc1, hc2, hc3, -⟩ := Program.fold_succ_copy (p.alloc_block (insn :: post)).2 blk.succ
    (p.alloc_block (insn :: post)).1 p.blocks.length
  obtain ⟨hd1, hd2, -, -⟩ := Program.fold_succ_copy (p.alloc_block (insn :: post)).2 blk.succ
    (p.alloc_block (insn :: post)).1 b
  rw [ha1, ha2] at hc1 hc2 hd1 hd2
  rw [ha2] at hc3
  simp only [get?_append_length, Option.map_some', if_true, List.nil_append] at hc1 hc2
  rw [get?_append_lt _ _ _ hb, hblk] at hd1 hd2
  simp only [Option.map_some', hne.symm, if_false] at hd1 hd2
  generalize hp₁ : List.foldl (fun q e => q.succ p.blocks.length e.1 e.2)
    (p.alloc_block (insn :: post)).1 blk.succ = p₁ at hc1 hc2 hc3 hd1 hd2
  have hfirst₁ : p₁.first p.blocks.length = some insn := by
    unfold Program.first
    cases h : p₁.blocks.get? p.blocks.length with
    | none => rw [h] at hc1; cases hc1
    | some x =>
      rw [h] at hc1
      simp only [Option.map_some', Option.some.injEq] at hc1
      simp [hc1]
  have hres : p.block_split insn = Except.ok
      (((({ p₁ with b_map_ := p₁.b_map_.set insn p.blocks.length } : Program).modify_block b
        (fun x => { x with insn_list := pre })).shrink_succ b).succ b p.blocks.length
          COMPARE.NONE) := by
    unfold Program.block_split
    simp only [hparent, hblk, hlist, htake, hdrop, ha2, hp₁, Program.register_block, hfirst₁]
  refine ⟨_, hres, ?_, ?_, ?_, ?_, ?_⟩
  · rw [Program.insn_list_succ, Program.insn_list_shrink_succ, Program.get?_modify_block,
      if_pos rfl]
    cases h : p₁.blocks.get? b with
    | none => rw [h] at hd1; cases hd1
    | some x => rfl
  · rw [Program.b_map_succ, (Program.fields_shrink_succ _ _).2.1, Program.b_map_modify_block]
    exact UMap.find_set_self _ _ _
  · rw [Program.insn_list_succ, Program.insn_list_shrink_succ, Program.get?_modify_block,
      if_neg hne]
    exact hc1
  · rw [Program.succ_succ, if_neg hne, Program.succ_shrink_succ, if_neg hne,
      Program.get?_modify_block, if_neg hne]
    exact hc2
  · rw [Program.succ_succ, if_pos rfl, Program.succ_shrink_succ, if_pos rfl,
      Program.get?_modify_block, if_pos rfl]
    cases h : p₁.blocks.get? b with
    | none => rw [h] at hd1; cases hd1
    | some x => rfl

theorem block_split_spec_witness :
    (lineBuilt.parent 1 = some 0 ∧
      lineBuilt.blocks.get? 0 = some { insn_list := [0, 1, 2] } ∧
      (1 : IMM) ∉ ([0] : List IMM)) ∧
    ∃ p', lineBuilt.block_split 1 = Except.ok p' ∧
      (p'.blocks.get? 0).map Block.insn_list = some [0] ∧
      p'.b_map_.find 1 = some lineBuilt.blocks.length ∧
      (p'.blocks.get? lineBuilt.blocks.length).map Block.insn_list = some (1 :: [2]) ∧
      (p'.blocks.get? lineBuilt.blocks.length).map Block.succ
        = some ({ insn_list := [0, 1, 2] } : Block).succ ∧
      (p'.blocks.get? 0).map Block.succ = some [(lineBuilt.blocks.length, COMPARE.NONE)] :=
  ⟨⟨by decide, by decide, by decide⟩,
   block_split_spec lineBuilt 1 0 { insn_list := [0, 1, 2] } [0] [2] (by decide) (by decide)
    rfl (by decide)⟩

/-- C13, evaluated at the failing input: the direct jumps at 10 and at 20 both go
to instruction 1, in the middle of the block `[0, 1, 2]`; the pass defers both
connections into `split_`. After `update()` the jump at 10 has its edge to the new
block `[1, 2]`, whose first instruction is 1, and the block of the jump at 20 has
no successor edge at all. -/
theorem update_second_deferred_edge_lost :
    (∃ q, Program.update_fptrs {} 10 [0, 10, 20] (twoJumpsProgram.fptrs [0, 10, 20])
        = Except.ok (Flow.go q) ∧
      q.split_ = [(10, 1, COMPARE.NONE), (20, 1, COMPARE.NONE)]) ∧
    ∃ p, Program.update {} 10 (twoJumpsProgram.fptrs [0, 10, 20]) = Except.ok p ∧
      p.parent 1 = some 3 ∧ p.first 3 = some 1 ∧
      p.parent 10 = some 1 ∧ (p.blocks.get? 1).map Block.succ = some [(3, COMPARE.NONE)] ∧
      p.parent 20 = some 2 ∧ (p.blocks.get? 2).map Block.succ = some [] :=
  ⟨⟨_, rfl, rfl⟩, ⟨_, rfl, rfl, rfl, rfl, rfl, rfl, rfl⟩⟩

/-- C14, evaluated at the failing input: on three instructions in a row (0, 1 and a
halt at 2) with the block `[0, 1, 2]` built, `block_dfs` entered at instruction 1
walks to the next instruction 2, which is placed in the middle of that block, and
closes the block `[1]` with one `NONE` edge; the edge leads to the block
`[0, 1, 2]`, whose first instruction is 0, not 2. -/
theorem block_dfs_next_placed_edge_to_block_head :
    ∃ p, fptrs_update_twice {} 10 lineProgram [0] [1] = Except.ok p ∧
      p.b_map_.find 1 = some 1 ∧
      (p.blocks.get? 1).map Block.insn_list = some [1] ∧
      (p.i_map_.find 1).map Insn.next_offset = some 2 ∧
      (p.blocks.get? 1).map Block.succ = some [(0, COMPARE.NONE)] ∧
      p.first 0 = some 0 :=
  ⟨_, rfl, rfl, rfl, rfl, rfl, rfl⟩

/-! ## Constructors and virtual tables -/

theorem Program.ctor_scan_loop_pos :
    ∀ (l : List RawInsn) (i : Nat) (st : CtorScan), 1 ≤ i →
      Program.ctor_scan_loop i l st
        = ((l.take (20 - i)).takeWhile (fun x => decide (ELF_x86.prolog x.raw_bytes ≠ 2))).foldl
            Program.ctor_scan_insn st := by
  intro l
  induction l with
  | nil => intro i st _; simp [Program.ctor_scan_loop]
  | cons insn rest ih =>
    intro i st hi
    rw [Program.ctor_scan_loop]
    by_cases h20 : i < 20
    · obtain ⟨k, hk⟩ : ∃ k, 20 - i = k + 1 := ⟨19 - i, by omega⟩
      have hk' : 20 - (i + 1) = k := by omega
      rw [if_pos h20, hk, List.take_succ_cons]
      by_cases hp : ELF_x86.prolog insn.raw_bytes = 2
      · have hi0 : i ≠ 0 := by omega
        rw [if_pos ⟨hp, hi0⟩, List.takeWhile_cons_of_neg (by simp [hp])]
        rfl
      · rw [if_neg (fun h => hp h.1), List.takeWhile_cons_of_pos (by simp [hp]), List.foldl_cons,
          ih (i + 1) _ (by omega), hk']
    · have : 20 - i = 0 := by omega
      rw [if_neg h20, this]
      rfl

theorem Program.ctor_scan_loop_window (insn : RawInsn) (rest : List RawInsn) (st : CtorScan) :
    Program.ctor_scan_loop 0 (insn :: rest) st
      = (ctor_window (insn :: rest)).foldl Program.ctor_scan_insn st := by
  rw [Program.ctor_scan_loop, if_pos (by decide), if_neg (fun h => h.2 rfl),
    Program.ctor_scan_loop_pos rest 1 _ (le_refl _)]
  rfl

theorem ctor_window_subset (insns : List RawInsn) : ∀ x ∈ ctor_window insns, x ∈ insns := by
  intro x hx
  cases insns with
  | nil => exact hx
  | cons first rest =>
    rcases List.mem_cons.1 hx with h | h
    · exact h ▸ List.mem_cons_self _ _
    · exact List.mem_cons_of_mem _ (List.mem_of_mem_take ((List.takeWhile_sublist _).subset h))

theorem lea_pattern_iff (bytes : List Nat) :
    (bytes.length ≥ 7 ∧ bytes.getD 0 0 = 0x48 ∧ bytes.getD 1 0 = 0x8d ∧ bytes.getD 2 0 = 0x0d)
      ↔ lea_pattern bytes := by
  unfold lea_pattern
  rcases bytes with _ | ⟨a, _ | ⟨b, _ | ⟨c, rest⟩⟩⟩ <;> simp

theorem Program.ctor_scan_insn_this (st : CtorScan) (x : RawInsn)
    (h : (Program.ctor_scan_insn st x).has_this_ptr = true) :
    st.has_this_ptr = true ∨ this_move_pattern x.raw_bytes := by
  by_cases hst : st.has_this_ptr = true
  · exact Or.inl hst
  · right
    have hf : st.has_this_ptr = false := by simpa using hst
    unfold this_move_pattern
    rcases hb : x.raw_bytes with _ | ⟨a, _ | ⟨b, _ | ⟨c, _ | ⟨d, rest⟩⟩⟩⟩ <;>
      simp only [Program.ctor_scan_insn, hb, hf] at h <;>
      split_ifs at h <;> simp_all

theorem Program.ctor_scan_insn_vptr (st : CtorScan) (x : RawInsn) :
    (Program.ctor_scan_insn st x).has_vptr_init
      = (st.has_vptr_init || decide (lea_pattern x.raw_bytes)) ∧
    (Program.ctor_scan_insn st x).vtable_addr
      = if lea_pattern x.raw_bytes then
          x.offset + x.raw_bytes.length
            + to_i32 ((x.raw_bytes.getD 6 0 <<< 24) ||| (x.raw_bytes.getD 5 0 <<< 16) |||
                (x.raw_bytes.getD 4 0 <<< 8) ||| x.raw_bytes.getD 3 0)
        else st.vtable_addr := by
  have hiff := lea_pattern_iff x.raw_bytes
  by_cases hl : lea_pattern x.raw_bytes
  · have hc := hiff.2 hl
    simp only [Program.ctor_scan_insn, if_pos hc, hl, decide_True, Bool.or_true, if_true,
      and_self]
  · have hc : ¬ (x.raw_bytes.length ≥ 7 ∧ x.raw_bytes.getD 0 0 = 0x48 ∧
        x.raw_bytes.getD 1 0 = 0x8d ∧ x.raw_bytes.getD 2 0 = 0x0d) := fun h => hl (hiff.1 h)
    simp only [Program.ctor_scan_insn, if_neg hc, hl, decide_False, Bool.or_false, if_false]
    constructor <;> split_ifs <;> rfl

theorem Program.ctor_scan_fold_this (W : List RawInsn) :
    ∀ (st : CtorScan), (W.foldl Program.ctor_scan_insn st).has_this_ptr = true →
      st.has_this_ptr = true ∨ ∃ x ∈ W, this_move_pattern x.raw_bytes := by
  induction W with
  | nil => intro st h; exact Or.inl h
  | cons a rest ih =>
    intro st h
    rw [List.foldl_cons] at h
    rcases ih _ h with h' | ⟨x, hx, hp⟩
    · rcases Program.ctor_scan_insn_this st a h' with h'' | h''
      · exact Or.inl h''
      · exact Or.inr ⟨a, List.mem_cons_self _ _, h''⟩
    · exact Or.inr ⟨x, List.mem_cons_of_mem _ hx, hp⟩

theorem Program.ctor_scan_fold_vptr (W : List RawInsn) :
    ∀ (st : CtorScan), (W.foldl Program.ctor_scan_insn st).has_vptr_init = true →
      st.has_vptr_init = true ∨
        ∃ L, (W.filter (fun x => decide (lea_pattern x.raw_bytes))).getLast? = some L ∧
          (W.foldl Program.ctor_scan_insn st).vtable_addr
            = L.offset + L.raw_bytes.length
              + to_i32 ((L.raw_bytes.getD 6 0 <<< 24) ||| (L.raw_bytes.getD 5 0 <<< 16) |||
                  (L.raw_bytes.getD 4 0 <<< 8) ||| L.raw_bytes.getD 3 0) := by
  intro st
  induction W using List.reverseRecOn with
  | nil => intro h; exact Or.inl h
  | append_singleton rest a ih =>
    intro h
    rw [List.foldl_append, List.foldl_cons, List.foldl_nil] at h ⊢
    obtain ⟨hv, ha⟩ := Program.ctor_scan_insn_vptr (rest.foldl Program.ctor_scan_insn st) a
    by_cases hl : lea_pattern a.raw_bytes
    · right
      refine ⟨a, ?_, ?_⟩
      · rw [List.filter_append]
        simp [hl]
      · rw [ha, if_pos hl]
    · rw [hv] at h
      simp only [hl, decide_False, Bool.or_false] at h
      rcases ih h with h' | ⟨L, hL, hLa⟩
      · exact Or.inl h'
      · right
        refine ⟨L, ?_, ?_⟩
        · rw [List.filter_append]
          simpa [hl] using hL
        · rw [ha, if_neg hl]
          exact hLa

theorem disp32_eq (bytes : List Nat) (hlen : bytes.length ≥ 7) (hb : ∀ x ∈ bytes, x < 256) :
    to_i32 ((bytes.getD 6 0 <<< 24) ||| (bytes.getD 5 0 <<< 16) ||| (bytes.getD 4 0 <<< 8) |||
      bytes.getD 3 0) = disp32 bytes := by
  rcases bytes with _ | ⟨b0, _ | ⟨b1, _ | ⟨b2, _ | ⟨b3, _ | ⟨b4, _ | ⟨b5, _ | ⟨b6, rest⟩⟩⟩⟩⟩⟩⟩ <;>
    simp only [List.length_nil, List.length_cons] at hlen <;> try omega
  have h3 : b3 < 256 := hb b3 (by simp)
  have h4 : b4 < 256 := hb b4 (by simp)
  have h5 : b5 < 256 := hb b5 (by simp)
  have h6 : b6 < 256 := hb b6 (by simp)
  unfold disp32
  congr 1
  simp only [List.getD_cons_succ, List.getD_cons_zero, List.drop_succ_cons, List.drop_zero,
    List.take_succ_cons, List.take_zero, le_uint, Nat.shiftLeft_eq]
  have e1 : b6 * 2 ^ 24 ||| b5 * 2 ^ 16 = b6 * 2 ^ 24 + b5 * 2 ^ 16 := by
    have := Nat.mul_add_lt_is_or (i := 24) (b := b5 * 2 ^ 16) (by omega) b6
    rw [Nat.mul_comm (2 ^ 24) b6] at this
    exact this.symm
  have e2 : (b6 * 2 ^ 24 + b5 * 2 ^ 16) ||| b4 * 2 ^ 8
      = b6 * 2 ^ 24 + b5 * 2 ^ 16 + b4 * 2 ^ 8 := by
    have := Nat.mul_add_lt_is_or (i := 16) (b := b4 * 2 ^ 8) (by omega) (b6 * 2 ^ 8 + b5)
    have e : 2 ^ 16 * (b6 * 2 ^ 8 + b5) = b6 * 2 ^ 24 + b5 * 2 ^ 16 := by ring
    rw [e] at this
    exact this.symm
  have e3 : (b6 * 2 ^ 24 + b5 * 2 ^ 16 + b4 * 2 ^ 8) ||| b3
      = b6 * 2 ^ 24 + b5 * 2 ^ 16 + b4 * 2 ^ 8 + b3 := by
    have := Nat.mul_add_lt_is_or (i := 8) (b := b3) (by omega) (b6 * 2 ^ 16 + b5 * 2 ^ 8 + b4)
    have e : 2 ^ 8 * (b6 * 2 ^ 16 + b5 * 2 ^ 8 + b4)
        = b6 * 2 ^ 24 + b5 * 2 ^ 16 + b4 * 2 ^ 8 := by ring
    rw [e] at this
    exact this.symm
  rw [e1, e2, e3]
  ring

theorem UMap.find_append_some {V : Type} (m m' : UMap V) (k : IMM) (w : V)
    (h : (m ++ m').find k = some w) : m.find k = some w ∨ m'.find k = some w := by
  induction m with
  | nil => exact Or.inr h
  | cons e rest ih =>
    obtain ⟨k', v'⟩ := e
    by_cases hk : k' = k
    · simp only [List.cons_append, UMap.find, hk, if_true] at h ⊢
      exact Or.inl h
    · simp only [List.cons_append, UMap.find, hk, if_false] at h ⊢
      exact ih h

theorem UMap.find_insert_new {V : Type} (m : UMap V) (k o : IMM) (v w : V)
    (h : (m.insert_new k v).find o = some w) : m.find o = some w ∨ (o = k ∧ w = v) := by
  unfold UMap.insert_new at h
  split_ifs at h
  · exact Or.inl h
  · rcases UMap.find_append_some m [(k, v)] o w h with h' | h'
    · exact Or.inl h'
    · right
      by_cases hk : k = o
      · simp only [UMap.find, hk, if_true, Option.some.injEq] at h'
        exact ⟨hk.symm, h'.symm⟩
      · simp [UMap.find, hk] at h'

theorem Program.find_vtable_constructors_from_entry :
    ∀ (insns : List RawInsn) (c : UMap IMM) (o v : IMM),
      (Program.find_vtable_constructors_from insns c).find o = some v →
      c.find o = some v ∨
        ∃ pre insn rest, insns = pre ++ insn :: rest ∧ insn.offset = o ∧
          ELF_x86.prolog insn.raw_bytes = 2 ∧
          ((ctor_window (insn :: rest)).foldl Program.ctor_scan_insn {}).has_this_ptr = true ∧
          ((ctor_window (insn :: rest)).foldl Program.ctor_scan_insn {}).has_vptr_init = true ∧
          v = ((ctor_window (insn :: rest)).foldl Program.ctor_scan_insn {}).vtable_addr := by
  intro insns
  induction insns with
  | nil => intro c o v h; exact Or.inl h
  | cons insn rest ih =>
    intro c o v h
    have lift : ∀ c', (Program.find_vtable_constructors_from rest c').find o = some v →
        c'.find o = some v ∨
        ∃ pre insn' rest', insn :: rest = pre ++ insn' :: rest' ∧ insn'.offset = o ∧
          ELF_x86.prolog insn'.raw_bytes = 2 ∧
          ((ctor_window (insn' :: rest')).foldl Program.ctor_scan_insn {}).has_this_ptr = true ∧
          ((ctor_window (insn' :: rest')).foldl Program.ctor_scan_insn {}).has_vptr_init = true ∧
          v = ((ctor_window (insn' :: rest')).foldl Program.ctor_scan_insn {}).vtable_addr := by
      intro c' hc'
      rcases ih c' o v hc' with h' | ⟨pre, insn', rest', hsplit, hrest⟩
      · exact Or.inl h'
      · exact Or.inr ⟨insn :: pre, insn', rest', by rw [hsplit]; rfl, hrest⟩
    rw [Program.find_vtable_constructors_from] at h
    by_cases hp : ELF_x86.prolog insn.raw_bytes ≠ 2
    · rw [if_pos hp] at h
      exact lift c h
    · rw [if_neg hp] at h
      simp only [Program.ctor_scan_loop_window] at h
      by_cases hrec : ELF_x86.prolog insn.raw_bytes ≥ 1 ∧
          ((ctor_window (insn :: rest)).foldl Program.ctor_scan_insn {}).has_this_ptr = true ∧
          ((ctor_window (insn :: rest)).foldl Program.ctor_scan_insn {}).has_vptr_init = true
      · rw [if_pos hrec] at h
        rcases lift _ h with h' | h'
        · rcases UMap.find_insert_new c insn.offset o _ v h' with h'' | ⟨ho, hv⟩
          · exact Or.inl h''
          · right
            refine ⟨[], insn, rest, rfl, ho.symm, ?_, hrec.2.1, hrec.2.2, hv⟩
            simpa using hp
        · exact Or.inr h'
      · rw [if_neg hrec] at h
        exact lift c h

theorem split_unique_of_nodup (insns : List RawInsn)
    (hnd : (insns.map RawInsn.offset).Nodup) :
    ∀ (pre pre' : List RawInsn) (insn insn' : RawInsn) (rest rest' : List RawInsn),
      insns = pre ++ insn :: rest → insns = pre' ++ insn' :: rest' →
      insn.offset = insn'.offset → insn = insn' ∧ rest = rest' := by
  induction insns with
  | nil => intro pre _ _ _ _ _ h; simp at h
  | cons a l ih =>
    intro pre pre' insn insn' rest rest' h h' ho
    rw [List.map_cons, List.nodup_cons] at hnd
    cases pre with
    | nil =>
      cases pre' with
      | nil =>
        simp only [List.nil_append, List.cons.injEq] at h h'
        exact ⟨h.1.symm.trans h'.1, h.2.symm.trans h'.2⟩
      | cons x pre' =>
        simp only [List.nil_append, List.cons_append, List.cons.injEq] at h h'
        exfalso
        apply hnd.1
        rw [h.1, ho, h'.2]
        simp
    | cons y pre =>
      cases pre' with
      | nil =>
        simp only [List.nil_append, List.cons_append, List.cons.injEq] at h h'
        exfalso
        apply hnd.1
        rw [h'.1, ← ho, h.2]
        simp
      | cons x pre' =>
        simp only [List.cons_append, List.cons.injEq] at h h'
        exact ih hnd.2 pre pre' insn insn' rest rest' h.2 h'.2 ho

/-- C18: an offset `o` is a key of the map returned by `find_vtable_constructors`
only if an instruction at `o` has prolog score 2 and its window (that instruction
and the instructions after it, at most 20 in total, ending before the next
instruction of prolog score 2) contains an instruction that begins with a
this-pointer move pattern and an instruction of at least 7 bytes that begins
`48 8d 0d`; with distinct offsets, a prologue whose window lacks either one is not
recorded. -/
theorem find_vtable_constructors_only_if (sorted_insns_ : List RawInsn) :
    (∀ o v, (Program.find_vtable_constructors sorted_insns_).find o = some v →
      ∃ pre insn rest, sorted_insns_ = pre ++ insn :: rest ∧ insn.offset = o ∧
        ELF_x86.prolog insn.raw_bytes = 2 ∧
        (∃ x ∈ ctor_window (insn :: rest), this_move_pattern x.raw_bytes) ∧
        (∃ y ∈ ctor_window (insn :: rest), lea_pattern y.raw_bytes)) ∧
    ((sorted_insns_.map RawInsn.offset).Nodup →
      ∀ pre insn rest, sorted_insns_ = pre ++ insn :: rest →
        (¬ (∃ x ∈ ctor_window (insn :: rest), this_move_pattern x.raw_bytes) ∨
         ¬ (∃ y ∈ ctor_window (insn :: rest), lea_pattern y.raw_bytes)) →
        (Program.find_vtable_constructors sorted_insns_).find insn.offset = none) := by
  have main : ∀ o v, (Program.find_vtable_constructors sorted_insns_).find o = some v →
      ∃ pre insn rest, sorted_insns_ = pre ++ insn :: rest ∧ insn.offset = o ∧
        ELF_x86.prolog insn.raw_bytes = 2 ∧
        (∃ x ∈ ctor_window (insn :: rest), this_move_pattern x.raw_bytes) ∧
        (∃ y ∈ ctor_window (insn :: rest), lea_pattern y.raw_bytes) := by
    intro o v h
    rcases Program.find_vtable_constructors_from_entry sorted_insns_ [] o v h with h' | h'
    · simp [UMap.find] at h'
    · obtain ⟨pre, insn, rest, hsplit, ho, hp, hthis, hvptr, -⟩ := h'
      refine ⟨pre, insn, rest, hsplit, ho, hp, ?_, ?_⟩
      · rcases Program.ctor_scan_fold_this _ _ hthis with h0 | h0
        · cases h0
        · exact h0
      · rcases Program.ctor_scan_fold_vptr _ _ hvptr with h0 | ⟨L, hL, -⟩
        · cases h0
        · have hmem := List.mem_of_mem_getLast? hL
          rw [List.mem_filter] at hmem
          exact ⟨L, hmem.1, by simpa using hmem.2⟩
  refine ⟨main, ?_⟩
  intro hnd pre insn rest hsplit hlack
  cases hfind : (Program.find_vtable_constructors sorted_insns_).find insn.offset with
  | none => rfl
  | some v =>
    exfalso
    obtain ⟨pre', insn', rest', hsplit', ho, -, hx, hy⟩ := main insn.offset v hfind
    obtain ⟨hi, hr⟩ := split_unique_of_nodup sorted_insns_ hnd pre' pre insn' insn rest' rest
      hsplit' hsplit ho
    subst hi hr
    rcases hlack with h | h
    · exact h hx
    · exact h hy

theorem find_vtable_constructors_only_if_witness :
    (Program.find_vtable_constructors ctorInsns).find 0 = some 28 ∧
    ∃ pre insn rest, ctorInsns = pre ++ insn :: rest ∧ insn.offset = 0 ∧
      ELF_x86.prolog insn.raw_bytes = 2 ∧
      (∃ x ∈ ctor_window (insn :: rest), this_move_pattern x.raw_bytes) ∧
      (∃ y ∈ ctor_window (insn :: rest), lea_pattern y.raw_bytes) :=
  ⟨by decide, (find_vtable_constructors_only_if ctorInsns).1 0 28 (by decide)⟩

/-- C19: for every entry `(o, v)` recorded by `find_vtable_constructors` (raw bytes
are bytes), `v = offset(L) + length(L) + disp32(L)`, where `L` is the last
instruction in the window of the prologue at `o` that has at least 7 bytes
beginning `48 8d 0d` and `disp32(L)` is the signed 32-bit little-endian integer in
bytes 3..6 of `L`. -/
theorem find_vtable_constructors_vtable_addr (sorted_insns_ : List RawInsn) (o v : IMM)
    (hbytes : ∀ i ∈ sorted_insns_, ∀ x ∈ i.raw_bytes, x < 256)
    (h : (Program.find_vtable_constructors sorted_insns_).find o = some v) :
    ∃ pre insn rest L, sorted_insns_ = pre ++ insn :: rest ∧ insn.offset = o ∧
      ELF_x86.prolog insn.raw_bytes = 2 ∧
      ((ctor_window (insn :: rest)).filter
        (fun x => decide (lea_pattern x.raw_bytes))).getLast? = some L ∧
      v = L.offset + L.raw_bytes.length + disp32 L.raw_bytes := by
  rcases Program.find_vtable_constructors_from_entry sorted_insns_ [] o v h with h' | h'
  · simp [UMap.find] at h'
  · obtain ⟨pre, insn, rest, hsplit, ho, hp, -, hvptr, hv⟩ := h'
    rcases Program.ctor_scan_fold_vptr _ _ hvptr with h0 | ⟨L, hL, hLa⟩
    · cases h0
    · refine ⟨pre, insn, rest, L, hsplit, ho, hp, hL, ?_⟩
      have hmem := List.mem_of_mem_getLast? hL
      rw [List.mem_filter] at hmem
      have hlea : lea_pattern L.raw_bytes := by simpa using hmem.2
      have hin : L ∈ sorted_insns_ := by
        rw [hsplit]
        exact List.mem_append_right _ (ctor_window_subset _ L hmem.1)
      rw [hv, hLa, disp32_eq L.raw_bytes hlea.1 (hbytes L hin)]

theorem find_vtable_constructors_vtable_addr_witness :
    ((∀ i ∈ ctorInsnsBack, ∀ x ∈ i.raw_bytes, x < 256) ∧
      (Program.find_vtable_constructors ctorInsnsBack).find 0 = some (-4)) ∧
    ∃ pre insn rest L, ctorInsnsBack = pre ++ insn :: rest ∧ insn.offset = 0 ∧
      ELF_x86.prolog insn.raw_bytes = 2 ∧
      ((ctor_window (insn :: rest)).filter
        (fun x => decide (lea_pattern x.raw_bytes))).getLast? = some L ∧
      (-4 : IMM) = L.offset + L.raw_bytes.length + disp32 L.raw_bytes :=
  ⟨⟨by decide, by decide⟩,
   find_vtable_constructors_vtable_addr ctorInsnsBack 0 (-4) (by decide) (by decide)⟩

/-- C20, evaluated at the failing input: a push (prolog score 2) followed by the
three-byte move `48 89 f9` and by a 7-byte `lea` beginning `48 8d 0d` is not
recorded: the test of the three-byte patterns stands inside
`if (bytes.size() >= 4 && ...)`. With the four-byte move `48 89 7d f8` in the same
place the prologue is recorded. -/
theorem find_vtable_constructors_misses_three_byte_move :
    ELF_x86.prolog [0x55] = 2 ∧
    Program.find_vtable_constructors ctorInsnsShortMove = [] ∧
    Program.find_vtable_constructors ctorInsns = [(0, 28)] := by
  decide

theorem any_slot_iff (v_tables : UMap USet) (x : IMM) :
    v_tables.any (fun pair => decide (x ∈ pair.2)) = true ↔ ∃ e ∈ v_tables, x ∈ e.2 := by
  simp [List.any_eq_true]

theorem Program.scan_vfunc_walk_spec (v_tables : UMap USet) :
    ∀ (fuel : Nat) (cur : IMM) (valid : Bool) (vs : USet) (r : Bool × USet),
      Program.scan_vfunc_walk v_tables fuel cur (valid, vs) = Except.ok r →
      ∀ a, a ∈ r.2 ↔ a ∈ vs ∨
        ∃ k : Nat, a = cur + 8 * k ∧ ∀ j : Nat, j ≤ k → ∃ e ∈ v_tables, cur + 8 * j ∈ e.2 := by
  intro fuel
  induction fuel with
  | zero => intro cur valid vs r h; simp [Program.scan_vfunc_walk] at h
  | succ fuel ih =>
    intro cur valid vs r h a
    rw [Program.scan_vfunc_walk] at h
    by_cases hfound : v_tables.any (fun pair => decide (cur ∈ pair.2)) = true
    · rw [if_pos hfound] at h
      have hslot := (any_slot_iff v_tables cur).1 hfound
      rw [ih _ _ _ _ h a, USet.mem_insert]
      constructor
      · rintro ((h1 | h1) | ⟨k, hk, hall⟩)
        · exact Or.inl h1
        · right
          refine ⟨0, by simp [h1], ?_⟩
          intro j hj
          have : j = 0 := by omega
          subst this
          simpa using hslot
        · right
          refine ⟨k + 1, by rw [hk]; push_cast; ring, ?_⟩
          intro j hj
          cases j with
          | zero => simpa using hslot
          | succ j =>
            have := hall j (by omega)
            have e : cur + 8 + 8 * (j : Int) = cur + 8 * ((j + 1 : Nat) : Int) := by
              push_cast; ring
            rw [e] at this
            exact this
      · rintro (h1 | ⟨k, hk, hall⟩)
        · exact Or.inl (Or.inl h1)
        · cases k with
          | zero => exact Or.inl (Or.inr (by simpa using hk))
          | succ k =>
            right
            refine ⟨k, by rw [hk]; push_cast; ring, ?_⟩
            intro j hj
            have := hall (j + 1) (by omega)
            have e : cur + 8 * ((j + 1 : Nat) : Int) = cur + 8 + 8 * (j : Int) := by
              push_cast; ring
            rw [e] at this
            exact this
    · rw [if_neg hfound] at h
      cases h
      constructor
      · intro h1; exact Or.inl h1
      · rintro (h1 | ⟨k, -, hall⟩)
        · exact h1
        · exfalso
          apply hfound
          rw [any_slot_iff]
          simpa using hall 0 (Nat.zero_le _)

theorem countP_lt_of_witness {α : Type} (p q : α → Bool) (hqp : ∀ x, q x = true → p x = true) :
    ∀ (l : List α), (∃ x ∈ l, p x = true ∧ q x = false) → l.countP q < l.countP p := by
  intro l
  induction l with
  | nil => rintro ⟨x, hx, -⟩; cases hx
  | cons a rest ih =>
    rintro ⟨x, hx, hpx, hqx⟩
    have hle : rest.countP q ≤ rest.countP p :=
      List.countP_mono_left (fun y _ hy => hqp y hy)
    rcases List.mem_cons.1 hx with rfl | hmem
    · rw [List.countP_cons_of_pos _ _ hpx, List.countP_cons_of_neg _ _ (by simp [hqx])]
      omega
    · have := ih ⟨x, hmem, hpx, hqx⟩
      by_cases hqa : q a = true
      · rw [List.countP_cons_of_pos _ _ hqa, List.countP_cons_of_pos _ _ (hqp a hqa)]
        omega
      · rw [List.countP_cons_of_neg _ _ hqa]
        by_cases hpa : p a = true
        · rw [List.countP_cons_of_pos _ _ hpa]; omega
        · rw [List.countP_cons_of_neg _ _ hpa]; exact this

theorem Program.scan_vfunc_walk_total (v_tables : UMap USet) :
    ∀ (fuel : Nat) (cur : IMM) (st : Bool × USet),
      (all_slots v_tables).countP (fun x => decide (cur ≤ x)) < fuel →
      ∃ r, Program.scan_vfunc_walk v_tables fuel cur st = Except.ok r := by
  intro fuel
  induction fuel with
  | zero => intro cur st h; exact absurd h (Nat.not_lt_zero _)
  | succ fuel ih =>
    intro cur st h
    obtain ⟨valid, vs⟩ := st
    rw [Program.scan_vfunc_walk]
    by_cases hfound : v_tables.any (fun pair => decide (cur ∈ pair.2)) = true
    · rw [if_pos hfound]
      apply ih
      obtain ⟨e, he, hcur⟩ := (any_slot_iff v_tables cur).1 hfound
      have hmem : cur ∈ all_slots v_tables := by
        unfold all_slots
        rw [List.mem_flatten]
        exact ⟨e.2, List.mem_map.2 ⟨e, he, rfl⟩, hcur⟩
      have hlt := countP_lt_of_witness (fun x => decide (cur ≤ x)) (fun x => decide (cur + 8 ≤ x))
        (fun x hx => by
          have h8 : cur + 8 ≤ x := of_decide_eq_true hx
          have hc : cur ≤ x := by
            have h0 : cur ≤ cur + 8 := Int.le_add_of_nonneg_right (by decide)
            exact Int.le_trans h0 h8
          exact decide_eq_true hc)
        (all_slots v_tables) ⟨cur, hmem, by simp, by simp⟩
      exact lt_of_lt_of_le hlt (Nat.lt_succ_iff.1 h)
    · rw [if_neg hfound]
      exact ⟨_, rfl⟩

theorem Program.scan_vfunc_headers_spec (v_tables : UMap USet) (fuel : Nat) :
    ∀ (hs : List IMM) (st r : USet × USet),
      Program.scan_vfunc_headers v_tables fuel hs st = Except.ok r →
      ∀ a, a ∈ r.2 ↔ a ∈ st.2 ∨
        ∃ h ∈ hs, ∃ k : Nat, a = h + 8 * k ∧
          ∀ j : Nat, j ≤ k → ∃ e ∈ v_tables, h + 8 * j ∈ e.2 := by
  intro hs
  induction hs with
  | nil =>
    intro st r h a
    rw [Program.scan_vfunc_headers] at h
    cases h
    simp
  | cons hd rest ih =>
    intro st r h a
    obtain ⟨vtb_h, vfunc_set⟩ := st
    rw [Program.scan_vfunc_headers] at h
    split at h
    · exact absurd h (by simp)
    · rename_i valid vs hw
      rw [ih _ _ h a]
      have hspec := Program.scan_vfunc_walk_spec v_tables fuel hd false vfunc_set _ hw a
      simp only at hspec ⊢
      rw [hspec]
      simp only [List.mem_cons, exists_eq_or_imp]
      exact or_assoc

theorem Program.scan_vfunc_headers_total (v_tables : UMap USet) (fuel : Nat)
    (hfuel : (all_slots v_tables).length < fuel) :
    ∀ (hs : List IMM) (st : USet × USet),
      ∃ r, Program.scan_vfunc_headers v_tables fuel hs st = Except.ok r := by
  intro hs
  induction hs with
  | nil => intro st; exact ⟨st, rfl⟩
  | cons hd rest ih =>
    intro st
    obtain ⟨vtb_h, vfunc_set⟩ := st
    obtain ⟨⟨valid, vs⟩, hw⟩ := Program.scan_vfunc_walk_total v_tables fuel hd (false, vfunc_set)
      (lt_of_le_of_lt (List.countP_le_length _) hfuel)
    rw [Program.scan_vfunc_headers, hw]
    exact ih _

theorem UMap.contains_fold_set {V : Type} (g : IMM → V) (l : List IMM) :
    ∀ (m : UMap V) (a : IMM),
      (l.foldl (fun acc x => acc.set x (g x)) m).contains a = true
        ↔ m.contains a = true ∨ a ∈ l := by
  induction l with
  | nil => intro m a; simp
  | cons x rest ih =>
    intro m a
    rw [List.foldl_cons, ih]
    by_cases hx : a = x
    · subst hx
      simp [UMap.contains, UMap.find_set_self]
    · simp only [UMap.contains, UMap.find_set_ne m x a (g x) hx, List.mem_cons, hx, false_or]

/-- C16: with more fuel than there are relocation slots, `scan_vfunc` returns, and
an address `a` is a key of the returned map exactly when there are a header `h`
among `constructors` and `k >= 0` with `a = h + 8*k` such that each of
`h, h+8, ..., h+8*k` belongs to some slot set of `v_tables`. -/
theorem scan_vfunc_keys (fuel : Nat) (constructors : USet) (v_tables : UMap USet)
    (read_slot : IMM → IMM) (file_offset : IMM)
    (hfuel : (all_slots v_tables).length < fuel) :
    ∃ r, Program.scan_vfunc fuel constructors v_tables read_slot file_offset = Except.ok r ∧
      ∀ a, r.2.contains a = true ↔
        ∃ h ∈ constructors, ∃ k : Nat, a = h + 8 * k ∧
          ∀ j : Nat, j ≤ k → ∃ e ∈ v_tables, h + 8 * j ∈ e.2 := by
  obtain ⟨⟨vtb_h, vfunc_set⟩, hh⟩ := Program.scan_vfunc_headers_total v_tables fuel hfuel
    (USet.insert_range [] constructors) ([], [])
  refine ⟨(vtb_h, vfunc_set.foldl (fun addr_pair addr =>
    addr_pair.set addr (read_slot (addr - file_offset))) []),
    by unfold Program.scan_vfunc; simp only [hh], ?_⟩
  intro a
  have hspec := Program.scan_vfunc_headers_spec v_tables fuel _ _ _ hh a
  simp only at hspec ⊢
  rw [UMap.contains_fold_set, hspec]
  simp only [USet.mem_insert_range, List.not_mem_nil, false_or]
  simp [UMap.contains, UMap.find]

theorem scan_vfunc_keys_witness :
    (all_slots [(1, [100, 108]), (2, [116, 132, 300])]).length < 10 ∧
    ∃ r, Program.scan_vfunc 10 [100, 300] [(1, [100, 108]), (2, [116, 132, 300])]
        (fun x => x + 1) 0 = Except.ok r ∧
      ∀ a, r.2.contains a = true ↔
        ∃ h ∈ ([100, 300] : USet), ∃ k : Nat, a = h + 8 * k ∧
          ∀ j : Nat, j ≤ k → ∃ e ∈ ([(1, [100, 108]), (2, [116, 132, 300])] : UMap USet),
            h + 8 * j ∈ e.2 :=
  ⟨by decide, scan_vfunc_keys 10 [100, 300] [(1, [100, 108]), (2, [116, 132, 300])]
    (fun x => x + 1) 0 (by decide)⟩

theorem u64_sub_add_cancel (a fo : Nat) (ha : a < 2 ^ 64) :
    u64 (u64 (a + (2 ^ 64 - u64 fo)) + fo) = a := by
  unfold u64
  omega

theorem ELF_x86.vtables_by_rel_entry_nonstripped (sec : Elf64_Shdr) (file_offset : Nat)
    (read8 : Nat → IMM) (symbol_table : List Elf64_Sym) (res : UMap USet) (r : Elf64_Rela)
    (hr : r.r_offset < 2 ^ 64) (k v : IMM)
    (hv : v ∈ (ELF_x86.vtables_by_rel_entry false sec file_offset read8 symbol_table res r).get k) :
    v ∈ res.get k ∨
      (v = to_i64 r.r_offset ∧ sec.sh_addr ≤ r.r_offset ∧
        r.r_offset < u64 (sec.sh_addr + sec.sh_size)) := by
  unfold ELF_x86.vtables_by_rel_entry at hv
  simp only [Bool.false_eq_true, if_false] at hv
  split_ifs at hv with hin hsym
  · rcases (Program.mem_insert_at _ _ _ _ _).1 hv with h | ⟨-, h⟩
    · exact Or.inl h
    · right
      rw [u64_sub_add_cancel _ _ hr] at h
      exact ⟨h, hin.1, hin.2⟩
  · exact Or.inl hv
  · exact Or.inl hv

theorem ELF_x86.vtables_by_rel_fold_nonstripped (sec : Elf64_Shdr) (file_offset : Nat)
    (read8 : Nat → IMM) (symbol_table : List Elf64_Sym) :
    ∀ (rs : List Elf64_Rela) (res : UMap USet), (∀ r ∈ rs, r.r_offset < 2 ^ 64) →
      ∀ k v, v ∈ (rs.foldl
          (ELF_x86.vtables_by_rel_entry false sec file_offset read8 symbol_table) res).get k →
        v ∈ res.get k ∨ ∃ r ∈ rs, v = to_i64 r.r_offset ∧ sec.sh_addr ≤ r.r_offset ∧
          r.r_offset < u64 (sec.sh_addr + sec.sh_size) := by
  intro rs
  induction rs with
  | nil => intro res _ k v hv; exact Or.inl hv
  | cons r rest ih =>
    intro res hlt k v hv
    rw [List.foldl_cons] at hv
    rcases ih _ (fun x hx => hlt x (List.mem_cons_of_mem _ hx)) k v hv with h | ⟨x, hx, h⟩
    · rcases ELF_x86.vtables_by_rel_entry_nonstripped sec file_offset read8 symbol_table res r
          (hlt r (List.mem_cons_self _ _)) k v h with h' | h'
      · exact Or.inl h'
      · exact Or.inr ⟨r, List.mem_cons_self _ _, h'⟩
    · exact Or.inr ⟨x, List.mem_cons_of_mem _ hx, h⟩

/-- In the non-stripped mode every slot that `vtables_by_rel` stores is the
`r_offset` (converted to `IMM`) of a relative relocation of `.rela.dyn` that lies in
`.data.rel.ro`. -/
theorem ELF_x86.vtables_by_rel_nonstripped_slots (rela_dyn : List Elf64_Rela)
    (sec : Elf64_Shdr) (file_offset : Nat) (read8 : Nat → IMM)
    (symbol_table : List Elf64_Sym) (hlt : ∀ r ∈ rela_dyn, r.r_offset < 2 ^ 64)
    (k v : IMM)
    (hv : v ∈ (ELF_x86.vtables_by_rel false rela_dyn sec file_offset read8 symbol_table).get k) :
    ∃ r ∈ rela_dyn, r.r_info = R_X86_64_RELATIVE ∧ v = to_i64 r.r_offset ∧
      sec.sh_addr ≤ r.r_offset ∧ r.r_offset < u64 (sec.sh_addr + sec.sh_size) := by
  unfold ELF_x86.vtables_by_rel ELF_x86.vtables_by_rel_relocations at hv
  rcases ELF_x86.vtables_by_rel_fold_nonstripped sec file_offset read8 symbol_table _ []
      (fun r hr => hlt r (List.mem_of_mem_filter hr)) k v hv with h | ⟨r, hr, h⟩
  · simp [UMap.get, UMap.find] at h
  · rw [List.mem_filter] at hr
    exact ⟨r, hr.1, by simpa using hr.2, h⟩

/-- C17, evaluated at the failing input: `.data.rel.ro` is `[0x3000, 0x3100)` in a
segment with `vaddr - offset = 0x1000`, and `.rela.dyn` holds one relative
relocation with `r_offset = 0x3008`. In the stripped mode the slot put into the
result is `0x2008 = r_offset - file_offset`: it is the `r_offset` of no relocation
and lies outside the section, and `scan_vfunc` reports it as a key. In the
non-stripped mode (the value read is the address of a function symbol) the slot is
`0x3008`. -/
theorem vtables_by_rel_stripped_slot_shifted :
    ELF_x86.vtables_by_rel true relaDynOne dataRelRoSection 0x1000 (fun _ => 0x1139) []
      = [(0x1139, [0x2008])] ∧
    (∀ r ∈ ELF_x86.vtables_by_rel_relocations relaDynOne, (r.r_offset : IMM) ≠ 0x2008) ∧
    ¬ ((dataRelRoSection.sh_addr : IMM) ≤ 0x2008) ∧
    Program.scan_vfunc 10 [0x2008]
        (ELF_x86.vtables_by_rel true relaDynOne dataRelRoSection 0x1000 (fun _ => 0x1139) [])
        (fun _ => 0x1139) 0x1000
      = Except.ok ([0x2008], [(0x2008, 0x1139)]) ∧
    ELF_x86.vtables_by_rel false relaDynOne dataRelRoSection 0x1000 (fun _ => 0x1139)
        [{ st_value := 0x1139, st_info := 0x12 }]
      = [(0x1139, [0x3008])] := by
  refine ⟨by decide, by decide, by decide, rfl, by decide⟩

theorem load_loop_entry {RTL : Type} (to_int : List Char → IMM)
    (process : List Char → Option RTL) (new_Exit : EXIT_TYPE → RTL)
    (noreturn_calls : USet) (itc rtl raw : List Char) :
    (if to_int (substr_chars itc 2 (u64 (string_find itc ' ' + (2 ^ 64 - 2)))) ∈ noreturn_calls
      then (to_int (substr_chars itc 2 (u64 (string_find itc ' ' + (2 ^ 64 - 2)))),
        some (new_Exit EXIT_TYPE.HALT), HLT_BYTES)
      else (to_int (substr_chars itc 2 (u64 (string_find itc ' ' + (2 ^ 64 - 2)))),
        process rtl, load_raw_bytes to_int raw))
      = expected_record to_int process new_Exit noreturn_calls (itc, rtl, raw) := rfl

theorem load_loop_spec {RTL : Type} (ABORT_UNLIFTED_INSN : Bool) (to_int : List Char → IMM)
    (process : List Char → Option RTL) (new_Exit : EXIT_TYPE → RTL)
    (noreturn_calls : USet) :
    ∀ (f1 f2 f3 : List (List Char)) (acc : List (IMM × Option RTL × List Nat)),
      (∀ itc ∈ f1, 2 ≤ itc.length) →
      ∃ r, load_loop ABORT_UNLIFTED_INSN to_int process new_Exit noreturn_calls f1 f2 f3 acc
            = Except.ok (acc ++ r) ∧
        r <+: (List.zip f1 (List.zip f2 f3)).map
          (expected_record to_int process new_Exit noreturn_calls) ∧
        ((ABORT_UNLIFTED_INSN = false ∨ ∀ line ∈ List.zip f1 (List.zip f2 f3),
            (expected_record to_int process new_Exit noreturn_calls line).2.1 ≠ none) →
          r = (List.zip f1 (List.zip f2 f3)).map
            (expected_record to_int process new_Exit noreturn_calls)) := by
  intro f1
  induction f1 with
  | nil =>
    intro f2 f3 acc _
    refine ⟨[], ?_, ?_, ?_⟩
    · simp [load_loop]
    · simp
    · intro _; simp
  | cons itc f1 ih =>
    intro f2 f3 acc hlen
    cases f2 with
    | nil =>
      refine ⟨[], ?_, ?_, ?_⟩
      · simp [load_loop]
      · simp
      · intro _; simp
    | cons rtl f2 =>
      cases f3 with
      | nil =>
        refine ⟨[], ?_, ?_, ?_⟩
        · simp [load_loop]
        · simp
        · intro _; simp
      | cons raw f3 =>
        have h2 : ¬ itc.length < 2 := by
          have := hlen itc (List.mem_cons_self _ _)
          omega
        have hsub : substr itc 2 (u64 (string_find itc ' ' + (2 ^ 64 - 2)))
            = Except.ok (substr_chars itc 2 (u64 (string_find itc ' ' + (2 ^ 64 - 2)))) := by
          unfold substr
          rw [if_neg h2]
        rw [load_loop, hsub]
        simp only [load_loop_entry]
        simp only [List.zip_cons_cons, List.map_cons]
        by_cases hstop :
            ((expected_record to_int process new_Exit noreturn_calls (itc, rtl, raw)).2.1.isNone
              && ABORT_UNLIFTED_INSN) = true
        · rw [if_pos hstop]
          refine ⟨[_], rfl, ?_, ?_⟩
          · exact List.prefix_append [expected_record to_int process new_Exit
              noreturn_calls (itc, rtl, raw)] _
          · intro hc
            rw [Bool.and_eq_true] at hstop
            rcases hc with hc | hc
            · rw [hc] at hstop; exact absurd hstop.2 (by simp)
            · have := hc (itc, rtl, raw) (List.mem_cons_self _ _)
              rw [Option.isNone_iff_eq_none] at hstop
              exact absurd hstop.1 this
        · rw [if_neg hstop]
          obtain ⟨r, hr, hpre, hall⟩ := ih f2 f3
            (acc ++ [expected_record to_int process new_Exit noreturn_calls (itc, rtl, raw)])
            (fun x hx => hlen x (List.mem_cons_of_mem _ hx))
          refine ⟨expected_record to_int process new_Exit noreturn_calls (itc, rtl, raw) :: r,
            ?_, ?_, ?_⟩
          · rw [hr]; simp
          · exact (List.prefix_cons_inj _).2 hpre
          · intro hc
            rw [hall ?_]
            rcases hc with hc | hc
            · exact Or.inl hc
            · exact Or.inr (fun line hl => hc line (List.mem_cons_of_mem _ hl))

/-- C15: when every assembly line has at least two characters, `load` returns; each
record it returns is the expected one for its aligned triple of lines (offset in
`noreturn_calls`: `Exit(HALT)` with raw bytes `[0xf4]`, whatever the RTL and raw
lines hold; otherwise the parsed RTL and the parsed raw bytes), and the result has
one record for every aligned triple when `ABORT_UNLIFTED_INSN` is off or every
line outside `noreturn_calls` lifts. -/
theorem load_noreturn_halt {RTL : Type} (ABORT_UNLIFTED_INSN : Bool)
    (to_int : List Char → IMM) (process : List Char → Option RTL)
    (new_Exit : EXIT_TYPE → RTL) (f_asm f_rtl f_raw : List (List Char))
    (noreturn_calls : USet) (hlen : ∀ itc ∈ f_asm, 2 ≤ itc.length) :
    ∃ res, load ABORT_UNLIFTED_INSN to_int process new_Exit f_asm f_rtl f_raw noreturn_calls
          = Except.ok res ∧
      res <+: (List.zip f_asm (List.zip f_rtl f_raw)).map
        (expected_record to_int process new_Exit noreturn_calls) ∧
      ((ABORT_UNLIFTED_INSN = false ∨ ∀ line ∈ List.zip f_asm (List.zip f_rtl f_raw),
          (expected_record to_int process new_Exit noreturn_calls line).2.1 ≠ none) →
        res = (List.zip f_asm (List.zip f_rtl f_raw)).map
          (expected_record to_int process new_Exit noreturn_calls)) := by
  obtain ⟨r, hr, hpre, hall⟩ := load_loop_spec ABORT_UNLIFTED_INSN to_int process new_Exit
    noreturn_calls f_asm f_rtl f_raw [] hlen
  exact ⟨r, by unfold load; rw [hr]; rfl, hpre, hall⟩

theorem load_noreturn_halt_witness :
    (∀ itc ∈ asmLines, 2 ≤ itc.length) ∧
    ∃ res, load true hex_to_int lengthLifter (fun _ => 0) asmLines rtlLines rawLines [0x10]
          = Except.ok res ∧
      res <+: (List.zip asmLines (List.zip rtlLines rawLines)).map
        (expected_record hex_to_int lengthLifter (fun _ => 0) [0x10]) ∧
      ((true = false ∨ ∀ line ∈ List.zip asmLines (List.zip rtlLines rawLines),
          (expected_record hex_to_int lengthLifter (fun _ => 0) [0x10] line).2.1 ≠ none) →
        res = (List.zip asmLines (List.zip rtlLines rawLines)).map
          (expected_record hex_to_int lengthLifter (fun _ => 0) [0x10])) :=
  ⟨by decide, load_noreturn_halt true hex_to_int lengthLifter (fun _ => 0)
    asmLines rtlLines rawLines [0x10] (by decide)⟩

theorem Program.flags_kept_refl (p : Program) : p.flags_kept p :=
  fun _ insn h => ⟨insn, h, id⟩

theorem Program.flags_kept_trans {p q r : Program} (h1 : p.flags_kept q) (h2 : q.flags_kept r) :
    p.flags_kept r := by
  intro k insn h
  obtain ⟨i1, hi1, hf1⟩ := h1 k insn h
  obtain ⟨i2, hi2, hf2⟩ := h2 k i1 hi1
  exact ⟨i2, hi2, fun hx => hf2 (hf1 hx)⟩

theorem Program.flags_kept_of_eq {p p' : Program} (h : p'.i_map_ = p.i_map_) :
    p.flags_kept p' := by
  intro k insn hk
  exact ⟨insn, by rw [h]; exact hk, id⟩

theorem Program.flags_kept_modify_insn (p : Program) (i : IMM) (f : Insn → Insn)
    (hf : ∀ x : Insn, x.exits = true → (f x).exits = true) :
    p.flags_kept (p.modify_insn i f) := by
  intro k insn hk
  rw [Program.find_modify_insn]
  split_ifs with h
  · exact ⟨f insn, by rw [hk]; rfl, hf insn⟩
  · exact ⟨insn, hk, id⟩

theorem Program.flags_kept_fold_modify_insn (f : Insn → Insn)
    (hf : ∀ x : Insn, x.exits = true → (f x).exits = true) (l : List IMM) :
    ∀ q : Program, q.flags_kept (l.foldl (fun q i => q.modify_insn i f) q) := by
  induction l with
  | nil => intro q; exact Program.flags_kept_refl q
  | cons i rest ih =>
    intro q
    rw [List.foldl_cons]
    exact Program.flags_kept_trans (Program.flags_kept_modify_insn q i f hf) (ih _)

theorem Program.ends_with_exit_iff (p : Program) (blk : Block) :
    p.ends_with_exit blk = true ↔
      ∃ l insn, blk.insn_list.getLast? = some l ∧ p.i_map_.find l = some insn ∧
        insn.exits = true := by
  unfold Program.ends_with_exit
  cases h1 : blk.insn_list.getLast? with
  | none => simp
  | some l =>
    cases h2 : p.i_map_.find l with
    | none => simp [h2]
    | some insn => simp [h2]

theorem Program.ends_with_exit_mono {p p' : Program} {blk blk' : Block}
    (hm : p.flags_kept p') (hl : blk'.insn_list = blk.insn_list)
    (h : p.ends_with_exit blk = true) : p'.ends_with_exit blk' = true := by
  rw [Program.ends_with_exit_iff] at h ⊢
  obtain ⟨l, insn, h1, h2, h3⟩ := h
  obtain ⟨insn', h4, h5⟩ := hm l insn h2
  exact ⟨l, insn', by rw [hl]; exact h1, h4, h5 h3⟩

theorem Program.block_closed_iff (p : Program) (blk : Block) :
    p.block_closed blk = true ↔
      p.ends_with_exit blk = true ∨ (blk.insn_list ≠ [] ∧ blk.succ ≠ []) := by
  unfold Program.block_closed
  simp [List.isEmpty_iff]

theorem Program.block_closed_ne_nil (p : Program) (blk : Block)
    (h : p.block_closed blk = true) : blk.insn_list ≠ [] := by
  rw [Program.block_closed_iff] at h
  rcases h with h | h
  · rw [Program.ends_with_exit_iff] at h
    obtain ⟨l, _, h1, -, -⟩ := h
    intro hnil
    rw [hnil] at h1
    cases h1
  · exact h.1

theorem Program.block_closed_mono {p p' : Program} {blk blk' : Block}
    (hm : p.flags_kept p') (hl : blk'.insn_list = blk.insn_list)
    (hs : blk.succ ≠ [] → blk'.succ ≠ [] ∨ p'.ends_with_exit blk' = true)
    (h : p.block_closed blk = true) : p'.block_closed blk' = true := by
  rw [Program.block_closed_iff] at h ⊢
  rcases h with h | ⟨h1, h2⟩
  · exact Or.inl (Program.ends_with_exit_mono hm hl h)
  · rcases hs h2 with h3 | h3
    · exact Or.inr ⟨by rw [hl]; exact h1, h3⟩
    · exact Or.inl h3

theorem Program.blocks_closed_iff (p : Program) :
    p.blocks_closed = true ↔
      ∀ b blk, p.blocks.get? b = some blk → p.block_closed blk = true := by
  unfold Program.blocks_closed
  rw [List.all_eq_true]
  constructor
  · intro h b blk hb
    exact h blk (List.get?_mem hb)
  · intro h blk hmem
    obtain ⟨n, hn⟩ := List.get?_of_mem hmem
    exact h n blk hn

theorem Program.frame_refl (p : Program) : p.Frame p :=
  ⟨Nat.le_refl _, fun _ blk h => ⟨blk, h, id, id⟩⟩

theorem Program.frame_trans {p q r : Program} (h1 : p.Frame q) (h2 : q.Frame r) :
    p.Frame r := by
  refine ⟨Nat.le_trans h1.1 h2.1, ?_⟩
  intro b blk hb
  obtain ⟨blk', hb', ha, hc⟩ := h1.2 b blk hb
  obtain ⟨blk'', hb'', ha', hc'⟩ := h2.2 b blk' hb'
  exact ⟨blk'', hb'', fun h => ha' (ha h), fun h => hc' (hc h)⟩

theorem Program.step_refl (p : Program) : p.Step p := by
  refine ⟨Program.frame_refl p, ?_⟩
  intro b blk' hb hle
  have := List.get?_eq_none.2 hle
  rw [this] at hb
  cases hb

theorem Program.step_trans {p q r : Program} (h1 : p.Step q) (h2 : q.Step r) : p.Step r := by
  refine ⟨Program.frame_trans h1.1 h2.1, ?_⟩
  intro b blk'' hb hle
  rcases Nat.lt_or_ge b q.blocks.length with hlt | hge
  · obtain ⟨blk', hb'⟩ : ∃ blk', q.blocks.get? b = some blk' := by
      cases h : q.blocks.get? b with
      | none => rw [List.get?_eq_none] at h; omega
      | some x => exact ⟨x, rfl⟩
    obtain ⟨blk3, hb3, -, hc⟩ := h2.1.2 b blk' hb'
    rw [hb] at hb3
    cases hb3
    exact hc (h1.2 b blk' hb' hle)
  · exact h2.2 b blk'' hb hge

theorem Program.step_closed {p p' : Program} (h : p.Step p') (hp : p.blocks_closed = true) :
    p'.blocks_closed = true := by
  rw [Program.blocks_closed_iff] at hp ⊢
  intro b blk' hb
  rcases Nat.lt_or_ge b p.blocks.length with hlt | hge
  · obtain ⟨blk, hb0⟩ : ∃ blk, p.blocks.get? b = some blk := by
      cases h0 : p.blocks.get? b with
      | none => rw [List.get?_eq_none] at h0; omega
      | some x => exact ⟨x, rfl⟩
    obtain ⟨blk3, hb3, -, hc⟩ := h.1.2 b blk hb0
    rw [hb] at hb3
    cases hb3
    exact hc (hp b blk hb0)
  · exact h.2 b blk' hb hge

theorem Program.step_exit_block {p p' : Program} (h : p.Step p') (b : Nat)
    (hb : p.exit_block b) : p'.exit_block b := by
  obtain ⟨blk, h1, h2⟩ := hb
  obtain ⟨blk', h3, ha, -⟩ := h.1.2 b blk h1
  exact ⟨blk', h3, ha h2⟩

theorem Program.step_of_frame {p p' : Program} (h : p.Frame p')
    (hlen : p'.blocks.length = p.blocks.length) : p.Step p' := by
  refine ⟨h, ?_⟩
  intro b blk' hb hle
  have := List.get?_eq_none.2 (hlen ▸ hle : p'.blocks.length ≤ b)
  rw [this] at hb
  cases hb

theorem Program.frame_of_proj {p p' : Program} (hm : p.flags_kept p')
    (hil : ∀ m, m < p.blocks.length →
      (p'.blocks.get? m).map Block.insn_list = (p.blocks.get? m).map Block.insn_list)
    (hs : ∀ m blk blk', p.blocks.get? m = some blk → p'.blocks.get? m = some blk' →
      blk.succ ≠ [] → blk'.succ ≠ [] ∨ p'.ends_with_exit blk' = true) :
    p.Frame p' := by
  have hex : ∀ b blk, p.blocks.get? b = some blk →
      ∃ blk', p'.blocks.get? b = some blk' ∧ blk'.insn_list = blk.insn_list := by
    intro b blk hb
    have hlt : b < p.blocks.length := by
      rcases Nat.lt_or_ge b p.blocks.length with h | h
      · exact h
      · rw [List.get?_eq_none.2 h] at hb; cases hb
    have := hil b hlt
    rw [hb] at this
    cases h' : p'.blocks.get? b with
    | none => rw [h'] at this; cases this
    | some x =>
      rw [h'] at this
      simp only [Option.map_some', Option.some.injEq] at this
      exact ⟨x, rfl, this⟩
  refine ⟨?_, ?_⟩
  · by_contra hlt
    have hlt' : p'.blocks.length < p.blocks.length := Nat.lt_of_not_le hlt
    obtain ⟨blk, hb⟩ : ∃ blk, p.blocks.get? p'.blocks.length = some blk := by
      cases h0 : p.blocks.get? p'.blocks.length with
      | none => rw [List.get?_eq_none] at h0; omega
      | some x => exact ⟨x, rfl⟩
    obtain ⟨blk', hb', -⟩ := hex _ blk hb
    rw [List.get?_eq_none.2 (Nat.le_refl _)] at hb'
    cases hb'
  · intro b blk hb
    obtain ⟨blk', hb', hl⟩ := hex b blk hb
    exact ⟨blk', hb', Program.ends_with_exit_mono hm hl,
      Program.block_closed_mono hm hl (hs b blk blk' hb hb')⟩

theorem Program.step_of_same {p p' : Program} (hb : p'.blocks = p.blocks)
    (hi : p'.i_map_ = p.i_map_) : p.Step p' := by
  apply Program.step_of_frame _ (by rw [hb])
  apply Program.frame_of_proj (Program.flags_kept_of_eq hi)
  · intro m _; rw [hb]
  · intro m blk blk' h1 h2 hs
    rw [hb, h1] at h2
    cases h2
    exact Or.inl hs

theorem Program.step_modify_block (p : Program) (b : Nat) (f : Block → Block)
    (hl : ∀ x, (f x).insn_list = x.insn_list) (hs : ∀ x, (f x).succ = x.succ) :
    p.Step (p.modify_block b f) := by
  apply Program.step_of_frame _ (by simp [Program.modify_block, length_modify_nth])
  apply Program.frame_of_proj (@Program.flags_kept_of_eq p (p.modify_block b f) rfl)
  · intro m _
    rw [Program.get?_modify_block]
    split_ifs
    · cases p.blocks.get? m <;> simp [hl]
    · rfl
  · intro m blk blk' h1 h2 hne
    rw [Program.get?_modify_block, h1] at h2
    split_ifs at h2
    · simp only [Option.map_some', Option.some.injEq] at h2
      subst h2
      rw [hs]
      exact Or.inl hne
    · cases h2
      exact Or.inl hne

theorem Program.step_succ (p : Program) (b v : Nat) (c : COMPARE) :
    p.Step (p.succ b v c) := by
  apply Program.step_of_frame _ (Program.length_succ p b v c)
  apply Program.frame_of_proj (@Program.flags_kept_of_eq p (p.succ b v c) rfl)
  · intro m _
    exact Program.insn_list_succ p b v m c
  · intro m blk blk' h1 h2 hne
    have h := Program.succ_succ p b v m c
    rw [h1, h2] at h
    left
    split_ifs at h
    · simp only [Option.map_some', Option.some.injEq] at h
      rw [h]
      simp
    · simp only [Option.map_some', Option.some.injEq] at h
      rw [h]
      exact hne

theorem Program.step_modify_insn (p : Program) (i : IMM) (f : Insn → Insn)
    (hf : ∀ x : Insn, x.exits = true → (f x).exits = true) :
    p.Step (p.modify_insn i f) := by
  refine @Program.step_of_frame p (p.modify_insn i f) ?_ rfl
  apply Program.frame_of_proj (Program.flags_kept_modify_insn p i f hf)
  · intro m _; rfl
  · intro m blk blk' h1 h2 hne
    rw [Program.blocks_modify_insn, h1] at h2
    cases h2
    exact Or.inl hne

theorem Program.step_shrink_succ (p : Program) (b : Nat) (hb : p.exit_block b) :
    p.Step (p.shrink_succ b) := by
  obtain ⟨hi, -, hlen⟩ := Program.fields_shrink_succ p b
  apply Program.step_of_frame _ hlen
  apply Program.frame_of_proj (Program.flags_kept_of_eq hi)
  · intro m _
    exact Program.insn_list_shrink_succ p b m
  · intro m blk blk' h1 h2 hne
    by_cases hm : m = b
    · subst hm
      right
      obtain ⟨blk0, h3, h4⟩ := hb
      rw [h1] at h3
      cases h3
      have hl := Program.insn_list_shrink_succ p m m
      rw [h1, h2] at hl
      simp only [Option.map_some', Option.some.injEq] at hl
      exact Program.ends_with_exit_mono (Program.flags_kept_of_eq hi) hl h4
    · left
      have h := Program.succ_shrink_succ p b m
      rw [h1, h2, if_neg hm] at h
      simp only [Option.map_some', Option.some.injEq] at h
      rw [h]
      exact hne

theorem Program.find_fold_set_parent (b : Nat) (l : List IMM) :
    ∀ (q : Program) (k : IMM) (insn : Insn), q.i_map_.find k = some insn →
      ∃ insn', (l.foldl (fun q i => q.modify_insn i
          (fun insn => { insn with parent := some b })) q).i_map_.find k = some insn' ∧
        insn'.exits = insn.exits := by
  induction l with
  | nil => intro q k insn h; exact ⟨insn, h, rfl⟩
  | cons i rest ih =>
    intro q k insn h
    rw [List.foldl_cons]
    by_cases hk : k = i
    · have h' : (q.modify_insn i (fun insn => { insn with parent := some b })).i_map_.find k
          = some { insn with parent := some b } := by
        rw [Program.find_modify_insn, if_pos hk, h]; rfl
      obtain ⟨insn', h1, h2⟩ := ih _ k _ h'
      exact ⟨insn', h1, h2⟩
    · have h' : (q.modify_insn i (fun insn => { insn with parent := some b })).i_map_.find k
          = some insn := by
        rw [Program.find_modify_insn, if_neg hk, h]
      exact ih _ k _ h'

theorem Program.new_block_facts (p p₁ : Program) (l : List IMM) (b : Nat)
    (h : p.new_block l = Except.ok (p₁, b)) :
    b = p.blocks.length ∧ p₁.blocks = p.blocks ++ [{ insn_list := l }] ∧ l ≠ [] ∧
    (∀ k insn, p.i_map_.find k = some insn →
      ∃ insn', p₁.i_map_.find k = some insn' ∧ insn'.exits = insn.exits) := by
  obtain ⟨ha1, ha2, -⟩ := Program.alloc_block_blocks p l
  unfold Program.new_block at h
  simp only at h
  cases hr : (p.alloc_block l).1.register_block (p.alloc_block l).2 with
  | error e => rw [hr] at h; cases h
  | ok p₂ =>
    rw [hr] at h
    simp only [Except.ok.injEq, Prod.mk.injEq] at h
    obtain ⟨h1, h2⟩ := h
    subst h1
    unfold Program.register_block at hr
    cases hf : (p.alloc_block l).1.first (p.alloc_block l).2 with
    | none => rw [hf] at hr; cases hr
    | some offset =>
      rw [hf] at hr
      simp only [Except.ok.injEq] at hr
      subst hr
      refine ⟨by rw [← h2, ha2], ha1, ?_, ?_⟩
      · intro hnil
        unfold Program.first at hf
        rw [ha1, ha2, get?_append_length] at hf
        rw [hnil] at hf
        cases hf
      · intro k insn hk
        exact Program.find_fold_set_parent p.blocks.length l
          { p with blocks := p.blocks ++ [{ insn_list := l }] } k insn hk

theorem Program.new_block_frame (p p₁ : Program) (l : List IMM) (b : Nat)
    (h : p.new_block l = Except.ok (p₁, b)) : p.Frame p₁ := by
  obtain ⟨-, hbl, -, hfind⟩ := Program.new_block_facts p p₁ l b h
  apply Program.frame_of_proj
  · intro k insn hk
    obtain ⟨insn', h1, h2⟩ := hfind k insn hk
    exact ⟨insn', h1, fun hx => by rw [h2]; exact hx⟩
  · intro m hm
    rw [hbl, get?_append_lt _ _ _ hm]
  · intro m blk blk' h1 h2 hne
    have hm : m < p.blocks.length := by
      rcases Nat.lt_or_ge m p.blocks.length with h | h
      · exact h
      · rw [List.get?_eq_none.2 h] at h1; cases h1
    rw [hbl, get?_append_lt _ _ _ hm, h1] at h2
    cases h2
    exact Or.inl hne

theorem Program.new_block_exit (p p₁ : Program) (l : List IMM) (b : Nat) (i : IMM)
    (insn : Insn) (h : p.new_block l = Except.ok (p₁, b)) (hlast : l.getLast? = some i)
    (hi : p.i_map_.find i = some insn) (hx : insn.exits = true) :
    p.Step p₁ ∧ p₁.exit_block b := by
  obtain ⟨hb, hbl, -, hfind⟩ := Program.new_block_facts p p₁ l b h
  have hget : p₁.blocks.get? b = some { insn_list := l } := by
    rw [hb, hbl, get?_append_length]
  have hends : p₁.ends_with_exit { insn_list := l } = true := by
    rw [Program.ends_with_exit_iff]
    obtain ⟨insn', h1, h2⟩ := hfind i insn hi
    exact ⟨i, insn', hlast, h1, by rw [h2]; exact hx⟩
  refine ⟨⟨Program.new_block_frame p p₁ l b h, ?_⟩, ⟨_, hget, hends⟩⟩
  intro m blk' hm hle
  have hlen : p₁.blocks.length = p.blocks.length + 1 := by rw [hbl]; simp
  have hmb : m = b := by
    have : m < p₁.blocks.length := by
      rcases Nat.lt_or_ge m p₁.blocks.length with h | h
      · exact h
      · rw [List.get?_eq_none.2 h] at hm; cases hm
    omega
  subst hmb
  rw [hget] at hm
  cases hm
  rw [Program.block_closed_iff]
  exact Or.inl hends

theorem Program.block_connect_found_step (dfs : Program → IMM → Except Stop Program)
    (hdfs : ∀ q t q', dfs q t = Except.ok q' → q.Step q')
    (p : Program) (b : Nat) (target : IMM) (it : Insn) (cond : COMPARE) (p' : Program)
    (h : Program.block_connect_found dfs p b target it cond = Except.ok p') : p.Step p' := by
  unfold Program.block_connect_found at h
  cases hpar : it.parent with
  | none =>
    rw [hpar] at h
    simp only at h
    cases hd : dfs p target with
    | error e => rw [hd] at h; cases h
    | ok p₁ =>
      rw [hd] at h
      simp only at h
      cases hp1 : p₁.parent target with
      | none => rw [hp1] at h; cases h
      | some par =>
        rw [hp1] at h
        simp only [Except.ok.injEq] at h
        subst h
        exact Program.step_trans (hdfs p target p₁ hd) (Program.step_succ p₁ b par cond)
  | some par =>
    rw [hpar] at h
    simp only at h
    split_ifs at h with hfirst
    · simp only [Except.ok.injEq] at h
      subst h
      exact Program.step_succ p b par cond
    · cases hl : p.last b with
      | none => rw [hl] at h; cases h
      | some l =>
        rw [hl] at h
        simp only [Except.ok.injEq] at h
        subst h
        exact Program.step_of_same rfl rfl

theorem Program.block_connect_step (cfg : Config) (dfs : Program → IMM → Except Stop Program)
    (hdfs : ∀ q t q', dfs q t = Except.ok q' → q.Step q')
    (p : Program) (b : Nat) (target : IMM) (cond : COMPARE) ( fix_prefix : Bool)
    (p' : Program)
    (h : Program.block_connect cfg dfs p b target cond fix_prefix = Except.ok p') :
    p.Step p' := by
  have hfaulty : p.Step (p.modify_block b (fun blk => { blk with faulty := true })) :=
    Program.step_modify_block p b _ (fun _ => rfl) (fun _ => rfl)
  unfold Program.block_connect at h
  cases hf : p.i_map_.find target with
  | some it =>
    rw [hf] at h
    exact Program.block_connect_found_step dfs hdfs p b target it cond p' h
  | none =>
    rw [hf] at h
    simp only at h
    split_ifs at h
    · cases hf1 : p.i_map_.find (target - 1) with
      | some it =>
        rw [hf1] at h
        exact Program.block_connect_found_step dfs hdfs p b (target - 1) it cond p' h
      | none =>
        rw [hf1] at h
        simp only [Except.ok.injEq] at h
        subst h
        exact hfaulty
    · simp only [Except.ok.injEq] at h
      subst h
      exact hfaulty

theorem Program.connect_targets_step (cfg : Config)
    (dfs : Program → IMM → Except Stop Program)
    (hdfs : ∀ q t q', dfs q t = Except.ok q' → q.Step q') (abort : Bool) (b : Nat) :
    ∀ (ts : List IMM) (p : Program) (f : Flow),
      Program.connect_targets cfg dfs abort b ts p = Except.ok f → p.Step f.prog := by
  intro ts
  induction ts with
  | nil =>
    intro p f h
    simp only [Program.connect_targets, Except.ok.injEq] at h
    subst h
    exact Program.step_refl p
  | cons t rest ih =>
    intro p f h
    rw [Program.connect_targets] at h
    cases hc : Program.block_connect cfg dfs p b t COMPARE.NONE false with
    | error e => rw [hc] at h; cases h
    | ok p₁ =>
      rw [hc] at h
      simp only at h
      have h1 := Program.block_connect_step cfg dfs hdfs p b t COMPARE.NONE false p₁ hc
      split_ifs at h
      · simp only [Except.ok.injEq] at h
        subst h
        exact Program.step_trans h1 (Program.step_of_same rfl rfl)
      · exact Program.step_trans h1 (ih p₁ f h)

theorem Program.dfs_direct_jump_step (cfg : Config)
    (dfs : Program → IMM → Except Stop Program)
    (hdfs : ∀ q t q', dfs q t = Except.ok q' → q.Step q')
    (p : Program) (i : IMM) (b_curr : Nat) (f : Flow)
    (h : Program.dfs_direct_jump cfg dfs p i b_curr = Except.ok f) : p.Step f.prog := by
  unfold Program.dfs_direct_jump at h
  cases hg : p.get_insn i with
  | error e => rw [hg] at h; cases h
  | ok insn =>
    rw [hg] at h
    simp only at h
    split_ifs at h
    · cases hc : Program.block_connect cfg dfs p b_curr insn.direct_target.1 insn.cond_op.1 true with
      | error e => rw [hc] at h; cases h
      | ok p₁ =>
        rw [hc] at h
        simp only at h
        have h1 := Program.block_connect_step cfg dfs hdfs p b_curr _ _ true p₁ hc
        split_ifs at h
        · simp only [Except.ok.injEq] at h
          subst h
          exact Program.step_trans h1 (Program.step_of_same rfl rfl)
        · simp only [Except.ok.injEq] at h
          subst h
          exact h1
    · simp only [Except.ok.injEq] at h
      subst h
      exact Program.step_refl p

theorem Insn.exits_replace_halt (x : Insn) : x.replace_halt.exits = true := by
  simp [Insn.exits, Insn.replace_halt]

theorem Program.dfs_fall_through_step (cfg : Config)
    (dfs : Program → IMM → Except Stop Program)
    (hdfs : ∀ q t q', dfs q t = Except.ok q' → q.Step q')
    (p : Program) (i : IMM) (b_curr : Nat) (f : Flow) (hb : p.exit_block b_curr)
    (h : Program.dfs_fall_through cfg dfs p i b_curr = Except.ok f) : p.Step f.prog := by
  unfold Program.dfs_fall_through at h
  cases hg : p.get_insn i with
  | error e => rw [hg] at h; cases h
  | ok insn =>
    rw [hg] at h
    simp only at h
    by_cases hcond : ((insn.call && !(decide (insn.offset ∈ p.recent_norets_))) ||
        insn.cond_jump) = true
    · rw [if_pos hcond] at h
      cases hc : Program.block_connect cfg dfs p b_curr insn.direct_target.2 insn.cond_op.2 false with
      | error e => rw [hc] at h; cases h
      | ok p₁ =>
        rw [hc] at h
        simp only at h
        have h1 := Program.block_connect_step cfg dfs hdfs p b_curr _ _ false p₁ hc
        have hgo : (Except.ok (Flow.go p₁) : Except Stop Flow) = Except.ok f →
            p.Step f.prog := by
          intro h
          simp only [Except.ok.injEq] at h
          subst h
          exact h1
        by_cases hfaulty : p₁.block_faulty b_curr = true
        · rw [if_pos hfaulty] at h
          by_cases habort : cfg.ABORT_MISSING_FALLTHROUGH_TARGET = true
          · rw [if_pos habort] at h
            simp only [Except.ok.injEq] at h
            subst h
            exact Program.step_trans h1 (Program.step_of_same rfl rfl)
          · rw [if_neg habort] at h
            by_cases hcompat : cfg.ENABLE_COMPATIBLE_INPUT = true
            · rw [if_pos hcompat] at h
              cases hg1 : p₁.get_insn i with
              | error e => rw [hg1] at h; cases h
              | ok insn₁ =>
                rw [hg1] at h
                simp only at h
                by_cases hcall : insn₁.call = true
                · rw [if_pos hcall] at h
                  simp only [Except.ok.injEq] at h
                  subst h
                  have h2 : p₁.Step (p₁.modify_insn i Insn.replace_halt) :=
                    Program.step_modify_insn p₁ i _ (fun x _ => Insn.exits_replace_halt x)
                  have h3 : (p₁.modify_insn i Insn.replace_halt).Step
                      ((p₁.modify_insn i Insn.replace_halt).modify_block b_curr
                        (fun blk => { blk with faulty := false })) :=
                    Program.step_modify_block _ b_curr _ (fun _ => rfl) (fun _ => rfl)
                  have h123 := Program.step_trans (Program.step_trans h1 h2) h3
                  exact Program.step_trans h123
                    (Program.step_shrink_succ _ b_curr (Program.step_exit_block h123 b_curr hb))
                · rw [if_neg hcall] at h
                  exact hgo h
            · rw [if_neg hcompat] at h
              exact hgo h
        · rw [if_neg hfaulty] at h
          exact hgo h
    · rw [if_neg hcond] at h
      simp only [Except.ok.injEq] at h
      subst h
      exact Program.step_refl p

theorem Program.dfs_not_direct_step (cfg : Config)
    (dfs : Program → IMM → Except Stop Program)
    (hdfs : ∀ q t q', dfs q t = Except.ok q' → q.Step q')
    (p : Program) (i : IMM) (b_curr : Nat) (f : Flow)
    (h : Program.dfs_not_direct cfg dfs p i b_curr = Except.ok f) : p.Step f.prog := by
  unfold Program.dfs_not_direct at h
  cases hg : p.get_insn i with
  | error e => rw [hg] at h; cases h
  | ok insn =>
    rw [hg] at h
    simp only at h
    split_ifs at h
    · cases hc : Program.block_connect cfg dfs p b_curr insn.direct_target.1 insn.cond_op.1 false with
      | error e => rw [hc] at h; cases h
      | ok p₁ =>
        rw [hc] at h
        simp only at h
        have h1 := Program.block_connect_step cfg dfs hdfs p b_curr _ _ false p₁ hc
        split_ifs at h
        · simp only [Except.ok.injEq] at h
          subst h
          exact Program.step_trans h1 (Program.step_of_same rfl rfl)
        · simp only [Except.ok.injEq] at h
          subst h
          exact h1
    · simp only [Except.ok.injEq] at h
      subst h
      exact Program.step_refl p

theorem Program.dfs_indirect_step (cfg : Config)
    (dfs : Program → IMM → Except Stop Program)
    (hdfs : ∀ q t q', dfs q t = Except.ok q' → q.Step q')
    (p : Program) (i : IMM) (b_curr : Nat) (f : Flow)
    (h : Program.dfs_indirect cfg dfs p i b_curr = Except.ok f) : p.Step f.prog := by
  unfold Program.dfs_indirect at h
  cases hg : p.get_insn i with
  | error e => rw [hg] at h; cases h
  | ok insn =>
    rw [hg] at h
    simp only at h
    split_ifs at h
    · cases hf : p.icfs_.find insn.offset with
      | some targets =>
        rw [hf] at h
        exact Program.connect_targets_step cfg dfs hdfs _ b_curr targets p f h
      | none =>
        rw [hf] at h
        simp only [Except.ok.injEq] at h
        subst h
        exact Program.step_refl p
    · simp only [Except.ok.injEq] at h
      subst h
      exact Program.step_refl p

theorem Program.dfs_transfer_step (cfg : Config)
    (dfs : Program → IMM → Except Stop Program)
    (hdfs : ∀ q t q', dfs q t = Except.ok q' → q.Step q')
    (p : Program) (i : IMM) (b_curr : Nat) (p' : Program) (hb : p.exit_block b_curr)
    (h : Program.dfs_transfer cfg dfs p i b_curr = Except.ok p') : p.Step p' := by
  unfold Program.dfs_transfer at h
  cases hg : p.get_insn i with
  | error e => rw [hg] at h; cases h
  | ok insn =>
    rw [hg] at h
    simp only at h
    have htargets : ∀ f, (if insn.direct = true then
          match Program.dfs_direct_jump cfg dfs p i b_curr with
          | Except.error e => Except.error e
          | Except.ok (Flow.ret p₁) => Except.ok (Flow.ret p₁)
          | Except.ok (Flow.go p₁) => Program.dfs_fall_through cfg dfs p₁ i b_curr
        else Program.dfs_not_direct cfg dfs p i b_curr) = Except.ok f → p.Step f.prog := by
      intro f hf
      split_ifs at hf
      · cases hd : Program.dfs_direct_jump cfg dfs p i b_curr with
        | error e => rw [hd] at hf; cases hf
        | ok f1 =>
          have h1 := Program.dfs_direct_jump_step cfg dfs hdfs p i b_curr f1 hd
          rw [hd] at hf
          cases f1 with
          | ret p₁ =>
            simp only [Except.ok.injEq] at hf
            subst hf
            exact h1
          | go p₁ =>
            simp only at hf
            exact Program.step_trans h1
              (Program.dfs_fall_through_step cfg dfs hdfs p₁ i b_curr f
                (Program.step_exit_block h1 b_curr hb) hf)
      · exact Program.dfs_not_direct_step cfg dfs hdfs p i b_curr f hf
    generalize (if insn.direct = true then
          match Program.dfs_direct_jump cfg dfs p i b_curr with
          | Except.error e => Except.error e
          | Except.ok (Flow.ret p₁) => Except.ok (Flow.ret p₁)
          | Except.ok (Flow.go p₁) => Program.dfs_fall_through cfg dfs p₁ i b_curr
        else Program.dfs_not_direct cfg dfs p i b_curr) = targets at h htargets
    cases targets with
    | error e => cases h
    | ok f1 =>
      have h1 := htargets f1 rfl
      cases f1 with
      | ret p₁ =>
        simp only [Except.ok.injEq] at h
        subst h
        exact h1
      | go p₁ =>
        simp only at h
        cases hi : Program.dfs_indirect cfg dfs p₁ i b_curr with
        | error e => rw [hi] at h; cases h
        | ok f2 =>
          have h2 := Program.dfs_indirect_step cfg dfs hdfs p₁ i b_curr f2 hi
          rw [hi] at h
          cases f2 with
          | ret p₂ =>
            simp only [Except.ok.injEq] at h
            subst h
            exact Program.step_trans h1 h2
          | go p₂ =>
            simp only [Except.ok.injEq] at h
            subst h
            exact Program.step_trans h1 h2

theorem Program.step_of_frame_new {p p' : Program} (h : p.Frame p')
    (hlen : p'.blocks.length = p.blocks.length + 1)
    (hnew : ∃ blk, p'.blocks.get? p.blocks.length = some blk ∧ p'.block_closed blk = true) :
    p.Step p' := by
  refine ⟨h, ?_⟩
  intro m blk' hm hle
  have hlt : m < p'.blocks.length := by
    rcases Nat.lt_or_ge m p'.blocks.length with h | h
    · exact h
    · rw [List.get?_eq_none.2 h] at hm; cases hm
  have hmb : m = p.blocks.length := by omega
  subst hmb
  obtain ⟨blk, h1, h2⟩ := hnew
  rw [hm] at h1
  cases h1
  exact h2

theorem Program.dfs_missing_next_step (cfg : Config)
    (hcfg : cfg.ABORT_MISSING_NEXT_INSN = true ∨ cfg.ENABLE_COMPATIBLE_INPUT = true)
    (p : Program) (i : IMM) (i_list : List IMM) (insn : Insn) (p' : Program)
    (hi : p.i_map_.find i = some insn) (hlast : i_list.getLast? = some i)
    (h : Program.dfs_missing_next cfg p i i_list = Except.ok p') : p.Step p' := by
  unfold Program.dfs_missing_next at h
  by_cases habort : cfg.ABORT_MISSING_NEXT_INSN = true
  · rw [if_pos habort] at h
    simp only [Except.ok.injEq] at h
    subst h
    exact Program.step_of_same rfl rfl
  · rw [if_neg habort] at h
    have hcompat : cfg.ENABLE_COMPATIBLE_INPUT = true := by
      rcases hcfg with h | h
      · exact absurd h habort
      · exact h
    cases hn : p.new_block i_list with
    | error e => rw [hn] at h; cases h
    | ok r =>
      obtain ⟨p₁, b_curr⟩ := r
      rw [hn] at h
      simp only [hcompat, if_true, Except.ok.injEq] at h
      subst h
      obtain ⟨hb, hbl, -, hfind⟩ := Program.new_block_facts p p₁ i_list b_curr hn
      have hget : p₁.blocks.get? b_curr = some { insn_list := i_list } := by
        rw [hb, hbl, get?_append_length]
      have h2 : p₁.Step (p₁.modify_insn i Insn.replace_halt) :=
        Program.step_modify_insn p₁ i _ (fun x _ => Insn.exits_replace_halt x)
      have hex : (p₁.modify_insn i Insn.replace_halt).exit_block b_curr := by
        refine ⟨{ insn_list := i_list }, hget, ?_⟩
        rw [Program.ends_with_exit_iff]
        obtain ⟨insn', h1, -⟩ := hfind i insn hi
        refine ⟨i, insn'.replace_halt, hlast, ?_, Insn.exits_replace_halt _⟩
        rw [Program.find_modify_insn, if_pos rfl, h1]
        rfl
      have h3 := Program.step_shrink_succ _ b_curr hex
      have hex3 := Program.step_exit_block h3 b_curr hex
      apply Program.step_of_frame_new
      · exact Program.frame_trans (Program.new_block_frame p p₁ i_list b_curr hn)
          (Program.step_trans h2 h3).1
      · rw [(Program.fields_shrink_succ _ _).2.2, Program.blocks_modify_insn, hbl]
        simp
      · obtain ⟨blk, h4, h5⟩ := hex3
        rw [← hb]
        exact ⟨blk, h4, by rw [Program.block_closed_iff]; exact Or.inl h5⟩

theorem Program.new_block_succ_step (p p₁ : Program) (i_list : List IMM) (b_curr par : Nat)
    (c : COMPARE) (h : p.new_block i_list = Except.ok (p₁, b_curr)) :
    p.Step (p₁.succ b_curr par c) := by
  obtain ⟨hb, hbl, hne, -⟩ := Program.new_block_facts p p₁ i_list b_curr h
  have hget : p₁.blocks.get? b_curr = some { insn_list := i_list } := by
    rw [hb, hbl, get?_append_length]
  apply Program.step_of_frame_new
  · exact Program.frame_trans (Program.new_block_frame p p₁ i_list b_curr h)
      (Program.step_succ p₁ b_curr par c).1
  · rw [Program.length_succ, hbl]
    simp
  · have h1 := Program.insn_list_succ p₁ b_curr par b_curr c
    have h2 := Program.succ_succ p₁ b_curr par b_curr c
    rw [hget] at h1 h2
    rw [if_pos rfl] at h2
    rw [← hb]
    cases hg : (p₁.succ b_curr par c).blocks.get? b_curr with
    | none => rw [hg] at h1; cases h1
    | some blk =>
      rw [hg] at h1 h2
      simp only [Option.map_some', Option.some.injEq] at h1 h2
      refine ⟨blk, rfl, ?_⟩
      rw [Program.block_closed_iff]
      right
      exact ⟨by rw [h1]; exact hne, by rw [h2]; simp⟩

theorem Program.block_dfs_step (cfg : Config)
    (hcfg : cfg.ABORT_MISSING_NEXT_INSN = true ∨ cfg.ENABLE_COMPATIBLE_INPUT = true) :
    ∀ (fuel : Nat) (p : Program) (i : IMM) (i_list : List IMM) (p' : Program),
      i_list.getLast? = some i →
      Program.block_dfs cfg fuel p i i_list = Except.ok p' → p.Step p' := by
  intro fuel
  induction fuel with
  | zero => intro p i i_list p' _ h; simp [Program.block_dfs] at h
  | succ fuel ih =>
    intro p i i_list p' hlast h
    have hdfs : ∀ q t q', (fun q t => Program.block_dfs cfg fuel q t [t]) q t = Except.ok q' →
        q.Step q' := fun q t q' hq => ih q t [t] q' rfl hq
    rw [Program.block_dfs] at h
    cases hi : p.i_map_.find i with
    | none => rw [hi] at h; cases h
    | some insn =>
      rw [hi] at h
      simp only at h
      by_cases htr : insn.transfer = true
      · rw [if_pos htr] at h
        cases hn : p.new_block i_list with
        | error e => rw [hn] at h; cases h
        | ok r =>
          obtain ⟨p₁, b_curr⟩ := r
          rw [hn] at h
          simp only at h
          obtain ⟨h1, hex⟩ := Program.new_block_exit p p₁ i_list b_curr i insn hn hlast hi
            (by simp [Insn.exits, htr])
          exact Program.step_trans h1
            (Program.dfs_transfer_step cfg _ hdfs p₁ i b_curr p' hex h)
      · rw [if_neg htr] at h
        by_cases hh : insn.halt = true
        · rw [if_pos hh] at h
          cases hn : p.new_block i_list with
          | error e => rw [hn] at h; cases h
          | ok r =>
            obtain ⟨p₁, b_curr⟩ := r
            rw [hn] at h
            simp only [Except.ok.injEq] at h
            subst h
            exact (Program.new_block_exit p p₁ i_list b_curr i insn hn hlast hi
              (by simp [Insn.exits, hh])).1
        · rw [if_neg hh] at h
          cases hnx : p.i_map_.find insn.next_offset with
          | none =>
            rw [hnx] at h
            exact Program.dfs_missing_next_step cfg hcfg p i i_list insn p' hi hlast h
          | some next =>
            rw [hnx] at h
            simp only at h
            cases hpar : next.parent with
            | none =>
              rw [hpar] at h
              exact ih p insn.next_offset (i_list ++ [insn.next_offset]) p' (by simp) h
            | some par0 =>
              rw [hpar] at h
              simp only at h
              cases hn : p.new_block i_list with
              | error e => rw [hn] at h; cases h
              | ok r =>
                obtain ⟨p₁, b_curr⟩ := r
                rw [hn] at h
                simp only at h
                cases hp1 : p₁.parent insn.next_offset with
                | none => rw [hp1] at h; cases h
                | some par =>
                  rw [hp1] at h
                  simp only [Except.ok.injEq] at h
                  subst h
                  exact Program.new_block_succ_step p p₁ i_list b_curr par COMPARE.NONE hn

theorem Program.update_icfs_step (cfg : Config)
    (hcfg : cfg.ABORT_MISSING_NEXT_INSN = true ∨ cfg.ENABLE_COMPATIBLE_INPUT = true)
    (fuel : Nat) :
    ∀ (l : List IMM) (p : Program) (f : Flow),
      Program.update_icfs cfg fuel l p = Except.ok f → p.Step f.prog := by
  have hdfs : ∀ q t q', (fun q t => Program.block_dfs cfg fuel q t [t]) q t = Except.ok q' →
      q.Step q' := fun q t q' hq => Program.block_dfs_step cfg hcfg fuel q t [t] q' rfl hq
  intro l
  induction l with
  | nil =>
    intro p f h
    simp only [Program.update_icfs, Except.ok.injEq] at h
    subst h
    exact Program.step_refl p
  | cons jump_loc rest ih =>
    intro p f h
    rw [Program.update_icfs] at h
    cases hpar : p.parent jump_loc with
    | none =>
      rw [hpar] at h
      exact ih p f h
    | some b =>
      rw [hpar] at h
      simp only at h
      cases hf : p.icfs_.find jump_loc with
      | none => rw [hf] at h; cases h
      | some targets =>
        rw [hf] at h
        simp only at h
        cases hc : Program.connect_targets cfg (fun q t => Program.block_dfs cfg fuel q t [t])
            cfg.ABORT_MISSING_INDIRECT_TARGET b targets p with
        | error e => rw [hc] at h; cases h
        | ok f1 =>
          have h1 := Program.connect_targets_step cfg _ hdfs _ b targets p f1 hc
          rw [hc] at h
          cases f1 with
          | ret p₁ =>
            simp only [Except.ok.injEq] at h
            subst h
            exact h1
          | go p₁ =>
            simp only at h
            exact Program.step_trans h1 (ih p₁ f h)

theorem Program.update_fptrs_step (cfg : Config)
    (hcfg : cfg.ABORT_MISSING_NEXT_INSN = true ∨ cfg.ENABLE_COMPATIBLE_INPUT = true)
    (fuel : Nat) :
    ∀ (l : List IMM) (p : Program) (f : Flow),
      Program.update_fptrs cfg fuel l p = Except.ok f → p.Step f.prog := by
  intro l
  induction l with
  | nil =>
    intro p f h
    simp only [Program.update_fptrs, Except.ok.injEq] at h
    subst h
    exact Program.step_refl p
  | cons offset rest ih =>
    intro p f h
    rw [Program.update_fptrs] at h
    cases hf : p.i_map_.find offset with
    | none =>
      rw [hf] at h
      simp only at h
      by_cases hab : cfg.ABORT_MISSING_FUNCTION_ENTRY = true
      · rw [if_pos hab] at h
        simp only [Except.ok.injEq] at h
        subst h
        exact Program.step_of_same rfl rfl
      · rw [if_neg hab] at h
        exact ih p f h
    | some insn =>
      rw [hf] at h
      simp only at h
      by_cases hc : (!p.b_map_.contains offset) = true
      · rw [if_pos hc] at h
        cases hd : Program.block_dfs cfg fuel p offset [offset] with
        | error e => rw [hd] at h; cases h
        | ok p₁ =>
          rw [hd] at h
          simp only at h
          exact Program.step_trans
            (Program.block_dfs_step cfg hcfg fuel p offset [offset] p₁ rfl hd) (ih p₁ f h)
      · rw [if_neg hc] at h
        exact ih p f h

theorem Program.alloc_block_flags_kept (p : Program) (l : List IMM) :
    p.flags_kept (p.alloc_block l).1 := by
  intro k insn hk
  obtain ⟨insn', h1, h2⟩ := Program.find_fold_set_parent p.blocks.length l
    { p with blocks := p.blocks ++ [{ insn_list := l }] } k insn hk
  exact ⟨insn', h1, fun hx => by rw [h2]; exact hx⟩

theorem takeWhile_ne_nil_of_head (insn : IMM) (l : List IMM) (hne : l ≠ [])
    (hhead : l.head? ≠ some insn) : l.takeWhile (fun i => decide (i ≠ insn)) ≠ [] := by
  cases l with
  | nil => exact absurd rfl hne
  | cons x xs =>
    have hx : x ≠ insn := fun h => hhead (by simp [h])
    simp [List.takeWhile_cons, hx]

theorem getLast?_dropWhile (f : IMM → Bool) (l : List IMM) (h : l.dropWhile f ≠ []) :
    (l.dropWhile f).getLast? = l.getLast? := by
  conv_rhs => rw [← List.takeWhile_append_dropWhile f l]
  rw [List.getLast?_append_of_ne_nil _ h]

theorem get?_some_of_lt {α : Type} (l : List α) (n : Nat) (h : n < l.length) :
    ∃ x, l.get? n = some x := by
  cases h0 : l.get? n with
  | none => rw [List.get?_eq_none] at h0; omega
  | some x => exact ⟨x, rfl⟩

theorem lt_of_get?_some {α : Type} (l : List α) (n : Nat) (x : α) (h : l.get? n = some x) :
    n < l.length := by
  rcases Nat.lt_or_ge n l.length with h' | h'
  · exact h'
  · rw [List.get?_eq_none.2 h'] at h; cases h

theorem Program.block_split_closed (p p' : Program) (insn : IMM) (tb : Nat)
    (hp : p.blocks_closed = true) (hpar : p.parent insn = some tb)
    (hfirst : p.first tb ≠ some insn) (h : p.block_split insn = Except.ok p') :
    p'.blocks_closed = true := by
  rw [Program.blocks_closed_iff] at hp ⊢
  cases hblk : p.blocks.get? tb with
  | none =>
    unfold Program.block_split at h
    rw [hpar] at h
    simp only [hblk] at h
    cases h
  | some blk =>
    have hb : tb < p.blocks.length := lt_of_get?_some _ _ _ hblk
    have hne : p.blocks.length ≠ tb := Nat.ne_of_gt hb
    have hclosed := hp tb blk hblk
    have hlne : blk.insn_list ≠ [] := Program.block_closed_ne_nil p blk hclosed
    have hhead? : blk.insn_list.head? ≠ some insn := by
      intro hh
      apply hfirst
      unfold Program.first
      rw [hblk]
      exact hh
    have hheadne := takeWhile_ne_nil_of_head insn blk.insn_list hlne hhead?
    obtain ⟨ha1, ha2, -⟩ := Program.alloc_block_blocks p
      (blk.insn_list.dropWhile (fun i => decide (i ≠ insn)))
    have hfk0 := Program.alloc_block_flags_kept p
      (blk.insn_list.dropWhile (fun i => decide (i ≠ insn)))
    have hc : ∀ m, _ := fun m => Program.fold_succ_copy
      (p.alloc_block (blk.insn_list.dropWhile (fun i => decide (i ≠ insn)))).2 blk.succ
      (p.alloc_block (blk.insn_list.dropWhile (fun i => decide (i ≠ insn)))).1 m
    simp only [ha1, ha2] at hc
    generalize hhead : blk.insn_list.takeWhile (fun i => decide (i ≠ insn)) = head at *
    generalize htail : blk.insn_list.dropWhile (fun i => decide (i ≠ insn)) = tail at *
    have hp₁i : (List.foldl (fun q e => q.succ p.blocks.length e.1 e.2)
        (p.alloc_block tail).1 blk.succ).i_map_ = (p.alloc_block tail).1.i_map_ :=
      (hc 0).2.2.2
    generalize hp₁ : List.foldl (fun q e => q.succ p.blocks.length e.1 e.2)
      (p.alloc_block tail).1 blk.succ = p₁ at *
    have hnew := (hc p.blocks.length).1
    rw [get?_append_length] at hnew
    obtain ⟨nblk, hnblk, hnil⟩ : ∃ x, p₁.blocks.get? p.blocks.length = some x ∧
        x.insn_list = tail := by
      cases h0 : p₁.blocks.get? p.blocks.length with
      | none => rw [h0] at hnew; cases hnew
      | some x =>
        rw [h0] at hnew
        simp only [Option.map_some', Option.some.injEq] at hnew
        exact ⟨x, rfl, hnew⟩
    unfold Program.block_split at h
    simp only [hpar, hblk, hhead, htail, ha2, hp₁, Program.register_block, Program.first,
      hnblk, Option.some_bind] at h
    cases hoff : tail.head? with
    | none => rw [hnil, hoff] at h; cases h
    | some offset =>
      have htne : tail ≠ [] := by
        intro h0
        rw [h0] at hoff
        cases hoff
      rw [hnil, hoff] at h
      simp only [Except.ok.injEq] at h
      subst h
      have hfk : p.flags_kept p₁ := by
        intro k i0 hk
        obtain ⟨i1, h1, h2⟩ := hfk0 k i0 hk
        exact ⟨i1, by rw [hp₁i]; exact h1, h2⟩
      intro m blk' hm
      have hil := Program.insn_list_succ
        ((({ p₁ with b_map_ := p₁.b_map_.set offset p.blocks.length } : Program).modify_block tb
          (fun x => { x with insn_list := head })).shrink_succ tb) tb p.blocks.length m
          COMPARE.NONE
      have hsc := Program.succ_succ
        ((({ p₁ with b_map_ := p₁.b_map_.set offset p.blocks.length } : Program).modify_block tb
          (fun x => { x with insn_list := head })).shrink_succ tb) tb p.blocks.length m
          COMPARE.NONE
      rw [Program.insn_list_shrink_succ, Program.get?_modify_block] at hil
      rw [Program.succ_shrink_succ, Program.get?_modify_block] at hsc
      rw [hm] at hil hsc
      simp only [Option.map_some'] at hil hsc
      have hfk' : p.flags_kept
          (((({ p₁ with b_map_ := p₁.b_map_.set offset p.blocks.length } : Program).modify_block
            tb (fun x => { x with insn_list := head })).shrink_succ tb).succ tb p.blocks.length
              COMPARE.NONE) := by
        intro k i0 hk
        obtain ⟨i1, h1, h2⟩ := hfk k i0 hk
        refine ⟨i1, ?_, h2⟩
        rw [Program.i_map_succ, (Program.fields_shrink_succ _ _).1, Program.i_map_modify_block]
        exact h1
      by_cases hmt : m = tb
      · subst hmt
        simp only [eq_self_iff_true, if_true] at hil hsc
        have hx := (hc m).1
        rw [get?_append_lt _ _ _ hb, hblk] at hx
        cases h0 : p₁.blocks.get? m with
        | none => rw [h0] at hx; cases hx
        | some x =>
          have h0' : ({ p₁ with b_map_ := p₁.b_map_.set offset p.blocks.length } :
              Program).blocks.get? m = some x := h0
          rw [h0'] at hil hsc
          simp only [Option.map_some', Option.some.injEq, if_true] at hil hsc
          rw [Program.block_closed_iff]
          right
          exact ⟨by rw [hil]; exact hheadne, by rw [hsc]; simp⟩
      · simp only [hmt, if_false] at hil hsc
        have hil1 := (hc m).1
        have hsc1 := (hc m).2.1
        rw [← hil] at hil1
        rw [← hsc] at hsc1
        rcases Nat.lt_trichotomy m p.blocks.length with hlt | heq | hgt
        · obtain ⟨blkm, hblkm⟩ := get?_some_of_lt p.blocks m hlt
          rw [get?_append_lt _ _ _ hlt, hblkm] at hil1 hsc1
          rw [if_neg (Nat.ne_of_lt hlt)] at hsc1
          simp only [Option.map_some', Option.some.injEq] at hil1 hsc1
          exact Program.block_closed_mono hfk' hil1
            (fun hs => Or.inl (by rw [hsc1]; exact hs)) (hp m blkm hblkm)
        · subst heq
          rw [get?_append_length] at hil1 hsc1
          rw [if_pos rfl] at hsc1
          simp only [Option.map_some', Option.some.injEq, List.nil_append] at hil1 hsc1
          have hlast : blk'.insn_list.getLast? = blk.insn_list.getLast? := by
            rw [hil1, ← htail]
            exact getLast?_dropWhile _ _ (by rw [htail]; exact htne)
          rw [Program.block_closed_iff] at hclosed ⊢
          rcases hclosed with hx | ⟨-, hs⟩
          · left
            rw [Program.ends_with_exit_iff] at hx ⊢
            obtain ⟨l, i0, h1, h2, h3⟩ := hx
            obtain ⟨i1, h4, h5⟩ := hfk' l i0 h2
            exact ⟨l, i1, by rw [hlast]; exact h1, h4, h5 h3⟩
          · right
            exact ⟨by rw [hil1]; exact htne, by rw [hsc1]; exact hs⟩
        · rw [List.get?_eq_none.2 (by simp; omega)] at hil1
          cases hil1

theorem Program.update_splits_closed :
    ∀ (l : List (IMM × IMM × COMPARE)) (p p' : Program), p.blocks_closed = true →
      Program.update_splits l p = Except.ok p' → p'.blocks_closed = true := by
  intro l
  induction l with
  | nil =>
    intro p p' hp h
    simp only [Program.update_splits, Except.ok.injEq] at h
    subst h
    exact hp
  | cons e rest ih =>
    intro p p' hp h
    obtain ⟨transfer, target, cond⟩ := e
    rw [Program.update_splits] at h
    cases hpar : p.parent target with
    | none => rw [hpar] at h; cases h
    | some tb =>
      rw [hpar] at h
      simp only at h
      by_cases hfirst : p.first tb ≠ some target
      · rw [if_pos hfirst] at h
        cases hs : p.block_split target with
        | error e => rw [hs] at h; cases h
        | ok p₁ =>
          rw [hs] at h
          simp only at h
          have h1 := Program.block_split_closed p p₁ target tb hp hpar hfirst hs
          cases hb : p₁.parent transfer with
          | none => rw [hb] at h; cases h
          | some b =>
            cases hnb : p₁.parent target with
            | none => rw [hb, hnb] at h; cases h
            | some nb =>
              rw [hb, hnb] at h
              simp only at h
              exact ih _ p' (Program.step_closed (Program.step_succ p₁ b nb cond) h1) h
      · rw [if_neg hfirst] at h
        exact ih p p' hp h

theorem Program.foldlM_step {α : Type} (g : Program → α → Except Stop Program)
    (hg : ∀ q a q', g q a = Except.ok q' → q.Step q') :
    ∀ (l : List α) (q q' : Program), l.foldlM g q = Except.ok q' → q.Step q' := by
  intro l
  induction l with
  | nil =>
    intro q q' h
    simp only [List.foldlM_nil, pure, Except.pure, Except.ok.injEq] at h
    subst h
    exact Program.step_refl q
  | cons a rest ih =>
    intro q q' h
    rw [List.foldlM_cons] at h
    cases hga : g q a with
    | error e =>
      rw [hga] at h
      simp only [bind, Except.bind] at h
      cases h
    | ok q₁ =>
      rw [hga] at h
      simp only [bind, Except.bind] at h
      exact Program.step_trans (hg q a q₁ hga) (ih q₁ q' h)

theorem Program.foldl_step {α : Type} (g : Program → α → Program)
    (hg : ∀ (q : Program) (a : α), q.Step (g q a)) :
    ∀ (l : List α) (q : Program), q.Step (l.foldl g q) := by
  intro l
  induction l with
  | nil => intro q; exact Program.step_refl q
  | cons a rest ih =>
    intro q
    rw [List.foldl_cons]
    exact Program.step_trans (hg q a) (ih _)

theorem Program.propagate_update_step :
    ∀ (fuel : Nat) (p : Program) (b : Nat) (p' : Program),
      Program.propagate_update fuel p b = Except.ok p' → p.Step p' := by
  intro fuel
  induction fuel with
  | zero => intro p b p' h; simp [Program.propagate_update] at h
  | succ fuel ih =>
    intro p b p' h
    rw [Program.propagate_update] at h
    cases hb : p.blocks.get? b with
    | none => rw [hb] at h; cases h
    | some blk =>
      rw [hb] at h
      simp only at h
      refine Program.step_trans
        (Program.step_modify_block p b (fun x => { x with update_num := p.update_num })
          (fun _ => rfl) (fun _ => rfl)) ?_
      refine Program.foldlM_step _ ?_ blk.superset_preds _ p' h
      intro q pr q' hq
      simp only at hq
      cases hpb : q.blocks.get? pr with
      | none => rw [hpb] at hq; cases hq
      | some pb =>
        rw [hpb] at hq
        simp only at hq
        split_ifs at hq
        · exact ih q pr q' hq
        · simp only [Except.ok.injEq] at hq
          subst hq
          exact Program.step_refl q

theorem Program.update_detect_step (fuel : Nat) (p p' : Program)
    (h : Program.update_detect fuel p = Except.ok p') : p.Step p' := by
  unfold Program.update_detect at h
  simp only at h
  cases hf : List.foldlM (fun q jump_loc =>
      match q.parent jump_loc with
      | some b => Program.propagate_update fuel q b
      | none => Except.ok q) ({ p with update_num := p.update_num + 1 } : Program)
      p.recent_icfs_ with
  | error e => rw [hf] at h; cases h
  | ok p₁ =>
    rw [hf] at h
    simp only [Except.ok.injEq] at h
    subst h
    have h0 : p.Step ({ p with update_num := p.update_num + 1 } : Program) :=
      Program.step_of_same rfl rfl
    have h1 : ({ p with update_num := p.update_num + 1 } : Program).Step p₁ := by
      refine Program.foldlM_step _ ?_ _ _ p₁ hf
      intro q a q' hq
      simp only at hq
      cases hpar : q.parent a with
      | none =>
        rw [hpar] at hq
        simp only [Except.ok.injEq] at hq
        subst hq
        exact Program.step_refl q
      | some b =>
        rw [hpar] at hq
        exact Program.propagate_update_step fuel q b q' hq
    refine Program.step_trans (Program.step_trans h0 h1) ?_
    apply Program.foldl_step
    intro q a
    cases hpar : q.parent a with
    | none => exact Program.step_refl q
    | some b =>
      exact Program.step_modify_block q b _ (fun _ => rfl) (fun _ => rfl)

/-- C11, the two cases that the statement names, evaluated: (1) after
`fptrs({1}); update(); fptrs({0}); update()` on three instructions in a row,
`block_dfs` has closed the block `[0]` because instruction 1 was already placed;
(2) after `fptrs({0, 10}); update()` with a jump from 10 to 1, `block_split` has left
the head block `[0]`. In both results the block registered at 0 in `b_map_` holds
exactly the non-control instruction 0, so its last instruction is neither a
transfer nor a halt; it has one successor edge with condition `NONE`. -/
theorem update_block_ends_with_plain_insn :
    (∃ p' blk insn, fptrs_update_twice {} 10 lineProgram [1] [0] = Except.ok p' ∧
      p'.b_map_.find 0 = some 1 ∧ p'.blocks.get? 1 = some blk ∧
      blk.insn_list = [0] ∧ p'.i_map_.find 0 = some insn ∧
      insn.transfer = false ∧ insn.halt = false ∧ p'.ends_with_exit blk = false ∧
      blk.succ = [(0, COMPARE.NONE)]) ∧
    (∃ p' blk insn, Program.update {} 10 (twoJumpsProgram.fptrs [0, 10]) = Except.ok p' ∧
      p'.b_map_.find 0 = some 0 ∧ p'.blocks.get? 0 = some blk ∧
      blk.insn_list = [0] ∧ p'.i_map_.find 0 = some insn ∧
      insn.transfer = false ∧ insn.halt = false ∧ p'.ends_with_exit blk = false ∧
      blk.succ = [(2, COMPARE.NONE)]) :=
  ⟨⟨_, _, _, rfl, rfl, rfl, rfl, rfl, rfl, rfl, rfl, rfl⟩,
   ⟨_, _, _, rfl, rfl, rfl, rfl, rfl, rfl, rfl, rfl, rfl⟩⟩

/-- C11, amended: if every block is closed (its last instruction is a transfer or
a halt instruction, or it is non-empty and has a successor edge) before `update()`,
as in a program without blocks, and `ABORT_MISSING_NEXT_INSN` or
`ENABLE_COMPATIBLE_INPUT` is set, then every block is closed after `update()`
returns; in particular every block is non-empty. -/
theorem update_blocks_closed (cfg : Config) (fuel : Nat) (p p' : Program)
    (hcfg : cfg.ABORT_MISSING_NEXT_INSN = true ∨ cfg.ENABLE_COMPATIBLE_INPUT = true)
    (hp : p.blocks_closed = true) (h : Program.update cfg fuel p = Except.ok p') :
    p'.blocks_closed = true ∧
    ∀ b blk, p'.blocks.get? b = some blk → blk.insn_list ≠ [] ∧
      (p'.ends_with_exit blk = true ∨ blk.succ ≠ []) := by
  have hmain : p'.blocks_closed = true := by
    unfold Program.update at h
    cases h1 : Program.update_icfs cfg fuel p.recent_icfs_ p with
    | error e => rw [h1] at h; cases h
    | ok f1 =>
      have s1 := Program.step_closed (Program.update_icfs_step cfg hcfg fuel _ p f1 h1) hp
      rw [h1] at h
      cases f1 with
      | ret p₁ =>
        simp only [Except.ok.injEq] at h
        subst h
        exact s1
      | go p₁ =>
        simp only at h
        cases h2 : Program.update_fptrs cfg fuel p₁.recent_fptrs_ p₁ with
        | error e => rw [h2] at h; cases h
        | ok f2 =>
          have s2 := Program.step_closed (Program.update_fptrs_step cfg hcfg fuel _ p₁ f2 h2) s1
          rw [h2] at h
          cases f2 with
          | ret p₂ =>
            simp only [Except.ok.injEq] at h
            subst h
            exact s2
          | go p₂ =>
            simp only at h
            cases h3 : Program.update_splits p₂.split_ p₂ with
            | error e => rw [h3] at h; cases h
            | ok p₃ =>
              have s3 := Program.update_splits_closed _ p₂ p₃ s2 h3
              rw [h3] at h
              simp only at h
              have s4 : ({ p₃ with split_ := [] } : Program).blocks_closed = true :=
                Program.step_closed (@Program.step_of_same p₃ { p₃ with split_ := [] } rfl rfl) s3
              by_cases hd : cfg.ENABLE_DETECT_UPDATED_FUNCTION = true
              · rw [if_pos hd] at h
                cases h5 : Program.update_detect fuel { p₃ with split_ := [] } with
                | error e => rw [h5] at h; cases h
                | ok p₅ =>
                  rw [h5] at h
                  simp only [Except.ok.injEq] at h
                  subst h
                  have s5 := Program.step_closed (Program.update_detect_step fuel _ p₅ h5) s4
                  exact Program.step_closed (@Program.step_of_same p₅
                    { p₅ with recent_icfs_ := [], recent_fptrs_ := [] } rfl rfl) s5
              · rw [if_neg hd] at h
                simp only [Except.ok.injEq] at h
                subst h
                exact Program.step_closed (@Program.step_of_same { p₃ with split_ := [] }
                  { ({ p₃ with split_ := [] } : Program) with
                    recent_icfs_ := [], recent_fptrs_ := [] } rfl rfl) s4
  refine ⟨hmain, ?_⟩
  intro b blk hb
  have hc := (Program.blocks_closed_iff p').1 hmain b blk hb
  refine ⟨Program.block_closed_ne_nil p' blk hc, ?_⟩
  rw [Program.block_closed_iff] at hc
  rcases hc with hc | hc
  · exact Or.inl hc
  · exact Or.inr hc.2

theorem update_blocks_closed_witness :
    (((({} : Config).ABORT_MISSING_NEXT_INSN = true ∨
        ({} : Config).ENABLE_COMPATIBLE_INPUT = true) ∧
      (twoJumpsProgram.fptrs [0, 10, 20]).blocks_closed = true) ∧
      ∃ p', Program.update {} 10 (twoJumpsProgram.fptrs [0, 10, 20]) = Except.ok p' ∧
        p'.blocks.length = 4) ∧
    ∀ p', Program.update {} 10 (twoJumpsProgram.fptrs [0, 10, 20]) = Except.ok p' →
      (p'.blocks_closed = true ∧
        ∀ b blk, p'.blocks.get? b = some blk → blk.insn_list ≠ [] ∧
          (p'.ends_with_exit blk = true ∨ blk.succ ≠ [])) :=
  ⟨⟨⟨Or.inr rfl, rfl⟩, ⟨_, rfl, rfl⟩⟩,
   fun p' h => update_blocks_closed {} 10 (twoJumpsProgram.fptrs [0, 10, 20]) p'
     (Or.inr rfl) rfl h⟩

theorem ELF_x86.prolog_one (a : Nat) :
    ELF_x86.prolog [a] = if a = 0x53 ∨ a = 0x55 then 2 else 0 := by
  simp [ELF_x86.prolog]

theorem ELF_x86.prolog_two (a b : Nat) :
    ELF_x86.prolog [a, b] = if a = 0x41 ∧ (0x54 ≤ b ∧ b ≤ 0x57) then 2 else 0 := by
  simp [ELF_x86.prolog]

theorem ELF_x86.prolog_three (a b c : Nat) (rest : List Nat) :
    ELF_x86.prolog (a :: b :: c :: rest) =
      if a = 0x48 ∧ ((b = 0x89 ∧ c = 0xe5) ∨ (b = 0x83 ∧ c = 0xec) ∨ (b = 0x81 ∧ c = 0xec))
      then 1 else 0 := by
  have h1 : ¬ (rest.length + 1 + 1 + 1 = 1) := by omega
  have h2 : ¬ (rest.length + 1 + 1 + 1 = 2) := by omega
  have h3 : rest.length + 1 + 1 + 1 ≥ 3 := by omega
  simp only [ELF_x86.prolog, List.length_cons, h1, h2, h3, if_false, if_true,
    List.getD_cons_zero, List.getD_cons_succ]

/-- C21: `ELF_x86::prolog(raw)` is 2 exactly when `raw` is the single byte `0x53` or
`0x55` or the two bytes `0x41, b` with `0x54 <= b <= 0x57`; it is 1 exactly when
`raw` has at least 3 bytes and begins `48 89 e5`, `48 83 ec` or `48 81 ec`; it is 0
for every other sequence, the empty one included. -/
theorem prolog_score_spec (raw : List Nat) :
    (ELF_x86.prolog raw = 2 ↔
      (raw = [0x53] ∨ raw = [0x55] ∨ ∃ b, raw = [0x41, b] ∧ 0x54 ≤ b ∧ b ≤ 0x57)) ∧
    (ELF_x86.prolog raw = 1 ↔
      ∃ rest, raw = 0x48 :: 0x89 :: 0xe5 :: rest ∨ raw = 0x48 :: 0x83 :: 0xec :: rest ∨
        raw = 0x48 :: 0x81 :: 0xec :: rest) ∧
    (ELF_x86.prolog raw = 0 ↔
      ¬ (raw = [0x53] ∨ raw = [0x55] ∨ ∃ b, raw = [0x41, b] ∧ 0x54 ≤ b ∧ b ≤ 0x57) ∧
      ¬ (∃ rest, raw = 0x48 :: 0x89 :: 0xe5 :: rest ∨ raw = 0x48 :: 0x83 :: 0xec :: rest ∨
        raw = 0x48 :: 0x81 :: 0xec :: rest)) ∧
    ELF_x86.prolog [] = 0 := by
  have h2 : ELF_x86.prolog raw = 2 ↔
      (raw = [0x53] ∨ raw = [0x55] ∨ ∃ b, raw = [0x41, b] ∧ 0x54 ≤ b ∧ b ≤ 0x57) := by
    rcases raw with _ | ⟨a, _ | ⟨b, _ | ⟨c, rest⟩⟩⟩
    · simp [ELF_x86.prolog]
    · rw [ELF_x86.prolog_one]
      split_ifs with h
      · simp [h]
      · simp only [not_or] at h
        simp [h.1, h.2]
    · rw [ELF_x86.prolog_two]
      split_ifs with h
      · simp [h.1, h.2.1, h.2.2]
      · simp only [OfNat.zero_ne_ofNat, List.cons.injEq, and_true, false_iff, not_or,
          not_exists, not_and]
        refine ⟨by simp, by simp, ?_⟩
        rintro x ⟨rfl, rfl⟩ hx
        intro hx2
        exact h ⟨rfl, hx, hx2⟩
    · rw [ELF_x86.prolog_three]
      split_ifs <;> simp
  have h1 : ELF_x86.prolog raw = 1 ↔
      ∃ rest, raw = 0x48 :: 0x89 :: 0xe5 :: rest ∨ raw = 0x48 :: 0x83 :: 0xec :: rest ∨
        raw = 0x48 :: 0x81 :: 0xec :: rest := by
    rcases raw with _ | ⟨a, _ | ⟨b, _ | ⟨c, rest⟩⟩⟩
    · simp [ELF_x86.prolog]
    · rw [ELF_x86.prolog_one]
      split_ifs <;> simp
    · rw [ELF_x86.prolog_two]
      split_ifs <;> simp
    · rw [ELF_x86.prolog_three]
      split_ifs with h
      · simp only [true_iff]
        rcases h with ⟨rfl, ⟨rfl, rfl⟩ | ⟨rfl, rfl⟩ | ⟨rfl, rfl⟩⟩
        · exact ⟨rest, Or.inl rfl⟩
        · exact ⟨rest, Or.inr (Or.inl rfl)⟩
        · exact ⟨rest, Or.inr (Or.inr rfl)⟩
      · simp only [OfNat.zero_ne_ofNat, false_iff, not_exists, not_or]
        intro r
        refine ⟨?_, ?_, ?_⟩ <;> intro he <;> simp only [List.cons.injEq] at he <;>
          exact h ⟨he.1, by simp [he.2.1, he.2.2.1]⟩
  have hrange : ELF_x86.prolog raw = 0 ∨ ELF_x86.prolog raw = 1 ∨ ELF_x86.prolog raw = 2 := by
    unfold ELF_x86.prolog
    split_ifs <;> simp
  refine ⟨h2, h1, ?_, by decide⟩
  rw [← h2, ← h1]
  omega

theorem USet.length_le_insert_range (ts : USet) :
    ∀ s : USet, s.length ≤ (USet.insert_range s ts).length := by
  induction ts with
  | nil => intro s; simp [USet.insert_range]
  | cons a rest ih =>
    intro s
    have h := ih (USet.insert s a)
    unfold USet.insert_range at h ⊢
    rw [List.foldl_cons]
    exact Nat.le_trans (USet.length_le_insert s a) h

theorem USet.length_lt_insert_range_iff (ts : USet) :
    ∀ s : USet, s.length < (USet.insert_range s ts).length ↔ ∃ t ∈ ts, t ∉ s := by
  induction ts with
  | nil => intro s; simp [USet.insert_range]
  | cons a rest ih =>
    intro s
    have h := ih (USet.insert s a)
    have hle := USet.length_le_insert_range rest (USet.insert s a)
    unfold USet.insert_range at h hle ⊢
    rw [List.foldl_cons]
    by_cases ha : a ∈ s
    · have hins : USet.insert s a = s := by simp [USet.insert, ha]
      rw [hins] at h ⊢
      rw [h]
      constructor
      · rintro ⟨t, ht, hts⟩
        exact ⟨t, List.mem_cons_of_mem _ ht, hts⟩
      · rintro ⟨t, ht, hts⟩
        rcases List.mem_cons.1 ht with rfl | ht'
        · exact absurd ha hts
        · exact ⟨t, ht', hts⟩
    · have hins : USet.insert s a = s ++ [a] := by simp [USet.insert, ha]
      rw [hins] at hle ⊢
      simp only [List.length_append, List.length_singleton] at hle
      constructor
      · intro _
        exact ⟨a, List.mem_cons_self _ _, ha⟩
      · intro _
        omega

/-- C30: `icf(loc, T)` appends `loc` to `recent_icfs_` exactly when the set stored
for `loc` in `icfs_` is strictly larger after the call than before it (it contains
the old set and a target that the old set did not have; equivalently its size has
grown). That happens exactly when `T` has a target that was not stored: then the
stored set grows and `loc` is appended. Otherwise, that is when `T` is empty or every
target of `T` was stored already, `recent_icfs_` is unchanged. For a non-empty `T`
the set stored after the call holds the targets stored before and those of `T`. -/
theorem icf_recent_icfs_iff_grew (p : Program) (loc : IMM) (T : USet) :
    ((p.icf loc T).recent_icfs_ =
      if (∀ t ∈ p.icfs_.get loc, t ∈ (p.icf loc T).icfs_.get loc) ∧
          (∃ t ∈ (p.icf loc T).icfs_.get loc, t ∉ p.icfs_.get loc)
      then p.recent_icfs_ ++ [loc] else p.recent_icfs_) ∧
    (((∀ t ∈ p.icfs_.get loc, t ∈ (p.icf loc T).icfs_.get loc) ∧
        (∃ t ∈ (p.icf loc T).icfs_.get loc, t ∉ p.icfs_.get loc)) ↔
      (p.icfs_.get loc).length < ((p.icf loc T).icfs_.get loc).length) ∧
    (((∀ t ∈ p.icfs_.get loc, t ∈ (p.icf loc T).icfs_.get loc) ∧
        (∃ t ∈ (p.icf loc T).icfs_.get loc, t ∉ p.icfs_.get loc)) ↔
      ∃ t ∈ T, t ∉ p.icfs_.get loc) ∧
    ((∃ t ∈ T, t ∉ p.icfs_.get loc) →
      (p.icf loc T).recent_icfs_ = p.recent_icfs_ ++ [loc]) ∧
    ((T = [] ∨ ∀ t ∈ T, t ∈ p.icfs_.get loc) → (p.icf loc T).recent_icfs_ = p.recent_icfs_) ∧
    (T ≠ [] → ∀ t, t ∈ (p.icf loc T).icfs_.get loc ↔ t ∈ p.icfs_.get loc ∨ t ∈ T) := by
  have key : ((p.icf loc T).recent_icfs_ =
        if (p.icfs_.get loc).length < ((p.icf loc T).icfs_.get loc).length
        then p.recent_icfs_ ++ [loc] else p.recent_icfs_) ∧
      (((∀ t ∈ p.icfs_.get loc, t ∈ (p.icf loc T).icfs_.get loc) ∧
        (∃ t ∈ (p.icf loc T).icfs_.get loc, t ∉ p.icfs_.get loc)) ↔
        (p.icfs_.get loc).length < ((p.icf loc T).icfs_.get loc).length) ∧
      ((p.icfs_.get loc).length < ((p.icf loc T).icfs_.get loc).length ↔
        ∃ t ∈ T, t ∉ p.icfs_.get loc) := by
    by_cases hT : T = []
    · subst hT
      have hget : (p.icf loc []).icfs_.get loc = [] := by
        rw [Program.icf_icfs_empty, UMap.get_set_self]
      have hrec : (p.icf loc []).recent_icfs_ = p.recent_icfs_ := by
        simp [Program.icf]
      rw [hget, hrec]
      simp
    · have hget : (p.icf loc T).icfs_.get loc = USet.insert_range (p.icfs_.get loc) T := by
        rw [Program.icf_icfs_nonempty p loc T hT, UMap.get_set_self]
      have hemp : T.isEmpty = false := by cases T <;> simp_all
      have hrec : (p.icf loc T).recent_icfs_ =
          if (p.icfs_.get loc).length < (USet.insert_range (p.icfs_.get loc) T).length
          then p.recent_icfs_ ++ [loc] else p.recent_icfs_ := by
        unfold Program.icf
        simp only [hemp, Bool.false_eq_true, if_false]
        split <;> rfl
      rw [hget]
      refine ⟨hrec, ?_, USet.length_lt_insert_range_iff T _⟩
      rw [USet.length_lt_insert_range_iff]
      constructor
      · rintro ⟨-, t, ht, hnot⟩
        rw [USet.mem_insert_range] at ht
        rcases ht with ht | ht
        · exact absurd ht hnot
        · exact ⟨t, ht, hnot⟩
      · rintro ⟨t, ht, hnot⟩
        refine ⟨fun x hx => (USet.mem_insert_range T _ x).2 (Or.inl hx), t, ?_, hnot⟩
        exact (USet.mem_insert_range T _ t).2 (Or.inr ht)
  obtain ⟨k1, k2, k3⟩ := key
  refine ⟨?_, k2, k2.trans k3, ?_, ?_, ?_⟩
  · rw [k1]
    by_cases hlt : (p.icfs_.get loc).length < ((p.icf loc T).icfs_.get loc).length
    · rw [if_pos hlt, if_pos (k2.2 hlt)]
    · rw [if_neg hlt, if_neg (fun h => hlt (k2.1 h))]
  · intro h
    rw [k1, if_pos (k3.2 h)]
  · intro h
    rw [k1, if_neg]
    rw [k3]
    rintro ⟨t, ht, hnot⟩
    rcases h with h | h
    · rw [h] at ht; cases ht
    · exact hnot (h t ht)
  · intro hT t
    rw [Program.icf_icfs_nonempty p loc T hT, UMap.get_set_self]
    exact USet.mem_insert_range T _ t

/-- C25, evaluated on the empty block list: `loop()` is true for an SCC without
blocks, because the first test is `b_list_.size() != 1`. In general `loop()` is true
exactly when the block list does not consist of a single block, or consists of a
single block with a successor edge to itself. -/
theorem scc_loop_true_on_empty (g : BlockGraph) (this : Nat) :
    SCC.loop g { this := this, b_list_ := [] } = true ∧
    ∀ scc : SCC, SCC.loop g scc = true ↔
      (scc.b_list_.length ≠ 1 ∨ ∃ u, scc.b_list_ = [u] ∧ ∃ c, (u, c) ∈ g.succ u) := by
  refine ⟨rfl, ?_⟩
  intro scc
  unfold SCC.loop
  rcases hl : scc.b_list_ with _ | ⟨u, _ | ⟨v, rest⟩⟩
  · simp
  · simp only [List.length_singleton, ne_eq, not_true_eq_false, if_false, List.head?_cons,
      List.any_eq_true, decide_eq_true_eq, false_or, List.cons.injEq, and_true]
    constructor
    · rintro ⟨⟨v, c⟩, hmem, hv⟩
      simp only at hv
      subst hv
      exact ⟨v, rfl, c, hmem⟩
    · rintro ⟨u', rfl, c, hc⟩
      exact ⟨(u, c), hc, rfl⟩
  · simp

theorem BlockOp.run_append {σ : Type} (block_execute : Nat → σ → σ)
    (block_preset : Nat → Nat → σ → σ) (a b : List BlockOp) :
    ∀ s, BlockOp.run block_execute block_preset (a ++ b) s =
      BlockOp.run block_execute block_preset b (BlockOp.run block_execute block_preset a s) := by
  induction a with
  | nil => intro s; rfl
  | cons x rest ih =>
    intro s
    cases x <;> simp [BlockOp.run, ih]

theorem BlockOp.run_map_execute {σ : Type} (block_execute : Nat → σ → σ)
    (block_preset : Nat → Nat → σ → σ) (l : List Nat) :
    ∀ s, BlockOp.run block_execute block_preset (l.map BlockOp.execute) s =
      l.foldl (fun s b => block_execute b s) s := by
  induction l with
  | nil => intro s; rfl
  | cons x rest ih => intro s; simp [BlockOp.run, ih]

theorem BlockOp.run_map_preset {σ : Type} (block_execute : Nat → σ → σ)
    (block_preset : Nat → Nat → σ → σ) (mask : Nat) (l : List Nat) :
    ∀ s, BlockOp.run block_execute block_preset (l.map (fun b => BlockOp.preset b mask)) s =
      l.foldl (fun s b => block_preset b mask s) s := by
  induction l with
  | nil => intro s; rfl
  | cons x rest ih => intro s; simp [BlockOp.run, ih]

theorem BlockOp.run_replicate {σ : Type} (block_execute : Nat → σ → σ)
    (block_preset : Nat → Nat → σ → σ) (ops : List BlockOp) (n : Nat) :
    ∀ s, BlockOp.run block_execute block_preset (List.replicate n ops).flatten s =
      (List.range n).foldl (fun s _ => BlockOp.run block_execute block_preset ops s) s := by
  induction n with
  | zero => intro s; rfl
  | succ n ih =>
    intro s
    rw [List.range_succ, List.foldl_append, List.replicate_succ', List.flatten_append,
      BlockOp.run_append, ih]
    simp

theorem foldl_lor_eq_foldr (f : Nat → Nat) (l : List Nat) :
    ∀ a, l.foldl (fun mask b => mask ||| f b) a = a ||| (l.map f).foldr (· ||| ·) 0 := by
  induction l with
  | nil => intro a; simp
  | cons x rest ih =>
    intro a
    rw [List.foldl_cons, ih, List.map_cons, List.foldr_cons, Nat.lor_assoc]

/-- C24: for every SCC, every `iteration_limit n >= 0` and every state, `SCC::execute`
performs exactly the expected sequence of block operations (after `s.loc.scc = this`):
one pass of `execute` over `b_list_` for a non-loop SCC; for a loop SCC with `n = 0`
a `preset(mask)` on every block, `mask` being the OR of all `preset_regs`, followed by
one pass; for a loop SCC with `n > 0`, `n` consecutive passes and no preset. -/
theorem scc_execute_ops {σ : Type} (set_loc_scc : Nat → σ → σ) (block_execute : Nat → σ → σ)
    (block_preset : Nat → Nat → σ → σ) (g : BlockGraph) (scc : SCC) (n : Nat) (s : σ) :
    SCC.execute set_loc_scc block_execute block_preset g scc (n : Int) s =
      BlockOp.run block_execute block_preset
        (expected_ops (SCC.loop g scc) g.preset_regs scc.b_list_ n)
        (set_loc_scc scc.this s) := by
  unfold SCC.execute expected_ops
  simp only
  by_cases hloop : SCC.loop g scc = true
  · simp only [hloop, Bool.not_true, Bool.false_eq_true, if_false]
    by_cases hn : n = 0
    · subst hn
      simp only [Nat.cast_zero, if_true]
      rw [BlockOp.run_append, BlockOp.run_map_execute, BlockOp.run_map_preset,
        foldl_lor_eq_foldr, Nat.zero_or]
    · have h1 : ¬ ((n : Int) = 0) := by exact_mod_cast hn
      have h2 : (n : Int) > 0 := by
        have : 0 < n := Nat.pos_of_ne_zero hn
        exact_mod_cast this
      simp only [h1, hn, h2, if_false, if_true, Int.toNat_ofNat]
      rw [BlockOp.run_replicate]
      simp only [BlockOp.run_map_execute]
  · have hl : SCC.loop g scc = false := by
      cases h : SCC.loop g scc
      · rfl
      · exact absurd h hloop
    simp only [hl, Bool.not_false, if_true]
    rw [BlockOp.run_map_execute]

theorem Program.mem_prolog_fptrs_window (offset : IMM) (window : List RawInsn) :
    ∀ (res : USet) (o : IMM), o ∈ Program.prolog_fptrs_window offset window res ↔
      o ∈ res ∨ (o = offset ∧ ∃ y ∈ window, 1 ≤ ELF_x86.prolog y.raw_bytes) := by
  induction window with
  | nil => intro res o; simp [Program.prolog_fptrs_window]
  | cons y rest ih =>
    intro res o
    have h := ih (if ELF_x86.prolog y.raw_bytes ≥ 1 then USet.insert res offset else res) o
    unfold Program.prolog_fptrs_window at h ⊢
    rw [List.foldl_cons, h]
    by_cases hy : ELF_x86.prolog y.raw_bytes ≥ 1
    · rw [if_pos hy, USet.mem_insert]
      constructor
      · rintro ((h1 | h1) | ⟨h1, z, hz, hz1⟩)
        · exact Or.inl h1
        · exact Or.inr ⟨h1, y, List.mem_cons_self _ _, hy⟩
        · exact Or.inr ⟨h1, z, List.mem_cons_of_mem _ hz, hz1⟩
      · rintro (h1 | ⟨h1, z, hz, hz1⟩)
        · exact Or.inl (Or.inl h1)
        · exact Or.inl (Or.inr h1)
    · rw [if_neg hy]
      constructor
      · rintro (h1 | ⟨h1, z, hz, hz1⟩)
        · exact Or.inl h1
        · exact Or.inr ⟨h1, z, List.mem_cons_of_mem _ hz, hz1⟩
      · rintro (h1 | ⟨h1, z, hz, hz1⟩)
        · exact Or.inl h1
        · rcases List.mem_cons.1 hz with rfl | hz'
          · exact absurd hz1 hy
          · exact Or.inr ⟨h1, z, hz', hz1⟩

theorem ELF_x86.prolog_le_two (raw : List Nat) : ELF_x86.prolog raw ≤ 2 := by
  unfold ELF_x86.prolog
  split_ifs <;> omega

theorem Program.prolog_fptrs_loop_mono :
    ∀ (fuel : Nat) (l : List RawInsn) (res : USet) (o : IMM), o ∈ res →
      o ∈ Program.prolog_fptrs_loop fuel l res := by
  intro fuel
  induction fuel with
  | zero => intro l res o h; simpa [Program.prolog_fptrs_loop] using h
  | succ fuel ih =>
    intro l res o h
    cases l with
    | nil => simpa [Program.prolog_fptrs_loop] using h
    | cons it rest =>
      rw [Program.prolog_fptrs_loop]
      have hw : o ∈ Program.prolog_fptrs_window it.offset (rest.take 15) res :=
        (Program.mem_prolog_fptrs_window _ _ _ _).2 (Or.inl h)
      split_ifs
      · exact hw
      · exact ih _ _ _ hw
      · exact ih _ _ _ h

theorem Program.prolog_fptrs_loop_sound :
    ∀ (fuel : Nat) (l : List RawInsn) (res : USet) (o : IMM),
      o ∈ Program.prolog_fptrs_loop fuel l res →
      o ∈ res ∨ ∃ pre insn rest, l = pre ++ insn :: rest ∧ insn.offset = o ∧
        ELF_x86.prolog insn.raw_bytes = 2 ∧
        ∃ y ∈ rest.take 15, 1 ≤ ELF_x86.prolog y.raw_bytes := by
  intro fuel
  induction fuel with
  | zero => intro l res o h; left; simpa [Program.prolog_fptrs_loop] using h
  | succ fuel ih =>
    intro l res o h
    cases l with
    | nil => left; simpa [Program.prolog_fptrs_loop] using h
    | cons it rest =>
      rw [Program.prolog_fptrs_loop] at h
      by_cases hp : ELF_x86.prolog it.raw_bytes ≥ 2
      · rw [if_pos hp] at h
        have hp2 : ELF_x86.prolog it.raw_bytes = 2 :=
          Nat.le_antisymm (ELF_x86.prolog_le_two _) hp
        have hwin : ∀ o, o ∈ Program.prolog_fptrs_window it.offset (rest.take 15) res →
            o ∈ res ∨ ∃ pre insn rest', it :: rest = pre ++ insn :: rest' ∧ insn.offset = o ∧
              ELF_x86.prolog insn.raw_bytes = 2 ∧
              ∃ y ∈ rest'.take 15, 1 ≤ ELF_x86.prolog y.raw_bytes := by
          intro o ho
          rcases (Program.mem_prolog_fptrs_window _ _ _ _).1 ho with h1 | ⟨h1, hy⟩
          · exact Or.inl h1
          · exact Or.inr ⟨[], it, rest, rfl, h1.symm, hp2, hy⟩
        simp only at h
        by_cases hlen : rest.length < 15
        · rw [if_pos hlen] at h
          exact hwin o h
        · rw [if_neg hlen] at h
          rcases ih _ _ _ h with h1 | ⟨pre, insn, rest', hsplit, ho, hpi, hy⟩
          · exact hwin o h1
          · refine Or.inr ⟨it :: rest.take 15 ++ pre, insn, rest', ?_, ho, hpi, hy⟩
            simp only [List.cons_append, List.append_assoc]
            rw [← hsplit, List.take_append_drop]
      · rw [if_neg hp] at h
        rcases ih _ _ _ h with h1 | ⟨pre, insn, rest', hsplit, ho, hpi, hy⟩
        · exact Or.inl h1
        · exact Or.inr ⟨it :: pre, insn, rest', by rw [hsplit]; rfl, ho, hpi, hy⟩

theorem Program.prolog_fptrs_loop_complete :
    ∀ (fuel : Nat) (l : List RawInsn) (res : USet) (pre : List RawInsn) (insn : RawInsn)
      (rest : List RawInsn), l.length ≤ fuel → l = pre ++ insn :: rest →
      (∀ a b, pre = a ++ b → b.length ≤ 15 → ∀ x ∈ b, ELF_x86.prolog x.raw_bytes ≠ 2) →
      ELF_x86.prolog insn.raw_bytes = 2 →
      (∃ y ∈ rest.take 15, 1 ≤ ELF_x86.prolog y.raw_bytes) →
      insn.offset ∈ Program.prolog_fptrs_loop fuel l res := by
  intro fuel
  induction fuel with
  | zero =>
    intro l res pre insn rest hlen hsplit
    rw [hsplit] at hlen
    simp at hlen
  | succ fuel ih =>
    intro l res pre insn rest hlen hsplit hpre hp hy
    cases pre with
    | nil =>
      rw [hsplit, List.nil_append, Program.prolog_fptrs_loop, if_pos (by omega)]
      have hw : insn.offset ∈ Program.prolog_fptrs_window insn.offset (rest.take 15) res :=
        (Program.mem_prolog_fptrs_window _ _ _ _).2 (Or.inr ⟨rfl, hy⟩)
      simp only
      split_ifs
      · exact hw
      · exact Program.prolog_fptrs_loop_mono _ _ _ _ hw
    | cons it pre' =>
      rw [hsplit, List.cons_append, Program.prolog_fptrs_loop]
      have hlen' : (pre' ++ insn :: rest).length ≤ fuel := by
        rw [hsplit] at hlen
        simp only [List.cons_append, List.length_cons] at hlen
        omega
      by_cases hpit : ELF_x86.prolog it.raw_bytes ≥ 2
      · rw [if_pos hpit]
        have hpit2 : ELF_x86.prolog it.raw_bytes = 2 :=
          Nat.le_antisymm (ELF_x86.prolog_le_two _) hpit
        have hlong : 15 < (it :: pre').length := by
          by_contra hshort
          exact hpre [] (it :: pre') rfl (Nat.le_of_not_lt hshort) it
            (List.mem_cons_self _ _) hpit2
        have hlong' : 15 ≤ pre'.length := by
          simp only [List.length_cons] at hlong
          omega
        have hnot : ¬ (pre' ++ insn :: rest).length < 15 := by
          simp only [List.length_append]
          omega
        simp only
        rw [if_neg hnot]
        apply ih _ _ (pre'.drop 15) insn rest
        · rw [List.length_drop]
          omega
        · rw [List.drop_append_of_le_length hlong']
        · intro a b hab hb x hx
          refine hpre (it :: pre'.take 15 ++ a) b ?_ hb x hx
          simp only [List.cons_append, List.append_assoc]
          rw [← hab, List.take_append_drop]
        · exact hp
        · exact hy
      · rw [if_neg hpit]
        apply ih _ _ pre' insn rest hlen' rfl
        · intro a b hab hb x hx
          exact hpre (it :: a) b (by rw [hab]; rfl) hb x hx
        · exact hp
        · exact hy

theorem mem_drop_of_suffix {α : Type} (a b : List α) (hb : b.length ≤ 15) (x : α) (hx : x ∈ b) :
    x ∈ (a ++ b).drop ((a ++ b).length - 15) := by
  have hle : (a ++ b).length - 15 ≤ a.length := by
    simp only [List.length_append]
    omega
  rw [List.drop_append_of_le_length hle]
  exact List.mem_append_right _ hx

/-- C22 (as stated) fails: in `push rbp; push rbx; mov rbp, rsp` the instruction at
offset 1 has prolog score 2 and the instruction after it has prolog score 1, yet
offset 1 is not in the set returned by `prolog_fptrs`: the scan goes on behind the
15 instructions that follow the candidate at offset 0 (and stops when they run
into the end of the list). The same holds when seventeen more instructions
follow. -/
theorem prolog_fptrs_skips_second_push :
    (ELF_x86.prolog [0x53] = 2 ∧ 1 ≤ ELF_x86.prolog [0x48, 0x89, 0xe5]) ∧
    (Program.prolog_fptrs twoPushInsns = [0] ∧ (1 : IMM) ∉ Program.prolog_fptrs twoPushInsns) ∧
    (Program.prolog_fptrs twoPushLongInsns = [0] ∧
      (1 : IMM) ∉ Program.prolog_fptrs twoPushLongInsns) := by
  decide

/-- C22, amended: an offset `o` is in the set returned by `prolog_fptrs` only if an
instruction at `o` has prolog score 2 and at least one of the next 15 instructions
after it in the list has prolog score at least 1; and the offset of such an
instruction is in the set whenever none of the (at most 15) instructions that
stand right before it has prolog score 2. -/
theorem prolog_fptrs_spec (sorted_insns_ : List RawInsn) :
    (∀ o, o ∈ Program.prolog_fptrs sorted_insns_ →
      ∃ pre insn rest, sorted_insns_ = pre ++ insn :: rest ∧ insn.offset = o ∧
        ELF_x86.prolog insn.raw_bytes = 2 ∧
        ∃ y ∈ rest.take 15, 1 ≤ ELF_x86.prolog y.raw_bytes) ∧
    (∀ pre insn rest, sorted_insns_ = pre ++ insn :: rest →
      (∀ x ∈ pre.drop (pre.length - 15), ELF_x86.prolog x.raw_bytes ≠ 2) →
      ELF_x86.prolog insn.raw_bytes = 2 →
      (∃ y ∈ rest.take 15, 1 ≤ ELF_x86.prolog y.raw_bytes) →
      insn.offset ∈ Program.prolog_fptrs sorted_insns_) := by
  constructor
  · intro o ho
    rcases Program.prolog_fptrs_loop_sound _ _ _ _ ho with h | h
    · cases h
    · exact h
  · intro pre insn rest hsplit hpre hp hy
    apply Program.prolog_fptrs_loop_complete _ _ _ pre insn rest (Nat.le_refl _) hsplit _ hp hy
    intro a b hab hb x hx
    apply hpre
    rw [hab]
    exact mem_drop_of_suffix a b hb x hx

theorem Program.prolog_fptrs_loop_fuel :
    ∀ (fuel fuel' : Nat) (l : List RawInsn) (res : USet), l.length ≤ fuel → l.length ≤ fuel' →
      Program.prolog_fptrs_loop fuel l res = Program.prolog_fptrs_loop fuel' l res := by
  intro fuel
  induction fuel with
  | zero =>
    intro fuel' l res h _
    have : l = [] := List.length_eq_zero.1 (Nat.le_zero.1 h)
    subst this
    cases fuel' <;> rfl
  | succ fuel ih =>
    intro fuel' l res h h'
    cases l with
    | nil => cases fuel' <;> rfl
    | cons it rest =>
      cases fuel' with
      | zero => simp at h'
      | succ fuel' =>
        simp only [List.length_cons] at h h'
        rw [Program.prolog_fptrs_loop, Program.prolog_fptrs_loop]
        have hd : (rest.drop 15).length ≤ rest.length := by
          rw [List.length_drop]; omega
        simp only [ih fuel' (rest.drop 15) _ (by omega) (by omega),
          ih fuel' rest res (by omega) (by omega)]

theorem dropWhile_eq_cons_split {α : Type} (f : α → Bool) (l : List α) (x : α) (rest : List α)
    (h : l.dropWhile f = x :: rest) :
    l = l.takeWhile f ++ x :: rest ∧ f x = false ∧ ∀ y ∈ l.takeWhile f, f y = true := by
  refine ⟨?_, ?_, ?_⟩
  · rw [← h, List.takeWhile_append_dropWhile]
  · have := List.head_dropWhile_not f l (by rw [h]; simp)
    simpa [h] using this
  · intro y hy
    exact List.mem_takeWhile_imp hy

theorem Program.scan_fptrs_in_gap_loop_inv (insns : List GapInsn) (checked₀ : USet) :
    ∀ (fuel : Nat) (done l : List GapInsn) (st : List IMM × USet),
      insns = done ++ l →
      st.1.Nodup → (∀ o ∈ st.1, first_after_gap_start insns o ∧ o ∉ checked₀ ∧ o ∈ st.2) →
      (∀ o ∈ checked₀, o ∈ st.2) →
      (Program.scan_fptrs_in_gap_loop fuel done.getLast? l st).1.Nodup ∧
      (∀ o ∈ (Program.scan_fptrs_in_gap_loop fuel done.getLast? l st).1,
        first_after_gap_start insns o ∧ o ∉ checked₀ ∧
          o ∈ (Program.scan_fptrs_in_gap_loop fuel done.getLast? l st).2) ∧
      (∀ o ∈ checked₀, o ∈ (Program.scan_fptrs_in_gap_loop fuel done.getLast? l st).2) := by
  intro fuel
  induction fuel with
  | zero =>
    intro done l st _ h1 h2 h3
    simp only [Program.scan_fptrs_in_gap_loop]
    exact ⟨h1, h2, h3⟩
  | succ fuel ih =>
    intro done l st hsplit h1 h2 h3
    cases l with
    | nil =>
      simp only [Program.scan_fptrs_in_gap_loop]
      exact ⟨h1, h2, h3⟩
    | cons it rest =>
      rw [Program.scan_fptrs_in_gap_loop]
      by_cases hstart : (it.gap && Program.prev_not_gap done.getLast?) = true
      · rw [if_pos hstart]
        cases hdrop : (it :: rest).dropWhile (fun i => decide (i.to_string = "nop")) with
        | nil => exact ⟨h1, h2, h3⟩
        | cons found rest' =>
          simp only
          obtain ⟨hl, hfound, hnops⟩ := dropWhile_eq_cons_split _ _ _ _ hdrop
          generalize hn : (it :: rest).takeWhile (fun i => decide (i.to_string = "nop")) = nops
            at hl hnops
          have hfoundne : found.to_string ≠ "nop" := by simpa using hfound
          have hnops' : ∀ i ∈ nops, i.to_string = "nop" := by
            intro i hi
            simpa using hnops i hi
          have hsplit' : insns = (done ++ nops ++ [found]) ++ rest' := by
            rw [hsplit, hl]
            simp
          have hlast : (done ++ nops ++ [found]).getLast? = some found := by
            simp
          have hP : first_after_gap_start insns found.offset := by
            rw [Bool.and_eq_true] at hstart
            refine ⟨done, nops, found, rest', it, ?_, rfl, hfoundne, hnops', ?_, hstart.1, ?_⟩
            · rw [hsplit, hl]
              simp
            · cases nops with
              | nil =>
                simp only [List.nil_append, List.cons.injEq] at hl
                simp [hl.1]
              | cons a as =>
                simp only [List.cons_append, List.cons.injEq] at hl
                simp [hl.1]
            · cases hd : done.getLast? with
              | none => left; exact List.getLast?_eq_none_iff.1 hd
              | some q =>
                right
                have h2' := hstart.2
                rw [hd] at h2'
                exact ⟨q, rfl, by simpa [Program.prev_not_gap] using h2'⟩
          have key := ih (done ++ nops ++ [found]) rest'
            (if !(decide (found.offset ∈ st.2)) then
              (st.1 ++ [found.offset], USet.insert st.2 found.offset) else st) hsplit'
          rw [hlast] at key
          apply key
          · split_ifs with hc
            · have hnot : found.offset ∉ st.2 := by simpa using hc
              rw [List.nodup_append]
              refine ⟨h1, List.nodup_singleton _, ?_⟩
              intro x hx1 hx2
              rw [List.mem_singleton] at hx2
              subst hx2
              exact hnot (h2 _ hx1).2.2
            · exact h1
          · split_ifs with hc
            · have hnot : found.offset ∉ st.2 := by simpa using hc
              intro o ho
              rcases List.mem_append.1 ho with ho | ho
              · obtain ⟨a, b, c⟩ := h2 o ho
                exact ⟨a, b, (USet.mem_insert _ _ _).2 (Or.inl c)⟩
              · rw [List.mem_singleton] at ho
                subst ho
                exact ⟨hP, fun hin => hnot (h3 _ hin), (USet.mem_insert _ _ _).2 (Or.inr rfl)⟩
            · exact h2
          · split_ifs with hc
            · intro o ho
              exact (USet.mem_insert _ _ _).2 (Or.inl (h3 o ho))
            · exact h3
      · rw [if_neg hstart]
        have key := ih (done ++ [it]) rest st (by rw [hsplit]; simp)
        rw [List.getLast?_append, List.getLast?_singleton] at key
        exact key h1 h2 h3

/-- C23: the list returned by `scan_fptrs_in_gap()` has no repetition, and every
offset in it is the offset of an instruction whose text is not `nop` and that is
the first such instruction at or after the start of a run of gap instructions; it
was not in `checked_fptrs_` before the call and is in `checked_fptrs_` after it
(which keeps what it held before). -/
theorem scan_fptrs_in_gap_spec (sorted_insns_ : List GapInsn) (checked_fptrs_ : USet) :
    (Program.scan_fptrs_in_gap sorted_insns_ checked_fptrs_).1.Nodup ∧
    (∀ o ∈ (Program.scan_fptrs_in_gap sorted_insns_ checked_fptrs_).1,
      first_after_gap_start sorted_insns_ o ∧ o ∉ checked_fptrs_ ∧
        o ∈ (Program.scan_fptrs_in_gap sorted_insns_ checked_fptrs_).2) ∧
    (∀ o ∈ checked_fptrs_, o ∈ (Program.scan_fptrs_in_gap sorted_insns_ checked_fptrs_).2) := by
  have h := Program.scan_fptrs_in_gap_loop_inv sorted_insns_ checked_fptrs_
    sorted_insns_.length [] sorted_insns_ ([], checked_fptrs_) rfl List.nodup_nil
    (by simp) (fun o ho => ho)
  exact h

theorem Program.scan_fptrs_in_gap_loop_fuel :
    ∀ (fuel fuel' : Nat) (prev : Option GapInsn) (l : List GapInsn) (st : List IMM × USet),
      l.length ≤ fuel → l.length ≤ fuel' →
      Program.scan_fptrs_in_gap_loop fuel prev l st =
        Program.scan_fptrs_in_gap_loop fuel' prev l st := by
  intro fuel
  induction fuel with
  | zero =>
    intro fuel' prev l st h _
    have : l = [] := List.length_eq_zero.1 (Nat.le_zero.1 h)
    subst this
    cases fuel' <;> rfl
  | succ fuel ih =>
    intro fuel' prev l st h h'
    cases l with
    | nil => cases fuel' <;> rfl
    | cons it rest =>
      cases fuel' with
      | zero => simp at h'
      | succ fuel' =>
        simp only [List.length_cons] at h h'
        rw [Program.scan_fptrs_in_gap_loop, Program.scan_fptrs_in_gap_loop]
        split_ifs
        · cases hdrop : (it :: rest).dropWhile (fun i => decide (i.to_string = "nop")) with
          | nil => rfl
          | cons found rest' =>
            simp only
            have hlen : (found :: rest').length ≤ (it :: rest).length := by
              rw [← hdrop]
              exact (List.dropWhile_sublist _).length_le
            simp only [List.length_cons] at hlen
            exact ih fuel' _ rest' _ (by omega) (by omega)
        · exact ih fuel' _ rest st (by omega) (by omega)

theorem Statement.holds_addr_append {E : Type} (ops : ExprOps E) (l₁ l₂ : List (Statement E))
    (a : Nat) :
    Statement.holds_addr ops (l₁ ++ l₂) a ↔
      Statement.holds_addr ops l₁ a ∨ Statement.holds_addr ops l₂ a := by
  unfold Statement.holds_addr
  simp only [List.mem_append]
  constructor
  · rintro (⟨n, hn | hn, h⟩ | ⟨n, hn | hn, h⟩)
    · exact Or.inl (Or.inl ⟨n, hn, h⟩)
    · exact Or.inr (Or.inl ⟨n, hn, h⟩)
    · exact Or.inl (Or.inr ⟨n, hn, h⟩)
    · exact Or.inr (Or.inr ⟨n, hn, h⟩)
  · rintro ((⟨n, hn, h⟩ | ⟨n, hn, h⟩) | (⟨n, hn, h⟩ | ⟨n, hn, h⟩))
    · exact Or.inl ⟨n, Or.inl hn, h⟩
    · exact Or.inr ⟨n, Or.inl hn, h⟩
    · exact Or.inl ⟨n, Or.inr hn, h⟩
    · exact Or.inr ⟨n, Or.inr hn, h⟩

theorem Statement.holds_addr_nil {E : Type} (ops : ExprOps E) (a : Nat) :
    ¬ Statement.holds_addr ops ([] : List (Statement E)) a := by
  unfold Statement.holds_addr
  simp

theorem Statement.holds_addr_cons {E : Type} (ops : ExprOps E) (n : Statement E)
    (l : List (Statement E)) (a : Nat) :
    Statement.holds_addr ops (n :: l) a ↔
      (n.this_addr = a ∨ ∃ e ∈ n.exprs, ops.contains e a = true) ∨
        Statement.holds_addr ops l a := by
  unfold Statement.holds_addr
  simp only [List.mem_cons]
  constructor
  · rintro (⟨m, rfl | hm, h⟩ | ⟨m, rfl | hm, h⟩)
    · exact Or.inl (Or.inl h)
    · exact Or.inr (Or.inl ⟨m, hm, h⟩)
    · exact Or.inl (Or.inr h)
    · exact Or.inr (Or.inr ⟨m, hm, h⟩)
  · rintro ((h | h) | (⟨m, hm, h⟩ | ⟨m, hm, h⟩))
    · exact Or.inl ⟨n, Or.inl rfl, h⟩
    · exact Or.inr ⟨n, Or.inl rfl, h⟩
    · exact Or.inl ⟨m, Or.inr hm, h⟩
    · exact Or.inr ⟨m, Or.inr hm, h⟩

theorem Statement.child_contains_spec {E : Type} (ops : ExprOps E) (child : Option E)
    (a : Nat) (b : Bool) (h : Statement.child_contains ops child a = Except.ok b) :
    b = true ↔ ∃ e ∈ child.toList, ops.contains e a = true := by
  cases child with
  | none => simp [Statement.child_contains] at h
  | some e =>
    simp only [Statement.child_contains, Except.ok.injEq] at h
    subst h
    simp

mutual

theorem Statement.contains_spec {E : Type} (ops : ExprOps E) :
    ∀ (T : Statement E) (a : Nat) (b : Bool), Statement.contains ops T a = Except.ok b →
      (b = true ↔ Statement.holds_addr ops T.nodes a)
  | Statement.Parallel x stmts_, a, b, h => by
    rw [Statement.contains] at h
    rw [Statement.nodes, Statement.holds_addr_cons]
    by_cases hx : x = a
    · rw [if_pos hx] at h
      cases h
      simp [Statement.this_addr, hx]
    · rw [if_neg hx] at h
      rw [Statement.contains_any_spec ops stmts_ a b h]
      simp [Statement.this_addr, hx, Statement.exprs]
  | Statement.Sequence x stmts_, a, b, h => by
    rw [Statement.contains] at h
    rw [Statement.nodes, Statement.holds_addr_cons]
    by_cases hx : x = a
    · rw [if_pos hx] at h
      cases h
      simp [Statement.this_addr, hx]
    · rw [if_neg hx] at h
      rw [Statement.contains_any_spec ops stmts_ a b h]
      simp [Statement.this_addr, hx, Statement.exprs]
  | Statement.Assign x dst_ src_, a, b, h => by
    rw [Statement.contains] at h
    rw [Statement.nodes, Statement.holds_addr_cons]
    by_cases hx : x = a
    · rw [if_pos hx] at h
      cases h
      simp [Statement.this_addr, hx]
    · rw [if_neg hx] at h
      cases hd : Statement.child_contains ops dst_ a with
      | error e => rw [hd] at h; cases h
      | ok bd =>
        have h1 := Statement.child_contains_spec ops dst_ a bd hd
        rw [hd] at h
        cases bd with
        | true =>
          cases h
          have := h1.1 rfl
          simp only [Statement.this_addr, hx, Statement.exprs, List.mem_append, false_or,
            true_iff]
          obtain ⟨e, he, hc⟩ := this
          exact Or.inl ⟨e, Or.inl he, hc⟩
        | false =>
          simp only at h
          have h2 := Statement.child_contains_spec ops src_ a b h
          rw [h2]
          simp only [Statement.this_addr, hx, Statement.exprs, List.mem_append, false_or]
          have hno : ¬ ∃ e ∈ dst_.toList, ops.contains e a = true := fun hc => by
            have := h1.2 hc
            cases this
          constructor
          · rintro ⟨e, he, hc⟩
            exact Or.inl ⟨e, Or.inr he, hc⟩
          · rintro (⟨e, he | he, hc⟩ | hnil)
            · exact absurd ⟨e, he, hc⟩ hno
            · exact ⟨e, he, hc⟩
            · exact absurd hnil (Statement.holds_addr_nil ops a)
  | Statement.Call x target_, a, b, h => by
    rw [Statement.contains] at h
    rw [Statement.nodes, Statement.holds_addr_cons]
    by_cases hx : x = a
    · rw [if_pos hx] at h
      cases h
      simp [Statement.this_addr, hx]
    · rw [if_neg hx] at h
      rw [Statement.child_contains_spec ops target_ a b h]
      simp [Statement.this_addr, hx, Statement.exprs, Statement.holds_addr_nil]
  | Statement.Clobber x expr_, a, b, h => by
    rw [Statement.contains] at h
    rw [Statement.nodes, Statement.holds_addr_cons]
    by_cases hx : x = a
    · rw [if_pos hx] at h
      cases h
      simp [Statement.this_addr, hx]
    · rw [if_neg hx] at h
      rw [Statement.child_contains_spec ops expr_ a b h]
      simp [Statement.this_addr, hx, Statement.exprs, Statement.holds_addr_nil]
  | Statement.Exit x t, a, b, h => by
    rw [Statement.contains] at h
    cases h
    rw [Statement.nodes, Statement.holds_addr_cons]
    simp [Statement.this_addr, Statement.exprs, Statement.holds_addr_nil]
  | Statement.Nop x, a, b, h => by
    rw [Statement.contains] at h
    cases h
    rw [Statement.nodes, Statement.holds_addr_cons]
    simp [Statement.this_addr, Statement.exprs, Statement.holds_addr_nil]

theorem Statement.contains_any_spec {E : Type} (ops : ExprOps E) :
    ∀ (l : List (Statement E)) (a : Nat) (b : Bool),
      Statement.contains_any ops l a = Except.ok b →
      (b = true ↔ Statement.holds_addr ops (Statement.nodes_all l) a)
  | [], a, b, h => by
    rw [Statement.contains_any] at h
    cases h
    simp [Statement.nodes_all, Statement.holds_addr_nil]
  | s :: rest, a, b, h => by
    rw [Statement.contains_any] at h
    rw [Statement.nodes_all, Statement.holds_addr_append]
    cases hs : Statement.contains ops s a with
    | error e => rw [hs] at h; cases h
    | ok bs =>
      have h1 := Statement.contains_spec ops s a bs hs
      rw [hs] at h
      cases bs with
      | true =>
        cases h
        simp only [true_iff]
        exact Or.inl (h1.1 rfl)
      | false =>
        simp only at h
        rw [Statement.contains_any_spec ops rest a b h]
        have hno : ¬ Statement.holds_addr ops s.nodes a := fun hc => by
          have := h1.2 hc
          cases this
        constructor
        · intro hr; exact Or.inr hr
        · rintro (hl | hr)
          · exact absurd hl hno
          · exact hr

end

theorem Statement.found_in_append {E : Type} (ops : ExprOps E) (eq : RTL_EQUAL)
    (l₁ l₂ : List (Statement E)) (v : RTLPtr E) (x : Nat) :
    Statement.found_in ops eq (l₁ ++ l₂) v x ↔
      Statement.found_in ops eq l₁ v x ∨ Statement.found_in ops eq l₂ v x := by
  unfold Statement.found_in
  simp only [List.mem_append]
  constructor
  · rintro (⟨n, hn | hn, h⟩ | ⟨n, hn | hn, h⟩)
    · exact Or.inl (Or.inl ⟨n, hn, h⟩)
    · exact Or.inr (Or.inl ⟨n, hn, h⟩)
    · exact Or.inl (Or.inr ⟨n, hn, h⟩)
    · exact Or.inr (Or.inr ⟨n, hn, h⟩)
  · rintro ((⟨n, hn, h⟩ | ⟨n, hn, h⟩) | (⟨n, hn, h⟩ | ⟨n, hn, h⟩))
    · exact Or.inl ⟨n, Or.inl hn, h⟩
    · exact Or.inr ⟨n, Or.inl hn, h⟩
    · exact Or.inl ⟨n, Or.inr hn, h⟩
    · exact Or.inr ⟨n, Or.inr hn, h⟩

theorem Statement.found_in_nil {E : Type} (ops : ExprOps E) (eq : RTL_EQUAL) (v : RTLPtr E)
    (x : Nat) : ¬ Statement.found_in ops eq ([] : List (Statement E)) v x := by
  unfold Statement.found_in
  simp

theorem Statement.found_in_cons {E : Type} (ops : ExprOps E) (eq : RTL_EQUAL)
    (n : Statement E) (l : List (Statement E)) (v : RTLPtr E) (x : Nat) :
    Statement.found_in ops eq (n :: l) v x ↔
      ((n.this_addr = x ∧ Statement.equal ops eq n v = Except.ok true) ∨
          ∃ e ∈ n.exprs, x ∈ ops.find eq e v) ∨
        Statement.found_in ops eq l v x := by
  unfold Statement.found_in
  simp only [List.mem_cons]
  constructor
  · rintro (⟨m, rfl | hm, h⟩ | ⟨m, rfl | hm, h⟩)
    · exact Or.inl (Or.inl h)
    · exact Or.inr (Or.inl ⟨m, hm, h⟩)
    · exact Or.inl (Or.inr h)
    · exact Or.inr (Or.inr ⟨m, hm, h⟩)
  · rintro ((h | h) | (⟨m, hm, h⟩ | ⟨m, hm, h⟩))
    · exact Or.inl ⟨n, Or.inl rfl, h⟩
    · exact Or.inr ⟨n, Or.inl rfl, h⟩
    · exact Or.inl ⟨m, Or.inr hm, h⟩
    · exact Or.inr ⟨m, Or.inr hm, h⟩

theorem Statement.mem_find_self {E : Type} (ops : ExprOps E) (eq : RTL_EQUAL)
    (s : Statement E) (v : RTLPtr E) (l : List Nat)
    (h : Statement.find_self ops eq s v = Except.ok l) (x : Nat) :
    x ∈ l ↔ (s.this_addr = x ∧ Statement.equal ops eq s v = Except.ok true) := by
  unfold Statement.find_self at h
  cases he : Statement.equal ops eq s v with
  | error e => rw [he] at h; cases h
  | ok b =>
    rw [he] at h
    cases b with
    | true =>
      cases h
      simp [eq_comm]
    | false =>
      cases h
      simp

theorem Statement.mem_child_find {E : Type} (ops : ExprOps E) (eq : RTL_EQUAL)
    (child : Option E) (v : RTLPtr E) (vList r : List Nat)
    (h : Statement.child_find ops eq child v vList = Except.ok r) (x : Nat) :
    x ∈ r ↔ x ∈ vList ∨ ∃ e ∈ child.toList, x ∈ ops.find eq e v := by
  cases child with
  | none => simp [Statement.child_find] at h
  | some e =>
    simp only [Statement.child_find, Except.ok.injEq] at h
    subst h
    simp

mutual

theorem Statement.find_spec {E : Type} (ops : ExprOps E) (eq : RTL_EQUAL) :
    ∀ (T : Statement E) (v : RTLPtr E) (r : List Nat),
      Statement.find ops eq T v = Except.ok r →
      ∀ x, x ∈ r ↔ Statement.found_in ops eq T.nodes v x
  | Statement.Parallel a stmts_, v, r, h, x => by
    rw [Statement.find] at h
    rw [Statement.nodes, Statement.found_in_cons]
    cases hs : Statement.find_self ops eq (Statement.Parallel a stmts_) v with
    | error e => rw [hs] at h; cases h
    | ok vList =>
      rw [hs] at h
      simp only at h
      rw [Statement.find_all_spec ops eq stmts_ v vList r h x,
        Statement.mem_find_self ops eq _ v vList hs x]
      simp [Statement.exprs]
  | Statement.Sequence a stmts_, v, r, h, x => by
    rw [Statement.find] at h
    rw [Statement.nodes, Statement.found_in_cons]
    cases hs : Statement.find_self ops eq (Statement.Sequence a stmts_) v with
    | error e => rw [hs] at h; cases h
    | ok vList =>
      rw [hs] at h
      simp only at h
      rw [Statement.find_all_spec ops eq stmts_ v vList r h x,
        Statement.mem_find_self ops eq _ v vList hs x]
      simp [Statement.exprs]
  | Statement.Assign a dst_ src_, v, r, h, x => by
    rw [Statement.find] at h
    rw [Statement.nodes, Statement.found_in_cons]
    cases hs : Statement.find_self ops eq (Statement.Assign a dst_ src_) v with
    | error e => rw [hs] at h; cases h
    | ok vList =>
      rw [hs] at h
      simp only at h
      cases hd : Statement.child_find ops eq dst_ v vList with
      | error e => rw [hd] at h; cases h
      | ok vList2 =>
        rw [hd] at h
        simp only at h
        rw [Statement.mem_child_find ops eq src_ v vList2 r h x,
          Statement.mem_child_find ops eq dst_ v vList vList2 hd x,
          Statement.mem_find_self ops eq _ v vList hs x]
        simp only [Statement.exprs, List.mem_append]
        constructor
        · rintro ((h1 | ⟨e, he, hx⟩) | ⟨e, he, hx⟩)
          · exact Or.inl (Or.inl h1)
          · exact Or.inl (Or.inr ⟨e, Or.inl he, hx⟩)
          · exact Or.inl (Or.inr ⟨e, Or.inr he, hx⟩)
        · rintro ((h1 | ⟨e, he | he, hx⟩) | hnil)
          · exact Or.inl (Or.inl h1)
          · exact Or.inl (Or.inr ⟨e, he, hx⟩)
          · exact Or.inr ⟨e, he, hx⟩
          · exact absurd hnil (Statement.found_in_nil ops eq v x)
  | Statement.Call a target_, v, r, h, x => by
    rw [Statement.find] at h
    rw [Statement.nodes, Statement.found_in_cons]
    cases hs : Statement.find_self ops eq (Statement.Call a target_) v with
    | error e => rw [hs] at h; cases h
    | ok vList =>
      rw [hs] at h
      simp only at h
      rw [Statement.mem_child_find ops eq target_ v vList r h x,
        Statement.mem_find_self ops eq _ v vList hs x]
      simp [Statement.exprs, Statement.found_in_nil]
  | Statement.Clobber a expr_, v, r, h, x => by
    rw [Statement.find] at h
    rw [Statement.nodes, Statement.found_in_cons]
    cases hs : Statement.find_self ops eq (Statement.Clobber a expr_) v with
    | error e => rw [hs] at h; cases h
    | ok vList =>
      rw [hs] at h
      simp only at h
      rw [Statement.mem_child_find ops eq expr_ v vList r h x,
        Statement.mem_find_self ops eq _ v vList hs x]
      simp [Statement.exprs, Statement.found_in_nil]
  | Statement.Exit a t, v, r, h, x => by
    rw [Statement.find] at h
    rw [Statement.nodes, Statement.found_in_cons,
      Statement.mem_find_self ops eq _ v r h x]
    simp [Statement.exprs, Statement.found_in_nil]
  | Statement.Nop a, v, r, h, x => by
    rw [Statement.find] at h
    rw [Statement.nodes, Statement.found_in_cons,
      Statement.mem_find_self ops eq _ v r h x]
    simp [Statement.exprs, Statement.found_in_nil]

theorem Statement.find_all_spec {E : Type} (ops : ExprOps E) (eq : RTL_EQUAL) :
    ∀ (l : List (Statement E)) (v : RTLPtr E) (vList r : List Nat),
      Statement.find_all ops eq l v vList = Except.ok r →
      ∀ x, x ∈ r ↔ x ∈ vList ∨ Statement.found_in ops eq (Statement.nodes_all l) v x
  | [], v, vList, r, h, x => by
    rw [Statement.find_all] at h
    cases h
    simp [Statement.nodes_all, Statement.found_in_nil]
  | s :: rest, v, vList, r, h, x => by
    rw [Statement.find_all] at h
    rw [Statement.nodes_all, Statement.found_in_append]
    cases hs : Statement.find ops eq s v with
    | error e => rw [hs] at h; cases h
    | ok r1 =>
      rw [hs] at h
      simp only at h
      rw [Statement.find_all_spec ops eq rest v (vList ++ r1) r h x, List.mem_append,
        Statement.find_spec ops eq s v r1 hs x]
      tauto

end

theorem Statement.child_equal_ok {E : Type} (ops : ExprOps E) (eq : RTL_EQUAL)
    (child v : Option E) (h : child.isSome = true) :
    ∃ b, Statement.child_equal ops eq child v = Except.ok b := by
  cases child with
  | none => cases h
  | some e => exact ⟨_, rfl⟩

theorem Statement.child_find_ok {E : Type} (ops : ExprOps E) (eq : RTL_EQUAL)
    (child : Option E) (v : RTLPtr E) (vList : List Nat) (h : child.isSome = true) :
    ∃ r, Statement.child_find ops eq child v vList = Except.ok r := by
  cases child with
  | none => cases h
  | some e => exact ⟨_, rfl⟩

theorem Statement.child_contains_ok {E : Type} (ops : ExprOps E) (child : Option E)
    (a : Nat) (h : child.isSome = true) :
    ∃ b, Statement.child_contains ops child a = Except.ok b := by
  cases child with
  | none => cases h
  | some e => exact ⟨_, rfl⟩

theorem Statement.equal_child_ok {E : Type} (ops : ExprOps E) (eq : RTL_EQUAL)
    (child v : Option E) (h : child.isSome = true) :
    ∃ b, Statement.equal_child ops eq child v = Except.ok b := by
  obtain ⟨b, hb⟩ := Statement.child_equal_ok ops eq child v h
  cases eq
  · exact ⟨_, rfl⟩
  · exact ⟨_, rfl⟩
  · exact ⟨b, hb⟩
  · exact ⟨b, hb⟩

theorem Statement.equal_assign_ok {E : Type} (ops : ExprOps E) (eq : RTL_EQUAL)
    (dst_ src_ dst2 src2 : Option E) (hd : dst_.isSome = true) (hs : src_.isSome = true) :
    ∃ b, Statement.equal_assign ops eq dst_ src_ dst2 src2 = Except.ok b := by
  obtain ⟨bd, hbd⟩ := Statement.child_equal_ok ops eq dst_ dst2 hd
  obtain ⟨bs, hbs⟩ := Statement.child_equal_ok ops eq src_ src2 hs
  cases eq
  · exact ⟨_, rfl⟩
  · exact ⟨_, rfl⟩
  · simp only [Statement.equal_assign, hbd, hbs]
    cases bd
    · exact ⟨_, rfl⟩
    · exact ⟨_, rfl⟩
  · simp only [Statement.equal_assign, hbd, hbs]
    cases bd
    · exact ⟨_, rfl⟩
    · exact ⟨_, rfl⟩

mutual

theorem Statement.equal_ok {E : Type} (ops : ExprOps E) (eq : RTL_EQUAL) :
    ∀ (T : Statement E) (v : RTLPtr E), T.no_null = true →
      ∃ b, Statement.equal ops eq T v = Except.ok b
  | Statement.Parallel a stmts_, v, h => by
    rw [Statement.no_null] at h
    rw [Statement.equal]
    by_cases hn : Statement.is_null v = true
    · rw [if_pos hn]; exact ⟨_, rfl⟩
    · rw [if_neg hn]
      cases hp : Statement.as_Parallel v with
      | none => exact ⟨_, rfl⟩
      | some stmts2 =>
        simp only
        by_cases ho : eq = RTL_EQUAL.OPCODE
        · rw [if_pos ho]; exact ⟨_, rfl⟩
        · rw [if_neg ho]
          by_cases hl : stmts_.length ≠ stmts2.length
          · rw [if_pos hl]; exact ⟨_, rfl⟩
          · rw [if_neg hl]
            exact Statement.equal_all_ok ops eq stmts_ stmts2 h
              (Nat.le_of_eq (not_not.1 hl))
  | Statement.Sequence a stmts_, v, h => by
    rw [Statement.no_null] at h
    rw [Statement.equal]
    by_cases hn : Statement.is_null v = true
    · rw [if_pos hn]; exact ⟨_, rfl⟩
    · rw [if_neg hn]
      cases hp : Statement.as_Sequence v with
      | none => exact ⟨_, rfl⟩
      | some stmts2 =>
        simp only
        by_cases ho : eq = RTL_EQUAL.OPCODE
        · rw [if_pos ho]; exact ⟨_, rfl⟩
        · rw [if_neg ho]
          by_cases hl : stmts_.length ≠ stmts2.length
          · rw [if_pos hl]; exact ⟨_, rfl⟩
          · rw [if_neg hl]
            exact Statement.equal_all_ok ops eq stmts_ stmts2 h
              (Nat.le_of_eq (not_not.1 hl))
  | Statement.Assign a dst_ src_, v, h => by
    rw [Statement.no_null, Bool.and_eq_true] at h
    rw [Statement.equal]
    by_cases hn : Statement.is_null v = true
    · rw [if_pos hn]; exact ⟨_, rfl⟩
    · rw [if_neg hn]
      cases hp : Statement.as_Assign v with
      | none => exact ⟨_, rfl⟩
      | some v2 => exact Statement.equal_assign_ok ops eq dst_ src_ v2.1 v2.2 h.1 h.2
  | Statement.Call a target_, v, h => by
    rw [Statement.no_null] at h
    rw [Statement.equal]
    by_cases hn : Statement.is_null v = true
    · rw [if_pos hn]; exact ⟨_, rfl⟩
    · rw [if_neg hn]
      cases hp : Statement.as_Call v with
      | none => exact ⟨_, rfl⟩
      | some v2 => exact Statement.equal_child_ok ops eq target_ v2 h
  | Statement.Clobber a expr_, v, h => by
    rw [Statement.no_null] at h
    rw [Statement.equal]
    by_cases hn : Statement.is_null v = true
    · rw [if_pos hn]; exact ⟨_, rfl⟩
    · rw [if_neg hn]
      cases hp : Statement.as_Clobber v with
      | none => exact ⟨_, rfl⟩
      | some v2 => exact Statement.equal_child_ok ops eq expr_ v2 h
  | Statement.Exit a t, v, _ => by
    rw [Statement.equal]
    by_cases hn : Statement.is_null v = true
    · rw [if_pos hn]; exact ⟨_, rfl⟩
    · rw [if_neg hn]
      cases hp : Statement.as_Exit v with
      | none => exact ⟨_, rfl⟩
      | some v2 => exact ⟨_, rfl⟩
  | Statement.Nop a, v, _ => by
    rw [Statement.equal]
    by_cases hn : Statement.is_null v = true
    · rw [if_pos hn]; exact ⟨_, rfl⟩
    · rw [if_neg hn]
      cases hp : Statement.as_Nop v with
      | none => exact ⟨_, rfl⟩
      | some v2 => exact ⟨_, rfl⟩

theorem Statement.equal_all_ok {E : Type} (ops : ExprOps E) (eq : RTL_EQUAL) :
    ∀ (l l2 : List (Statement E)), Statement.no_null_all l = true →
      l.length ≤ l2.length → ∃ b, Statement.equal_all ops eq l l2 = Except.ok b
  | [], l2, _, _ => ⟨true, by rw [Statement.equal_all]⟩
  | s :: rest, [], _, hl => by simp at hl
  | s :: rest, s2 :: rest2, h, hl => by
    rw [Statement.no_null_all, Bool.and_eq_true] at h
    rw [Statement.equal_all]
    simp only [List.head?_cons, List.tail_cons]
    obtain ⟨b, hb⟩ := Statement.equal_ok ops eq s (RTLPtr.stmt s2) h.1
    rw [hb]
    cases b with
    | false => exact ⟨_, rfl⟩
    | true =>
      exact Statement.equal_all_ok ops eq rest rest2 h.2
        (Nat.le_of_succ_le_succ (by simpa using hl))

end

theorem Statement.find_self_ok {E : Type} (ops : ExprOps E) (eq : RTL_EQUAL)
    (s : Statement E) (v : RTLPtr E) (h : s.no_null = true) :
    ∃ r, Statement.find_self ops eq s v = Except.ok r := by
  obtain ⟨b, hb⟩ := Statement.equal_ok ops eq s v h
  unfold Statement.find_self
  rw [hb]
  cases b
  · exact ⟨_, rfl⟩
  · exact ⟨_, rfl⟩

mutual

theorem Statement.find_ok {E : Type} (ops : ExprOps E) (eq : RTL_EQUAL) :
    ∀ (T : Statement E) (v : RTLPtr E), T.no_null = true →
      ∃ r, Statement.find ops eq T v = Except.ok r
  | Statement.Parallel a stmts_, v, h => by
    obtain ⟨l, hl⟩ := Statement.find_self_ok ops eq _ v h
    rw [Statement.no_null] at h
    rw [Statement.find, hl]
    exact Statement.find_all_ok ops eq stmts_ v l h
  | Statement.Sequence a stmts_, v, h => by
    obtain ⟨l, hl⟩ := Statement.find_self_ok ops eq _ v h
    rw [Statement.no_null] at h
    rw [Statement.find, hl]
    exact Statement.find_all_ok ops eq stmts_ v l h
  | Statement.Assign a dst_ src_, v, h => by
    obtain ⟨l, hl⟩ := Statement.find_self_ok ops eq _ v h
    rw [Statement.no_null, Bool.and_eq_true] at h
    rw [Statement.find, hl]
    obtain ⟨l2, hl2⟩ := Statement.child_find_ok ops eq dst_ v l h.1
    simp only [hl2]
    exact Statement.child_find_ok ops eq src_ v l2 h.2
  | Statement.Call a target_, v, h => by
    obtain ⟨l, hl⟩ := Statement.find_self_ok ops eq _ v h
    rw [Statement.no_null] at h
    rw [Statement.find, hl]
    exact Statement.child_find_ok ops eq target_ v l h
  | Statement.Clobber a expr_, v, h => by
    obtain ⟨l, hl⟩ := Statement.find_self_ok ops eq _ v h
    rw [Statement.no_null] at h
    rw [Statement.find, hl]
    exact Statement.child_find_ok ops eq expr_ v l h
  | Statement.Exit a t, v, h => by
    rw [Statement.find]
    exact Statement.find_self_ok ops eq _ v h
  | Statement.Nop a, v, h => by
    rw [Statement.find]
    exact Statement.find_self_ok ops eq _ v h

theorem Statement.find_all_ok {E : Type} (ops : ExprOps E) (eq : RTL_EQUAL) :
    ∀ (l : List (Statement E)) (v : RTLPtr E) (vList : List Nat),
      Statement.no_null_all l = true → ∃ r, Statement.find_all ops eq l v vList = Except.ok r
  | [], v, vList, _ => ⟨vList, by rw [Statement.find_all]⟩
  | s :: rest, v, vList, h => by
    rw [Statement.no_null_all, Bool.and_eq_true] at h
    obtain ⟨r, hr⟩ := Statement.find_ok ops eq s v h.1
    rw [Statement.find_all, hr]
    exact Statement.find_all_ok ops eq rest v (vList ++ r) h.2

end

mutual

theorem Statement.contains_ok {E : Type} (ops : ExprOps E) :
    ∀ (T : Statement E) (a : Nat), T.no_null = true →
      ∃ b, Statement.contains ops T a = Except.ok b
  | Statement.Parallel x stmts_, a, h => by
    rw [Statement.no_null] at h
    rw [Statement.contains]
    by_cases hx : x = a
    · rw [if_pos hx]; exact ⟨_, rfl⟩
    · rw [if_neg hx]; exact Statement.contains_any_ok ops stmts_ a h
  | Statement.Sequence x stmts_, a, h => by
    rw [Statement.no_null] at h
    rw [Statement.contains]
    by_cases hx : x = a
    · rw [if_pos hx]; exact ⟨_, rfl⟩
    · rw [if_neg hx]; exact Statement.contains_any_ok ops stmts_ a h
  | Statement.Assign x dst_ src_, a, h => by
    rw [Statement.no_null, Bool.and_eq_true] at h
    rw [Statement.contains]
    by_cases hx : x = a
    · rw [if_pos hx]; exact ⟨_, rfl⟩
    · rw [if_neg hx]
      obtain ⟨bd, hbd⟩ := Statement.child_contains_ok ops dst_ a h.1
      rw [hbd]
      cases bd
      · exact Statement.child_contains_ok ops src_ a h.2
      · exact ⟨_, rfl⟩
  | Statement.Call x target_, a, h => by
    rw [Statement.no_null] at h
    rw [Statement.contains]
    by_cases hx : x = a
    · rw [if_pos hx]; exact ⟨_, rfl⟩
    · rw [if_neg hx]; exact Statement.child_contains_ok ops target_ a h
  | Statement.Clobber x expr_, a, h => by
    rw [Statement.no_null] at h
    rw [Statement.contains]
    by_cases hx : x = a
    · rw [if_pos hx]; exact ⟨_, rfl⟩
    · rw [if_neg hx]; exact Statement.child_contains_ok ops expr_ a h
  | Statement.Exit x t, a, _ => ⟨_, by rw [Statement.contains]⟩
  | Statement.Nop x, a, _ => ⟨_, by rw [Statement.contains]⟩

theorem Statement.contains_any_ok {E : Type} (ops : ExprOps E) :
    ∀ (l : List (Statement E)) (a : Nat), Statement.no_null_all l = true →
      ∃ b, Statement.contains_any ops l a = Except.ok b
  | [], a, _ => ⟨false, by rw [Statement.contains_any]⟩
  | s :: rest, a, h => by
    rw [Statement.no_null_all, Bool.and_eq_true] at h
    obtain ⟨b, hb⟩ := Statement.contains_ok ops s a h.1
    rw [Statement.contains_any, hb]
    cases b
    · exact Statement.contains_any_ok ops rest a h.2
    · exact ⟨_, rfl⟩

end

theorem Statement.mem_nodes_self {E : Type} (T : Statement E) : T ∈ T.nodes := by
  cases T <;> simp [Statement.nodes]

theorem Statement.equal_all_pairwise {E : Type} (ops : ExprOps E) (eq : RTL_EQUAL) :
    ∀ (l l2 : List (Statement E)), l.length = l2.length →
      Statement.equal_all ops eq l l2 = Except.ok true →
      List.Forall₂ (fun x y => Statement.equal ops eq x (RTLPtr.stmt y) = Except.ok true) l l2
  | [], [], _, _ => List.Forall₂.nil
  | [], _ :: _, hl, _ => by simp at hl
  | _ :: _, [], hl, _ => by simp at hl
  | s :: rest, s2 :: rest2, hl, h => by
    rw [Statement.equal_all] at h
    simp only [List.head?_cons, List.tail_cons] at h
    cases hb : Statement.equal ops eq s (RTLPtr.stmt s2) with
    | error e => rw [hb] at h; cases h
    | ok b =>
      rw [hb] at h
      cases b with
      | false => cases h
      | true =>
        exact List.Forall₂.cons hb
          (Statement.equal_all_pairwise ops eq rest rest2 (by simpa using hl) h)

/-- C29, evaluated on the code: `Exit::equal` returns true for any two `Exit`
statements under `STRICT`, also for one of type `RET` and one of type `HALT`, so
`equal(STRICT, ·)` does not compare the attributes of an `Exit`. The rest of the claim
holds: a `Parallel` and a `Sequence` are never equal, in either order and under every
match kind, and two `Parallel` statements that are `STRICT`-equal have the same number
of children, pairwise `STRICT`-equal in order. -/
theorem exit_equal_ignores_exit_type {E : Type} (ops : ExprOps E) :
    (∀ a b : Nat, Statement.equal ops RTL_EQUAL.STRICT (Statement.Exit a EXIT_TYPE.RET)
        (RTLPtr.stmt (Statement.Exit b EXIT_TYPE.HALT)) = Except.ok true) ∧
    (∀ (eq : RTL_EQUAL) (a b : Nat) (s t : List (Statement E)),
      Statement.equal ops eq (Statement.Parallel a s) (RTLPtr.stmt (Statement.Sequence b t))
          = Except.ok false ∧
        Statement.equal ops eq (Statement.Sequence b t) (RTLPtr.stmt (Statement.Parallel a s))
          = Except.ok false) ∧
    (∀ (a b : Nat) (s t : List (Statement E)),
      Statement.equal ops RTL_EQUAL.STRICT (Statement.Parallel a s)
          (RTLPtr.stmt (Statement.Parallel b t)) = Except.ok true →
        List.Forall₂ (fun x y => Statement.equal ops RTL_EQUAL.STRICT x (RTLPtr.stmt y)
          = Except.ok true) s t) := by
  refine ⟨fun a b => ?_, fun eq a b s t => ⟨?_, ?_⟩, fun a b s t h => ?_⟩
  · rw [Statement.equal]; rfl
  · rw [Statement.equal]; rfl
  · rw [Statement.equal]; rfl
  · rw [Statement.equal] at h
    simp only [Statement.is_null, Statement.as_Parallel, Bool.false_eq_true, if_false] at h
    by_cases hl : s.length ≠ t.length
    · rw [if_neg (by decide), if_pos hl] at h; cases h
    · rw [if_neg (by decide), if_neg hl] at h
      exact Statement.equal_all_pairwise ops RTL_EQUAL.STRICT s t (not_not.1 hl) h

/-- C28, counterexample: `find(STRICT, ·)` finds the root of the tree
`(parallel [(simple_return) (nop)])` for a separately built copy of the tree, at other
addresses, while `contains` of the copy is false. -/
theorem find_strict_finds_separate_copy :
    Statement.find noExprOps RTL_EQUAL.STRICT parallelTree (RTLPtr.stmt parallelCopy)
        = Except.ok [1] ∧
      Statement.contains noExprOps parallelTree parallelCopy.this_addr = Except.ok false :=
  ⟨rfl, rfl⟩

/-- C28, amended: on a tree `T` without null children `contains(sub)` and
`find(STRICT, sub)` return; `contains(sub)` is true exactly when the address `sub` is
the address of a statement node of `T` or an expression child of `T` contains it, and
`find(STRICT, sub)` returns exactly the statement nodes of `T` that are `STRICT`-equal
to `sub` and what `find` of the expression children returns. So for a `sub` that is a
node of `T` and is `STRICT`-equal to itself, `contains(sub)` is true and
`find(STRICT, sub)` is not empty. -/
theorem contains_is_identity_find_is_structural {E : Type} (ops : ExprOps E)
    (T sub : Statement E) (hT : T.no_null = true) :
    ∃ (b : Bool) (r : List Nat),
      Statement.contains ops T sub.this_addr = Except.ok b ∧
      Statement.find ops RTL_EQUAL.STRICT T (RTLPtr.stmt sub) = Except.ok r ∧
      (b = true ↔ Statement.holds_addr ops T.nodes sub.this_addr) ∧
      (∀ x, x ∈ r ↔ Statement.found_in ops RTL_EQUAL.STRICT T.nodes (RTLPtr.stmt sub) x) ∧
      (sub ∈ T.nodes →
        Statement.equal ops RTL_EQUAL.STRICT sub (RTLPtr.stmt sub) = Except.ok true →
        b = true ∧ r ≠ []) := by
  obtain ⟨b, hb⟩ := Statement.contains_ok ops T sub.this_addr hT
  obtain ⟨r, hr⟩ := Statement.find_ok ops RTL_EQUAL.STRICT T (RTLPtr.stmt sub) hT
  have h1 := Statement.contains_spec ops T sub.this_addr b hb
  have h2 := Statement.find_spec ops RTL_EQUAL.STRICT T (RTLPtr.stmt sub) r hr
  refine ⟨b, r, hb, hr, h1, h2, fun hmem hself => ⟨?_, ?_⟩⟩
  · exact h1.2 (Or.inl ⟨sub, hmem, rfl⟩)
  · have : sub.this_addr ∈ r := (h2 _).2 (Or.inl ⟨sub, hmem, rfl, hself⟩)
    exact List.ne_nil_of_mem this

/-- C28, witness: the tree `(parallel [(simple_return) (nop)])` and its own `nop`
node. -/
theorem contains_is_identity_find_is_structural_witness :
    parallelTree.no_null = true ∧
    ∃ (b : Bool) (r : List Nat),
      Statement.contains noExprOps parallelTree nopNode.this_addr = Except.ok b ∧
      Statement.find noExprOps RTL_EQUAL.STRICT parallelTree (RTLPtr.stmt nopNode)
        = Except.ok r ∧
      (b = true ↔ Statement.holds_addr noExprOps parallelTree.nodes nopNode.this_addr) ∧
      (∀ x, x ∈ r ↔ Statement.found_in noExprOps RTL_EQUAL.STRICT parallelTree.nodes
        (RTLPtr.stmt nopNode) x) ∧
      (nopNode ∈ parallelTree.nodes →
        Statement.equal noExprOps RTL_EQUAL.STRICT nopNode (RTLPtr.stmt nopNode)
          = Except.ok true →
        b = true ∧ r ≠ []) :=
  ⟨rfl, contains_is_identity_find_is_structural noExprOps parallelTree nopNode rfl⟩

section ExecuteThms

variable {σ E V I F M : Type}

theorem RegExpr.eval_update {V : Type} (e : RegExpr V) (s : RegState V) (r : Nat) (v : V) :
    e.eval (s.update r v) = e.eval s := by
  induction e with
  | Reg r => rfl
  | Const v => rfl
  | Unary f e ih => simp only [RegExpr.eval, ih]

end ExecuteThms

theorem regOps_reads_committed {V : Type} (top : V) (support_constraint : Bool)
    (e : RegExpr V) :
    (regOps top support_constraint).reads_committed (fun s => s) e := by
  intro s s' h
  show e.eval s = e.eval s'
  induction e with
  | Reg r => simp only [RegExpr.eval, RegState.read, h]
  | Const v => rfl
  | Unary f e ih => simp only [RegExpr.eval, ih]

/-- C31, counterexample: after `fptrs({0})` the entry 0 is in `recent_fptrs_`; a
second call `fptrs({2})` leaves `recent_fptrs_ = {2}`, without the entry 0, and the
following `update()` builds a block for entry 2 only. -/
theorem fptrs_drops_pending_entry :
    (0 : IMM) ∈ (lineProgram.fptrs [0]).recent_fptrs_ ∧
    (0 : IMM) ∉ ((lineProgram.fptrs [0]).fptrs [2]).recent_fptrs_ ∧
    ∃ p', Program.update {} 10 ((lineProgram.fptrs [0]).fptrs [2]) = Except.ok p' ∧
      (0 : IMM) ∈ p'.fptrs_ ∧ p'.b_map_.contains 0 = false ∧ p'.b_map_.contains 2 = true :=
  ⟨by decide, by decide, _, rfl, by decide, by decide, by decide⟩

/-- C31, amended: `fptrs(list)` assigns `recent_fptrs_ = list`, so after the call the
worklist holds exactly the entries of `list` (it extends the worklist when that was
empty before the call), and `fptrs_` holds what it held before together with all
entries of `list`. -/
theorem fptrs_sets_recent_fptrs (p : Program) (fptr_list : List IMM) :
    (p.fptrs fptr_list).recent_fptrs_ = fptr_list ∧
    (∀ x, x ∈ (p.fptrs fptr_list).fptrs_ ↔ x ∈ p.fptrs_ ∨ x ∈ fptr_list) ∧
    (p.recent_fptrs_ = [] →
      ∀ x, x ∈ (p.fptrs fptr_list).recent_fptrs_ ↔ x ∈ p.recent_fptrs_ ∨ x ∈ fptr_list) := by
  refine ⟨rfl, fun x => ?_, fun hempty x => ?_⟩
  · simp only [Program.fptrs, USet.mem_insert_range]
  · rw [hempty]
    simp [Program.fptrs]

/-- C34, evaluated on the code: the zero-fill test of `read` is
`final_fsize < dist && dist < final_msize`, so `read` returns 0 when
`fsize < a - vaddr < msize`, but not on the first byte of the memory-only tail, where
`a - vaddr = fsize`: there it goes on to the file bytes at `foffset + fsize`. In the
nine-byte file with the segment `[0x1000, ..)` of file size 4 and memory size 16,
`read(0x1004, 1)` is `0x20`, the first byte of the next segment. -/
theorem read_first_tail_byte_not_zero :
    (∀ (ENDIAN : Nat) (info : Object) (offset : Int) (width : Nat),
      (ELF_x86.read_final info.phdr (to_u64 offset)).fsize
          < u64 (to_u64 offset + 2 ^ 64
              - u64 (ELF_x86.read_final info.phdr (to_u64 offset)).vaddr) →
      u64 (to_u64 offset + 2 ^ 64 - u64 (ELF_x86.read_final info.phdr (to_u64 offset)).vaddr)
          < (ELF_x86.read_final info.phdr (to_u64 offset)).msize →
      ELF_x86.read ENDIAN info offset width = Except.ok 0) ∧
    ELF_x86.read_final readObject.phdr (to_u64 0x1004) = ⟨0x1000, 0, 4, 16⟩ ∧
    ELF_x86.read 0 readObject 0x1004 1 = Except.ok 0x20 ∧
    ELF_x86.read 0 readObject 0x1005 1 = Except.ok 0 := by
  refine ⟨fun ENDIAN info offset width h1 h2 => ?_, by decide, rfl, rfl⟩
  unfold ELF_x86.read
  simp only [h1, h2, and_self, if_true]

/-- C35, evaluated on the code: `read` compares only the position of the first byte,
`adj_offset`, with `raw_bytes.size()`: when that lies beyond the end it returns the
sentinel, but when the first byte lies in the file and a later one of the `width`
bytes does not, the byte loop indexes `raw_bytes` past its end. In the nine-byte file
`read(0x3003, 4)` starts at file position 7 and indexes position 9. -/
theorem read_indexes_past_end_of_file :
    (∀ (ENDIAN : Nat) (info : Object) (offset : Int) (width : Nat),
      ¬ ((ELF_x86.read_final info.phdr (to_u64 offset)).fsize
          < u64 (to_u64 offset + 2 ^ 64
              - u64 (ELF_x86.read_final info.phdr (to_u64 offset)).vaddr) ∧
        u64 (to_u64 offset + 2 ^ 64 - u64 (ELF_x86.read_final info.phdr (to_u64 offset)).vaddr)
          < (ELF_x86.read_final info.phdr (to_u64 offset)).msize) →
      info.raw_bytes.length ≤ u64 ((ELF_x86.read_final info.phdr (to_u64 offset)).foffset
          + u64 (to_u64 offset + 2 ^ 64
              - u64 (ELF_x86.read_final info.phdr (to_u64 offset)).vaddr)) →
      ELF_x86.read ENDIAN info offset width = Except.ok 0x8000000080000000) ∧
    readObject.raw_bytes.length = 9 ∧
    ELF_x86.read 0 readObject 0x3003 2 = Except.ok 0x1100 ∧
    ELF_x86.read 0 readObject 0x3003 4 = Except.error Stop.fault ∧
    ELF_x86.read 0 readObject 0x3005 4 = Except.ok 0x8000000080000000 := by
  refine ⟨fun ENDIAN info offset width h1 h2 => ?_, rfl, rfl, rfl, rfl⟩
  unfold ELF_x86.read
  simp only [h1, if_false]
  rw [if_pos h2]

/-- C40, evaluated on the code: the guard of `resolve_icf` is
`!X->top() || !X->dynamic()`, which fails only for an element that is TOP and DYNAMIC
at once; an element that is TOP, or that is DYNAMIC, passes it and is handled like an
affine term with the same fields. A TOP element and a DYNAMIC element that hold base
500 with stride 0 each add the target 500 to `unbounded_targets[-1]`. -/
theorem resolve_icf_guard_passes_top_and_dynamic :
    (∀ t : BaseStride.T,
      (!(t == BaseStride.T.TOP) || !(t == BaseStride.T.DYNAMIC)) = true) ∧
    (∀ (env : Env) (fuel : Nat) (func : Option Function) (t : BaseStride.T) (b s : Int)
        (w : Nat) (nmem : Bool) (bnd : Bounds) (x next : BaseStride)
        (f : Int → Except Stop Int) (st : UMap USet × UMap USet),
      Program.resolve_icf env fuel func (BaseStride.node t b s w nmem bnd x next) f st
        = Program.resolve_icf env fuel func
            (BaseStride.node BaseStride.T.VAL b s w nmem bnd x next) f st) ∧
    Program.resolve_icf scanEnv 10 (some scanFunc) topTerm (fun v => Except.ok v) ([], [])
      = Except.ok ([], [(-1, [500])]) ∧
    Program.resolve_icf scanEnv 10 (some scanFunc) dynamicTerm (fun v => Except.ok v) ([], [])
      = Except.ok ([], [(-1, [500])]) := by
  refine ⟨fun t => by cases t <;> rfl, ?_, rfl, rfl⟩
  intro env fuel func t b s w nmem bnd x next f st
  rw [Program.resolve_icf_node, Program.resolve_icf_node]
  cases t <;> rfl

theorem Program.scan_fptrs_in_gap_loop_checked_mono :
    ∀ (fuel : Nat) (prev : Option GapInsn) (l : List GapInsn) (st : List IMM × USet),
      ∀ o ∈ st.2, o ∈ (Program.scan_fptrs_in_gap_loop fuel prev l st).2 := by
  intro fuel
  induction fuel with
  | zero =>
    intro prev l st o ho
    simpa only [Program.scan_fptrs_in_gap_loop] using ho
  | succ fuel ih =>
    intro prev l st o ho
    cases l with
    | nil => simpa only [Program.scan_fptrs_in_gap_loop] using ho
    | cons it rest =>
      rw [Program.scan_fptrs_in_gap_loop]
      by_cases hstart : (it.gap && Program.prev_not_gap prev) = true
      · rw [if_pos hstart]
        cases hdrop : (it :: rest).dropWhile (fun i => decide (i.to_string = "nop")) with
        | nil => exact ho
        | cons found rest' =>
          simp only
          apply ih
          by_cases hc : found.offset ∈ st.2
          · simpa [hc] using ho
          · simp only [hc, decide_False, Bool.not_false, if_true]
            exact (USet.mem_insert _ _ _).2 (Or.inl ho)
      · rw [if_neg hstart]
        exact ih _ _ _ o ho

theorem Program.scan_fptrs_in_gap_loop_again :
    ∀ (fuel : Nat) (prev : Option GapInsn) (l : List GapInsn) (st : List IMM × USet)
      (checked : USet),
      (∀ o ∈ (Program.scan_fptrs_in_gap_loop fuel prev l st).2, o ∈ checked) →
      Program.scan_fptrs_in_gap_loop fuel prev l ([], checked) = ([], checked) := by
  intro fuel
  induction fuel with
  | zero => intro prev l st checked _; simp only [Program.scan_fptrs_in_gap_loop]
  | succ fuel ih =>
    intro prev l st checked hsub
    cases l with
    | nil => simp only [Program.scan_fptrs_in_gap_loop]
    | cons it rest =>
      rw [Program.scan_fptrs_in_gap_loop] at hsub ⊢
      by_cases hstart : (it.gap && Program.prev_not_gap prev) = true
      · rw [if_pos hstart] at hsub ⊢
        cases hdrop : (it :: rest).dropWhile (fun i => decide (i.to_string = "nop")) with
        | nil => rfl
        | cons found rest' =>
          rw [hdrop] at hsub
          simp only at hsub ⊢
          have hfound : found.offset ∈ checked := by
            apply hsub
            apply Program.scan_fptrs_in_gap_loop_checked_mono
            by_cases hc : found.offset ∈ st.2
            · simp [hc]
            · simp only [hc, decide_False, Bool.not_false, if_true]
              exact (USet.mem_insert _ _ _).2 (Or.inr rfl)
          simp only [hfound, decide_True, Bool.not_true, Bool.false_eq_true, if_false]
          exact ih _ _ _ checked hsub
      · rw [if_neg hstart] at hsub ⊢
        exact ih _ _ _ checked hsub

/-- C39: a second call of `scan_fptrs_in_gap()` on the same instructions, with the
`checked_fptrs_` that the first call left, returns the empty list and leaves
`checked_fptrs_` as it is; the same holds when `checked_fptrs_` has grown in
between. -/
theorem scan_fptrs_in_gap_twice (sorted_insns_ : List GapInsn) (checked_fptrs_ : USet) :
    Program.scan_fptrs_in_gap sorted_insns_
        (Program.scan_fptrs_in_gap sorted_insns_ checked_fptrs_).2
      = ([], (Program.scan_fptrs_in_gap sorted_insns_ checked_fptrs_).2) ∧
    ∀ checked : USet,
      (∀ o ∈ (Program.scan_fptrs_in_gap sorted_insns_ checked_fptrs_).2, o ∈ checked) →
      Program.scan_fptrs_in_gap sorted_insns_ checked = ([], checked) := by
  have key : ∀ checked : USet,
      (∀ o ∈ (Program.scan_fptrs_in_gap sorted_insns_ checked_fptrs_).2, o ∈ checked) →
      Program.scan_fptrs_in_gap sorted_insns_ checked = ([], checked) := by
    intro checked h
    unfold Program.scan_fptrs_in_gap at h ⊢
    exact Program.scan_fptrs_in_gap_loop_again _ _ _ _ checked h
  exact ⟨key _ (fun o ho => ho), key⟩

theorem mem_all_slots (v_tables : UMap USet) (x : IMM) :
    x ∈ all_slots v_tables ↔ ∃ e ∈ v_tables, x ∈ e.2 := by
  unfold all_slots
  rw [List.mem_flatten]
  constructor
  · rintro ⟨l, hl, hx⟩
    obtain ⟨e, he, rfl⟩ := List.mem_map.1 hl
    exact ⟨e, he, hx⟩
  · rintro ⟨e, he, hx⟩
    exact ⟨e.2, List.mem_map.2 ⟨e, he, rfl⟩, hx⟩

theorem countP_step_lt (L : List IMM) (cur : IMM) (hmem : cur ∈ L) :
    L.countP (fun x => decide (cur + 8 ≤ x)) < L.countP (fun x => decide (cur ≤ x)) :=
  countP_lt_of_witness (fun x => decide (cur ≤ x)) (fun x => decide (cur + 8 ≤ x))
    (fun x hx => by
      have h8 : cur + 8 ≤ x := of_decide_eq_true hx
      have hc : cur ≤ x := by
        have h0 : cur ≤ cur + 8 := Int.le_add_of_nonneg_right (by decide)
        exact Int.le_trans h0 h8
      exact decide_eq_true hc)
    L ⟨cur, hmem, by simp, by simp⟩

theorem Program.scan_vfunc_walk_total_of (v_tables : UMap USet) (L : List IMM)
    (hL : ∀ x, (∃ e ∈ v_tables, x ∈ e.2) → x ∈ L) :
    ∀ (fuel : Nat) (cur : IMM) (st : Bool × USet),
      L.countP (fun x => decide (cur ≤ x)) < fuel →
      ∃ r, Program.scan_vfunc_walk v_tables fuel cur st = Except.ok r := by
  intro fuel
  induction fuel with
  | zero => intro cur st h; exact absurd h (Nat.not_lt_zero _)
  | succ fuel ih =>
    intro cur st h
    obtain ⟨valid, vs⟩ := st
    rw [Program.scan_vfunc_walk]
    by_cases hfound : v_tables.any (fun pair => decide (cur ∈ pair.2)) = true
    · rw [if_pos hfound]
      apply ih
      have hmem : cur ∈ L := hL cur ((any_slot_iff v_tables cur).1 hfound)
      exact lt_of_lt_of_le (countP_step_lt L cur hmem) (Nat.lt_succ_iff.1 h)
    · rw [if_neg hfound]
      exact ⟨_, rfl⟩

theorem Program.scan_vfunc_visits_bound (v_tables : UMap USet) (L : List IMM)
    (hL : ∀ x, (∃ e ∈ v_tables, x ∈ e.2) → x ∈ L) :
    ∀ (fuel : Nat) (cur : IMM),
      L.countP (fun x => decide (cur ≤ x)) < fuel →
      ∃ visited, Program.scan_vfunc_visits v_tables fuel cur = Except.ok visited ∧
        visited.length ≤ L.countP (fun x => decide (cur ≤ x)) + 1 := by
  intro fuel
  induction fuel with
  | zero => intro cur h; exact absurd h (Nat.not_lt_zero _)
  | succ fuel ih =>
    intro cur h
    rw [Program.scan_vfunc_visits]
    by_cases hfound : v_tables.any (fun pair => decide (cur ∈ pair.2)) = true
    · rw [if_pos hfound]
      have hmem : cur ∈ L := hL cur ((any_slot_iff v_tables cur).1 hfound)
      have hlt := countP_step_lt L cur hmem
      obtain ⟨visited, hv, hlen⟩ := ih (cur + 8) (lt_of_lt_of_le hlt (Nat.lt_succ_iff.1 h))
      rw [hv]
      refine ⟨cur :: visited, rfl, ?_⟩
      rw [List.length_cons]
      omega
    · rw [if_neg hfound]
      exact ⟨[cur], rfl, by simp⟩

/-- C38: with more units of fuel than `v_tables` holds distinct slot addresses (one
unit is spent on every lookup of `current_addr`), the walk loop of `scan_vfunc`
started at the header `h` returns, and the addresses it looks up are at most one more
than the distinct slot addresses of `v_tables`. -/
theorem scan_vfunc_walk_terminates (v_tables : UMap USet) (h : IMM) (st : Bool × USet)
    (fuel : Nat) :
    (all_slots v_tables).dedup.length < fuel →
    (∃ r, Program.scan_vfunc_walk v_tables fuel h st = Except.ok r) ∧
    ∃ visited, Program.scan_vfunc_visits v_tables fuel h = Except.ok visited ∧
      visited.length ≤ (all_slots v_tables).dedup.length + 1 := by
  intro hfuel
  have hL : ∀ x, (∃ e ∈ v_tables, x ∈ e.2) → x ∈ (all_slots v_tables).dedup := by
    intro x hx
    exact List.mem_dedup.2 ((mem_all_slots v_tables x).2 hx)
  have hc : (all_slots v_tables).dedup.countP (fun x => decide (h ≤ x))
      ≤ (all_slots v_tables).dedup.length := List.countP_le_length _
  refine ⟨Program.scan_vfunc_walk_total_of v_tables _ hL fuel h st (lt_of_le_of_lt hc hfuel), ?_⟩
  obtain ⟨visited, hv, hlen⟩ :=
    Program.scan_vfunc_visits_bound v_tables _ hL fuel h (lt_of_le_of_lt hc hfuel)
  exact ⟨visited, hv, le_trans hlen (Nat.succ_le_succ hc)⟩

/-- C38, witness: two tables with the four distinct slots 100, 108, 116, 300 (108 is
held twice) and the header 100. -/
theorem scan_vfunc_walk_terminates_witness :
    (all_slots [(1, [100, 108]), (2, [108, 116, 300])]).dedup.length < 5 ∧
    (∃ r, Program.scan_vfunc_walk [(1, [100, 108]), (2, [108, 116, 300])] 5 100 (false, [])
      = Except.ok r) ∧
    ∃ visited, Program.scan_vfunc_visits [(1, [100, 108]), (2, [108, 116, 300])] 5 100
        = Except.ok visited ∧
      visited.length ≤ (all_slots [(1, [100, 108]), (2, [108, 116, 300])]).dedup.length + 1 :=
  ⟨by decide, scan_vfunc_walk_terminates [(1, [100, 108]), (2, [108, 116, 300])] 100 (false, []) 5
    (by decide)⟩

theorem hex_digit_hex_char : ∀ d : Nat, d < 16 → hex_digit (hex_char d) = d := by
  decide

theorem hex_value_foldl (l : List Char) : ∀ a : Nat,
    l.foldl (fun acc c => 16 * acc + hex_digit c) a = a * 16 ^ l.length + hex_value l := by
  induction l with
  | nil => intro a; simp [hex_value]
  | cons c rest ih =>
    intro a
    unfold hex_value
    rw [List.foldl_cons, List.foldl_cons, ih, ih (16 * 0 + hex_digit c), List.length_cons,
      pow_succ]
    ring

theorem hex_value_cons (c : Char) (l : List Char) :
    hex_value (c :: l) = hex_digit c * 16 ^ l.length + hex_value l := by
  unfold hex_value
  rw [List.foldl_cons, hex_value_foldl]
  simp [hex_value]

theorem hex_value_hex_numeral : ∀ (fuel n : Nat) (acc : List Char), n < 16 ^ fuel →
    hex_value (hex_numeral fuel n acc) = n * 16 ^ acc.length + hex_value acc := by
  intro fuel
  induction fuel with
  | zero =>
    intro n acc h
    have : n = 0 := by simpa using h
    subst this
    simp [hex_numeral]
  | succ fuel ih =>
    intro n acc h
    rw [hex_numeral]
    by_cases hn : n < 16
    · rw [if_pos hn, hex_value_cons, hex_digit_hex_char n hn]
    · rw [if_neg hn, ih _ _ (by rw [pow_succ] at h; omega), hex_value_cons,
        hex_digit_hex_char _ (Nat.mod_lt _ (by decide)), List.length_cons, pow_succ]
      have := Nat.div_add_mod n 16
      calc n / 16 * (16 ^ acc.length * 16) + (n % 16 * 16 ^ acc.length + hex_value acc)
          = (16 * (n / 16) + n % 16) * 16 ^ acc.length + hex_value acc := by ring
        _ = n * 16 ^ acc.length + hex_value acc := by rw [this]

theorem hex_value_to_hex (v : IMM) : (hex_value (to_hex v) : Int) = v % 2 ^ 32 := by
  unfold to_hex
  simp only
  have hlt : ((to_i32 (to_u64 v)) % 2 ^ 32).toNat < 16 ^ 8 := by
    have h1 : (to_i32 (to_u64 v)) % 2 ^ 32 < 2 ^ 32 := Int.emod_lt_of_pos _ (by decide)
    have h0 : 0 ≤ (to_i32 (to_u64 v)) % 2 ^ 32 := Int.emod_nonneg _ (by decide)
    omega
  rw [hex_value_hex_numeral 8 _ [] hlt]
  simp only [List.length_nil, pow_zero, mul_one, hex_value, List.foldl_nil, add_zero]
  have h0 : 0 ≤ (to_i32 (to_u64 v)) % 2 ^ 32 := Int.emod_nonneg _ (by decide)
  rw [Int.toNat_of_nonneg h0]
  unfold to_i32 to_u64
  have hv0 : 0 ≤ v % 2 ^ 64 := Int.emod_nonneg _ (by decide)
  split_ifs <;> push_cast <;> omega

/-- C33, evaluated on the code: `to_hex` takes an `int`, so an `IMM` is cut to 32 bits
before it is written: the string is the lowercase hexadecimal numeral of `v mod 2^32`.
For `0 <= v < 2^32` reading it back gives `v`, but the address `0x100000005` is written
as `5`, the same string as for the address `5`. -/
theorem to_hex_cuts_to_32_bits :
    (∀ v : IMM, (hex_value (to_hex v) : Int) = v % 2 ^ 32) ∧
    (∀ v : IMM, 0 ≤ v → v < 2 ^ 32 → (hex_value (to_hex v) : Int) = v) ∧
    to_hex 0x100000005 = ['5'] ∧ to_hex 5 = ['5'] ∧
    to_hex 0x401a2f = ['4', '0', '1', 'a', '2', 'f'] ∧
    (hex_value (to_hex 0x100000005) : Int) ≠ 0x100000005 := by
  refine ⟨hex_value_to_hex, fun v h0 h1 => ?_, by decide, by decide, by decide, by decide⟩
  rw [hex_value_to_hex, Int.emod_eq_of_lt h0 h1]

theorem driver_inner_update_num {σ : Type} (ops : DriverOps σ)
    (hupdate : ∀ s, ops.update_num (ops.update s) = ops.update_num s + 1)
    (hresolve : ∀ s, ops.update_num (ops.resolve s) = ops.update_num s) :
    ∀ (fuel : Nat) (s s' : σ), driver_inner ops fuel s = Except.ok s' →
      ops.update_num s ≤ ops.update_num s' ∧
      ((∀ t, ops.icfs_size (ops.resolve t) = ops.icfs_size t) →
        ops.update_num s' = ops.update_num s) := by
  intro fuel
  induction fuel with
  | zero => intro s s' h; simp [driver_inner] at h
  | succ fuel ih =>
    intro s s' h
    rw [driver_inner] at h
    by_cases hc : ops.icfs_size s = ops.icfs_size (ops.resolve s)
    · rw [if_pos hc] at h
      cases h
      exact ⟨by rw [hresolve], fun _ => hresolve s⟩
    · rw [if_neg hc] at h
      obtain ⟨h1, _⟩ := ih _ _ h
      rw [hupdate, hresolve] at h1
      exact ⟨by omega, fun hno => absurd (hno s).symm hc⟩

theorem driver_outer_counting : ∀ (k fuel n : Nat), n + k = 201 → k < fuel →
    driver_outer countingOps RECUR_LIMIT fuel [1] n = Except.ok ([1], 201) := by
  intro k
  induction k with
  | zero =>
    intro fuel n hn hfuel
    obtain ⟨fuel, rfl⟩ : ∃ m, fuel = m + 1 := ⟨fuel - 1, by omega⟩
    have hn' : n = 201 := by omega
    subst hn'
    rw [driver_outer, if_neg (by decide)]
  | succ k ih =>
    intro fuel n hn hfuel
    obtain ⟨fuel, rfl⟩ : ∃ m, fuel = m + 1 := ⟨fuel - 1, by omega⟩
    obtain ⟨fuel, rfl⟩ : ∃ m, fuel = m + 1 := ⟨fuel - 1, by omega⟩
    have hle : n ≤ RECUR_LIMIT := by unfold RECUR_LIMIT; omega
    rw [driver_outer, if_pos ⟨by decide, hle⟩]
    have hinner : driver_inner countingOps (fuel + 1) (countingOps.update (countingOps.fptrs [1] n))
        = Except.ok (n + 1) := by
      rw [driver_inner]
      exact if_pos rfl
    rw [hinner]
    exact ih (fuel + 1) (n + 1) (by omega) (by omega)

/-- C32, counterexample: a run in which `scan_fptrs_in_gap()` returns one candidate
every time and the inner loop makes no extra round: the outer loop ends with
`update_num = 201`, above `RECUR_LIMIT`. -/
theorem driver_ends_above_recur_limit :
    driver_outer countingOps RECUR_LIMIT 300 [1] 0 = Except.ok ([1], 201) ∧
    ¬ (countingOps.update_num 201 ≤ RECUR_LIMIT) :=
  ⟨driver_outer_counting 201 300 0 rfl (by decide), by decide⟩

/-- C32, amended: when every `update()` adds 1 to `update_num` and nothing else changes
it, a terminated run of the outer loop ends with an empty candidate list or with
`update_num > RECUR_LIMIT`; `update_num` never decreases, and when `icfs()` never grows
(the inner loop makes no extra `update()`), `update_num` ends at most at
`RECUR_LIMIT + 1`, or where it started if that was higher. -/
theorem driver_outer_guard {σ : Type} (ops : DriverOps σ)
    (hupdate : ∀ s, ops.update_num (ops.update s) = ops.update_num s + 1)
    (hfptrs : ∀ l s, ops.update_num (ops.fptrs l s) = ops.update_num s)
    (hresolve : ∀ s, ops.update_num (ops.resolve s) = ops.update_num s)
    (hscan : ∀ s, ops.update_num (ops.scan_fptrs_in_gap s).2 = ops.update_num s)
    (fuel : Nat) (fptrs l' : List IMM) (s s' : σ)
    (h : driver_outer ops RECUR_LIMIT fuel fptrs s = Except.ok (l', s')) :
    (l' = [] ∨ RECUR_LIMIT < ops.update_num s') ∧
    ops.update_num s ≤ ops.update_num s' ∧
    ((∀ t, ops.icfs_size (ops.resolve t) = ops.icfs_size t) →
      ops.update_num s' ≤ max (ops.update_num s) (RECUR_LIMIT + 1)) := by
  induction fuel generalizing fptrs s with
  | zero => simp [driver_outer] at h
  | succ fuel ih =>
    rw [driver_outer] at h
    by_cases hc : fptrs ≠ [] ∧ ops.update_num s ≤ RECUR_LIMIT
    · rw [if_pos hc] at h
      cases hin : driver_inner ops fuel (ops.update (ops.fptrs fptrs s)) with
      | error e => rw [hin] at h; cases h
      | ok s1 =>
        rw [hin] at h
        simp only at h
        obtain ⟨h1, h2, h3⟩ := ih _ _ h
        obtain ⟨hi1, hi2⟩ := driver_inner_update_num ops hupdate hresolve fuel _ _ hin
        rw [hupdate, hfptrs] at hi1
        rw [hscan] at h2 h3
        refine ⟨h1, by omega, fun hno => ?_⟩
        have h3' := h3 hno
        have hi2' := hi2 hno
        rw [hupdate, hfptrs] at hi2'
        have := hc.2
        omega
    · rw [if_neg hc] at h
      cases h
      refine ⟨?_, le_refl _, fun _ => le_max_left _ _⟩
      by_cases hl : l' = []
      · exact Or.inl hl
      · right
        have : ¬ ops.update_num s' ≤ RECUR_LIMIT := fun hle => hc ⟨hl, hle⟩
        omega

/-- C32, witness: the run of `countingOps`. -/
theorem driver_outer_guard_witness :
    driver_outer countingOps RECUR_LIMIT 300 [1] 0 = Except.ok ([1], 201) ∧
    (([1] : List IMM) = [] ∨ RECUR_LIMIT < countingOps.update_num 201) ∧
    countingOps.update_num 0 ≤ countingOps.update_num 201 ∧
    ((∀ t, countingOps.icfs_size (countingOps.resolve t) = countingOps.icfs_size t) →
      countingOps.update_num 201 ≤ max (countingOps.update_num 0) (RECUR_LIMIT + 1)) :=
  ⟨driver_outer_counting 201 300 0 rfl (by decide),
    driver_outer_guard countingOps (fun _ => rfl) (fun _ _ => rfl) (fun _ => rfl) (fun _ => rfl)
      300 [1] [1] 0 201 (driver_outer_counting 201 300 0 rfl (by decide))⟩

/-! ## `propagate_update` -/

theorem Program.is_marked_of_get (p : Program) (v : Nat) (blk : Block)
    (h : p.blocks.get? v = some blk) :
    p.is_marked v = decide (blk.update_num = p.update_num) := by
  simp only [Program.is_marked, h]

theorem Program.is_below_of_get (p : Program) (v : Nat) (blk : Block)
    (h : p.blocks.get? v = some blk) :
    p.is_below v = decide (blk.update_num < p.update_num) := by
  simp only [Program.is_below, h]

theorem Program.is_marked_lt (p : Program) (v : Nat) (h : p.is_marked v = true) :
    v < p.blocks.length := by
  by_contra hv
  have : p.blocks.get? v = none := List.get?_eq_none.2 (Nat.le_of_not_lt hv)
  unfold Program.is_marked at h
  rw [this] at h
  exact Bool.noConfusion h

theorem Program.mark_frame_refl (p : Program) : Program.MarkFrame p p :=
  { fields := rfl,
    length_eq := rfl,
    block_eq := fun v blk h => ⟨blk.update_num, by rw [h], Or.inl rfl⟩ }

theorem Program.mark_frame_update_num {p p' : Program} (h : Program.MarkFrame p p') :
    p'.update_num = p.update_num := by
  have := congrArg Program.update_num h.fields
  exact this

theorem Program.mark_frame_trans {p q r : Program} (h1 : Program.MarkFrame p q)
    (h2 : Program.MarkFrame q r) : Program.MarkFrame p r :=
  { fields := by
      have e1 := h1.fields
      have e2 := h2.fields
      rw [e2, e1],
    length_eq := h2.length_eq.trans h1.length_eq,
    block_eq := by
      intro v blk h
      obtain ⟨k, hk, hk'⟩ := h1.block_eq v blk h
      obtain ⟨k2, hk2, hk2'⟩ := h2.block_eq v _ hk
      refine ⟨k2, hk2, ?_⟩
      rcases hk2' with h3 | h3
      · rcases hk' with h4 | h4
        · left; rw [h3]; exact h4
        · right; rw [h3]; exact h4
      · right; rw [h3]; exact Program.mark_frame_update_num h1 }

theorem Program.mark_frame_mark (p : Program) (b : Nat) : Program.MarkFrame p (p.mark b) :=
  { fields := rfl,
    length_eq := by simp only [Program.mark, Program.modify_block, length_modify_nth],
    block_eq := by
      intro v blk h
      simp only [Program.mark, Program.get?_modify_block, h]
      by_cases hv : v = b
      · rw [if_pos hv]
        exact ⟨p.update_num, rfl, Or.inr rfl⟩
      · rw [if_neg hv]
        exact ⟨blk.update_num, rfl, Or.inl rfl⟩ }

theorem Program.mark_frame_superset_pred {p p' : Program} (h : Program.MarkFrame p p')
    (u v : Nat) : p'.superset_pred u v ↔ p.superset_pred u v := by
  constructor
  · rintro ⟨blk', hget', hv⟩
    have hu : u < p.blocks.length := by
      rw [← h.length_eq]
      by_contra hu
      rw [List.get?_eq_none.2 (Nat.le_of_not_lt hu)] at hget'
      cases hget'
    obtain ⟨blk, hget⟩ : ∃ blk, p.blocks.get? u = some blk :=
      ⟨_, List.get?_eq_get hu⟩
    obtain ⟨k, hk, -⟩ := h.block_eq u blk hget
    rw [hk] at hget'
    cases hget'
    exact ⟨blk, hget, hv⟩
  · rintro ⟨blk, hget, hv⟩
    obtain ⟨k, hk, -⟩ := h.block_eq u blk hget
    exact ⟨_, hk, hv⟩

theorem Program.mark_frame_marked_mono {p p' : Program} (h : Program.MarkFrame p p')
    (v : Nat) (hv : p.is_marked v = true) : p'.is_marked v = true := by
  have hlt := Program.is_marked_lt p v hv
  obtain ⟨blk, hget⟩ : ∃ blk, p.blocks.get? v = some blk := ⟨_, List.get?_eq_get hlt⟩
  obtain ⟨k, hk, hk'⟩ := h.block_eq v blk hget
  rw [Program.is_marked_of_get p v blk hget] at hv
  have hv' : blk.update_num = p.update_num := of_decide_eq_true hv
  rw [Program.is_marked_of_get p' v _ hk, Program.mark_frame_update_num h]
  apply decide_eq_true
  rcases hk' with h1 | h1
  · rw [h1]; exact hv'
  · exact h1

theorem Program.mark_frame_below {p p' : Program} (h : Program.MarkFrame p p')
    (_hna : p.not_ahead) (v : Nat) (hv : p'.is_below v = true) : p.is_below v = true := by
  have hlt : v < p.blocks.length := by
    rw [← h.length_eq]
    by_contra hlt
    unfold Program.is_below at hv
    rw [List.get?_eq_none.2 (Nat.le_of_not_lt hlt)] at hv
    exact Bool.noConfusion hv
  obtain ⟨blk, hget⟩ : ∃ blk, p.blocks.get? v = some blk := ⟨_, List.get?_eq_get hlt⟩
  obtain ⟨k, hk, hk'⟩ := h.block_eq v blk hget
  rw [Program.is_below_of_get p' v _ hk, Program.mark_frame_update_num h] at hv
  have hv' : k < p.update_num := of_decide_eq_true hv
  rw [Program.is_below_of_get p v blk hget]
  apply decide_eq_true
  rcases hk' with h1 | h1
  · rw [← h1]; exact hv'
  · omega

theorem Program.mark_frame_not_ahead {p p' : Program} (h : Program.MarkFrame p p')
    (hna : p.not_ahead) : p'.not_ahead := by
  intro v blk' hget'
  have hlt : v < p.blocks.length := by
    rw [← h.length_eq]
    by_contra hlt
    rw [List.get?_eq_none.2 (Nat.le_of_not_lt hlt)] at hget'
    cases hget'
  obtain ⟨blk, hget⟩ : ∃ blk, p.blocks.get? v = some blk := ⟨_, List.get?_eq_get hlt⟩
  obtain ⟨k, hk, hk'⟩ := h.block_eq v blk hget
  rw [hk] at hget'
  cases hget'
  rw [Program.mark_frame_update_num h]
  have := hna v blk hget
  rcases hk' with h1 | h1
  · simp only [h1]; exact this
  · simp only [h1]; exact le_refl _

theorem Program.mark_frame_preds_valid {p p' : Program} (h : Program.MarkFrame p p')
    (hv : p.preds_valid) : p'.preds_valid := by
  intro u v huv
  rw [h.length_eq]
  exact hv u v ((Program.mark_frame_superset_pred h u v).1 huv)

theorem Program.unmarked_count_mono {p p' : Program} (h : Program.MarkFrame p p')
    (hna : p.not_ahead) : p'.unmarked_count ≤ p.unmarked_count := by
  unfold Program.unmarked_count
  rw [h.length_eq]
  apply List.Sublist.length_le
  apply List.monotone_filter_right
  intro x hx
  exact Program.mark_frame_below h hna x hx

theorem Program.not_below_of_marked (p : Program) (v : Nat) (h : p.is_marked v = true) :
    p.is_below v = false := by
  have hlt := Program.is_marked_lt p v h
  obtain ⟨blk, hget⟩ : ∃ blk, p.blocks.get? v = some blk := ⟨_, List.get?_eq_get hlt⟩
  rw [Program.is_marked_of_get p v blk hget] at h
  have h' : blk.update_num = p.update_num := of_decide_eq_true h
  rw [Program.is_below_of_get p v blk hget]
  apply decide_eq_false
  omega

theorem Program.unmarked_count_lt {p p' : Program} (h : Program.MarkFrame p p')
    (hna : p.not_ahead) (u : Nat) (hu : p.is_below u = true) (hu' : p'.is_marked u = true) :
    p'.unmarked_count < p.unmarked_count := by
  have hlt : u < p.blocks.length := by
    rw [← h.length_eq]; exact Program.is_marked_lt p' u hu'
  unfold Program.unmarked_count
  rw [h.length_eq, ← List.countP_eq_length_filter, ← List.countP_eq_length_filter]
  apply countP_lt_of_witness
  · intro x hx
    exact Program.mark_frame_below h hna x hx
  · exact ⟨u, List.mem_range.2 hlt, hu, Program.not_below_of_marked p' u hu'⟩

theorem Program.is_marked_mark_self (p : Program) (b : Nat) (hb : b < p.blocks.length) :
    (p.mark b).is_marked b = true := by
  obtain ⟨blk, hget⟩ : ∃ blk, p.blocks.get? b = some blk := ⟨_, List.get?_eq_get hb⟩
  have : (p.mark b).blocks.get? b = some { blk with update_num := p.update_num } := by
    simp only [Program.mark, Program.get?_modify_block, hget, if_true, Option.map_some']
  rw [Program.is_marked_of_get _ b _ this]
  exact decide_eq_true rfl

theorem Program.is_marked_mark_ne (p : Program) (b v : Nat) (hv : v ≠ b) :
    (p.mark b).is_marked v = p.is_marked v := by
  have h1 : (p.mark b).blocks.get? v = p.blocks.get? v := by
    simp only [Program.mark, Program.get?_modify_block, if_neg hv]
  unfold Program.is_marked
  rw [h1]
  rfl

theorem Program.reach_of_frame {p q : Program} (h : Program.MarkFrame p q) (a v : Nat)
    (hr : Relation.ReflTransGen q.superset_pred a v) :
    Relation.ReflTransGen p.superset_pred a v :=
  Relation.ReflTransGen.mono (fun x y hxy => (Program.mark_frame_superset_pred h x y).1 hxy) hr

theorem Program.propagate_update_fold (fuel : Nat)
    (IH : ∀ (p : Program) (b : Nat), b < p.blocks.length → p.preds_valid → p.not_ahead →
      (p.mark b).unmarked_count < fuel →
      ∃ p', Program.propagate_update fuel p b = Except.ok p' ∧ Program.Marks p p' b)
    (p0 : Program) (b : Nat) (hv0 : p0.preds_valid) (hna0 : p0.not_ahead) :
    ∀ (es : List Nat) (q : Program), Program.MarkFrame p0 q →
      (∀ v ∈ es, p0.superset_pred b v) → q.unmarked_count ≤ fuel →
      (∀ v, q.is_marked v = true →
        p0.is_marked v = true ∨ Relation.ReflTransGen p0.superset_pred b v) →
      (∀ u, q.is_marked u = true → p0.is_marked u = false → u ≠ b →
        ∀ v, p0.superset_pred u v → q.is_marked v = true) →
      ∃ q', es.foldlM (fun q pr =>
              match q.blocks.get? pr with
              | none => Except.error Stop.fault
              | some pb =>
                  if pb.update_num < q.update_num then Program.propagate_update fuel q pr
                  else Except.ok q) q = Except.ok q' ∧
        Program.MarkFrame p0 q' ∧
        (∀ v, q.is_marked v = true → q'.is_marked v = true) ∧
        (∀ v, q'.is_marked v = true →
          p0.is_marked v = true ∨ Relation.ReflTransGen p0.superset_pred b v) ∧
        (∀ u, q'.is_marked u = true → p0.is_marked u = false → u ≠ b →
          ∀ v, p0.superset_pred u v → q'.is_marked v = true) ∧
        (∀ v ∈ es, q'.is_marked v = true) := by
  intro es
  induction es with
  | nil =>
    intro q hf _ _ hreach hclosed
    exact ⟨q, rfl, hf, fun v hv => hv, hreach, hclosed, by simp⟩
  | cons pr rest ih =>
    intro q hf hes hcount hreach hclosed
    have hedge : p0.superset_pred b pr := hes pr (List.mem_cons_self _ _)
    have hpr : pr < q.blocks.length := by rw [hf.length_eq]; exact hv0 b pr hedge
    obtain ⟨pb, hget⟩ : ∃ pb, q.blocks.get? pr = some pb := ⟨_, List.get?_eq_get hpr⟩
    have hnaq := Program.mark_frame_not_ahead hf hna0
    have hvq := Program.mark_frame_preds_valid hf hv0
    rw [List.foldlM_cons]
    simp only [hget]
    by_cases hlt : pb.update_num < q.update_num
    · rw [if_pos hlt]
      have hbelow : q.is_below pr = true := by
        rw [Program.is_below_of_get q pr pb hget]; exact decide_eq_true hlt
      have hcnt : (q.mark pr).unmarked_count < fuel :=
        lt_of_lt_of_le (Program.unmarked_count_lt (Program.mark_frame_mark q pr) hnaq pr hbelow
          (Program.is_marked_mark_self q pr hpr)) hcount
      obtain ⟨q1, hq1, hm⟩ := IH q pr hpr hvq hnaq hcnt
      rw [hq1]
      have hf1 : Program.MarkFrame p0 q1 := Program.mark_frame_trans hf hm.frame
      have hcount1 : q1.unmarked_count ≤ fuel :=
        le_trans (Program.unmarked_count_mono hm.frame hnaq) hcount
      have hreach1 : ∀ v, q1.is_marked v = true →
          p0.is_marked v = true ∨ Relation.ReflTransGen p0.superset_pred b v := by
        intro v hv
        rcases hm.reach v hv with h1 | h1
        · exact hreach v h1
        · right
          exact Relation.ReflTransGen.trans (Relation.ReflTransGen.single hedge)
            (Program.reach_of_frame hf pr v h1)
      have hclosed1 : ∀ u, q1.is_marked u = true → p0.is_marked u = false → u ≠ b →
          ∀ v, p0.superset_pred u v → q1.is_marked v = true := by
        intro u hu hu0 hub v huv
        cases hqu : q.is_marked u with
        | true => exact Program.mark_frame_marked_mono hm.frame v (hclosed u hqu hu0 hub v huv)
        | false => exact hm.closed u hu hqu v ((Program.mark_frame_superset_pred hf u v).2 huv)
      obtain ⟨q', hq', hf', hmono', hreach', hclosed', hall'⟩ :=
        ih q1 hf1 (fun v hv => hes v (List.mem_cons_of_mem _ hv)) hcount1 hreach1 hclosed1
      refine ⟨q', hq', hf', ?_, hreach', hclosed', ?_⟩
      · intro v hv
        exact hmono' v (Program.mark_frame_marked_mono hm.frame v hv)
      · intro v hv
        rcases List.mem_cons.1 hv with rfl | hv
        · exact hmono' _ hm.start
        · exact hall' v hv
    · rw [if_neg hlt]
      have hmarked : q.is_marked pr = true := by
        rw [Program.is_marked_of_get q pr pb hget]
        apply decide_eq_true
        have := hnaq pr pb hget
        omega
      obtain ⟨q', hq', hf', hmono', hreach', hclosed', hall'⟩ :=
        ih q hf (fun v hv => hes v (List.mem_cons_of_mem _ hv)) hcount hreach hclosed
      refine ⟨q', hq', hf', hmono', hreach', hclosed', ?_⟩
      intro v hv
      rcases List.mem_cons.1 hv with rfl | hv
      · exact hmono' _ hmarked
      · exact hall' v hv

theorem Program.propagate_update_marks :
    ∀ (fuel : Nat) (p : Program) (b : Nat), b < p.blocks.length → p.preds_valid →
      p.not_ahead → (p.mark b).unmarked_count < fuel →
      ∃ p', Program.propagate_update fuel p b = Except.ok p' ∧ Program.Marks p p' b := by
  intro fuel
  induction fuel with
  | zero => intro p b _ _ _ h; exact absurd h (Nat.not_lt_zero _)
  | succ fuel IH =>
    intro p b hb hv hna hcount
    obtain ⟨blk, hget⟩ : ∃ blk, p.blocks.get? b = some blk := ⟨_, List.get?_eq_get hb⟩
    have hf1 := Program.mark_frame_mark p b
    have hstart := Program.is_marked_mark_self p b hb
    obtain ⟨q', hq', hf', hmono', hreach', hclosed', hall'⟩ :=
      Program.propagate_update_fold fuel IH p b hv hna blk.superset_preds (p.mark b) hf1
        (fun v hv => ⟨blk, hget, hv⟩) (Nat.lt_succ_iff.1 hcount)
        (fun v hv => by
          by_cases hvb : v = b
          · right; rw [hvb]
          · left; rw [← Program.is_marked_mark_ne p b v hvb]; exact hv)
        (fun u hu hu0 hub v _ => by
          rw [Program.is_marked_mark_ne p b u hub, hu0] at hu
          exact Bool.noConfusion hu)
    refine ⟨q', ?_, ?_⟩
    · rw [Program.propagate_update]
      simp only [hget]
      exact hq'
    · refine { frame := hf', start := hmono' b hstart, reach := hreach', closed := ?_,
               closed_start := ?_ }
      · intro u hu hu0 v huv
        by_cases hub : u = b
        · obtain ⟨blk', hget', hv'⟩ := huv
          rw [hub, hget] at hget'
          cases hget'
          exact hall' v hv'
        · exact hclosed' u hu hu0 hub v huv
      · rintro v ⟨blk', hget', hv'⟩
        rw [hget] at hget'
        cases hget'
        exact hall' v hv'

theorem Program.unmarked_count_le_length (p : Program) : p.unmarked_count ≤ p.blocks.length := by
  unfold Program.unmarked_count
  exact le_trans (List.length_filter_le _ _) (by rw [List.length_range])

theorem Block.update_num_eta (blk : Block) : { blk with update_num := blk.update_num } = blk := by
  cases blk
  rfl

/-- C36: in a round in which every block is below the counter `n = update_num` and
every `superset_preds` pointer points to a block, `propagate_update(b)` returns with
any fuel that is at least the number of blocks, cycles or not; afterwards the blocks
that are `b` or reachable from `b` along `superset_preds` have `update_num = n` and
are otherwise as before, every other block is unchanged, and so is the rest of the
program. -/
theorem propagate_update_marks_reachable (p : Program) (b fuel : Nat)
    (hb : b < p.blocks.length) (hvalid : p.preds_valid)
    (hlow : ∀ v blk, p.blocks.get? v = some blk → blk.update_num < p.update_num)
    (hfuel : p.blocks.length ≤ fuel) :
    ∃ p', Program.propagate_update fuel p b = Except.ok p' ∧
      p' = { p with blocks := p'.blocks } ∧ p'.blocks.length = p.blocks.length ∧
      ∀ v blk, p.blocks.get? v = some blk →
        (Relation.ReflTransGen p.superset_pred b v →
          p'.blocks.get? v = some { blk with update_num := p.update_num }) ∧
        (¬ Relation.ReflTransGen p.superset_pred b v → p'.blocks.get? v = some blk) := by
  have hna : p.not_ahead := fun v blk h => Nat.le_of_lt (hlow v blk h)
  have hunmarked : ∀ v, p.is_marked v = false := by
    intro v
    cases hg : p.blocks.get? v with
    | none => unfold Program.is_marked; rw [hg]
    | some blk =>
      rw [Program.is_marked_of_get p v blk hg]
      apply decide_eq_false
      have := hlow v blk hg
      omega
  obtain ⟨blk0, hget0⟩ : ∃ blk, p.blocks.get? b = some blk := ⟨_, List.get?_eq_get hb⟩
  have hbelow : p.is_below b = true := by
    rw [Program.is_below_of_get p b blk0 hget0]
    exact decide_eq_true (hlow b blk0 hget0)
  have hcount : (p.mark b).unmarked_count < fuel :=
    lt_of_lt_of_le
      (Program.unmarked_count_lt (Program.mark_frame_mark p b) hna b hbelow
        (Program.is_marked_mark_self p b hb))
      (le_trans (Program.unmarked_count_le_length p) hfuel)
  obtain ⟨p', hp', hm⟩ := Program.propagate_update_marks fuel p b hb hvalid hna hcount
  have hreach : ∀ v, Relation.ReflTransGen p.superset_pred b v → p'.is_marked v = true := by
    intro v hr
    induction hr with
    | refl => exact hm.start
    | tail _ huv ih => exact hm.closed _ ih (hunmarked _) _ huv
  refine ⟨p', hp', hm.frame.fields, hm.frame.length_eq, fun v blk hget => ?_⟩
  obtain ⟨k, hk, hk'⟩ := hm.frame.block_eq v blk hget
  have hmk : p'.is_marked v = decide (k = p.update_num) := by
    rw [Program.is_marked_of_get p' v _ hk, Program.mark_frame_update_num hm.frame]
  constructor
  · intro hr
    have h1 := hreach v hr
    rw [hmk] at h1
    rw [hk, of_decide_eq_true h1]
  · intro hr
    have h1 : p'.is_marked v = false := by
      cases h2 : p'.is_marked v with
      | false => rfl
      | true =>
        rcases hm.reach v h2 with h3 | h3
        · rw [hunmarked v] at h3; exact Bool.noConfusion h3
        · exact absurd h3 hr
    rw [hmk] at h1
    have hne : k ≠ p.update_num := of_decide_eq_false h1
    rcases hk' with h4 | h4
    · rw [hk, h4, Block.update_num_eta]
    · exact absurd h4 hne

/-- C36, witness: four blocks with two cycles among the `superset_preds`, in round
5, and the call `propagate_update(0)`. -/
theorem propagate_update_marks_reachable_witness :
    0 < cyclePredsProgram.blocks.length ∧ cyclePredsProgram.preds_valid ∧
    (∀ v blk, cyclePredsProgram.blocks.get? v = some blk →
      blk.update_num < cyclePredsProgram.update_num) ∧
    cyclePredsProgram.blocks.length ≤ 4 ∧
    ∃ p', Program.propagate_update 4 cyclePredsProgram 0 = Except.ok p' ∧
      p' = { cyclePredsProgram with blocks := p'.blocks } ∧
      p'.blocks.length = cyclePredsProgram.blocks.length ∧
      ∀ v blk, cyclePredsProgram.blocks.get? v = some blk →
        (Relation.ReflTransGen cyclePredsProgram.superset_pred 0 v →
          p'.blocks.get? v = some { blk with update_num := cyclePredsProgram.update_num }) ∧
        (¬ Relation.ReflTransGen cyclePredsProgram.superset_pred 0 v →
          p'.blocks.get? v = some blk) := by
  have hvalid : cyclePredsProgram.preds_valid := by
    rintro u v ⟨blk, hget, hv⟩
    have hu : u < 4 := by
      by_contra hu
      have : cyclePredsProgram.blocks.get? u = none :=
        List.get?_eq_none.2 (Nat.le_of_not_lt hu)
      rw [this] at hget
      cases hget
    have hlen : cyclePredsProgram.blocks.length = 4 := rfl
    rw [hlen]
    interval_cases u
    all_goals simp only [cyclePredsProgram, List.get?] at hget
    all_goals cases hget
    all_goals simp at hv
    all_goals omega
  have hlow : ∀ v blk, cyclePredsProgram.blocks.get? v = some blk →
      blk.update_num < cyclePredsProgram.update_num := by
    intro u blk hget
    have hu : u < 4 := by
      by_contra hu
      have : cyclePredsProgram.blocks.get? u = none :=
        List.get?_eq_none.2 (Nat.le_of_not_lt hu)
      rw [this] at hget
      cases hget
    interval_cases u
    all_goals simp only [cyclePredsProgram, List.get?] at hget
    all_goals cases hget
    all_goals decide
  exact ⟨by decide, hvalid, hlow, by decide,
    propagate_update_marks_reachable cyclePredsProgram 0 4 (by decide) hvalid hlow (by decide)⟩

/-! ## Termination of `block_dfs` -/

theorem UMap.keys_modify {V : Type} (f : V → V) (m : UMap V) (i : IMM) :
    (UMap.modify f m i).keys = m.keys := by
  induction m with
  | nil => rfl
  | cons e rest ih =>
    obtain ⟨k', v⟩ := e
    by_cases h : k' = i
    · simp [UMap.modify, UMap.keys, h]
    · simp only [UMap.modify, if_neg h]
      simp only [UMap.keys, List.map_cons] at ih ⊢
      rw [ih]

theorem UMap.find_isSome_iff {V : Type} (m : UMap V) (k : IMM) :
    (∃ v, m.find k = some v) ↔ k ∈ m.keys := by
  induction m with
  | nil => simp [UMap.find, UMap.keys]
  | cons e rest ih =>
    obtain ⟨k', v⟩ := e
    by_cases h : k' = k
    · subst h
      simp [UMap.find, UMap.keys]
    · have hk : ¬ k = k' := fun hk => h hk.symm
      simp only [UMap.find, if_neg h, UMap.keys, List.map_cons, List.mem_cons, hk, false_or]
      simpa [UMap.keys] using ih

theorem Program.unplaced_iff (p : Program) (k : IMM) :
    p.unplaced k = true ↔ ∃ insn, p.i_map_.find k = some insn ∧ insn.parent = none := by
  unfold Program.unplaced
  cases h : p.i_map_.find k with
  | none => simp
  | some insn => simp [Option.isNone_iff_eq_none]

theorem Program.unplaced_eq_false_of_find (p : Program) (k : IMM) (insn : Insn)
    (h : p.i_map_.find k = some insn) (hp : insn.parent ≠ none) : p.unplaced k = false := by
  unfold Program.unplaced
  rw [h]
  cases hpar : insn.parent with
  | none => exact absurd hpar hp
  | some b => simp only [hpar, Option.isNone_some]

theorem Program.parent_of_placed (p : Program) (k : IMM) (insn : Insn)
    (h : p.i_map_.find k = some insn) (hu : p.unplaced k = false) :
    ∃ par, p.parent k = some par := by
  unfold Program.unplaced at hu
  rw [h] at hu
  unfold Program.parent
  rw [h]
  cases hpar : insn.parent with
  | none => simp only [hpar, Option.isNone_none] at hu; exact Bool.noConfusion hu
  | some b => exact ⟨b, by simp only [Option.some_bind, hpar]⟩

theorem Program.grows_refl (p : Program) : Program.Grows p p :=
  { keys_eq := rfl,
    insn := fun _ insn h => ⟨insn, h, rfl, fun h => h, fun h => h⟩,
    length_le := le_refl _,
    block := fun _ blk h => ⟨blk, h, rfl⟩ }

theorem Program.grows_trans {p q r : Program} (h1 : Program.Grows p q)
    (h2 : Program.Grows q r) : Program.Grows p r :=
  { keys_eq := h2.keys_eq.trans h1.keys_eq,
    insn := by
      intro k insn h
      obtain ⟨i1, hi1, ho1, hs1, hp1⟩ := h1.insn k insn h
      obtain ⟨i2, hi2, ho2, hs2, hp2⟩ := h2.insn k i1 hi1
      exact ⟨i2, hi2, ho2.trans ho1, fun hs => hs2 (hs1 hs), fun hp => hp2 (hp1 hp)⟩,
    length_le := le_trans h1.length_le h2.length_le,
    block := by
      intro b blk h
      obtain ⟨b1, hb1, hl1⟩ := h1.block b blk h
      obtain ⟨b2, hb2, hl2⟩ := h2.block b b1 hb1
      exact ⟨b2, hb2, hl2.trans hl1⟩ }

theorem Program.grows_of_eq {p p' : Program} (hi : p'.i_map_ = p.i_map_)
    (hb : p'.blocks = p.blocks) : Program.Grows p p' :=
  { keys_eq := by rw [hi],
    insn := fun _ insn h => ⟨insn, by rw [hi]; exact h, rfl, fun h => h, fun h => h⟩,
    length_le := by rw [hb],
    block := fun _ blk h => ⟨blk, by rw [hb]; exact h, rfl⟩ }

theorem Program.grows_modify_block (p : Program) (b : Nat) (f : Block → Block)
    (hf : ∀ x, (f x).insn_list = x.insn_list) : Program.Grows p (p.modify_block b f) :=
  { keys_eq := rfl,
    insn := fun _ insn h => ⟨insn, h, rfl, fun h => h, fun h => h⟩,
    length_le := by simp [Program.modify_block, length_modify_nth],
    block := by
      intro m blk h
      rw [Program.get?_modify_block, h]
      by_cases hm : m = b
      · rw [if_pos hm]; exact ⟨f blk, rfl, hf blk⟩
      · rw [if_neg hm]; exact ⟨blk, rfl, rfl⟩ }

theorem Program.grows_of_blocks {p p' : Program} (hi : p'.i_map_ = p.i_map_)
    (hlen : p'.blocks.length = p.blocks.length)
    (hl : ∀ m, (p'.blocks.get? m).map Block.insn_list = (p.blocks.get? m).map Block.insn_list) :
    Program.Grows p p' :=
  { keys_eq := by rw [hi],
    insn := fun _ insn h => ⟨insn, by rw [hi]; exact h, rfl, fun h => h, fun h => h⟩,
    length_le := by rw [hlen],
    block := by
      intro m blk h
      have := hl m
      rw [h] at this
      cases h' : p'.blocks.get? m with
      | none => rw [h'] at this; cases this
      | some blk' =>
        rw [h'] at this
        simp only [Option.map_some', Option.some.injEq] at this
        exact ⟨blk', rfl, this⟩ }

theorem Program.grows_succ (p : Program) (b v : Nat) (c : COMPARE) :
    Program.Grows p (p.succ b v c) :=
  Program.grows_of_blocks (Program.i_map_succ p b v c) (Program.length_succ p b v c)
    (fun m => Program.insn_list_succ p b v m c)

theorem Program.grows_shrink_succ (p : Program) (b : Nat) :
    Program.Grows p (p.shrink_succ b) :=
  Program.grows_of_blocks (Program.fields_shrink_succ p b).1 (Program.fields_shrink_succ p b).2.2
    (fun m => Program.insn_list_shrink_succ p b m)

theorem Program.grows_modify_insn (p : Program) (i : IMM) (f : Insn → Insn)
    (ho : ∀ x, (f x).offset = x.offset) (hs : ∀ x, 1 ≤ x.size → 1 ≤ (f x).size)
    (hp : ∀ x, x.parent ≠ none → (f x).parent ≠ none) :
    Program.Grows p (p.modify_insn i f) :=
  { keys_eq := by simp only [Program.modify_insn, UMap.keys_modify],
    insn := by
      intro k insn h
      rw [Program.find_modify_insn, h]
      by_cases hk : k = i
      · rw [if_pos hk]; exact ⟨f insn, rfl, ho insn, hs insn, hp insn⟩
      · rw [if_neg hk]; exact ⟨insn, rfl, rfl, fun h => h, fun h => h⟩,
    length_le := le_refl _,
    block := fun _ blk h => ⟨blk, h, rfl⟩ }

theorem Program.grows_replace_halt (p : Program) (i : IMM) :
    Program.Grows p (p.modify_insn i Insn.replace_halt) :=
  Program.grows_modify_insn p i _ (fun _ => rfl) (fun _ _ => le_refl _) (fun _ h => h)

theorem Program.grows_insns_valid {p p' : Program} (h : Program.Grows p p')
    (hv : p.insns_valid) : p'.insns_valid := by
  intro k insn' hk
  have hmem : k ∈ p.i_map_.keys := by
    rw [← h.keys_eq]; exact (UMap.find_isSome_iff _ _).1 ⟨insn', hk⟩
  obtain ⟨insn, hfind⟩ := (UMap.find_isSome_iff _ _).2 hmem
  obtain ⟨i2, hi2, ho, hs, -⟩ := h.insn k insn hfind
  rw [hk] at hi2
  cases hi2
  obtain ⟨h1, h2⟩ := hv k insn hfind
  exact ⟨ho.trans h1, hs h2⟩

theorem Program.grows_has_insns {p p' : Program} (h : Program.Grows p p') (b : Nat)
    (hb : p.has_insns b) : p'.has_insns b := by
  obtain ⟨blk, hget, hne⟩ := hb
  obtain ⟨blk', hget', hl⟩ := h.block b blk hget
  exact ⟨blk', hget', by rw [hl]; exact hne⟩

theorem Program.grows_unplaced {p p' : Program} (h : Program.Grows p p') (k : IMM)
    (hu : p'.unplaced k = true) : p.unplaced k = true := by
  obtain ⟨insn', hfind', hpar'⟩ := (Program.unplaced_iff p' k).1 hu
  have hmem : k ∈ p.i_map_.keys := by
    rw [← h.keys_eq]; exact (UMap.find_isSome_iff _ _).1 ⟨insn', hfind'⟩
  obtain ⟨insn, hfind⟩ := (UMap.find_isSome_iff _ _).2 hmem
  obtain ⟨i2, hi2, -, -, hp⟩ := h.insn k insn hfind
  rw [hfind'] at hi2
  cases hi2
  refine (Program.unplaced_iff p k).2 ⟨insn, hfind, ?_⟩
  by_contra hne
  exact hp hne hpar'

theorem Program.grows_find {p p' : Program} (h : Program.Grows p p') (k : IMM)
    (hk : ∃ insn, p.i_map_.find k = some insn) : ∃ insn', p'.i_map_.find k = some insn' := by
  obtain ⟨insn, hfind⟩ := hk
  obtain ⟨i2, hi2, -⟩ := h.insn k insn hfind
  exact ⟨i2, hi2⟩

theorem Program.grows_placed {p p' : Program} (h : Program.Grows p p') (k : IMM)
    (hu : p.unplaced k = false) : p'.unplaced k = false := by
  cases hu' : p'.unplaced k with
  | false => rfl
  | true => rw [Program.grows_unplaced h k hu'] at hu; exact Bool.noConfusion hu

theorem Program.unplaced_count_grows {p p' : Program} (h : Program.Grows p p') :
    p'.unplaced_count ≤ p.unplaced_count := by
  unfold Program.unplaced_count
  rw [h.keys_eq]
  exact List.countP_mono_left (fun k _ hk => Program.grows_unplaced h k hk)

theorem Program.unplaced_count_grows_lt {p p' : Program} (h : Program.Grows p p') (k : IMM)
    (hk : p.unplaced k = true) (hk' : p'.unplaced k = false) :
    p'.unplaced_count < p.unplaced_count := by
  unfold Program.unplaced_count
  rw [h.keys_eq]
  apply countP_lt_of_witness
  · intro x hx
    exact Program.grows_unplaced h x hx
  · obtain ⟨insn, hfind, -⟩ := (Program.unplaced_iff p k).1 hk
    exact ⟨k, (UMap.find_isSome_iff _ _).1 ⟨insn, hfind⟩, hk, hk'⟩

theorem Program.unplaced_from_le (p : Program) (i : IMM) :
    p.unplaced_from i ≤ p.i_map_.length := by
  unfold Program.unplaced_from
  refine le_trans (List.countP_le_length _) ?_
  simp [UMap.keys]

theorem Program.unplaced_from_lt (p : Program) (i j : IMM) (hi : p.unplaced i = true)
    (hij : i < j) : p.unplaced_from j < p.unplaced_from i := by
  unfold Program.unplaced_from
  apply countP_lt_of_witness
  · intro x hx
    simp only [Bool.and_eq_true, decide_eq_true_eq] at hx ⊢
    exact ⟨hx.1, le_trans (le_of_lt hij) hx.2⟩
  · obtain ⟨insn, hfind, -⟩ := (Program.unplaced_iff p i).1 hi
    refine ⟨i, (UMap.find_isSome_iff _ _).1 ⟨insn, hfind⟩, ?_, ?_⟩
    · simp [hi]
    · simp only [Bool.and_eq_false_iff, decide_eq_false_iff_not, not_le]
      exact Or.inr hij

theorem Program.fold_set_parent_grows (b : Nat) :
    ∀ (l : List IMM) (q : Program),
      Program.Grows q
        (l.foldl (fun q i => q.modify_insn i (fun insn => { insn with parent := some b })) q) ∧
      ∀ k ∈ l,
        (l.foldl (fun q i => q.modify_insn i (fun insn => { insn with parent := some b })) q).unplaced
          k = false := by
  intro l
  induction l with
  | nil => intro q; exact ⟨Program.grows_refl q, by simp⟩
  | cons i rest ih =>
    intro q
    rw [List.foldl_cons]
    have hg : Program.Grows q (q.modify_insn i (fun insn => { insn with parent := some b })) :=
      Program.grows_modify_insn q i _ (fun _ => rfl) (fun _ h => h) (fun _ _ => by simp)
    obtain ⟨h1, h2⟩ := ih (q.modify_insn i (fun insn => { insn with parent := some b }))
    refine ⟨Program.grows_trans hg h1, ?_⟩
    intro k hk
    rcases List.mem_cons.1 hk with rfl | hk
    · apply Program.grows_placed h1
      unfold Program.unplaced
      rw [Program.find_modify_insn, if_pos rfl]
      cases q.i_map_.find k <;> rfl
    · exact h2 k hk

theorem Program.new_block_grows (p : Program) (l : List IMM) (hne : l ≠ []) :
    ∃ p₁, p.new_block l = Except.ok (p₁, p.blocks.length) ∧ Program.Grows p p₁ ∧
      p₁.has_insns p.blocks.length ∧ ∀ k ∈ l, p₁.unplaced k = false := by
  obtain ⟨hbl, hb, -⟩ := Program.alloc_block_blocks p l
  have hg0 : Program.Grows p { p with blocks := p.blocks ++ [{ insn_list := l }] } :=
    { keys_eq := rfl,
      insn := fun _ insn h => ⟨insn, h, rfl, fun h => h, fun h => h⟩,
      length_le := by simp,
      block := by
        intro m blk h
        have hm : m < p.blocks.length := by
          by_contra hm
          rw [List.get?_eq_none.2 (Nat.le_of_not_lt hm)] at h
          cases h
        exact ⟨blk, by simp only []; rw [get?_append_lt _ _ _ hm]; exact h, rfl⟩ }
  obtain ⟨hg1, hplaced⟩ := Program.fold_set_parent_grows p.blocks.length l
    { p with blocks := p.blocks ++ [{ insn_list := l }] }
  have halloc : (p.alloc_block l).1
      = l.foldl (fun q i => q.modify_insn i (fun insn => { insn with parent := some p.blocks.length }))
          { p with blocks := p.blocks ++ [{ insn_list := l }] } := rfl
  have hget : (p.alloc_block l).1.blocks.get? p.blocks.length = some { insn_list := l } := by
    rw [hbl, get?_append_length]
  obtain ⟨x, xs, rfl⟩ : ∃ x xs, l = x :: xs := by
    cases l with
    | nil => exact absurd rfl hne
    | cons x xs => exact ⟨x, xs, rfl⟩
  have hfirst : (p.alloc_block (x :: xs)).1.first (p.alloc_block (x :: xs)).2 = some x := by
    unfold Program.first
    rw [hb, hget]
    rfl
  refine ⟨{ (p.alloc_block (x :: xs)).1 with
            b_map_ := (p.alloc_block (x :: xs)).1.b_map_.set x (p.alloc_block (x :: xs)).2 },
    ?_, ?_, ?_, ?_⟩
  · rw [hb] at hfirst
    unfold Program.new_block Program.register_block
    simp only [hb, hfirst]
  · have hg1' : Program.Grows { p with blocks := p.blocks ++ [{ insn_list := x :: xs }] }
        (p.alloc_block (x :: xs)).1 := by
      rw [halloc]; exact hg1
    exact Program.grows_trans (Program.grows_trans hg0 hg1') (Program.grows_of_eq rfl rfl)
  · exact ⟨{ insn_list := x :: xs }, hget, by simp⟩
  · intro k hk
    have := hplaced k hk
    rw [← halloc] at this
    exact this

theorem Program.block_connect_found_total (abort : Bool) (n : Nat)
    (dfs dfs' : Program → IMM → Except Stop Program)
    (hs : Program.DfsSettles abort n dfs) (ha : Program.DfsAgree n dfs dfs')
    (p : Program) (b : Nat) (target : IMM) (it : Insn) (cond : COMPARE)
    (hv : p.insns_valid) (hn : p.unplaced_count ≤ n) (hb : p.has_insns b)
    (hfind : p.i_map_.find target = some it) :
    Program.Settled abort (Program.Grows p) (Program.block_connect_found dfs p b target it cond) ∧
    Program.block_connect_found dfs' p b target it cond
      = Program.block_connect_found dfs p b target it cond := by
  unfold Program.block_connect_found
  cases hpar : it.parent with
  | none =>
    have hu : p.unplaced target = true := (Program.unplaced_iff p target).2 ⟨it, hfind, hpar⟩
    have h1 := hs p target hv hu hn
    have h2 := ha p target hv hu hn
    refine ⟨?_, by simp only [h2]⟩
    simp only
    cases hd : dfs p target with
    | error e =>
      rw [hd] at h1
      cases e with
      | out_of_fuel => exact h1.elim
      | fault => exact h1
    | ok p₁ =>
      rw [hd] at h1
      obtain ⟨hg, hplaced⟩ : Program.Grows p p₁ ∧ (abort = false → p₁.unplaced target = false) := h1
      simp only
      cases hp1 : p₁.parent target with
      | none =>
        show abort = true
        cases habort : abort with
        | true => rfl
        | false =>
          obtain ⟨insn₁, hf₁⟩ := Program.grows_find hg target ⟨it, hfind⟩
          obtain ⟨par, hpar₁⟩ := Program.parent_of_placed p₁ target insn₁ hf₁ (hplaced habort)
          rw [hpar₁] at hp1
          cases hp1
      | some par =>
        exact Program.grows_trans hg (Program.grows_succ p₁ b par cond)
  | some par =>
    refine ⟨?_, rfl⟩
    simp only
    by_cases hfirst : p.first par = some target
    · rw [if_pos hfirst]
      exact Program.grows_succ p b par cond
    · rw [if_neg hfirst]
      obtain ⟨blk, hget, hne⟩ := hb
      have hlast : ∃ l, p.last b = some l := by
        unfold Program.last
        rw [hget]
        cases hl : blk.insn_list.getLast? with
        | none => exact absurd (List.getLast?_eq_none_iff.1 hl) hne
        | some l => exact ⟨l, by simp only [Option.some_bind, hl]⟩
      obtain ⟨l, hl⟩ := hlast
      rw [hl]
      exact Program.grows_of_eq rfl rfl

theorem Program.block_connect_total (cfg : Config) (abort : Bool) (n : Nat)
    (dfs dfs' : Program → IMM → Except Stop Program)
    (hs : Program.DfsSettles abort n dfs) (ha : Program.DfsAgree n dfs dfs')
    (p : Program) (b : Nat) (target : IMM) (cond : COMPARE) ( fix_prefix : Bool)
    (hv : p.insns_valid) (hn : p.unplaced_count ≤ n) (hb : p.has_insns b) :
    Program.Settled abort (Program.Grows p)
      (Program.block_connect cfg dfs p b target cond fix_prefix) ∧
    Program.block_connect cfg dfs' p b target cond fix_prefix
      = Program.block_connect cfg dfs p b target cond fix_prefix := by
  have hfaulty : Program.Grows p (p.modify_block b (fun blk => { blk with faulty := true })) :=
    Program.grows_modify_block p b _ (fun _ => rfl)
  unfold Program.block_connect
  cases hf : p.i_map_.find target with
  | some it =>
    exact Program.block_connect_found_total abort n dfs dfs' hs ha p b target it cond hv hn hb hf
  | none =>
    simp only
    by_cases hfix : ( fix_prefix && cfg.ENABLE_COMPATIBLE_INPUT) = true
    · rw [if_pos hfix, if_pos hfix]
      cases hf1 : p.i_map_.find (target - 1) with
      | some it =>
        exact Program.block_connect_found_total abort n dfs dfs' hs ha p b (target - 1) it cond
          hv hn hb hf1
      | none => exact ⟨hfaulty, rfl⟩
    · rw [if_neg hfix, if_neg hfix]
      exact ⟨hfaulty, rfl⟩

theorem Program.connect_targets_total (cfg : Config) (abort : Bool) (n : Nat)
    (dfs dfs' : Program → IMM → Except Stop Program)
    (hs : Program.DfsSettles abort n dfs) (ha : Program.DfsAgree n dfs dfs')
    (ab : Bool) (b : Nat) :
    ∀ (ts : List IMM) (p : Program), p.insns_valid → p.unplaced_count ≤ n → p.has_insns b →
      Program.SettledFlow abort (Program.Grows p) (Program.connect_targets cfg dfs ab b ts p) ∧
      Program.connect_targets cfg dfs' ab b ts p = Program.connect_targets cfg dfs ab b ts p := by
  intro ts
  induction ts with
  | nil =>
    intro p _ _ _
    exact ⟨Program.grows_refl p, rfl⟩
  | cons t rest ih =>
    intro p hv hn hb
    obtain ⟨h1, h2⟩ := Program.block_connect_total cfg abort n dfs dfs' hs ha p b t COMPARE.NONE
      false hv hn hb
    rw [Program.connect_targets, Program.connect_targets, h2]
    cases hc : Program.block_connect cfg dfs p b t COMPARE.NONE false with
    | error e =>
      rw [hc] at h1
      refine ⟨?_, rfl⟩
      cases e with
      | out_of_fuel => exact h1.elim
      | fault => exact h1
    | ok p₁ =>
      rw [hc] at h1
      have hg : Program.Grows p p₁ := h1
      simp only
      by_cases hfa : (p₁.block_faulty b && ab) = true
      · simp only [if_pos hfa, and_true]
        exact Program.grows_trans hg (Program.grows_of_eq rfl rfl)
      · simp only [if_neg hfa]
        obtain ⟨h3, h4⟩ := ih p₁ (Program.grows_insns_valid hg hv)
          (le_trans (Program.unplaced_count_grows hg) hn) (Program.grows_has_insns hg b hb)
        refine ⟨?_, h4⟩
        cases hr : Program.connect_targets cfg dfs ab b rest p₁ with
        | error e =>
          rw [hr] at h3
          cases e with
          | out_of_fuel => exact h3.elim
          | fault => exact h3
        | ok f =>
          rw [hr] at h3
          exact Program.grows_trans hg h3

theorem Program.settled_cases {abort : Bool} {P : Program → Prop} {r : Except Stop Program}
    (h : Program.Settled abort P r) :
    (r = Except.error Stop.fault ∧ abort = true) ∨ ∃ p', r = Except.ok p' ∧ P p' := by
  cases r with
  | error e =>
    cases e with
    | out_of_fuel => exact h.elim
    | fault => exact Or.inl ⟨rfl, h⟩
  | ok p' => exact Or.inr ⟨p', rfl, h⟩

theorem Program.settled_flow_cases {abort : Bool} {P : Program → Prop} {r : Except Stop Flow}
    (h : Program.SettledFlow abort P r) :
    (r = Except.error Stop.fault ∧ abort = true) ∨ ∃ f, r = Except.ok f ∧ P f.prog := by
  cases r with
  | error e =>
    cases e with
    | out_of_fuel => exact h.elim
    | fault => exact Or.inl ⟨rfl, h⟩
  | ok f => exact Or.inr ⟨f, rfl, h⟩

theorem Program.get_insn_of_find (p : Program) (i : IMM) (insn : Insn)
    (h : p.i_map_.find i = some insn) : p.get_insn i = Except.ok insn := by
  unfold Program.get_insn
  rw [h]

theorem Program.dfs_direct_jump_total (cfg : Config) (abort : Bool) (n : Nat)
    (dfs dfs' : Program → IMM → Except Stop Program)
    (hs : Program.DfsSettles abort n dfs) (ha : Program.DfsAgree n dfs dfs')
    (p : Program) (i : IMM) (b : Nat)
    (hv : p.insns_valid) (hn : p.unplaced_count ≤ n) (hb : p.has_insns b)
    (hi : ∃ insn, p.i_map_.find i = some insn) :
    Program.SettledFlow abort (Program.Grows p) (Program.dfs_direct_jump cfg dfs p i b) ∧
    Program.dfs_direct_jump cfg dfs' p i b = Program.dfs_direct_jump cfg dfs p i b := by
  obtain ⟨insn, hfind⟩ := hi
  unfold Program.dfs_direct_jump
  rw [Program.get_insn_of_find p i insn hfind]
  simp only
  by_cases hcall : (!insn.call) = true
  · simp only [if_pos hcall]
    obtain ⟨h1, h2⟩ := Program.block_connect_total cfg abort n dfs dfs' hs ha p b
      insn.direct_target.1 insn.cond_op.1 true hv hn hb
    rw [h2]
    refine ⟨?_, rfl⟩
    rcases Program.settled_cases h1 with ⟨hr, hab⟩ | ⟨p₁, hr, hg⟩
    · rw [hr]; exact hab
    · rw [hr]
      simp only
      by_cases hfa : (p₁.block_faulty b && cfg.ABORT_MISSING_DIRECT_TARGET) = true
      · rw [if_pos hfa]
        exact Program.grows_trans hg (Program.grows_of_eq rfl rfl)
      · rw [if_neg hfa]
        exact hg
  · simp only [if_neg hcall]
    exact ⟨Program.grows_refl p, trivial⟩

theorem Program.dfs_fall_through_total (cfg : Config) (abort : Bool) (n : Nat)
    (dfs dfs' : Program → IMM → Except Stop Program)
    (hs : Program.DfsSettles abort n dfs) (ha : Program.DfsAgree n dfs dfs')
    (p : Program) (i : IMM) (b : Nat)
    (hv : p.insns_valid) (hn : p.unplaced_count ≤ n) (hb : p.has_insns b)
    (hi : ∃ insn, p.i_map_.find i = some insn) :
    Program.SettledFlow abort (Program.Grows p) (Program.dfs_fall_through cfg dfs p i b) ∧
    Program.dfs_fall_through cfg dfs' p i b = Program.dfs_fall_through cfg dfs p i b := by
  obtain ⟨insn, hfind⟩ := hi
  unfold Program.dfs_fall_through
  rw [Program.get_insn_of_find p i insn hfind]
  simp only
  by_cases hcond : ((insn.call && !(decide (insn.offset ∈ p.recent_norets_))) ||
      insn.cond_jump) = true
  · simp only [if_pos hcond]
    obtain ⟨h1, h2⟩ := Program.block_connect_total cfg abort n dfs dfs' hs ha p b
      insn.direct_target.2 insn.cond_op.2 false hv hn hb
    rw [h2]
    refine ⟨?_, rfl⟩
    rcases Program.settled_cases h1 with ⟨hr, hab⟩ | ⟨p₁, hr, hg⟩
    · rw [hr]; exact hab
    · rw [hr]
      simp only
      by_cases hfa : p₁.block_faulty b = true
      · rw [if_pos hfa]
        by_cases habort : cfg.ABORT_MISSING_FALLTHROUGH_TARGET = true
        · rw [if_pos habort]
          exact Program.grows_trans hg (Program.grows_of_eq rfl rfl)
        · rw [if_neg habort]
          by_cases hcompat : cfg.ENABLE_COMPATIBLE_INPUT = true
          · rw [if_pos hcompat]
            obtain ⟨insn₁, hf₁⟩ := Program.grows_find hg i ⟨insn, hfind⟩
            rw [Program.get_insn_of_find p₁ i insn₁ hf₁]
            simp only
            by_cases hc1 : insn₁.call = true
            · rw [if_pos hc1]
              have g1 := Program.grows_replace_halt p₁ i
              have g2 := Program.grows_modify_block (p₁.modify_insn i Insn.replace_halt) b
                (fun blk => { blk with faulty := false }) (fun _ => rfl)
              have g3 := Program.grows_shrink_succ
                ((p₁.modify_insn i Insn.replace_halt).modify_block b
                  (fun blk => { blk with faulty := false })) b
              exact Program.grows_trans hg (Program.grows_trans g1 (Program.grows_trans g2 g3))
            · rw [if_neg hc1]
              exact hg
          · rw [if_neg hcompat]
            exact hg
      · rw [if_neg hfa]
        exact hg
  · simp only [if_neg hcond]
    exact ⟨Program.grows_refl p, trivial⟩

theorem Program.dfs_not_direct_total (cfg : Config) (abort : Bool) (n : Nat)
    (dfs dfs' : Program → IMM → Except Stop Program)
    (hs : Program.DfsSettles abort n dfs) (ha : Program.DfsAgree n dfs dfs')
    (p : Program) (i : IMM) (b : Nat)
    (hv : p.insns_valid) (hn : p.unplaced_count ≤ n) (hb : p.has_insns b)
    (hi : ∃ insn, p.i_map_.find i = some insn) :
    Program.SettledFlow abort (Program.Grows p) (Program.dfs_not_direct cfg dfs p i b) ∧
    Program.dfs_not_direct cfg dfs' p i b = Program.dfs_not_direct cfg dfs p i b := by
  obtain ⟨insn, hfind⟩ := hi
  unfold Program.dfs_not_direct
  rw [Program.get_insn_of_find p i insn hfind]
  simp only
  by_cases hcall : insn.call = true
  · simp only [if_pos hcall]
    obtain ⟨h1, h2⟩ := Program.block_connect_total cfg abort n dfs dfs' hs ha p b
      insn.direct_target.1 insn.cond_op.1 false hv hn hb
    rw [h2]
    refine ⟨?_, rfl⟩
    rcases Program.settled_cases h1 with ⟨hr, hab⟩ | ⟨p₁, hr, hg⟩
    · rw [hr]; exact hab
    · rw [hr]
      simp only
      by_cases hfa : (p₁.block_faulty b && cfg.ABORT_MISSING_FALLTHROUGH_TARGET) = true
      · rw [if_pos hfa]
        exact Program.grows_trans hg (Program.grows_of_eq rfl rfl)
      · rw [if_neg hfa]
        exact hg
  · simp only [if_neg hcall]
    exact ⟨Program.grows_refl p, trivial⟩

theorem Program.dfs_indirect_total (cfg : Config) (abort : Bool) (n : Nat)
    (dfs dfs' : Program → IMM → Except Stop Program)
    (hs : Program.DfsSettles abort n dfs) (ha : Program.DfsAgree n dfs dfs')
    (p : Program) (i : IMM) (b : Nat)
    (hv : p.insns_valid) (hn : p.unplaced_count ≤ n) (hb : p.has_insns b)
    (hi : ∃ insn, p.i_map_.find i = some insn) :
    Program.SettledFlow abort (Program.Grows p) (Program.dfs_indirect cfg dfs p i b) ∧
    Program.dfs_indirect cfg dfs' p i b = Program.dfs_indirect cfg dfs p i b := by
  obtain ⟨insn, hfind⟩ := hi
  unfold Program.dfs_indirect
  rw [Program.get_insn_of_find p i insn hfind]
  simp only
  by_cases hind : (insn.indirect && insn.jump) = true
  · simp only [if_pos hind]
    cases hf : p.icfs_.find insn.offset with
    | some targets =>
      exact Program.connect_targets_total cfg abort n dfs dfs' hs ha
        cfg.ABORT_MISSING_FALLTHROUGH_TARGET b targets p hv hn hb
    | none => exact ⟨Program.grows_refl p, rfl⟩
  · simp only [if_neg hind]
    exact ⟨Program.grows_refl p, trivial⟩

theorem Program.dfs_transfer_total (cfg : Config) (abort : Bool) (n : Nat)
    (dfs dfs' : Program → IMM → Except Stop Program)
    (hs : Program.DfsSettles abort n dfs) (ha : Program.DfsAgree n dfs dfs')
    (p : Program) (i : IMM) (b : Nat)
    (hv : p.insns_valid) (hn : p.unplaced_count ≤ n) (hb : p.has_insns b)
    (hi : ∃ insn, p.i_map_.find i = some insn) :
    Program.Settled abort (Program.Grows p) (Program.dfs_transfer cfg dfs p i b) ∧
    Program.dfs_transfer cfg dfs' p i b = Program.dfs_transfer cfg dfs p i b := by
  obtain ⟨insn, hfind⟩ := hi
  unfold Program.dfs_transfer
  rw [Program.get_insn_of_find p i insn hfind]
  simp only
  have htargets :
      Program.SettledFlow abort (Program.Grows p)
        (if insn.direct = true then
          match Program.dfs_direct_jump cfg dfs p i b with
          | Except.error e => Except.error e
          | Except.ok (Flow.ret p₁) => Except.ok (Flow.ret p₁)
          | Except.ok (Flow.go p₁) => Program.dfs_fall_through cfg dfs p₁ i b
        else Program.dfs_not_direct cfg dfs p i b) ∧
      (if insn.direct = true then
          match Program.dfs_direct_jump cfg dfs' p i b with
          | Except.error e => Except.error e
          | Except.ok (Flow.ret p₁) => Except.ok (Flow.ret p₁)
          | Except.ok (Flow.go p₁) => Program.dfs_fall_through cfg dfs' p₁ i b
        else Program.dfs_not_direct cfg dfs' p i b)
      = (if insn.direct = true then
          match Program.dfs_direct_jump cfg dfs p i b with
          | Except.error e => Except.error e
          | Except.ok (Flow.ret p₁) => Except.ok (Flow.ret p₁)
          | Except.ok (Flow.go p₁) => Program.dfs_fall_through cfg dfs p₁ i b
        else Program.dfs_not_direct cfg dfs p i b) := by
    by_cases hdir : insn.direct = true
    · simp only [if_pos hdir]
      obtain ⟨h1, h2⟩ := Program.dfs_direct_jump_total cfg abort n dfs dfs' hs ha p i b hv hn hb
        ⟨insn, hfind⟩
      rw [h2]
      rcases Program.settled_flow_cases h1 with ⟨hr, hab⟩ | ⟨f, hr, hg⟩
      · rw [hr]; exact ⟨hab, rfl⟩
      · rw [hr]
        cases f with
        | ret p₁ => exact ⟨hg, rfl⟩
        | go p₁ =>
          have hg' : Program.Grows p p₁ := hg
          simp only
          obtain ⟨h3, h4⟩ := Program.dfs_fall_through_total cfg abort n dfs dfs' hs ha p₁ i b
            (Program.grows_insns_valid hg' hv) (le_trans (Program.unplaced_count_grows hg') hn)
            (Program.grows_has_insns hg' b hb) (Program.grows_find hg' i ⟨insn, hfind⟩)
          refine ⟨?_, h4⟩
          rcases Program.settled_flow_cases h3 with ⟨hr3, hab3⟩ | ⟨f3, hr3, hg3⟩
          · rw [hr3]; exact hab3
          · rw [hr3]; exact Program.grows_trans hg' hg3
    · simp only [if_neg hdir]
      exact Program.dfs_not_direct_total cfg abort n dfs dfs' hs ha p i b hv hn hb ⟨insn, hfind⟩
  obtain ⟨ht1, ht2⟩ := htargets
  rw [ht2]
  generalize (if insn.direct = true then
        match Program.dfs_direct_jump cfg dfs p i b with
        | Except.error e => Except.error e
        | Except.ok (Flow.ret p₁) => Except.ok (Flow.ret p₁)
        | Except.ok (Flow.go p₁) => Program.dfs_fall_through cfg dfs p₁ i b
      else Program.dfs_not_direct cfg dfs p i b) = targets at ht1
  rcases Program.settled_flow_cases ht1 with ⟨hr, hab⟩ | ⟨f, hr, hg⟩
  · rw [hr]; exact ⟨hab, rfl⟩
  · rw [hr]
    cases f with
    | ret p₁ => exact ⟨hg, rfl⟩
    | go p₁ =>
      have hg' : Program.Grows p p₁ := hg
      simp only
      obtain ⟨h3, h4⟩ := Program.dfs_indirect_total cfg abort n dfs dfs' hs ha p₁ i b
        (Program.grows_insns_valid hg' hv) (le_trans (Program.unplaced_count_grows hg') hn)
        (Program.grows_has_insns hg' b hb) (Program.grows_find hg' i ⟨insn, hfind⟩)
      rw [h4]
      refine ⟨?_, rfl⟩
      rcases Program.settled_flow_cases h3 with ⟨hr3, hab3⟩ | ⟨f3, hr3, hg3⟩
      · rw [hr3]; exact hab3
      · rw [hr3]
        cases f3 with
        | ret p₂ => exact Program.grows_trans hg' hg3
        | go p₂ => exact Program.grows_trans hg' hg3

theorem Program.dfs_missing_next_total (cfg : Config) (p : Program) (i : IMM)
    (i_list : List IMM) (hne : i_list ≠ []) :
    Program.Settled cfg.ABORT_MISSING_NEXT_INSN
      (fun p' => Program.Grows p p' ∧
        (cfg.ABORT_MISSING_NEXT_INSN = false → ∀ k ∈ i_list, p'.unplaced k = false))
      (Program.dfs_missing_next cfg p i i_list) := by
  unfold Program.dfs_missing_next
  by_cases habort : cfg.ABORT_MISSING_NEXT_INSN = true
  · rw [if_pos habort]
    exact ⟨Program.grows_of_eq rfl rfl, fun h => by rw [habort] at h; cases h⟩
  · rw [if_neg habort]
    obtain ⟨p₁, hnew, hg, -, hplaced⟩ := Program.new_block_grows p i_list hne
    rw [hnew]
    simp only
    by_cases hcompat : cfg.ENABLE_COMPATIBLE_INPUT = true
    · rw [if_pos hcompat]
      have g1 := Program.grows_replace_halt p₁ i
      have g2 := Program.grows_shrink_succ (p₁.modify_insn i Insn.replace_halt) p.blocks.length
      have g := Program.grows_trans g1 g2
      exact ⟨Program.grows_trans hg g, fun _ k hk => Program.grows_placed g k (hplaced k hk)⟩
    · rw [if_neg hcompat]
      have g := Program.grows_modify_block p₁ p.blocks.length
        (fun blk => { blk with faulty := true }) (fun _ => rfl)
      exact ⟨Program.grows_trans hg g, fun _ k hk => Program.grows_placed g k (hplaced k hk)⟩

theorem Program.settled_mono {abort : Bool} {P Q : Program → Prop} {r : Except Stop Program}
    (hPQ : ∀ x, P x → Q x) (h : Program.Settled abort P r) : Program.Settled abort Q r := by
  rcases Program.settled_cases h with ⟨hr, hab⟩ | ⟨p', hr, hp⟩
  · rw [hr]; exact hab
  · rw [hr]; exact hPQ p' hp

theorem Program.unplaced_from_le_count (p : Program) (i : IMM) :
    p.unplaced_from i ≤ p.unplaced_count := by
  unfold Program.unplaced_from Program.unplaced_count
  apply List.countP_mono_left
  intro k _ hk
  simp only [Bool.and_eq_true] at hk
  exact hk.1

theorem Program.need_lt_of_count_lt (n u w w' : Nat) (hn : n < u) (hw : w ≤ n) :
    n * (n + 1) + w < u * (u + 1) + w' := by
  have h1 : (n + 1) * (n + 1) ≤ u * u := Nat.mul_le_mul hn hn
  have h2 : (n + 1) * (n + 1) = n * (n + 1) + n + 1 := by ring
  have h3 : u * (u + 1) = u * u + u := by ring
  omega

theorem Program.need_mono (m n w : Nat) (hm : m ≤ n) (hw : w ≤ m) :
    m * (m + 1) + w ≤ n * (n + 1) + n := by
  have h1 : m * (m + 1) ≤ n * (n + 1) := Nat.mul_le_mul hm (Nat.succ_le_succ hm)
  omega

theorem Program.block_dfs_settles (cfg : Config) :
    ∀ (fuel : Nat) (p : Program) (i : IMM) (i_list : List IMM),
      p.insns_valid → p.unplaced i = true → i ∈ i_list →
      p.unplaced_count * (p.unplaced_count + 1) + p.unplaced_from i < fuel →
      Program.Settled cfg.ABORT_MISSING_NEXT_INSN
        (fun p' => Program.Grows p p' ∧
          (cfg.ABORT_MISSING_NEXT_INSN = false → ∀ k ∈ i_list, p'.unplaced k = false))
        (Program.block_dfs cfg fuel p i i_list) := by
  intro fuel
  induction fuel with
  | zero => intro p i i_list _ _ _ h; exact absurd h (Nat.not_lt_zero _)
  | succ fuel ih =>
    intro p i i_list hv hu hmem hfuel
    have hne : i_list ≠ [] := List.ne_nil_of_mem hmem
    obtain ⟨insn, hfind, hpar⟩ := (Program.unplaced_iff p i).1 hu
    obtain ⟨hoff, hsize⟩ := hv i insn hfind
    obtain ⟨p₁, hnew, hg, hb, hplaced⟩ := Program.new_block_grows p i_list hne
    have hpost : ∀ p', Program.Grows p₁ p' →
        Program.Grows p p' ∧
          (cfg.ABORT_MISSING_NEXT_INSN = false → ∀ k ∈ i_list, p'.unplaced k = false) :=
      fun p' hg' => ⟨Program.grows_trans hg hg',
        fun _ k hk => Program.grows_placed hg' k (hplaced k hk)⟩
    rw [Program.block_dfs]
    simp only [hfind]
    by_cases htr : insn.transfer = true
    · rw [if_pos htr, hnew]
      simp only
      have hlt : p₁.unplaced_count < p.unplaced_count :=
        Program.unplaced_count_grows_lt hg i hu (hplaced i hmem)
      have hs : Program.DfsSettles cfg.ABORT_MISSING_NEXT_INSN p₁.unplaced_count
          (fun q t => Program.block_dfs cfg fuel q t [t]) := by
        intro q t hvq huq hnq
        have hneed : q.unplaced_count * (q.unplaced_count + 1) + q.unplaced_from t < fuel := by
          have h1 := Program.need_mono _ _ _ hnq (Program.unplaced_from_le_count q t)
          have h2 := Program.need_lt_of_count_lt p₁.unplaced_count p.unplaced_count
            p₁.unplaced_count (p.unplaced_from i) hlt (le_refl _)
          omega
        exact Program.settled_mono
          (fun x hx => ⟨hx.1, fun hab => hx.2 hab t (List.mem_singleton_self t)⟩)
          (ih q t [t] hvq huq (List.mem_singleton_self t) hneed)
      obtain ⟨h1, -⟩ := Program.dfs_transfer_total cfg cfg.ABORT_MISSING_NEXT_INSN
        p₁.unplaced_count _ _ hs (fun _ _ _ _ _ => rfl) p₁ i p.blocks.length
        (Program.grows_insns_valid hg hv) (le_refl _) hb (Program.grows_find hg i ⟨insn, hfind⟩)
      exact Program.settled_mono hpost h1
    · rw [if_neg htr]
      by_cases hhalt : insn.halt = true
      · rw [if_pos hhalt, hnew]
        exact hpost p₁ (Program.grows_refl p₁)
      · rw [if_neg hhalt]
        cases hnext : p.i_map_.find insn.next_offset with
        | none => exact Program.dfs_missing_next_total cfg p i i_list hne
        | some next =>
          simp only
          cases hnp : next.parent with
          | some par0 =>
            simp only [hnew]
            have hpl : p.unplaced insn.next_offset = false :=
              Program.unplaced_eq_false_of_find p _ next hnext (by rw [hnp]; simp)
            obtain ⟨next₁, hf₁⟩ := Program.grows_find hg insn.next_offset ⟨next, hnext⟩
            obtain ⟨par, hpar₁⟩ := Program.parent_of_placed p₁ _ next₁ hf₁
              (Program.grows_placed hg _ hpl)
            rw [hpar₁]
            exact hpost _ (Program.grows_succ p₁ p.blocks.length par COMPARE.NONE)
          | none =>
            simp only
            have hun : p.unplaced insn.next_offset = true :=
              (Program.unplaced_iff p _).2 ⟨next, hnext, hnp⟩
            have hlt : i < insn.next_offset := by
              unfold Insn.next_offset
              rw [hoff]
              have hpos : (0 : Int) < (insn.size : Int) := by exact_mod_cast hsize
              exact Int.lt_add_of_pos_right i hpos
            have hw := Program.unplaced_from_lt p i insn.next_offset hu hlt
            have := ih p insn.next_offset (i_list ++ [insn.next_offset]) hv hun
              (List.mem_append_right _ (List.mem_singleton_self _)) (by omega)
            exact Program.settled_mono
              (fun x hx => ⟨hx.1, fun hab k hk => hx.2 hab k (List.mem_append_left _ hk)⟩) this

/-- C37: on a program whose instructions are stored under their offsets and have at
least one raw byte, `block_dfs(i)` on an unplaced instruction `i` comes to an end with
any fuel of at least `(u + 1)^2`, where `u` is the number of unplaced instructions: it
does not run out of fuel, and unless `ABORT_MISSING_NEXT_INSN` is set it returns a
state in which `i` is placed and fewer instructions are unplaced. Nested calls are made
only after the block has been created, on states with fewer unplaced instructions. -/
theorem block_dfs_terminates (cfg : Config) (p : Program) (i : IMM) (fuel : Nat)
    (hv : p.insns_valid) (hu : p.unplaced i = true)
    (hfuel : (p.unplaced_count + 1) * (p.unplaced_count + 1) ≤ fuel) :
    Program.block_dfs cfg fuel p i [i] ≠ Except.error Stop.out_of_fuel ∧
    (cfg.ABORT_MISSING_NEXT_INSN = false →
      ∃ p', Program.block_dfs cfg fuel p i [i] = Except.ok p' ∧ Program.Grows p p' ∧
        p'.unplaced i = false ∧ p'.unplaced_count < p.unplaced_count) ∧
    Program.nested_calls_after_placement cfg fuel p i := by
  have hsq : (p.unplaced_count + 1) * (p.unplaced_count + 1)
      = p.unplaced_count * (p.unplaced_count + 1) + p.unplaced_count + 1 := by ring
  have hneed : p.unplaced_count * (p.unplaced_count + 1) + p.unplaced_from i < fuel := by
    have := Program.unplaced_from_le_count p i
    omega
  have hset := Program.block_dfs_settles cfg fuel p i [i] hv hu (List.mem_singleton_self i) hneed
  refine ⟨?_, ?_, ?_⟩
  · intro hr
    rw [hr] at hset
    exact hset
  · intro habort
    rcases Program.settled_cases hset with ⟨-, hab⟩ | ⟨p', hr, hg, hplaced⟩
    · rw [habort] at hab; cases hab
    · have hp := hplaced habort i (List.mem_singleton_self i)
      exact ⟨p', hr, hg, hp, Program.unplaced_count_grows_lt hg i hu hp⟩
  · intro i_list p₁ b hmem hnew
    obtain ⟨q₁, hnew', hg, hb, hplaced⟩ := Program.new_block_grows p i_list
      (List.ne_nil_of_mem hmem)
    rw [hnew'] at hnew
    simp only [Except.ok.injEq, Prod.mk.injEq] at hnew
    obtain ⟨rfl, rfl⟩ := hnew
    have hlt : q₁.unplaced_count < p.unplaced_count :=
      Program.unplaced_count_grows_lt hg i hu (hplaced i hmem)
    refine ⟨hplaced i hmem, hlt, fun dfs' hagree => ?_⟩
    have hs : Program.DfsSettles cfg.ABORT_MISSING_NEXT_INSN q₁.unplaced_count
        (fun q t => Program.block_dfs cfg fuel q t [t]) := by
      intro q t hvq huq hnq
      have hneedq : q.unplaced_count * (q.unplaced_count + 1) + q.unplaced_from t < fuel := by
        have h1 := Program.need_mono _ _ _ hnq (Program.unplaced_from_le_count q t)
        have h2 := Program.need_lt_of_count_lt q₁.unplaced_count p.unplaced_count
          q₁.unplaced_count 0 hlt (le_refl _)
        omega
      exact Program.settled_mono
        (fun x hx => ⟨hx.1, fun hab => hx.2 hab t (List.mem_singleton_self t)⟩)
        (Program.block_dfs_settles cfg fuel q t [t] hvq huq (List.mem_singleton_self t) hneedq)
    obtain ⟨insn, hfind, -⟩ := (Program.unplaced_iff p i).1 hu
    exact (Program.dfs_transfer_total cfg cfg.ABORT_MISSING_NEXT_INSN q₁.unplaced_count _ dfs'
      hs hagree q₁ i p.blocks.length (Program.grows_insns_valid hg hv) (le_refl _) hb
      (Program.grows_find hg i ⟨insn, hfind⟩)).2

theorem twoJumpsProgram_valid : twoJumpsProgram.insns_valid := by
  intro k insn h
  simp only [twoJumpsProgram, UMap.find] at h
  split_ifs at h with h0 h1 h2 h3 h4
  all_goals cases h
  · exact ⟨h0, by decide⟩
  · exact ⟨h1, by decide⟩
  · exact ⟨h2, by decide⟩
  · exact ⟨h3, by decide⟩
  · exact ⟨h4, by decide⟩

/-- C37, witness: three instructions in a row and two jumps into them, with
`block_dfs` started at the jump at offset 10. -/
theorem block_dfs_terminates_witness :
    twoJumpsProgram.insns_valid ∧ twoJumpsProgram.unplaced 10 = true ∧
    (twoJumpsProgram.unplaced_count + 1) * (twoJumpsProgram.unplaced_count + 1) ≤ 36 ∧
    Program.block_dfs {} 36 twoJumpsProgram 10 [10] ≠ Except.error Stop.out_of_fuel ∧
    (({} : Config).ABORT_MISSING_NEXT_INSN = false →
      ∃ p', Program.block_dfs {} 36 twoJumpsProgram 10 [10] = Except.ok p' ∧
        Program.Grows twoJumpsProgram p' ∧
        p'.unplaced 10 = false ∧ p'.unplaced_count < twoJumpsProgram.unplaced_count) ∧
    Program.nested_calls_after_placement {} 36 twoJumpsProgram 10 :=
  ⟨twoJumpsProgram_valid, by decide, by decide,
    block_dfs_terminates {} twoJumpsProgram 10 36 twoJumpsProgram_valid (by decide) (by decide)⟩

end SBA
